import Mathlib

/-!
# webcut: grid geometry, background removal, history, view and gestures

A shallow embedding of the cell geometry (`getCellArea`, `getCropAreas`), of the
background-removal engine (`colorMatch`, `removeAllMatchingAsync`,
`floodFillRemoveAsync`), of the history manager (`saveHistory`, `undo`, `redo`), of the
view transform (`zoomAtPoint`, `zoomToFit`, ...), of the cell resize gesture
(`resizeCellArea`), of the grid controls (`initializeCenterLines`,
`autoCalculateCellSize`, `onGridSettingsChange`), of the preview and export list
(`generatePreviews`), of the cell hit test (`findCellAtPosition`) and of the pointer-down
handlers (`handlePointerDown`, `handlePanStart`) of `src/app.js`, with the properties
proved about them.

Numbers are modelled in exact arithmetic: JavaScript numbers that the program computes
are rationals, and the one way the geometry code can produce `NaN` (reading an array
slot that does not exist and subtracting from it) is kept explicit in `JsNum`. Where
the rounding of a double changes an integer that the program goes on to compute (the
lines pushed by `initializeCenterLines`, whose gaps are floored into the cell size, and
the quotients that the uniform hit test floors into a column and a row) the operation
is rounded by `toDouble`. A division by a zoom of 0, which gives `NaN` or an infinity,
is settled by the functions that read the quotient.
-/

namespace Webcut

/-! ## Data model -/

/-- A JavaScript number as the geometry code can produce it: an exact value, or `NaN`
(the result of arithmetic on `undefined`). -/
inductive JsNum where
  | num (q : ℚ)
  | nan
  deriving DecidableEq

/-- Subtraction `a - b` of a possibly-`NaN` value and a number. -/
def JsNum.sub (a : JsNum) (b : ℚ) : JsNum :=
  match a with
  | .num q => .num (q - b)
  | .nan => .nan

/-- `Math.min(a, b)` with `a` a number: `NaN` as soon as `b` is `NaN`. -/
def JsNum.mathMin (a : ℚ) (b : JsNum) : JsNum :=
  match b with
  | .num q => .num (min a q)
  | .nan => .nan

/-- `Math.max(a, b)` with `a` a number: `NaN` as soon as `b` is `NaN`. -/
def JsNum.mathMax (a : ℚ) (b : JsNum) : JsNum :=
  match b with
  | .num q => .num (max a q)
  | .nan => .nan

/-- Reading `xs[i]` for an integer `i` and using the result as a number: a slot that
does not exist reads as `undefined`, which arithmetic turns into `NaN`. -/
def arrayRead (xs : List ℚ) (i : ℤ) : JsNum :=
  if 0 ≤ i then
    match xs[i.toNat]? with
    | some q => .num q
    | none => .nan
  else .nan

/-- A `{x, y, width, height}` rectangle in image space, all fields numbers. -/
structure Area where
  x : ℚ
  y : ℚ
  width : ℚ
  height : ℚ
  deriving DecidableEq

/-- The object `getCellArea` builds: `width` and `height` are copied from numbers, `x`
and `y` come out of arithmetic on array reads. -/
structure CellArea where
  x : JsNum
  y : JsNum
  width : ℚ
  height : ℚ
  deriving DecidableEq

/-- The copy `{ ...area }` of a stored rectangle, seen as a `getCellArea` result. -/
def Area.toCellArea (a : Area) : CellArea :=
  { x := .num a.x, y := .num a.y, width := a.width, height := a.height }

/-- The value of `state.mode`. -/
inductive Mode where
  | uniform
  | centerline
  deriving DecidableEq

/-- The size of `state.originalImage`. -/
structure Image where
  width : ℕ
  height : ℕ
  deriving DecidableEq

/-- The part of the global `state` that the geometry functions read. `customAreas` is the
sparse object keyed by cell index; an absent key reads as `none`. The grid controls keep
`rows` and `cols` within 1..20; the quotient `index / state.cols` is modelled for
`cols >= 1` only, and the theorems that go through it assume `1 <= cols`. -/
structure State where
  mode : Mode
  rows : ℕ
  cols : ℕ
  originalImage : Image
  cellWidth : ℚ
  cellHeight : ℚ
  centerLinesX : List ℚ
  centerLinesY : List ℚ
  customAreas : ℤ → Option Area

/-! ## Geometry model -/

/-- Source: `getCellArea(index)` (app.js 1247-1278). `none` is the `null` result. -/
def getCellArea (st : State) (index : ℤ) : Option CellArea :=
  let halfW := st.cellWidth / 2
  let halfH := st.cellHeight / 2
  match st.customAreas index with
  | some a => some a.toCellArea
  | none =>
    let row : ℤ := ⌊(index : ℚ) / (st.cols : ℚ)⌋
    let col : ℤ := Int.tmod index (st.cols : ℤ)
    if row ≥ (st.centerLinesY.length : ℤ) ∨ col ≥ (st.centerLinesX.length : ℤ) then none
    else
      let cx := arrayRead st.centerLinesX col
      let cy := arrayRead st.centerLinesY row
      let x := cx.sub halfW
      let y := cy.sub halfH
      some
        { x := JsNum.mathMax 0 (JsNum.mathMin ((st.originalImage.width : ℚ) - st.cellWidth) x)
          y := JsNum.mathMax 0 (JsNum.mathMin ((st.originalImage.height : ℚ) - st.cellHeight) y)
          width := st.cellWidth
          height := st.cellHeight }

/-- The body of the uniform-mode double loop of `getCropAreas` at `(row, col)`. -/
def uniformCell (st : State) (row col : ℕ) : Area :=
  let cellW : ℚ := (st.originalImage.width : ℚ) / (st.cols : ℚ)
  let cellH : ℚ := (st.originalImage.height : ℚ) / (st.rows : ℚ)
  let idx : ℕ := row * st.cols + col
  match st.customAreas (idx : ℤ) with
  | some a => a
  | none => { x := (col : ℚ) * cellW, y := (row : ℚ) * cellH, width := cellW, height := cellH }

/-- The body of the centre-line double loop of `getCropAreas` for the lines `cy`, `cx`
at running index `idx`. -/
def centerLineCell (st : State) (cy cx : ℚ) (idx : ℕ) : Area :=
  let halfW := st.cellWidth / 2
  let halfH := st.cellHeight / 2
  match st.customAreas (idx : ℤ) with
  | some a => a
  | none =>
    let x := cx - halfW
    let y := cy - halfH
    { x := max 0 (min ((st.originalImage.width : ℚ) - st.cellWidth) x)
      y := max 0 (min ((st.originalImage.height : ℚ) - st.cellHeight) y)
      width := st.cellWidth
      height := st.cellHeight }

/-- The inner loop `for (const cx of state.centerLinesX)`: pushes one area per line and
advances the running index. -/
def centerLineInner (st : State) (cy : ℚ) : List ℚ → ℕ → List Area → ℕ × List Area
  | [], idx, areas => (idx, areas)
  | cx :: rest, idx, areas =>
    centerLineInner st cy rest (idx + 1) (areas ++ [centerLineCell st cy cx idx])

/-- The outer loop `for (const cy of state.centerLinesY)`. -/
def centerLineOuter (st : State) : List ℚ → ℕ → List Area → ℕ × List Area
  | [], idx, areas => (idx, areas)
  | cy :: rest, idx, areas =>
    let r := centerLineInner st cy st.centerLinesX idx areas
    centerLineOuter st rest r.1 r.2

/-- Source: `getCropAreas()` (app.js 2065-2111). -/
def getCropAreas (st : State) : List Area :=
  match st.mode with
  | .uniform =>
    (List.range st.rows).flatMap fun row =>
      (List.range st.cols).map fun col => uniformCell st row col
  | .centerline => (centerLineOuter st st.centerLinesY 0 []).2

/-! ## Vocabulary of the geometry claims -/

/-- Clamping `v` into `[lo, hi]`, as the program writes it:
`Math.max(lo, Math.min(hi, v))`. For `lo ≤ hi` this is the usual clamp; see `clamp_spec`. -/
def clamp (v lo hi : ℚ) : ℚ := max lo (min hi v)

/-- The rectangle lies inside the image `[0, W] × [0, H]`. -/
def Area.Inside (a : Area) (W H : ℚ) : Prop :=
  0 ≤ a.x ∧ 0 ≤ a.y ∧ a.x + a.width ≤ W ∧ a.y + a.height ≤ H

/-- The point `(px, py)` lies in the half-open rectangle `[x, x+w) × [y, y+h)`. -/
def Area.Covers (a : Area) (px py : ℝ) : Prop :=
  (a.x : ℝ) ≤ px ∧ px < (a.x : ℝ) + (a.width : ℝ) ∧
    (a.y : ℝ) ≤ py ∧ py < (a.y : ℝ) + (a.height : ℝ)

/-- The point `(px, py)` lies in the interior `(x, x+w) × (y, y+h)` of the rectangle. -/
def Area.InInterior (a : Area) (px py : ℝ) : Prop :=
  (a.x : ℝ) < px ∧ px < (a.x : ℝ) + (a.width : ℝ) ∧
    (a.y : ℝ) < py ∧ py < (a.y : ℝ) + (a.height : ℝ)

/-- The uniform-mode example of the specification: a 400x300 image cut 3 rows by 2 cols. -/
def uniformExample : State :=
  { mode := Mode.uniform, rows := 3, cols := 2, originalImage := { width := 400, height := 300 },
    cellWidth := 100, cellHeight := 100, centerLinesX := [], centerLinesY := [],
    customAreas := fun _ => none }

/-- The centre-line example of the specification: a 200x100 image, lines x = 50, 150 and
y = 50, cells of 80x80. -/
def centerExample : State :=
  { mode := Mode.centerline, rows := 1, cols := 2,
    originalImage := { width := 200, height := 100 },
    cellWidth := 80, cellHeight := 80, centerLinesX := [50, 150], centerLinesY := [50],
    customAreas := fun _ => none }

/-- The centre-line example with an override stored for cell 1 that no derivation would
produce (it sticks out of the image). -/
def overrideExample : State :=
  { centerExample with
    customAreas := fun k => if k = 1 then some { x := 190, y := -5, width := 30, height := 7 }
      else none }

/-- A 50x50 image with one centre line per axis and the cell size set to 100x100, which
the cell-size inputs accept (they only enforce a minimum of 10). -/
def oversizeExample : State :=
  { mode := Mode.centerline, rows := 1, cols := 1,
    originalImage := { width := 50, height := 50 },
    cellWidth := 100, cellHeight := 100, centerLinesX := [25], centerLinesY := [25],
    customAreas := fun _ => none }

/-! ## Background removal engine -/

/-- The constant `maxDistance` of `colorMatch`. -/
def maxDistance : ℚ := 441

/-- Source: `colorMatch(r1, g1, b1, r2, g2, b2, tolerance)` (app.js 2887-2897), in exact
arithmetic: the test `Math.sqrt(d) <= threshold` on the sum of squares `d` is
`0 <= threshold` and `d <= threshold^2` (see `colorMatch_iff_sqrt`). -/
def colorMatch (r1 g1 b1 r2 g2 b2 : ℤ) (tolerance : ℚ) : Bool :=
  let distanceSq : ℤ := (r1 - r2) ^ 2 + (g1 - g2) ^ 2 + (b1 - b2) ^ 2
  let threshold : ℚ := (tolerance / 100) * maxDistance
  decide (0 ≤ threshold ∧ (distanceSq : ℚ) ≤ threshold ^ 2)

/-- The test `colorMatch(data[4p], data[4p+1], data[4p+2], targetR, targetG, targetB,
tolerance)` both removal loops apply to pixel `p`. A byte that is not in the buffer reads
as `undefined`, the distance is then `NaN` and the comparison is false. -/
def pixelMatches (data : List ℕ) (targetR targetG targetB : ℤ) (tolerance : ℚ) (p : ℕ) :
    Bool :=
  match data[p * 4]?, data[p * 4 + 1]?, data[p * 4 + 2]? with
  | some r, some g, some b => colorMatch (r : ℤ) (g : ℤ) (b : ℤ) targetR targetG targetB tolerance
  | _, _, _ => false

/-- The loop body of `removeAllMatchingAsync` for pixel `i`. -/
def removeAllStep (targetR targetG targetB : ℤ) (tolerance : ℚ) (data : List ℕ) (i : ℕ) :
    List ℕ :=
  if pixelMatches data targetR targetG targetB tolerance i then data.set (i * 4 + 3) 0
  else data

/-- Source: `removeAllMatchingAsync` (app.js 2866-2884). The chunks of 50000 pixels only
place the yields; the pixels are visited in the order 0, 1, ..., width*height - 1. -/
def removeAllMatchingAsync (data : List ℕ) (width height : ℕ) (targetR targetG targetB : ℤ)
    (tolerance : ℚ) : List ℕ :=
  (List.range (width * height)).foldl (removeAllStep targetR targetG targetB tolerance) data

/-- The read `visited[i]` used as a condition: a slot outside the array is falsy. -/
def isVisited (visited : List Bool) (i : ℕ) : Bool := visited.getD i false

/-- The working state of the stack loop of `floodFillRemoveAsync`. The head of `stack` is
its top (the element `pop` returns). -/
structure FillState where
  visited : List Bool
  toRemove : List ℕ
  stack : List (ℤ × ℤ)

/-- The seeds in the order they are pushed: the top row, the bottom row, then the left
and right ends of the rows 1 .. height-2. -/
def seedPushes (width height : ℕ) : List (ℤ × ℤ) :=
  (List.range width).map (fun (x : ℕ) => ((x : ℤ), (0 : ℤ))) ++
  (List.range width).map (fun (x : ℕ) => ((x : ℤ), (height : ℤ) - 1)) ++
  (List.range' 1 (height - 2)).flatMap
    (fun (y : ℕ) => [((0 : ℤ), (y : ℤ)), ((width : ℤ) - 1, (y : ℤ))])

/-- The state on entry to the stack loop. -/
def initialFill (width height : ℕ) : FillState :=
  { visited := List.replicate (width * height) false
    toRemove := []
    stack := (seedPushes width height).reverse }

/-- The left scan `while (leftX > 0) { ... leftX--; }`, by recursion on `leftX`. -/
def scanLeft (m : ℕ → Bool) (visited : List Bool) (width y : ℕ) : ℕ → ℕ
  | 0 => 0
  | leftX + 1 =>
    let leftIdx := y * width + leftX
    if isVisited visited leftIdx then leftX + 1
    else if !m leftIdx then leftX + 1
    else scanLeft m visited width y leftX

/-- The right scan `while (rightX < width - 1) { ... rightX++; }`, with a fuel argument
that bounds the number of iterations; the loop test is written `rightX + 1 < width`.
`scanRight_spec` shows that with fuel `width` the scan stops by its own tests. -/
def scanRight (m : ℕ → Bool) (visited : List Bool) (width y : ℕ) : ℕ → ℕ → ℕ
  | 0, rightX => rightX
  | fuel + 1, rightX =>
    if rightX + 1 < width then
      let rightIdx := y * width + (rightX + 1)
      if isVisited visited rightIdx then rightX
      else if !m rightIdx then rightX
      else scanRight m visited width y fuel (rightX + 1)
    else rightX

/-- The marking loop over `fx = leftX .. rightX` (given as the list of the `fx`). -/
def markRun (width y : ℕ) : List ℕ → List Bool × List ℕ → List Bool × List ℕ
  | [], acc => acc
  | fx :: rest, (visited, toRemove) =>
    let fIdx := y * width + fx
    if !isVisited visited fIdx then
      markRun width y rest (visited.set fIdx true, toRemove ++ [fIdx])
    else markRun width y rest (visited, toRemove)

/-- The seeding loop over `fx = leftX .. rightX`: pushes the unvisited pixel above and
the unvisited pixel below each pixel of the run (`y < height - 1` is written
`y + 1 < height`). -/
def pushNeighbours (visited : List Bool) (width height y : ℕ) :
    List ℕ → List (ℤ × ℤ) → List (ℤ × ℤ)
  | [], stack => stack
  | fx :: rest, stack =>
    let s1 :=
      if y > 0 ∧ !isVisited visited ((y - 1) * width + fx) then
        ((fx : ℤ), (y : ℤ) - 1) :: stack
      else stack
    let s2 :=
      if y + 1 < height ∧ !isVisited visited ((y + 1) * width + fx) then
        ((fx : ℤ), (y : ℤ) + 1) :: s1
      else s1
    pushNeighbours visited width height y rest s2

/-- One iteration of `while (stack.length > 0)`, `m i` being the colour test of pixel `i`
(the buffer is not written before the loop ends). -/
def fillStep (m : ℕ → Bool) (width height : ℕ) (s : FillState) : FillState :=
  match s.stack with
  | [] => s
  | (x, y) :: rest =>
    if x < 0 ∨ x ≥ (width : ℤ) ∨ y < 0 ∨ y ≥ (height : ℤ) then { s with stack := rest }
    else
      let xn := x.toNat
      let yn := y.toNat
      let idx := yn * width + xn
      if isVisited s.visited idx then { s with stack := rest }
      else if !m idx then { s with visited := s.visited.set idx true, stack := rest }
      else
        let leftX := scanLeft m s.visited width yn xn
        let rightX := scanRight m s.visited width yn width xn
        let run := List.range' leftX (rightX + 1 - leftX)
        let marked := markRun width yn run (s.visited, s.toRemove)
        { visited := marked.1
          toRemove := marked.2
          stack := pushNeighbours marked.1 width height yn run rest }

/-- The stack loop, run for at most `fuel` iterations. -/
def fillLoop (m : ℕ → Bool) (width height : ℕ) : ℕ → FillState → FillState
  | 0, s => s
  | fuel + 1, s =>
    match s.stack with
    | [] => s
    | _ :: _ => fillLoop m width height fuel (fillStep m width height s)

/-- A number of iterations after which the stack loop has always emptied its stack
(`fillLoop_stack_empty`). -/
def fillFuel (width height : ℕ) : ℕ :=
  (seedPushes width height).length + 2 * (width * height)

/-- The state in which the stack loop of `floodFillRemoveAsync` ends. -/
def floodFillFinal (data : List ℕ) (width height : ℕ) (targetR targetG targetB : ℤ)
    (tolerance : ℚ) : FillState :=
  fillLoop (pixelMatches data targetR targetG targetB tolerance) width height
    (fillFuel width height) (initialFill width height)

/-- The final loop `data[toRemove[j] * 4 + 3] = 0` (its chunks only place the yields). -/
def applyRemoval (data : List ℕ) (toRemove : List ℕ) : List ℕ :=
  toRemove.foldl (fun d p => d.set (p * 4 + 3) 0) data

/-- Source: `floodFillRemoveAsync` (app.js 2900-3018): the buffer after the call. -/
def floodFillRemoveAsync (data : List ℕ) (width height : ℕ) (targetR targetG targetB : ℤ)
    (tolerance : ℚ) : List ℕ :=
  applyRemoval data (floodFillFinal data width height targetR targetG targetB tolerance).toRemove

/-! ## Vocabulary of the background-removal claims -/

/-- Pixel `(x, y)` is a border pixel of the `width x height` image. -/
def IsBorder (width height : ℕ) (p : ℕ × ℕ) : Prop :=
  p.1 = 0 ∨ p.2 = 0 ∨ p.1 + 1 = width ∨ p.2 + 1 = height

/-- Two pixels are 4-neighbours: same row and adjacent columns, or same column and
adjacent rows. -/
def Adj4 (p q : ℕ × ℕ) : Prop :=
  (p.2 = q.2 ∧ (p.1 + 1 = q.1 ∨ q.1 + 1 = p.1)) ∨
  (p.1 = q.1 ∧ (p.2 + 1 = q.2 ∨ q.2 + 1 = p.2))

/-- `BorderConnected m width height p`: pixel `p` lies in the image, matches, and is
joined to a matching border pixel by a 4-connected path of matching pixels of the image
(`m i` is the colour test of the pixel of index `i = y * width + x`). -/
inductive BorderConnected (m : ℕ → Bool) (width height : ℕ) : ℕ × ℕ → Prop where
  | border (p : ℕ × ℕ) (hx : p.1 < width) (hy : p.2 < height)
      (hb : IsBorder width height p) (hm : m (p.2 * width + p.1) = true) :
      BorderConnected m width height p
  | step (q p : ℕ × ℕ) (hq : BorderConnected m width height q) (hadj : Adj4 q p)
      (hx : p.1 < width) (hy : p.2 < height) (hm : m (p.2 * width + p.1) = true) :
      BorderConnected m width height p

/-- A 3x3 opaque image: a white centre pixel enclosed by a black ring (RGBA bytes, row by
row). -/
def ringExample : List ℕ :=
  [0, 0, 0, 255,  0, 0, 0, 255,        0, 0, 0, 255,
   0, 0, 0, 255,  255, 255, 255, 255,  0, 0, 0, 255,
   0, 0, 0, 255,  0, 0, 0, 255,        0, 0, 0, 255]

/-- The invariant of the stack loop of `floodFillRemoveAsync` (`m` is the colour test,
pixel `(x, y)` has index `y * width + x`): the bookkeeping of `visited` and `toRemove`,
what justifies every removal (`remBC`, `stackBC`), and what is still owed to the
border-connected region (`visM`, `brd`, `nbr`). -/
structure FillInv (m : ℕ → Bool) (width height : ℕ) (s : FillState) : Prop where
  lenV : s.visited.length = width * height
  remVis : ∀ p ∈ s.toRemove, isVisited s.visited p = true
  nodup : s.toRemove.Nodup
  remBC : ∀ p ∈ s.toRemove, ∃ x y, p = y * width + x ∧ BorderConnected m width height (x, y)
  stackBC : ∀ x y : ℕ, ((x : ℤ), (y : ℤ)) ∈ s.stack → x < width → y < height →
    m (y * width + x) = true → BorderConnected m width height (x, y)
  visM : ∀ p, isVisited s.visited p = true → m p = true → p ∈ s.toRemove
  brd : ∀ x y : ℕ, x < width → y < height → IsBorder width height (x, y) →
    isVisited s.visited (y * width + x) = true ∨ ((x : ℤ), (y : ℤ)) ∈ s.stack
  nbr : ∀ x y qx qy : ℕ, x < width → y < height → (y * width + x) ∈ s.toRemove →
    Adj4 (x, y) (qx, qy) → qx < width → qy < height → m (qy * width + qx) = true →
    isVisited s.visited (qy * width + qx) = true ∨ ((qx : ℤ), (qy : ℤ)) ∈ s.stack

/-- The quantity that every iteration of the stack loop decreases: the stack height plus
twice the number of pixels not yet recorded in `toRemove`. -/
def fillMeasure (width height : ℕ) (s : FillState) : ℕ :=
  s.stack.length + 2 * (width * height - s.toRemove.length)

/-! ## History manager -/

/-- The value `captureHistoryState` returns. `processedImage` and `imageCache` are object
references (copied as such), modelled by an identifier. -/
structure Snapshot where
  disabledCells : Finset ℤ
  customAreas : ℤ → Option Area
  customNames : ℤ → Option String
  centerLinesX : List ℚ
  centerLinesY : List ℚ
  cellWidth : ℚ
  cellHeight : ℚ
  processedImage : Option ℕ
  imageCache : Option ℕ

/-- The global `state` as the history manager sees it: the geometry fields of `State`,
the other editable fields, and the history with its pointer. -/
structure Session extends State where
  disabledCells : Finset ℤ
  customNames : ℤ → Option String
  processedImage : Option ℕ
  imageCache : Option ℕ
  history : List Snapshot
  historyIndex : ℤ

/-- The constant `state.maxHistory`. -/
def maxHistory : ℕ := 50

/-- Source: `captureHistoryState()` (app.js 362-374). The copies (`new Set(..)`,
`JSON.parse(JSON.stringify(..))`, `[...xs]`) are deep copies: equal values. -/
def captureHistoryState (s : Session) : Snapshot :=
  { disabledCells := s.disabledCells
    customAreas := s.customAreas
    customNames := s.customNames
    centerLinesX := s.centerLinesX
    centerLinesY := s.centerLinesY
    cellWidth := s.cellWidth
    cellHeight := s.cellHeight
    processedImage := s.processedImage
    imageCache := s.imageCache }

/-- Source: `restoreHistoryState(snapshot)` (app.js 376-391), as far as `state` goes (the
renderer texture it also sets is not part of `state`). -/
def restoreHistoryState (s : Session) (snapshot : Snapshot) : Session :=
  { s with
    disabledCells := snapshot.disabledCells
    customAreas := snapshot.customAreas
    customNames := snapshot.customNames
    centerLinesX := snapshot.centerLinesX
    centerLinesY := snapshot.centerLinesY
    cellWidth := snapshot.cellWidth
    cellHeight := snapshot.cellHeight
    processedImage := snapshot.processedImage
    imageCache := snapshot.imageCache }

/-- The array method `history.slice(0, end)`: a negative `end` counts from the end of the
array. -/
def sliceFromStart (history : List Snapshot) (stop : ℤ) : List Snapshot :=
  if stop < 0 then history.take ((history.length : ℤ) + stop).toNat
  else history.take stop.toNat

/-- The read `state.history[i]`: `none` is `undefined`. -/
def historyAt (history : List Snapshot) (i : ℤ) : Option Snapshot :=
  if 0 ≤ i then history[i.toNat]? else none

/-- Source: `saveHistory()` (app.js 393-411). -/
def saveHistory (s : Session) : Session :=
  let history1 :=
    if s.historyIndex < (s.history.length : ℤ) - 1 then
      sliceFromStart s.history (s.historyIndex + 1)
    else s.history
  let snapshot := captureHistoryState s
  let history2 := history1 ++ [snapshot]
  if history2.length > maxHistory then
    { s with history := history2.tail }
  else
    { s with history := history2, historyIndex := s.historyIndex + 1 }

/-- Source: `undo()` (app.js 413-421). `none` is the `TypeError` that
`restoreHistoryState(undefined)` throws when `history[historyIndex]` does not exist. -/
def undo (s : Session) : Option Session :=
  if s.historyIndex > 0 then
    let s1 := { s with historyIndex := s.historyIndex - 1 }
    match historyAt s1.history s1.historyIndex with
    | some snapshot => some (restoreHistoryState s1 snapshot)
    | none => none
  else some s

/-- Source: `redo()` (app.js 423-431), with the same convention as `undo`. -/
def redo (s : Session) : Option Session :=
  if s.historyIndex < (s.history.length : ℤ) - 1 then
    let s1 := { s with historyIndex := s.historyIndex + 1 }
    match historyAt s1.history s1.historyIndex with
    | some snapshot => some (restoreHistoryState s1 snapshot)
    | none => none
  else some s

/-- Source: `clearHistory()` (app.js 444-448). -/
def clearHistory (s : Session) : Session :=
  { s with history := [], historyIndex := -1 }

/-- A user edit between two history operations: any change of `state` that leaves
`history` and `historyIndex` alone. -/
def KeepsHistory (f : Session → Session) : Prop :=
  ∀ s, (f s).history = s.history ∧ (f s).historyIndex = s.historyIndex

/-- The states reachable from `clearHistory` by `saveHistory`, `undo`, `redo` and user
edits that do not touch the history. -/
inductive HistoryReachable : Session → Prop where
  | clear (s : Session) : HistoryReachable (clearHistory s)
  | save (s : Session) : HistoryReachable s → HistoryReachable (saveHistory s)
  | undo (s t : Session) : HistoryReachable s → undo s = some t → HistoryReachable t
  | redo (s t : Session) : HistoryReachable s → redo s = some t → HistoryReachable t
  | edit (s : Session) (f : Session → Session) :
      HistoryReachable s → KeepsHistory f → HistoryReachable (f s)

/-- The bounds on the history and its pointer. -/
def HistoryInv (s : Session) : Prop :=
  s.history.length ≤ maxHistory ∧ -1 ≤ s.historyIndex ∧
    s.historyIndex ≤ (s.history.length : ℤ) - 1

/-- A recorded action: an edit followed by `saveHistory()`. -/
def recordAction (s : Session) (f : Session → Session) : Session := saveHistory (f s)

/-- Calling `undo()` `n` times (`none` once a call has thrown). -/
def undoTimes : ℕ → Session → Option Session
  | 0, s => some s
  | n + 1, s => (undo s).bind (undoTimes n)

/-- Calling `redo()` `n` times (`none` once a call has thrown). -/
def redoTimes : ℕ → Session → Option Session
  | 0, s => some s
  | n + 1, s => (redo s).bind (redoTimes n)

/-- The click handler of the preview list buttons `delete` and `restore`
(app.js 2042-2050); `del = true` is `delete`. -/
def previewToggleCell (s : Session) (del : Bool) (idx : ℤ) : Session :=
  if del then { s with disabledCells := insert idx s.disabledCells }
  else { s with disabledCells := s.disabledCells.erase idx }

/-- The state part of `finishEdit` in `startNameEdit` (app.js 2715-2723): `newName` is
the trimmed input; an empty name deletes the entry. -/
def finishEdit (s : Session) (idx : ℤ) (newName : String) : Session :=
  if newName ≠ "" then
    { s with customNames := fun k => if k = idx then some newName else s.customNames k }
  else
    { s with customNames := fun k => if k = idx then none else s.customNames k }

/-- Source: `disableCurrentCell()` (app.js 2577-2586) for the crop editor index `index`. -/
def disableCurrentCell (s : Session) (index : ℤ) : Session :=
  if index < 0 then s
  else saveHistory { s with disabledCells := insert index s.disabledCells }

/-- The centre-line example with nothing disabled, named or processed, and no history. -/
def baseSession : Session :=
  { toState := centerExample
    disabledCells := ∅
    customNames := fun _ => none
    processedImage := none
    imageCache := none
    history := []
    historyIndex := -1 }

/-- A session right after an image load: history cleared and the baseline snapshot
saved. -/
def sessionExample : Session := saveHistory (clearHistory baseSession)

/-- The state right after a `saveHistory()`: the pointer is on the last entry, and that
entry is the snapshot of the current editable fields. -/
def JustSaved (s : Session) : Prop :=
  HistoryInv s ∧ 1 ≤ s.history.length ∧
    s.historyIndex = (s.history.length : ℤ) - 1 ∧
    historyAt s.history s.historyIndex = some (captureHistoryState s)

/-- The session `s` moved to history entry `k`: pointer at `k`, editable fields restored
from `history[k]` (`s` itself when there is no such entry). -/
def atEntry (s : Session) (k : ℕ) : Session :=
  match s.history[k]? with
  | some snapshot => restoreHistoryState { s with historyIndex := (k : ℤ) } snapshot
  | none => s

/-- Two recorded user edits: disabling cell 3 in the crop editor style, then setting the
cell width to 64. -/
def editsExample : List (Session → Session) :=
  [fun s => { s with disabledCells := insert 3 s.disabledCells },
   fun s => { s with cellWidth := 64 }]

/-- The example session after the two recorded edits of `editsExample`, then two undos:
three history entries, pointer on the first. -/
def undoneExample : Session :=
  atEntry (editsExample.foldl recordAction sessionExample) 0

/-! ## View transform -/

/-- A point `{x, y}`. -/
structure Point where
  x : ℚ
  y : ℚ
  deriving DecidableEq

/-- The view transform `state.view`. -/
structure View where
  zoom : ℚ
  offsetX : ℚ
  offsetY : ℚ
  deriving DecidableEq

/-- The initial value of `state.view`. -/
def initialView : View := { zoom := 1, offsetX := 0, offsetY := 0 }

/-- Source: `canvasToImageCoords(canvasX, canvasY)` (app.js 1441-1446). The quotient is
the exact one for `zoom ≠ 0`. For `zoom = 0` the program's quotient is `NaN` or an
infinity, which `Point` does not hold: the hit tests and the colour pick, which read the
point, settle that case before they call this function. -/
def canvasToImageCoords (view : View) (canvasX canvasY : ℚ) : Point :=
  { x := (canvasX - view.offsetX) / view.zoom
    y := (canvasY - view.offsetY) / view.zoom }

/-- Source: `zoomAtPoint(delta, centerX, centerY)` (app.js 1762-1783); `originalImage` is
`state.originalImage`, `none` before an image is loaded. -/
def zoomAtPoint (originalImage : Option Image) (view : View) (delta centerX centerY : ℚ) :
    View :=
  match originalImage with
  | none => view
  | some _ =>
    let oldZoom := view.zoom
    let newZoom := max (1 / 10) (min 10 (oldZoom + delta))
    if newZoom = oldZoom then view
    else
      let imgX := (centerX - view.offsetX) / oldZoom
      let imgY := (centerY - view.offsetY) / oldZoom
      { zoom := newZoom
        offsetX := centerX - imgX * newZoom
        offsetY := centerY - imgY * newZoom }

/-- Source: `zoomBy(delta)` (app.js 1752-1760), the container size being that of
`elements.canvasContainer`. -/
def zoomBy (originalImage : Option Image) (view : View) (delta : ℚ)
    (containerWidth containerHeight : ℚ) : View :=
  match originalImage with
  | none => view
  | some _ => zoomAtPoint originalImage view delta (containerWidth / 2) (containerHeight / 2)

/-- Source: `zoomToFit()` (app.js 1785-1804). The quotients are the exact ones for an
image of positive width and height. -/
def zoomToFit (originalImage : Option Image) (view : View)
    (containerWidth containerHeight : ℚ) : View :=
  match originalImage with
  | none => view
  | some img =>
    let padding : ℚ := 40
    let scaleX := (containerWidth - padding) / (img.width : ℚ)
    let scaleY := (containerHeight - padding) / (img.height : ℚ)
    let zoom := min (min scaleX scaleY) 1
    let imgW := (img.width : ℚ) * zoom
    let imgH := (img.height : ℚ) * zoom
    { zoom := zoom
      offsetX := (containerWidth - imgW) / 2
      offsetY := (containerHeight - imgH) / 2 }

/-- Source: `zoomTo100()` (app.js 1806-1822). -/
def zoomTo100 (originalImage : Option Image) (view : View)
    (containerWidth containerHeight : ℚ) : View :=
  match originalImage with
  | none => view
  | some img =>
    let imgW := (img.width : ℚ)
    let imgH := (img.height : ℚ)
    { zoom := 1
      offsetX := (containerWidth - imgW) / 2
      offsetY := (containerHeight - imgH) / 2 }

/-- One call of a zoom operation, with its arguments and the container size it reads. -/
inductive ViewOp where
  | zoomAtPoint (delta centerX centerY : ℚ)
  | zoomBy (delta containerWidth containerHeight : ℚ)
  | zoomToFit (containerWidth containerHeight : ℚ)
  | zoomTo100 (containerWidth containerHeight : ℚ)

/-- The view after one zoom operation. -/
def applyViewOp (originalImage : Option Image) (view : View) : ViewOp → View
  | .zoomAtPoint delta centerX centerY => zoomAtPoint originalImage view delta centerX centerY
  | .zoomBy delta cw ch => zoomBy originalImage view delta cw ch
  | .zoomToFit cw ch => zoomToFit originalImage view cw ch
  | .zoomTo100 cw ch => zoomTo100 originalImage view cw ch

/-- The proviso on a `zoomToFit` call: both fit scales `(container - 40) / image` are at
least 0.1. It holds of every other operation. -/
def FitScalesInRange (originalImage : Option Image) : ViewOp → Prop
  | .zoomToFit cw ch =>
    match originalImage with
    | none => True
    | some img =>
      (1 : ℚ) / 10 ≤ (cw - 40) / (img.width : ℚ) ∧ (1 : ℚ) / 10 ≤ (ch - 40) / (img.height : ℚ)
  | _ => True

/-! ## Cell resize gesture -/

/-- The handle names of the resize gesture. -/
inductive Handle where
  | n | s | e | w | nw | ne | sw | se | move
  deriving DecidableEq

/-- The test `handle.includes('n')` on the handles other than `move`. -/
def Handle.includesN : Handle → Bool
  | .n | .nw | .ne => true
  | _ => false

/-- The test `handle.includes('s')` on the handles other than `move`. -/
def Handle.includesS : Handle → Bool
  | .s | .sw | .se => true
  | _ => false

/-- The test `handle.includes('e')` on the handles other than `move`. -/
def Handle.includesE : Handle → Bool
  | .e | .ne | .se => true
  | _ => false

/-- The test `handle.includes('w')` on the handles other than `move`. -/
def Handle.includesW : Handle → Bool
  | .w | .nw | .sw => true
  | _ => false

/-- The `else` branch of `resizeCellArea` (app.js 1351-1405): the new rectangle for a
resize handle, each `let` being one assignment of the source in order. -/
def resizeByHandle (imgW imgH : ℚ) (area : Area) (handle : Handle) (imgCoords : Point)
    (shiftKey : Bool) : Area :=
  let minSize : ℚ := 20
  let newX0 := area.x
  let newY0 := area.y
  let newW0 := area.width
  let newH0 := area.height
  -- if (handle.includes('w'))
  let newX1 := if handle.includesW then max 0 (min (area.x + area.width - minSize) imgCoords.x)
    else newX0
  let newW1 := if handle.includesW then area.x + area.width - newX1 else newW0
  -- if (handle.includes('e'))
  let newW2 := if handle.includesE then
      max minSize (min (imgW - area.x) (imgCoords.x - area.x))
    else newW1
  -- if (handle.includes('n'))
  let newY1 := if handle.includesN then max 0 (min (area.y + area.height - minSize) imgCoords.y)
    else newY0
  let newH1 := if handle.includesN then area.y + area.height - newY1 else newH0
  -- if (handle.includes('s'))
  let newH2 := if handle.includesS then
      max minSize (min (imgH - area.y) (imgCoords.y - area.y))
    else newH1
  if shiftKey ∧ handle ≠ Handle.n ∧ handle ≠ Handle.s ∧ handle ≠ Handle.e ∧ handle ≠ Handle.w then
    let size := max newW2 newH2
    let newX2 := if handle.includesW then max 0 (area.x + area.width - size) else newX1
    let newW3 := if handle.includesW then area.x + area.width - newX2
      else min size (imgW - area.x)
    let newY2 := if handle.includesN then max 0 (area.y + area.height - size) else newY1
    let newH3 := if handle.includesN then area.y + area.height - newY2
      else min size (imgH - area.y)
    let finalSize := min newW3 newH3
    let newX3 := if handle.includesW then area.x + area.width - finalSize else newX2
    let newY3 := if handle.includesN then area.y + area.height - finalSize else newY2
    { x := newX3, y := newY3, width := finalSize, height := finalSize }
  else
    { x := newX1, y := newY1, width := newW2, height := newH2 }

/-- The fields of `state` that the resize gesture reads and writes besides the
geometry. -/
structure DragState where
  dragStartArea : Option Area
  lastDragPos : Option Point

/-- A `getCellArea` result as a rectangle with numeric fields; `none` when `x` or `y` is
`NaN`. -/
def CellArea.toArea? (c : CellArea) : Option Area :=
  match c.x, c.y with
  | .num x, .num y => some { x := x, y := y, width := c.width, height := c.height }
  | _, _ => none

/-- The rectangle `getCellArea(index) || { ...state.dragStartArea }` that
`resizeCellArea` starts from; `none` when `getCellArea` gives a rectangle with a `NaN`
coordinate, which the exact arithmetic of this embedding does not carry further. -/
def resizeStartArea (st : State) (start : Area) (index : ℤ) : Option Area :=
  match getCellArea st index with
  | some c => c.toArea?
  | none => some start

/-- The assignment `state.customAreas[index] = area`. -/
def setCustomArea (st : State) (index : ℤ) (area : Area) : State :=
  { st with customAreas := fun k => if k = index then some area else st.customAreas k }

/-- Source: `resizeCellArea(index, handle, imgCoords, shiftKey)` (app.js 1329-1413):
the state and drag fields after the call. An early `return` gives the inputs back;
`none` is the case left out by `resizeStartArea`. -/
def resizeCellArea (st : State) (drag : DragState) (index : ℤ) (handle : Handle)
    (imgCoords : Point) (shiftKey : Bool) : Option (State × DragState) :=
  match drag.dragStartArea with
  | none => some (st, drag)
  | some start =>
    match resizeStartArea st start index with
    | none => none
    | some area =>
      let imgW : ℚ := (st.originalImage.width : ℚ)
      let imgH : ℚ := (st.originalImage.height : ℚ)
      if handle = Handle.move then
        match drag.lastDragPos with
        | none => some (st, { drag with lastDragPos := some imgCoords })
        | some last =>
          let dx := imgCoords.x - last.x
          let dy := imgCoords.y - last.y
          let moved : Area :=
            { x := max 0 (min (imgW - area.width) (area.x + dx))
              y := max 0 (min (imgH - area.height) (area.y + dy))
              width := area.width
              height := area.height }
          some (setCustomArea st index moved, { drag with lastDragPos := some imgCoords })
      else
        let resized := resizeByHandle imgW imgH area handle imgCoords shiftKey
        some (setCustomArea st index resized, drag)

/-- The corner of a rectangle opposite a corner handle (`none` for the other handles). -/
def Handle.oppositeCorner (handle : Handle) (a : Area) : Option Point :=
  match handle with
  | .nw => some { x := a.x + a.width, y := a.y + a.height }
  | .ne => some { x := a.x, y := a.y + a.height }
  | .sw => some { x := a.x + a.width, y := a.y }
  | .se => some { x := a.x, y := a.y }
  | _ => none

/-- The corner handles `nw`, `ne`, `sw`, `se`. -/
def Handle.IsCorner (handle : Handle) : Prop :=
  handle = Handle.nw ∨ handle = Handle.ne ∨ handle = Handle.sw ∨ handle = Handle.se

/-- The centre-line example with a 50x50 override for cell 0 at the image origin. -/
def resizeExample : State :=
  { centerExample with
    customAreas := fun k => if k = 0 then some { x := 0, y := 0, width := 50, height := 50 }
      else none }

/-- The drag fields right after a pointer-down on cell 0 of `resizeExample`. -/
def dragExample : DragState :=
  { dragStartArea := some { x := 0, y := 0, width := 50, height := 50 }
    lastDragPos := some { x := 10, y := 10 } }

/-! ## Double rounding -/

/-- Rounding of a rational to the nearest integer, ties to the even one. -/
def roundHalfEven (q : ℚ) : ℤ :=
  let f : ℤ := ⌊q⌋
  if q - (f : ℚ) < 1 / 2 then f
  else if 1 / 2 < q - (f : ℚ) then f + 1
  else if f % 2 = 0 then f
  else f + 1

/-- The double nearest to `q`: round to nearest, ties to even, with 53 significant bits
and no bound on the binary exponent (no overflow, no subnormal numbers). It stands for
the rounding of one arithmetic operation of the program where that rounding can change
an integer the program computes afterwards. -/
def toDouble (q : ℚ) : ℚ :=
  if q = 0 then 0
  else
    let e : ℤ := Int.log 2 |q|
    let ulp : ℚ := (2 : ℚ) ^ (e - 52)
    ((roundHalfEven (q / ulp) : ℤ) : ℚ) * ulp

/-! ## Centre-line initialisation and automatic cell size -/

/-- The assignment `minDist = Math.min(minDist, d)` on a running minimum that starts at
`Infinity`; `none` is `Infinity`. -/
def minDistStep (minDist : Option ℚ) (d : ℚ) : Option ℚ :=
  match minDist with
  | none => some d
  | some m => some (min m d)

/-- The loop `for (let i = 1; i < lines.length; i++)` of `autoCalculateCellSize` over
one axis, which takes the minimum with every gap `lines[i] - lines[i-1]`. -/
def adjacentGapLoop : List ℚ → Option ℚ → Option ℚ
  | a :: b :: rest, minDist => adjacentGapLoop (b :: rest) (minDistStep minDist (b - a))
  | _, minDist => minDist

/-- The value of `minDistX` (for the lines `centerLinesX` and the image width) or of
`minDistY` when `autoCalculateCellSize` reaches its two `Math.floor` lines; `none` is
`Infinity`, the value left when the axis has no line. -/
def axisMinDist (lines : List ℚ) (extent : ℚ) : Option ℚ :=
  let minDist := adjacentGapLoop lines none
  match lines.head?, lines.getLast? with
  | some first, some last =>
    minDistStep (minDistStep minDist (first * 2)) ((extent - last) * 2)
  | _, _ => minDist

/-- Source: `autoCalculateCellSize()` (app.js 1883-1910) with an image loaded. The
factor `0.95` is the exact 19/20. The early `return` gives the state back; `none` is the
case of a cell size `Infinity` (lines on the x axis and none on the y axis), which the
rational fields of `State` do not hold. -/
def autoCalculateCellSize (st : State) : Option State :=
  if st.centerLinesX.length = 0 then some st
  else
    match axisMinDist st.centerLinesX (st.originalImage.width : ℚ),
        axisMinDist st.centerLinesY (st.originalImage.height : ℚ) with
    | some minDistX, some minDistY =>
      some { st with
        cellWidth := ((⌊minDistX * (19 / 20)⌋ : ℤ) : ℚ)
        cellHeight := ((⌊minDistY * (19 / 20)⌋ : ℤ) : ℚ) }
    | _, _ => none

/-- The lines one `for` loop of `initializeCenterLines` pushes:
`(i + 0.5) * extent / count` for `i = 0 .. count - 1`, each of the three operations
rounded to a double as the program rounds it. -/
def initialLines (count : ℕ) (extent : ℚ) : List ℚ :=
  (List.range count).map fun (i : ℕ) =>
    toDouble (toDouble (toDouble ((i : ℚ) + 1 / 2) * extent) / (count : ℚ))

/-- Source: `initializeCenterLines()` (app.js 1863-1881) with an image loaded; `none`
as in `autoCalculateCellSize`. -/
def initializeCenterLines (st : State) : Option State :=
  autoCalculateCellSize
    { st with
      centerLinesX := initialLines st.cols (st.originalImage.width : ℚ)
      centerLinesY := initialLines st.rows (st.originalImage.height : ℚ) }

/-! ## Grid controls -/

/-- Source: `onGridSettingsChange()` (app.js 1852-1861) with an image loaded, as far as
`state` goes; `none` as in `autoCalculateCellSize`. -/
def onGridSettingsChange (s : Session) : Option Session :=
  let s1 : Session := { s with disabledCells := ∅, customAreas := fun _ => none }
  match initializeCenterLines s1.toState with
  | some st => some (saveHistory { s1 with toState := st })
  | none => none

/-- The value `Math.max(1, Math.min(20, parseInt(e.target.value) || 1))` of the number
inputs for rows and columns; `parsed = none` is the `NaN` of `parseInt`. -/
def gridInputValue (parsed : Option ℤ) : ℕ :=
  let v : ℤ :=
    match parsed with
    | some n => if n = 0 then 1 else n
    | none => 1
  (max 1 (min 20 v)).toNat

/-- The `change` handler of `rowsInput` (app.js 999-1004). -/
def rowsInputChange (s : Session) (parsed : Option ℤ) : Option Session :=
  onGridSettingsChange { s with rows := gridInputValue parsed }

/-- The `change` handler of `colsInput` (app.js 1011-1016). -/
def colsInputChange (s : Session) (parsed : Option ℤ) : Option Session :=
  onGridSettingsChange { s with cols := gridInputValue parsed }

/-- The `input` handler of `rowsRange` (app.js 994-998) for a slider value `value`. -/
def rowsRangeInput (s : Session) (value : ℕ) : Option Session :=
  onGridSettingsChange { s with rows := value }

/-- The `input` handler of `colsRange` (app.js 1006-1010) for a slider value `value`. -/
def colsRangeInput (s : Session) (value : ℕ) : Option Session :=
  onGridSettingsChange { s with cols := value }

/-- The `click` handler of a quick-grid button (app.js 1018-1031) whose data attributes
are `rows` and `cols`. -/
def quickGridClick (s : Session) (rows cols : ℕ) : Option Session :=
  onGridSettingsChange { s with rows := rows, cols := cols }

/-- The `click` handler of a mode button (app.js 855-873) with an image loaded, as far as
the fields of `Session` go (it also sets `individualMode = false`); `none` as in
`autoCalculateCellSize`. -/
def modeButtonClick (s : Session) (mode : Mode) : Option Session :=
  let s1 : Session := { s with mode := mode }
  match initializeCenterLines s1.toState with
  | some st => some { s1 with toState := st }
  | none => none

/-- The image `onload` handler of `handleFile` (app.js 1525-1550) for an image `img`
whose bitmap reference is `cache`, as far as the fields of `Session` go; `none` as in
`autoCalculateCellSize`. -/
def imageLoad (s : Session) (img : Image) (cache : Option ℕ) : Option Session :=
  let s1 : Session :=
    { s with
      originalImage := img
      processedImage := none
      disabledCells := ∅
      customAreas := fun _ => none
      customNames := fun _ => none
      imageCache := cache }
  match initializeCenterLines s1.toState with
  | some st => some (saveHistory (clearHistory { s1 with toState := st }))
  | none => none

/-- A session before any image load, set to centre-line mode with 1 row and 2 columns
(the placeholder image is replaced by `imageLoad`). -/
def freshSession : Session :=
  { mode := Mode.centerline, rows := 1, cols := 2
    originalImage := { width := 0, height := 0 }
    cellWidth := 100, cellHeight := 100, centerLinesX := [], centerLinesY := []
    customAreas := fun _ => none
    disabledCells := ∅
    customNames := fun _ => none
    processedImage := none
    imageCache := none
    history := []
    historyIndex := -1 }

/-! ## Preview and export list -/

/-- An entry of `state.croppedImages`, without its `dataUrl` (the encoded pixels are not
modelled). -/
structure CroppedImage where
  area : Area
  index : ℕ
  name : String
  deriving DecidableEq

/-- The constant `prefix` of `generatePreviews` and of the export functions,
`document.getElementById('filePrefix').value || 'emoji'`, for the field value `value`. -/
def fileStem (value : String) : String :=
  if value = "" then "emoji" else value

/-- The constant `customName` of the loop body of `generatePreviews`,
`state.customNames[idx] || (stem + '_' + (idx + 1))`. -/
def customName (s : Session) (stem : String) (idx : ℕ) : String :=
  match s.customNames (idx : ℤ) with
  | some n => if n = "" then stem ++ "_" ++ toString (idx + 1) else n
  | none => stem ++ "_" ++ toString (idx + 1)

/-- The loop body of `generatePreviews` for cell `idx`, on the list `state.croppedImages`
built so far. `none` is the `TypeError` of reading `area.width` when `cropAreas[idx]` is
`undefined`; it ends the function. -/
def previewStep (s : Session) (cropAreas : List Area) (stem : String)
    (croppedImages : Option (List CroppedImage)) (idx : ℕ) : Option (List CroppedImage) :=
  match croppedImages with
  | none => none
  | some images =>
    if (idx : ℤ) ∈ s.disabledCells then some images
    else
      match cropAreas[idx]? with
      | none => none
      | some area =>
        some (images ++ [{ area := area, index := idx + 1, name := customName s stem idx }])

/-- Source: `generatePreviews()` (app.js 1925-2063) with an image loaded: the list
`state.croppedImages` it builds, `value` being the content of the `filePrefix` field. -/
def generatePreviews (s : Session) (value : String) : Option (List CroppedImage) :=
  let cropAreas := getCropAreas s.toState
  let totalCells := s.rows * s.cols
  (List.range totalCells).foldl (previewStep s cropAreas (fileStem value)) (some [])

/-- The constant `fileName` of the loops of `exportAsZip` (app.js 2214) and
`exportSeparately` (app.js 2273), `item.name || (stem + '_' + item.index)`. -/
def exportFileName (stem : String) (item : CroppedImage) : String :=
  if item.name = "" then stem ++ "_" ++ toString item.index else item.name

/-- The session of the uniform example (3 rows by 2 columns) with cell 3 disabled and
cell 1 named. -/
def exportExample : Session :=
  { toState := uniformExample
    disabledCells := {3}
    customNames := fun k => if k = 1 then some "cat" else none
    processedImage := none
    imageCache := none
    history := []
    historyIndex := -1 }

/-! ## Hit test of the cells -/

/-- The inner loop `for (const cx of state.centerLinesX)` of `findCellAtPosition` for the
line `cy` and the image-space point `(x, y)`: `Sum.inl index` is `return index`,
`Sum.inr index` the running index when the loop ends. -/
def findCellInner (st : State) (x y cy : ℚ) : List ℚ → ℕ → ℕ ⊕ ℕ
  | [], index => Sum.inr index
  | cx :: rest, index =>
    let halfW := st.cellWidth / 2
    let halfH := st.cellHeight / 2
    let left := cx - halfW
    let top := cy - halfH
    if x ≥ left ∧ x ≤ left + halfW * 2 ∧ y ≥ top ∧ y ≤ top + halfH * 2 then Sum.inl index
    else findCellInner st x y cy rest (index + 1)

/-- The outer loop `for (const cy of state.centerLinesY)` of `findCellAtPosition`. -/
def findCellOuter (st : State) (x y : ℚ) : List ℚ → ℕ → ℕ ⊕ ℕ
  | [], index => Sum.inr index
  | cy :: rest, index =>
    match findCellInner st x y cy st.centerLinesX index with
    | Sum.inl found => Sum.inl found
    | Sum.inr next => findCellOuter st x y rest next

/-- Source: `findCellAtPosition(canvasX, canvasY)` (app.js 1448-1486) with an image
loaded. At `zoom = 0` the image-space coordinates are `NaN` or an infinity: an infinity
fails the bounds test and `NaN` fails every later comparison, so the result is -1. In
uniform mode the two quotients `width / cols` and `x / cellW` are rounded to doubles
before `Math.floor` is taken, and on an image of width or height 0 the quotient
`x / cellW` is the `NaN` of `0 / 0`, which fails `col >= 0`. -/
def findCellAtPosition (st : State) (view : View) (canvasX canvasY : ℚ) : ℤ :=
  if view.zoom = 0 then -1
  else
    let imgCoords := canvasToImageCoords view canvasX canvasY
    let x := imgCoords.x
    let y := imgCoords.y
    if x < 0 ∨ x > (st.originalImage.width : ℚ) ∨ y < 0 ∨
        y > (st.originalImage.height : ℚ) then
      -1
    else
      match st.mode with
      | .uniform =>
        if st.originalImage.width = 0 ∨ st.originalImage.height = 0 then -1
        else
          let cellW : ℚ := toDouble ((st.originalImage.width : ℚ) / (st.cols : ℚ))
          let cellH : ℚ := toDouble ((st.originalImage.height : ℚ) / (st.rows : ℚ))
          let col : ℤ := ⌊toDouble (x / cellW)⌋
          let row : ℤ := ⌊toDouble (y / cellH)⌋
          if col ≥ 0 ∧ col < (st.cols : ℤ) ∧ row ≥ 0 ∧ row < (st.rows : ℤ) then
            row * (st.cols : ℤ) + col
          else -1
      | .centerline =>
        match findCellOuter st x y st.centerLinesY 0 with
        | Sum.inl index => (index : ℤ)
        | Sum.inr _ => -1

/-- The image-space point `p` lies in the closed rectangle `[x, x+w] × [y, y+h]`. -/
def Area.ContainsPoint (a : Area) (p : Point) : Prop :=
  a.x ≤ p.x ∧ p.x ≤ a.x + a.width ∧ a.y ≤ p.y ∧ p.y ≤ a.y + a.height

/-- The image-space point `p` lies in the half-open rectangle `[x, x+w) × [y, y+h)`. -/
def Area.CoversPoint (a : Area) (p : Point) : Prop :=
  a.x ≤ p.x ∧ p.x < a.x + a.width ∧ a.y ≤ p.y ∧ p.y < a.y + a.height

/-- No derived centre-line cell is moved by the clamp of the geometry model: every line
keeps half a cell of room to both edges of the image. -/
def NoClamping (st : State) : Prop :=
  (∀ cx ∈ st.centerLinesX,
    0 ≤ cx - st.cellWidth / 2 ∧ cx + st.cellWidth / 2 ≤ (st.originalImage.width : ℚ)) ∧
  (∀ cy ∈ st.centerLinesY,
    0 ≤ cy - st.cellHeight / 2 ∧ cy + st.cellHeight / 2 ≤ (st.originalImage.height : ℚ))

/-! ## Pointer-down handlers -/

/-- The axis of a centre line: the `type` of a `findLineAtPosition` result. -/
inductive Axis where
  | x
  | y
  deriving DecidableEq

/-- A result `{ type, index }` of `findLineAtPosition`. -/
structure LineHit where
  type : Axis
  index : ℕ
  deriving DecidableEq

/-- A result `{ cellIndex, handle }` of `findCellHandleAtPosition`. -/
structure HandleHit where
  cellIndex : ℕ
  handle : Handle
  deriving DecidableEq

/-- The gesture fields of the global `state`. -/
structure Interaction where
  view : View
  isPanning : Bool
  panStart : Point
  viewStart : Point
  isPickingColor : Bool
  individualMode : Bool
  editingCell : Option ℕ
  resizeHandle : Option Handle
  dragStartArea : Option CellArea
  lastDragPos : Option Point
  dragging : Option LineHit

/-- A `mousedown` or `touchstart` event on the main canvas. `touches` is
`e.touches.length` (`none` for a mouse event; a `touchstart` carries at least one touch),
`button` is `e.button`, `clientX`, `clientY` are the client coordinates of the pointer or
of the first touch, and `rectLeft`, `rectTop` the corner of the bounding rectangle of the
canvas at the time of the event. -/
structure PointerEvent where
  touches : Option ℕ
  button : ℤ
  clientX : ℚ
  clientY : ℚ
  rectLeft : ℚ
  rectTop : ℚ

/-- Source: `getEventCoords(e)` (app.js 1040-1049) and `getCanvasCoords(e)`
(app.js 1431-1437): the canvas coordinates of the pointer. -/
def getEventCoords (e : PointerEvent) : Point :=
  { x := e.clientX - e.rectLeft, y := e.clientY - e.rectTop }

/-- Source: `findLineAtPosition(canvasX, canvasY)` (app.js 1488-1507): the first x line
within the hit radius, else the first y line within it. At `zoom = 0` the hit radius is
an infinity and the image-space coordinates are `NaN` or an infinity, so that no
comparison `Math.abs(..) < hitRadius` holds and the result is `null`. -/
def findLineAtPosition (st : State) (view : View) (canvasX canvasY : ℚ) : Option LineHit :=
  if st.mode ≠ Mode.centerline then none
  else if view.zoom = 0 then none
  else
    let imgCoords := canvasToImageCoords view canvasX canvasY
    let hitRadius : ℚ := 15 / view.zoom
    match st.centerLinesX.findIdx? (fun cx => decide (|imgCoords.x - cx| < hitRadius)) with
    | some i => some { type := Axis.x, index := i }
    | none =>
      match st.centerLinesY.findIdx? (fun cy => decide (|imgCoords.y - cy| < hitRadius)) with
      | some i => some { type := Axis.y, index := i }
      | none => none

/-- The array `handles` of `findCellHandleAtPosition` for the rectangle `area`. -/
def handlePoints (area : Area) : List (Handle × Point) :=
  [(Handle.nw, { x := area.x, y := area.y }),
   (Handle.n, { x := area.x + area.width / 2, y := area.y }),
   (Handle.ne, { x := area.x + area.width, y := area.y }),
   (Handle.w, { x := area.x, y := area.y + area.height / 2 }),
   (Handle.e, { x := area.x + area.width, y := area.y + area.height / 2 }),
   (Handle.sw, { x := area.x, y := area.y + area.height }),
   (Handle.s, { x := area.x + area.width / 2, y := area.y + area.height }),
   (Handle.se, { x := area.x + area.width, y := area.y + area.height })]

/-- The body of the double loop of `findCellHandleAtPosition` at running index `index`:
`none` is `index++` and the next iteration. A rectangle with a `NaN` coordinate fails
every comparison. -/
def cellHandleAt (st : State) (imgCoords : Point) (handleThreshold : ℚ) (index : ℕ) :
    Option HandleHit :=
  match getCellArea st (index : ℤ) with
  | none => none
  | some c =>
    match c.toArea? with
    | none => none
    | some area =>
      match (handlePoints area).find? (fun h =>
          decide (|imgCoords.x - h.2.x| < handleThreshold ∧
            |imgCoords.y - h.2.y| < handleThreshold)) with
      | some h => some { cellIndex := index, handle := h.1 }
      | none =>
        if imgCoords.x ≥ area.x ∧ imgCoords.x ≤ area.x + area.width ∧
            imgCoords.y ≥ area.y ∧ imgCoords.y ≤ area.y + area.height then
          some { cellIndex := index, handle := Handle.move }
        else none

/-- Source: `findCellHandleAtPosition(canvasX, canvasY)` (app.js 1281-1327) with an
image loaded. The double loop over the lines only counts: its body runs for
`index = 0, 1, ...` once per pair of lines. At `zoom = 0` the threshold is an infinity
and the image-space coordinates are `NaN` or an infinity, so that neither a handle test
nor the inside test holds and the result is `null`. -/
def findCellHandleAtPosition (st : State) (ui : Interaction) (canvasX canvasY : ℚ) :
    Option HandleHit :=
  if st.mode ≠ Mode.centerline ∨ ui.individualMode = false then none
  else if ui.view.zoom = 0 then none
  else
    let imgCoords := canvasToImageCoords ui.view canvasX canvasY
    let handleThreshold : ℚ := 10 / ui.view.zoom
    (List.range (st.centerLinesY.length * st.centerLinesX.length)).findSome?
      (cellHandleAt st imgCoords handleThreshold)

/-- Source: `pickColorFromImage(canvasX, canvasY)` (app.js 2771-2797) with an image
loaded, as far as `state` goes (the sampled colour goes to the `bgRemoveColor` field).
At `zoom = 0` the floored coordinates are `NaN` or an infinity: an infinity takes the
early `return` of the bounds test, and `NaN` passes that test and stops the function in
`getImageData(x, y, 1, 1)`, which throws on a coordinate that is not finite; either way
`isPickingColor` is not reset. -/
def pickColorFromImage (st : State) (ui : Interaction) (canvasX canvasY : ℚ) : Interaction :=
  if ui.view.zoom = 0 then ui
  else
    let imgCoords := canvasToImageCoords ui.view canvasX canvasY
    let x : ℤ := ⌊imgCoords.x⌋
    let y : ℤ := ⌊imgCoords.y⌋
    if x < 0 ∨ x ≥ (st.originalImage.width : ℤ) ∨ y < 0 ∨
        y ≥ (st.originalImage.height : ℤ) then ui
    else { ui with isPickingColor := false }

/-- Source: `handlePointerDown(e)` (app.js 1052-1091) with an image loaded. -/
def handlePointerDown (st : State) (ui : Interaction) (e : PointerEvent) : Interaction :=
  let coords := getEventCoords e
  if ui.isPickingColor then pickColorFromImage st ui coords.x coords.y
  else
    let result :=
      if st.mode = Mode.centerline ∧ ui.individualMode then
        findCellHandleAtPosition st ui coords.x coords.y
      else none
    match result with
    | some hit =>
      { ui with
        editingCell := some hit.cellIndex
        resizeHandle := some hit.handle
        dragStartArea := getCellArea st (hit.cellIndex : ℤ)
        lastDragPos := some (canvasToImageCoords ui.view coords.x coords.y) }
    | none =>
      let line :=
        if st.mode = Mode.centerline ∧ ui.individualMode = false then
          findLineAtPosition st ui.view coords.x coords.y
        else none
      match line with
      | some l => { ui with dragging := some l }
      | none => ui

/-- The first `mousedown` and `touchstart` listeners of the main canvas
(app.js 1093-1105): a mouse press goes to `handlePointerDown` only for the left button. -/
def pointerDownListener (st : State) (ui : Interaction) (e : PointerEvent) : Interaction :=
  match e.touches with
  | none => if e.button ≠ 0 then ui else handlePointerDown st ui e
  | some _ => handlePointerDown st ui e

/-- Source: `handlePanStart(e)` (app.js 1658-1710), the second `mousedown` and
`touchstart` listener of the main canvas. -/
def handlePanStart (st : State) (ui : Interaction) (e : PointerEvent) : Interaction :=
  let coords := getEventCoords e
  if (match e.touches with
      | some n => decide (n ≠ 1)
      | none => false) = true then ui
  else if ui.editingCell ≠ none ∨ ui.resizeHandle ≠ none then ui
  else if st.mode = Mode.centerline ∧ ui.individualMode = true ∧
      (findCellHandleAtPosition st ui coords.x coords.y).isSome = true then ui
  else if st.mode = Mode.centerline ∧ ui.individualMode = false ∧
      (findLineAtPosition st ui.view coords.x coords.y).isSome = true then ui
  else if (e.button = 0 ∨ e.touches.isSome = true) ∧ ui.dragging = none then
    { ui with
      isPanning := true
      panStart := { x := e.clientX, y := e.clientY }
      viewStart := { x := ui.view.offsetX, y := ui.view.offsetY } }
  else ui

/-- A pointer-down on the main canvas: the listeners run in the order of their
registration (`setupCanvasEvents` at app.js 885, `setupZoomControls` at app.js 974). -/
def pointerDown (st : State) (ui : Interaction) (e : PointerEvent) : Interaction :=
  handlePanStart st (pointerDownListener st ui e) e

/-- The gesture fields with no gesture in progress, the initial view, and colour-pick
mode switched on by the `pickBgColor` button. -/
def pickingExample : Interaction :=
  { view := initialView
    isPanning := false
    panStart := { x := 0, y := 0 }
    viewStart := { x := 0, y := 0 }
    isPickingColor := true
    individualMode := false
    editingCell := none
    resizeHandle := none
    dragStartArea := none
    lastDragPos := none
    dragging := none }

/-- A left-button mouse press at client position `(x, y)` on a canvas whose bounding
rectangle starts at the client origin. -/
def leftPress (x y : ℚ) : PointerEvent :=
  { touches := none, button := 0, clientX := x, clientY := y, rectLeft := 0, rectTop := 0 }

/-! ## Vocabulary of the cell-size claims -/

/-- The numbers whose minimum the automatic cell size of one axis is taken from: the gaps
`lines[i] - lines[i-1]` between adjacent lines, twice the distance of the first line to
the near edge and twice the distance of the last line to the far edge of the image. -/
def gapCandidates (lines : List ℚ) (extent : ℚ) : List ℚ :=
  List.zipWith (fun a b => b - a) lines lines.tail ++
    match lines.head?, lines.getLast? with
    | some first, some last => [2 * first, 2 * (extent - last)]
    | _, _ => []

/-- The 200x100 example after the two x lines have been dragged to 100 and 101. -/
def closeLinesExample : State :=
  { centerExample with centerLinesX := [100, 101] }

/-- The rectangle that `findCellAtPosition` tests for the lines `cx`, `cy` in
centre-line mode: the cell centred on them, before any clamping. -/
def lineCell (st : State) (cy cx : ℚ) : Area :=
  { x := cx - st.cellWidth / 2
    y := cy - st.cellHeight / 2
    width := st.cellWidth
    height := st.cellHeight }

/-- The rectangle of cell `i` centred on the line `centerLinesX[i % cols]` of its column
and the line `centerLinesY[i / cols]` of its row, with the cell size of `st` and no
clamping applied (the default 0 stands where an array has no such slot). -/
def centredCell (st : State) (i : ℕ) : Area :=
  lineCell st (st.centerLinesY.getD (i / st.cols) 0) (st.centerLinesX.getD (i % st.cols) 0)

/-- A 200x100 image set to centre-line mode with 1 row and 19 columns, before the lines
are initialised. -/
def nineteenExample : State :=
  { mode := Mode.centerline, rows := 1, cols := 19
    originalImage := { width := 200, height := 100 }
    cellWidth := 100, cellHeight := 100, centerLinesX := [], centerLinesY := []
    customAreas := fun _ => none }

/-- An 18x10 image cut into 1 row and 14 columns in uniform mode: the image-space point
(9, 5) lies on the boundary between the columns 6 and 7. -/
def boundaryExample : State :=
  { mode := Mode.uniform, rows := 1, cols := 14
    originalImage := { width := 18, height := 10 }
    cellWidth := 100, cellHeight := 100, centerLinesX := [], centerLinesY := []
    customAreas := fun _ => none }

/-- The example of an undo across a grid change: an image of 200x100 is loaded into
`freshSession` (1 row, 2 columns), the column count is set to 3 in the `colsInput`
field, and `undo()` is called. -/
def gridUndoExample : Option Session :=
  (imageLoad freshSession { width := 200, height := 100 } none).bind fun loaded =>
    (colsInputChange loaded (some 3)).bind undo

/-- A session on the 200x100 example with an override stored for cell 0 and cell 1
disabled. -/
def editedExample : Session :=
  { toState := resizeExample
    disabledCells := {1}
    customNames := fun _ => none
    processedImage := none
    imageCache := none
    history := []
    historyIndex := -1 }

/-! # Theorems -/

/-! ## Geometry: auxiliary lemmas -/

theorem grid_length {α : Type} (f : ℕ → ℕ → α) (r c : ℕ) :
    ((List.range r).flatMap fun row => (List.range c).map fun col => f row col).length
      = r * c := by
  induction r with
  | zero => simp
  | succ n ih =>
    rw [List.range_succ, List.flatMap_append, List.length_append, ih]
    simp [Nat.succ_mul]

theorem grid_getElem? {α : Type} (f : ℕ → ℕ → α) (r c i : ℕ) (h : i < r * c) :
    ((List.range r).flatMap fun row => (List.range c).map fun col => f row col)[i]?
      = some (f (i / c) (i % c)) := by
  induction r with
  | zero => simp at h
  | succ n ih =>
    have hc : 0 < c := by
      rcases Nat.eq_zero_or_pos c with h0 | h0
      · subst h0; simp at h
      · exact h0
    rw [List.range_succ, List.flatMap_append]
    by_cases hi : i < n * c
    · rw [List.getElem?_append_left (by rw [grid_length]; exact hi)]
      exact ih hi
    · have hge : n * c ≤ i := Nat.le_of_not_lt hi
      rw [List.getElem?_append_right (by rw [grid_length]; exact hge), grid_length]
      have hlt : i - n * c < c := by
        rw [Nat.succ_mul] at h; omega
      have hdiv : i / c = n := by
        apply Nat.div_eq_of_lt_le
        · exact hge
        · exact h
      have hmod : i % c = i - n * c := by
        have := Nat.div_add_mod i c
        rw [hdiv, Nat.mul_comm] at this
        omega
      simp [List.getElem?_map, List.getElem?_range hlt, hdiv, hmod]

theorem getCropAreas_uniform_length (st : State) (hmode : st.mode = .uniform) :
    (getCropAreas st).length = st.rows * st.cols := by
  simp only [getCropAreas, hmode]
  exact grid_length _ _ _

theorem getCropAreas_uniform_getElem? (st : State) (hmode : st.mode = .uniform) (i : ℕ)
    (h : i < st.rows * st.cols) :
    (getCropAreas st)[i]? = some (uniformCell st (i / st.cols) (i % st.cols)) := by
  simp only [getCropAreas, hmode]
  exact grid_getElem? _ _ _ _ h

theorem uniformCell_of_none (st : State) (row col : ℕ)
    (h : st.customAreas ((row * st.cols + col : ℕ) : ℤ) = none) :
    uniformCell st row col =
      { x := (col : ℚ) * ((st.originalImage.width : ℚ) / (st.cols : ℚ))
        y := (row : ℚ) * ((st.originalImage.height : ℚ) / (st.rows : ℚ))
        width := (st.originalImage.width : ℚ) / (st.cols : ℚ)
        height := (st.originalImage.height : ℚ) / (st.rows : ℚ) } := by
  simp only [uniformCell, h]

theorem div_mod_index (c i : ℕ) : i / c * c + i % c = i := by
  rw [Nat.mul_comm]; exact Nat.div_add_mod i c

theorem strip_disjoint (s : ℚ) (hs : 0 < s) (m n : ℕ) (hmn : m ≠ n) (p : ℝ) :
    ¬ ((((m : ℚ) * s : ℚ) : ℝ) < p ∧ p < (((m : ℚ) * s : ℚ) : ℝ) + (s : ℝ) ∧
        (((n : ℚ) * s : ℚ) : ℝ) < p ∧ p < (((n : ℚ) * s : ℚ) : ℝ) + (s : ℝ)) := by
  rintro ⟨h1, h2, h3, h4⟩
  have hsR : (0 : ℝ) < (s : ℝ) := by exact_mod_cast hs
  push_cast at h1 h2 h3 h4
  rcases Nat.lt_or_gt_of_ne hmn with h | h
  · have : ((m : ℝ) + 1) ≤ (n : ℝ) := by exact_mod_cast h
    nlinarith
  · have : ((n : ℝ) + 1) ≤ (m : ℝ) := by exact_mod_cast h
    nlinarith

theorem strip_cover (s : ℚ) (hs : 0 < s) (n : ℕ) (p : ℝ) (h0 : 0 ≤ p)
    (hp : p < (n : ℝ) * (s : ℝ)) :
    ∃ m, m < n ∧ (((m : ℚ) * s : ℚ) : ℝ) ≤ p ∧ p < (((m : ℚ) * s : ℚ) : ℝ) + (s : ℝ) := by
  have hsR : (0 : ℝ) < (s : ℝ) := by exact_mod_cast hs
  have hq : 0 ≤ p / (s : ℝ) := div_nonneg h0 hsR.le
  refine ⟨⌊p / (s : ℝ)⌋₊, ?_, ?_, ?_⟩
  · rw [Nat.floor_lt hq, div_lt_iff₀ hsR]
    exact hp
  · have := Nat.floor_le hq
    rw [le_div_iff₀ hsR] at this
    push_cast
    exact this
  · have := Nat.lt_floor_add_one (p / (s : ℝ))
    rw [div_lt_iff₀ hsR] at this
    push_cast
    linarith

theorem getCropAreas_uniform_cell (st : State) (hmode : st.mode = Mode.uniform)
    (hnone : ∀ k, st.customAreas k = none) (i : ℕ) (a : Area)
    (h : (getCropAreas st)[i]? = some a) :
    i < st.rows * st.cols ∧
    a = { x := ((i % st.cols : ℕ) : ℚ) * ((st.originalImage.width : ℚ) / (st.cols : ℚ))
          y := ((i / st.cols : ℕ) : ℚ) * ((st.originalImage.height : ℚ) / (st.rows : ℚ))
          width := (st.originalImage.width : ℚ) / (st.cols : ℚ)
          height := (st.originalImage.height : ℚ) / (st.rows : ℚ) } := by
  have hi : i < st.rows * st.cols := by
    rw [← getCropAreas_uniform_length st hmode]
    exact (List.getElem?_eq_some.mp h).1
  refine ⟨hi, ?_⟩
  rw [getCropAreas_uniform_getElem? st hmode i hi, uniformCell_of_none st _ _ (hnone _)] at h
  exact (Option.some.inj h).symm

/-- C1: in uniform mode with no overrides, for every image width and height > 0 and every
rows, cols >= 1, the rows*cols rectangles of `getCropAreas` partition the image in exact
arithmetic: each lies inside the image, two of distinct indices have disjoint interiors,
every point of `[0,W) x [0,H)` lies in one of them, and their areas sum to `W*H`. -/
theorem getCropAreas_uniform_partition (st : State)
    (hmode : st.mode = Mode.uniform) (hnone : ∀ k, st.customAreas k = none)
    (hW : 0 < st.originalImage.width) (hH : 0 < st.originalImage.height)
    (hrows : 1 ≤ st.rows) (hcols : 1 ≤ st.cols) :
    (getCropAreas st).length = st.rows * st.cols ∧
    (∀ a ∈ getCropAreas st,
      a.Inside (st.originalImage.width : ℚ) (st.originalImage.height : ℚ)) ∧
    (∀ (i j : ℕ) (a b : Area), (getCropAreas st)[i]? = some a → (getCropAreas st)[j]? = some b → i ≠ j →
      ∀ px py : ℝ, ¬ (a.InInterior px py ∧ b.InInterior px py)) ∧
    (∀ px py : ℝ, 0 ≤ px → px < (st.originalImage.width : ℝ) →
      0 ≤ py → py < (st.originalImage.height : ℝ) →
      ∃ (i : ℕ) (a : Area), (getCropAreas st)[i]? = some a ∧ a.Covers px py) ∧
    ((getCropAreas st).map fun a => a.width * a.height).sum
      = (st.originalImage.width : ℚ) * (st.originalImage.height : ℚ) := by
  have hc : (0 : ℚ) < (st.cols : ℚ) := by exact_mod_cast hcols
  have hr : (0 : ℚ) < (st.rows : ℚ) := by exact_mod_cast hrows
  have hWq : (0 : ℚ) < (st.originalImage.width : ℚ) := by exact_mod_cast hW
  have hHq : (0 : ℚ) < (st.originalImage.height : ℚ) := by exact_mod_cast hH
  have hcw : (0 : ℚ) < (st.originalImage.width : ℚ) / (st.cols : ℚ) := div_pos hWq hc
  have hch : (0 : ℚ) < (st.originalImage.height : ℚ) / (st.rows : ℚ) := div_pos hHq hr
  have hcmul : (st.cols : ℚ) * ((st.originalImage.width : ℚ) / (st.cols : ℚ))
      = (st.originalImage.width : ℚ) := by field_simp
  have hrmul : (st.rows : ℚ) * ((st.originalImage.height : ℚ) / (st.rows : ℚ))
      = (st.originalImage.height : ℚ) := by field_simp
  refine ⟨getCropAreas_uniform_length st hmode, ?_, ?_, ?_, ?_⟩
  · -- inside the image
    intro a ha
    obtain ⟨i, hi⟩ := List.mem_iff_getElem?.mp ha
    obtain ⟨hlt, rfl⟩ := getCropAreas_uniform_cell st hmode hnone i a hi
    have hcolLt : i % st.cols < st.cols := Nat.mod_lt _ hcols
    have hrowLt : i / st.cols < st.rows := by
      rw [Nat.div_lt_iff_lt_mul hcols]; exact hlt
    have h1 : ((i % st.cols : ℕ) : ℚ) + 1 ≤ (st.cols : ℚ) := by exact_mod_cast hcolLt
    have h2 : ((i / st.cols : ℕ) : ℚ) + 1 ≤ (st.rows : ℚ) := by exact_mod_cast hrowLt
    have h3 : (0 : ℚ) ≤ ((i % st.cols : ℕ) : ℚ) := Nat.cast_nonneg _
    have h4 : (0 : ℚ) ≤ ((i / st.cols : ℕ) : ℚ) := Nat.cast_nonneg _
    refine ⟨mul_nonneg h3 hcw.le, mul_nonneg h4 hch.le, ?_, ?_⟩
    · show _ * _ + _ ≤ _
      nlinarith
    · show _ * _ + _ ≤ _
      nlinarith
  · -- disjoint interiors
    intro i j a b hi hj hij px py hboth
    obtain ⟨_, rfl⟩ := getCropAreas_uniform_cell st hmode hnone i a hi
    obtain ⟨_, rfl⟩ := getCropAreas_uniform_cell st hmode hnone j b hj
    obtain ⟨⟨ax1, ax2, ay1, ay2⟩, ⟨bx1, bx2, by1, by2⟩⟩ := hboth
    by_cases hcol : i % st.cols = j % st.cols
    · have hrow : i / st.cols ≠ j / st.cols := by
        intro hrow
        apply hij
        rw [← div_mod_index st.cols i, ← div_mod_index st.cols j, hrow, hcol]
      exact strip_disjoint _ hch _ _ hrow py ⟨ay1, ay2, by1, by2⟩
    · exact strip_disjoint _ hcw _ _ hcol px ⟨ax1, ax2, bx1, bx2⟩
  · -- every point is covered
    intro px py hx0 hxW hy0 hyH
    have hxW2 : px < (st.cols : ℝ) * (((st.originalImage.width : ℚ) / (st.cols : ℚ) : ℚ) : ℝ) := by
      have : ((st.cols : ℝ) * (((st.originalImage.width : ℚ) / (st.cols : ℚ) : ℚ) : ℝ))
          = (st.originalImage.width : ℝ) := by exact_mod_cast hcmul
      rw [this]; exact hxW
    have hyH2 : py < (st.rows : ℝ) * (((st.originalImage.height : ℚ) / (st.rows : ℚ) : ℚ) : ℝ) := by
      have : ((st.rows : ℝ) * (((st.originalImage.height : ℚ) / (st.rows : ℚ) : ℚ) : ℝ))
          = (st.originalImage.height : ℝ) := by exact_mod_cast hrmul
      rw [this]; exact hyH
    obtain ⟨col, hcolLt, hcx1, hcx2⟩ := strip_cover _ hcw st.cols px hx0 hxW2
    obtain ⟨row, hrowLt, hry1, hry2⟩ := strip_cover _ hch st.rows py hy0 hyH2
    have hidx : row * st.cols + col < st.rows * st.cols := by
      have : (row + 1) * st.cols ≤ st.rows * st.cols := Nat.mul_le_mul_right _ hrowLt
      rw [Nat.succ_mul] at this
      omega
    have hdiv : (row * st.cols + col) / st.cols = row := by
      rw [Nat.add_comm, Nat.add_mul_div_right _ _ hcols, Nat.div_eq_of_lt hcolLt, Nat.zero_add]
    have hmod : (row * st.cols + col) % st.cols = col := by
      rw [Nat.add_comm, Nat.add_mul_mod_self_right, Nat.mod_eq_of_lt hcolLt]
    refine ⟨row * st.cols + col, _, getCropAreas_uniform_getElem? st hmode _ hidx, ?_⟩
    rw [uniformCell_of_none st _ _ (hnone _), hdiv, hmod]
    exact ⟨hcx1, hcx2, hry1, hry2⟩
  · -- the areas add up
    have hall : ∀ v ∈ (getCropAreas st).map (fun a => a.width * a.height),
        v = (st.originalImage.width : ℚ) / (st.cols : ℚ)
              * ((st.originalImage.height : ℚ) / (st.rows : ℚ)) := by
      intro v hv
      obtain ⟨a, ha, rfl⟩ := List.mem_map.mp hv
      obtain ⟨i, hi⟩ := List.mem_iff_getElem?.mp ha
      obtain ⟨_, rfl⟩ := getCropAreas_uniform_cell st hmode hnone i a hi
      rfl
    rw [List.sum_eq_card_nsmul _ _ hall, List.length_map, getCropAreas_uniform_length st hmode]
    rw [nsmul_eq_mul]
    push_cast
    field_simp
    ring

theorem floor_index_div (i c : ℕ) : ⌊(((i : ℤ) : ℚ)) / (c : ℚ)⌋ = ((i / c : ℕ) : ℤ) := by
  rw [Rat.floor_intCast_div_natCast]
  exact (Int.natCast_div i c).symm

theorem tmod_index (i c : ℕ) : Int.tmod (i : ℤ) (c : ℤ) = ((i % c : ℕ) : ℤ) := by
  rw [Int.tmod_eq_emod (Int.natCast_nonneg i) (Int.natCast_nonneg c)]
  exact (Int.natCast_mod i c).symm

theorem arrayRead_nat (xs : List ℚ) (k : ℕ) (q : ℚ) (h : xs[k]? = some q) :
    arrayRead xs (k : ℤ) = JsNum.num q := by
  simp [arrayRead, h]

theorem clamp_spec (v lo hi : ℚ) (h : lo ≤ hi) :
    lo ≤ clamp v lo hi ∧ clamp v lo hi ≤ hi ∧
      (v ≤ lo → clamp v lo hi = lo) ∧ (hi ≤ v → clamp v lo hi = hi) ∧
      (lo ≤ v → v ≤ hi → clamp v lo hi = v) := by
  unfold clamp
  refine ⟨le_max_left _ _, max_le h (min_le_left _ _), ?_, ?_, ?_⟩
  · intro hv
    rw [max_eq_left]
    exact le_trans (min_le_right _ _) hv
  · intro hv
    rw [min_eq_left hv, max_eq_right h]
  · intro h1 h2
    rw [min_eq_right h2, max_eq_right h1]

/-- The derived (non-override) result of `getCellArea` at a non-negative index whose row
and column both have a centre line. -/
theorem getCellArea_derived (st : State) (i : ℕ)
    (hno : st.customAreas (i : ℤ) = none) (cx cy : ℚ)
    (hx : st.centerLinesX[i % st.cols]? = some cx)
    (hy : st.centerLinesY[i / st.cols]? = some cy) :
    getCellArea st (i : ℤ) = some
      { x := JsNum.num (max 0 (min ((st.originalImage.width : ℚ) - st.cellWidth)
                (cx - st.cellWidth / 2)))
        y := JsNum.num (max 0 (min ((st.originalImage.height : ℚ) - st.cellHeight)
                (cy - st.cellHeight / 2)))
        width := st.cellWidth
        height := st.cellHeight } := by
  have hxl : i % st.cols < st.centerLinesX.length := (List.getElem?_eq_some.mp hx).1
  have hyl : i / st.cols < st.centerLinesY.length := (List.getElem?_eq_some.mp hy).1
  have hguard : ¬ ((((i / st.cols : ℕ) : ℤ)) ≥ (st.centerLinesY.length : ℤ) ∨
      (((i % st.cols : ℕ) : ℤ)) ≥ (st.centerLinesX.length : ℤ)) := by
    intro h
    rcases h with h | h
    · have : st.centerLinesY.length ≤ i / st.cols := by exact_mod_cast h
      omega
    · have : st.centerLinesX.length ≤ i % st.cols := by exact_mod_cast h
      omega
  simp only [getCellArea, hno, floor_index_div, tmod_index, if_neg hguard,
    arrayRead_nat _ _ _ hx, arrayRead_nat _ _ _ hy, JsNum.sub, JsNum.mathMin, JsNum.mathMax]

/-- C3: with no override for index i, row = floor(i/cols) and col = i mod cols both having
a centre line, `getCellArea(i)` is the rectangle of size cellWidth x cellHeight whose
origin is `clamp(xs[col] - cellWidth/2, 0, W - cellWidth)`,
`clamp(ys[row] - cellHeight/2, 0, H - cellHeight)`. -/
theorem getCellArea_centerline (st : State) (i : ℕ) (hcols : 1 ≤ st.cols)
    (hno : st.customAreas (i : ℤ) = none) (cx cy : ℚ)
    (hx : st.centerLinesX[i % st.cols]? = some cx)
    (hy : st.centerLinesY[i / st.cols]? = some cy) :
    getCellArea st (i : ℤ) = some
      { x := JsNum.num (clamp (cx - st.cellWidth / 2) 0
                ((st.originalImage.width : ℚ) - st.cellWidth))
        y := JsNum.num (clamp (cy - st.cellHeight / 2) 0
                ((st.originalImage.height : ℚ) - st.cellHeight))
        width := st.cellWidth
        height := st.cellHeight } := by
  have _ := hcols
  rw [getCellArea_derived st i hno cx cy hx hy]
  rfl

theorem centerLineInner_spec (st : State) (cy : ℚ) (xs : List ℚ) :
    ∀ (idx : ℕ) (areas : List Area), areas.length = idx →
      (centerLineInner st cy xs idx areas).1 = idx + xs.length ∧
      (centerLineInner st cy xs idx areas).2.length = idx + xs.length ∧
      (∀ k, k < idx → (centerLineInner st cy xs idx areas).2[k]? = areas[k]?) ∧
      (∀ k cx, xs[k]? = some cx →
        (centerLineInner st cy xs idx areas).2[idx + k]?
          = some (centerLineCell st cy cx (idx + k))) := by
  induction xs with
  | nil =>
    intro idx areas hlen
    refine ⟨rfl, by simpa [centerLineInner] using hlen, fun k _ => rfl, ?_⟩
    intro k cx h
    simp at h
  | cons x rest ih =>
    intro idx areas hlen
    have hlen2 : (areas ++ [centerLineCell st cy x idx]).length = idx + 1 := by
      simp [hlen]
    obtain ⟨h1, h2, h3, h4⟩ := ih (idx + 1) _ hlen2
    simp only [centerLineInner]
    refine ⟨by rw [h1, List.length_cons]; omega, by rw [h2, List.length_cons]; omega, ?_, ?_⟩
    · intro k hk
      rw [h3 k (by omega), List.getElem?_append_left (by omega)]
    · intro k cx hk
      cases k with
      | zero =>
        simp only [List.getElem?_cons_zero, Option.some.injEq] at hk
        subst hk
        show (centerLineInner st cy rest (idx + 1) (areas ++ [centerLineCell st cy x idx])).2[idx]?
          = some (centerLineCell st cy x idx)
        rw [h3 idx (by omega), List.getElem?_append_right (by omega), hlen]
        simp
      | succ m =>
        rw [List.getElem?_cons_succ] at hk
        have := h4 m cx hk
        rw [show idx + (m + 1) = idx + 1 + m by omega]
        exact this

theorem centerLineOuter_spec (st : State) (ys : List ℚ) :
    ∀ (idx : ℕ) (areas : List Area), areas.length = idx →
      (centerLineOuter st ys idx areas).2.length
        = idx + ys.length * st.centerLinesX.length ∧
      (∀ k, k < idx → (centerLineOuter st ys idx areas).2[k]? = areas[k]?) ∧
      (∀ j k cy cx, ys[j]? = some cy → st.centerLinesX[k]? = some cx →
        (centerLineOuter st ys idx areas).2[idx + j * st.centerLinesX.length + k]?
          = some (centerLineCell st cy cx (idx + j * st.centerLinesX.length + k))) := by
  induction ys with
  | nil =>
    intro idx areas hlen
    refine ⟨by simpa [centerLineOuter] using hlen, fun k _ => rfl, ?_⟩
    intro j k cy cx h
    simp at h
  | cons y rest ih =>
    intro idx areas hlen
    obtain ⟨i1, i2, i3, i4⟩ := centerLineInner_spec st y st.centerLinesX idx areas hlen
    have hlen2 : (centerLineInner st y st.centerLinesX idx areas).2.length
        = (centerLineInner st y st.centerLinesX idx areas).1 := by rw [i1, i2]
    obtain ⟨o1, o2, o3⟩ := ih _ _ hlen2
    simp only [centerLineOuter]
    refine ⟨?_, ?_, ?_⟩
    · rw [o1, i1, List.length_cons, Nat.succ_mul]; omega
    · intro k hk
      rw [o2 k (by rw [i1]; omega), i3 k hk]
    · intro j k cy cx hj hk
      have hkl : k < st.centerLinesX.length := (List.getElem?_eq_some.mp hk).1
      cases j with
      | zero =>
        simp only [List.getElem?_cons_zero, Option.some.injEq] at hj
        subst hj
        rw [Nat.zero_mul, Nat.add_zero, o2 _ (by rw [i1]; omega)]
        exact i4 k cx hk
      | succ m =>
        rw [List.getElem?_cons_succ] at hj
        have := o3 m k cy cx hj hk
        rw [show idx + (m + 1) * st.centerLinesX.length + k
            = (centerLineInner st y st.centerLinesX idx areas).1
                + m * st.centerLinesX.length + k by
              rw [i1, Nat.succ_mul]; omega]
        exact this

theorem getCropAreas_centerline_length (st : State) (hmode : st.mode = Mode.centerline) :
    (getCropAreas st).length = st.centerLinesY.length * st.centerLinesX.length := by
  simp only [getCropAreas, hmode]
  have := (centerLineOuter_spec st st.centerLinesY 0 [] rfl).1
  simpa using this

theorem getCropAreas_centerline_getElem? (st : State) (hmode : st.mode = Mode.centerline)
    (i : ℕ) (h : i < st.centerLinesY.length * st.centerLinesX.length) :
    ∃ cy cx, st.centerLinesY[i / st.centerLinesX.length]? = some cy ∧
      st.centerLinesX[i % st.centerLinesX.length]? = some cx ∧
      (getCropAreas st)[i]? = some (centerLineCell st cy cx i) := by
  have hn : 0 < st.centerLinesX.length := by
    rcases Nat.eq_zero_or_pos st.centerLinesX.length with h0 | h0
    · rw [h0] at h; simp at h
    · exact h0
  have hj : i / st.centerLinesX.length < st.centerLinesY.length := by
    rw [Nat.div_lt_iff_lt_mul hn]; exact h
  have hk : i % st.centerLinesX.length < st.centerLinesX.length := Nat.mod_lt _ hn
  refine ⟨st.centerLinesY[i / st.centerLinesX.length], st.centerLinesX[i % st.centerLinesX.length],
    List.getElem?_eq_getElem hj, List.getElem?_eq_getElem hk, ?_⟩
  have := (centerLineOuter_spec st st.centerLinesY 0 [] rfl).2.2 _ _ _ _
    (List.getElem?_eq_getElem hj) (List.getElem?_eq_getElem hk)
  simp only [Nat.zero_add, div_mod_index] at this
  simp only [getCropAreas, hmode]
  exact this

/-- C1 at the 400x300, 3x2 example. -/
theorem getCropAreas_uniform_partition_witness :
    (getCropAreas uniformExample).length = uniformExample.rows * uniformExample.cols ∧
    (∀ a ∈ getCropAreas uniformExample,
      a.Inside (uniformExample.originalImage.width : ℚ)
        (uniformExample.originalImage.height : ℚ)) ∧
    (∀ (i j : ℕ) (a b : Area), (getCropAreas uniformExample)[i]? = some a →
      (getCropAreas uniformExample)[j]? = some b → i ≠ j →
      ∀ px py : ℝ, ¬ (a.InInterior px py ∧ b.InInterior px py)) ∧
    (∀ px py : ℝ, 0 ≤ px → px < (uniformExample.originalImage.width : ℝ) →
      0 ≤ py → py < (uniformExample.originalImage.height : ℝ) →
      ∃ (i : ℕ) (a : Area), (getCropAreas uniformExample)[i]? = some a ∧ a.Covers px py) ∧
    ((getCropAreas uniformExample).map fun a => a.width * a.height).sum
      = (uniformExample.originalImage.width : ℚ) * (uniformExample.originalImage.height : ℚ) :=
  getCropAreas_uniform_partition uniformExample rfl (fun _ => rfl)
    (by decide) (by decide) (by decide) (by decide)

/-- C2: in uniform mode `getCropAreas` returns exactly rows*cols areas, and for every
i in [0, rows*cols) without an override the area at position i is
`{x: (i mod cols) * W/cols, y: floor(i/cols) * H/rows, width: W/cols, height: H/rows}`. -/
theorem getCropAreas_uniform_area (st : State) (hmode : st.mode = Mode.uniform) (i : ℕ)
    (hi : i < st.rows * st.cols) (hno : st.customAreas (i : ℤ) = none) :
    (getCropAreas st).length = st.rows * st.cols ∧
    (getCropAreas st)[i]? = some
      { x := ((i % st.cols : ℕ) : ℚ) * (st.originalImage.width : ℚ) / (st.cols : ℚ)
        y := ((i / st.cols : ℕ) : ℚ) * (st.originalImage.height : ℚ) / (st.rows : ℚ)
        width := (st.originalImage.width : ℚ) / (st.cols : ℚ)
        height := (st.originalImage.height : ℚ) / (st.rows : ℚ) } := by
  refine ⟨getCropAreas_uniform_length st hmode, ?_⟩
  rw [getCropAreas_uniform_getElem? st hmode i hi,
    uniformCell_of_none st _ _ (by rw [div_mod_index]; exact hno)]
  simp only [mul_div_assoc]

/-- C2 at the specification's example: a 400x300 image with rows = 3, cols = 2 has 6
cells, cell 0 is `{0, 0, 200, 100}` and cell 5 is `{200, 200, 200, 100}`. -/
theorem getCropAreas_uniform_area_example :
    (getCropAreas uniformExample).length = 6 ∧
    (getCropAreas uniformExample)[0]? = some { x := 0, y := 0, width := 200, height := 100 } ∧
    (getCropAreas uniformExample)[5]?
      = some { x := 200, y := 200, width := 200, height := 100 } := by
  have h0 := getCropAreas_uniform_area uniformExample rfl 0 (by decide) rfl
  have h5 := getCropAreas_uniform_area uniformExample rfl 5 (by decide) rfl
  refine ⟨h0.1, ?_, ?_⟩
  · rw [h0.2]; simp [uniformExample]; norm_num
  · rw [h5.2]; simp [uniformExample]; norm_num

/-- C3 at the specification's example: centerLinesX = [50,150], centerLinesY = [50],
cols = 2, cellWidth = cellHeight = 80 and a 200x100 image give
`getCellArea(1) = {x:110, y:10, width:80, height:80}`. -/
theorem getCellArea_centerline_example :
    getCellArea centerExample 1
      = some { x := JsNum.num 110, y := JsNum.num 10, width := 80, height := 80 } := by
  have h := getCellArea_centerline centerExample 1 (by decide) rfl 150 50 rfl rfl
  have hx : clamp ((150 : ℚ) - 80 / 2) 0 (((200 : ℕ) : ℚ) - 80) = 110 := by
    unfold clamp; norm_num
  have hy : clamp ((50 : ℚ) - 80 / 2) 0 (((100 : ℕ) : ℚ) - 80) = 10 := by
    unfold clamp; norm_num
  simp only [centerExample] at h hx hy ⊢
  rw [hx, hy] at h
  exact h

theorem centerLineCell_of_none (st : State) (cy cx : ℚ) (idx : ℕ)
    (h : st.customAreas (idx : ℤ) = none) :
    centerLineCell st cy cx idx =
      { x := max 0 (min ((st.originalImage.width : ℚ) - st.cellWidth) (cx - st.cellWidth / 2))
        y := max 0 (min ((st.originalImage.height : ℚ) - st.cellHeight)
              (cy - st.cellHeight / 2))
        width := st.cellWidth
        height := st.cellHeight } := by
  simp only [centerLineCell, h]

theorem clamped_origin_bounds (dim size v : ℚ) :
    0 ≤ max 0 (min (dim - size) v) ∧ (size ≤ dim → max 0 (min (dim - size) v) + size ≤ dim) := by
  refine ⟨le_max_left _ _, ?_⟩
  intro h
  have h1 : max 0 (min (dim - size) v) ≤ dim - size :=
    max_le (by linarith) (min_le_left _ _)
  linarith

/-- C4: an entry of `customAreas` is returned verbatim, field for field, by `getCellArea`
at that index and as the i-th element of `getCropAreas` (in either mode), whatever the
grid parameters, centre lines, cell size and image bounds are. -/
theorem override_returned_verbatim (st : State) :
    (∀ (k : ℤ) (a : Area), st.customAreas k = some a →
      getCellArea st k = some a.toCellArea) ∧
    (∀ (i : ℕ) (a : Area), st.customAreas (i : ℤ) = some a →
      i < (getCropAreas st).length → (getCropAreas st)[i]? = some a) := by
  constructor
  · intro k a h
    simp only [getCellArea, h]
  · intro i a h hi
    cases hmode : st.mode with
    | uniform =>
      rw [getCropAreas_uniform_length st hmode] at hi
      rw [getCropAreas_uniform_getElem? st hmode i hi]
      have h2 : st.customAreas (((i / st.cols * st.cols + i % st.cols : ℕ)) : ℤ) = some a := by
        rw [div_mod_index]; exact h
      simp only [uniformCell, h2]
    | centerline =>
      rw [getCropAreas_centerline_length st hmode] at hi
      obtain ⟨cy, cx, _, _, hget⟩ := getCropAreas_centerline_getElem? st hmode i hi
      rw [hget]
      simp only [centerLineCell, h]

/-- C4 on a centre-line state whose override for cell 1 sticks out of the 200x100 image:
both functions return it unchanged. -/
theorem override_returned_verbatim_witness :
    getCellArea overrideExample 1
      = some { x := JsNum.num 190, y := JsNum.num (-5), width := 30, height := 7 } ∧
    (getCropAreas overrideExample)[1]?
      = some { x := 190, y := -5, width := 30, height := 7 } :=
  ⟨(override_returned_verbatim overrideExample).1 1 _ rfl,
   (override_returned_verbatim overrideExample).2 1 _ rfl (by decide)⟩

/-- C5, refuted as stated: on a 50x50 image with the 100x100 cell size the derived area
of cell 0 is `{0, 0, 100, 100}` in both functions, and it does not fit in the image. -/
theorem derived_area_exceeds_image :
    oversizeExample.customAreas 0 = none ∧
    (getCropAreas oversizeExample)[0]? = some { x := 0, y := 0, width := 100, height := 100 } ∧
    getCellArea oversizeExample 0
      = some { x := JsNum.num 0, y := JsNum.num 0, width := 100, height := 100 } ∧
    ¬ ((0 : ℚ) + 100 ≤ (oversizeExample.originalImage.width : ℚ)) := by
  refine ⟨rfl, ?_, ?_, ?_⟩
  · obtain ⟨cy, cx, hy, hx, hget⟩ :=
      getCropAreas_centerline_getElem? oversizeExample rfl 0 (by decide)
    rw [hget, centerLineCell_of_none _ _ _ _ rfl]
    simp only [oversizeExample]
    norm_num
  · rw [show (0 : ℤ) = ((0 : ℕ) : ℤ) from rfl,
      getCellArea_derived oversizeExample 0 rfl 25 25 rfl rfl]
    simp only [oversizeExample]
    norm_num
  · simp only [oversizeExample]
    norm_num

/-- C5, amended: a derived (non-overridden) centre-line area has width = cellWidth and
height = cellHeight exactly and an origin with 0 <= x and 0 <= y; x + width <= W holds
whenever cellWidth <= W, and y + height <= H whenever cellHeight <= H. This holds for the
i-th element of `getCropAreas` and for `getCellArea(i)` at an index whose row and column
have a centre line. -/
theorem centerline_derived_area_bounds (st : State) (i : ℕ)
    (hno : st.customAreas (i : ℤ) = none) :
    (st.mode = Mode.centerline → ∀ a : Area, (getCropAreas st)[i]? = some a →
      a.width = st.cellWidth ∧ a.height = st.cellHeight ∧ 0 ≤ a.x ∧ 0 ≤ a.y ∧
      (st.cellWidth ≤ (st.originalImage.width : ℚ) →
        a.x + a.width ≤ (st.originalImage.width : ℚ)) ∧
      (st.cellHeight ≤ (st.originalImage.height : ℚ) →
        a.y + a.height ≤ (st.originalImage.height : ℚ))) ∧
    (1 ≤ st.cols → i % st.cols < st.centerLinesX.length →
      i / st.cols < st.centerLinesY.length →
      ∃ x y : ℚ, getCellArea st (i : ℤ)
          = some { x := JsNum.num x, y := JsNum.num y,
                   width := st.cellWidth, height := st.cellHeight } ∧
        0 ≤ x ∧ 0 ≤ y ∧
        (st.cellWidth ≤ (st.originalImage.width : ℚ) →
          x + st.cellWidth ≤ (st.originalImage.width : ℚ)) ∧
        (st.cellHeight ≤ (st.originalImage.height : ℚ) →
          y + st.cellHeight ≤ (st.originalImage.height : ℚ))) := by
  constructor
  · intro hmode a ha
    have hi : i < st.centerLinesY.length * st.centerLinesX.length := by
      rw [← getCropAreas_centerline_length st hmode]
      exact (List.getElem?_eq_some.mp ha).1
    obtain ⟨cy, cx, _, _, hget⟩ := getCropAreas_centerline_getElem? st hmode i hi
    rw [hget, centerLineCell_of_none st _ _ _ hno] at ha
    have ha2 := (Option.some.inj ha).symm
    subst ha2
    exact ⟨rfl, rfl, (clamped_origin_bounds _ _ _).1, (clamped_origin_bounds _ _ _).1,
      (clamped_origin_bounds _ _ _).2, (clamped_origin_bounds _ _ _).2⟩
  · intro _ hx hy
    refine ⟨_, _, getCellArea_derived st i hno _ _ (List.getElem?_eq_getElem hx)
      (List.getElem?_eq_getElem hy), (clamped_origin_bounds _ _ _).1,
      (clamped_origin_bounds _ _ _).1, (clamped_origin_bounds _ _ _).2,
      (clamped_origin_bounds _ _ _).2⟩

/-- C5 (amended) at cell 1 of the centre-line example, where the 80x80 cell fits in the
200x100 image: the derived area is `{110, 10, 80, 80}` and lies inside the image. -/
theorem centerline_derived_area_bounds_witness :
    (getCropAreas centerExample)[1]? = some { x := 110, y := 10, width := 80, height := 80 } ∧
    (110 : ℚ) + 80 ≤ 200 ∧ (10 : ℚ) + 80 ≤ 100 := by
  have hget : (getCropAreas centerExample)[1]?
      = some { x := 110, y := 10, width := 80, height := 80 } := by
    obtain ⟨cy, cx, hy, hx, hget⟩ :=
      getCropAreas_centerline_getElem? centerExample rfl 1 (by decide)
    have hcy : cy = 50 := by
      have : (some (50 : ℚ)) = some cy := hy
      exact (Option.some.inj this).symm
    have hcx : cx = 150 := by
      have : (some (150 : ℚ)) = some cx := hx
      exact (Option.some.inj this).symm
    rw [hget, centerLineCell_of_none _ _ _ _ rfl, hcy, hcx]
    simp only [centerExample]
    norm_num
  obtain ⟨_, _, _, _, h5, h6⟩ :=
    (centerline_derived_area_bounds centerExample 1 rfl).1 rfl _ hget
  refine ⟨hget, ?_, ?_⟩
  · have := h5 (by simp only [centerExample]; norm_num)
    simpa [centerExample] using this
  · have := h6 (by simp only [centerExample]; norm_num)
    simpa [centerExample] using this

/-- C6, refuted as stated: index -1 is out of range and has no override, yet
`getCellArea(-1)` is not null; it is a rectangle whose x and y are NaN. -/
theorem getCellArea_negative_index_not_null :
    centerExample.customAreas (-1) = none ∧
    getCellArea centerExample (-1)
      = some { x := JsNum.nan, y := JsNum.nan, width := 80, height := 80 } := by
  refine ⟨rfl, ?_⟩
  have hrow : ⌊(((-1 : ℤ) : ℚ)) / ((2 : ℕ) : ℚ)⌋ = -1 := by
    rw [Rat.floor_intCast_div_natCast]; decide
  simp only [getCellArea, centerExample, hrow]
  decide

/-- C6, amended: for every index i >= 0 without an override whose row floor(i/cols) is
>= centerLinesY.length or whose column i mod cols is >= centerLinesX.length,
`getCellArea` returns null. -/
theorem getCellArea_out_of_range_null (st : State) (i : ℕ) (hcols : 1 ≤ st.cols)
    (hno : st.customAreas (i : ℤ) = none)
    (hout : st.centerLinesY.length ≤ i / st.cols ∨ st.centerLinesX.length ≤ i % st.cols) :
    getCellArea st (i : ℤ) = none := by
  have _ := hcols
  have hguard : (((i / st.cols : ℕ) : ℤ)) ≥ (st.centerLinesY.length : ℤ) ∨
      (((i % st.cols : ℕ) : ℤ)) ≥ (st.centerLinesX.length : ℤ) := by
    rcases hout with h | h
    · left; exact_mod_cast h
    · right; exact_mod_cast h
  simp only [getCellArea, hno, floor_index_div, tmod_index, if_pos hguard]

/-- C6 (amended) on the centre-line example: index 2 maps to row 1, beyond the single
row, and yields null. -/
theorem getCellArea_out_of_range_null_witness : getCellArea centerExample 2 = none :=
  getCellArea_out_of_range_null centerExample 2 (by decide) rfl (Or.inl (by decide))

/-! ## Colour matching -/

/-- The exact-arithmetic test of `colorMatch` is the source's comparison
`Math.sqrt(d) <= (tolerance / 100) * 441` on real numbers. -/
theorem colorMatch_iff_sqrt (r1 g1 b1 r2 g2 b2 : ℤ) (tolerance : ℚ) :
    colorMatch r1 g1 b1 r2 g2 b2 tolerance = true ↔
      Real.sqrt ((((r1 - r2) ^ 2 + (g1 - g2) ^ 2 + (b1 - b2) ^ 2 : ℤ)) : ℝ)
        ≤ ((tolerance : ℝ) / 100) * 441 := by
  rw [Real.sqrt_le_iff]
  simp only [colorMatch, maxDistance, decide_eq_true_eq]
  constructor
  · rintro ⟨h1, h2⟩
    constructor
    · have : ((0 : ℚ) : ℝ) ≤ ((tolerance / 100 * 441 : ℚ) : ℝ) := by exact_mod_cast h1
      simpa using this
    · have : (((((r1 - r2) ^ 2 + (g1 - g2) ^ 2 + (b1 - b2) ^ 2 : ℤ)) : ℚ) : ℝ)
          ≤ (((tolerance / 100 * 441) ^ 2 : ℚ) : ℝ) := by exact_mod_cast h2
      simpa using this
  · rintro ⟨h1, h2⟩
    constructor
    · have : ((0 : ℚ) : ℝ) ≤ ((tolerance / 100 * 441 : ℚ) : ℝ) := by simpa using h1
      exact_mod_cast this
    · have : (((((r1 - r2) ^ 2 + (g1 - g2) ^ 2 + (b1 - b2) ^ 2 : ℤ)) : ℚ) : ℝ)
          ≤ (((tolerance / 100 * 441) ^ 2 : ℚ) : ℝ) := by simpa using h2
      exact_mod_cast this

/-- C7: `colorMatch(c, c, tolerance)` is true for every colour c and every tolerance >= 0,
and `colorMatch(c1, c2, 0)` is true if and only if c1 = c2 channel by channel. -/
theorem colorMatch_self_and_zero_tolerance :
    (∀ (r g b : ℤ) (tolerance : ℚ), 0 ≤ tolerance →
      colorMatch r g b r g b tolerance = true) ∧
    (∀ r1 g1 b1 r2 g2 b2 : ℤ,
      colorMatch r1 g1 b1 r2 g2 b2 0 = true ↔ r1 = r2 ∧ g1 = g2 ∧ b1 = b2) := by
  constructor
  · intro r g b tolerance h
    simp only [colorMatch, maxDistance, decide_eq_true_eq, sub_self]
    constructor
    · positivity
    · norm_num
      positivity
  · intro r1 g1 b1 r2 g2 b2
    simp only [colorMatch, maxDistance, decide_eq_true_eq]
    norm_num
    constructor
    · intro h
      have h' : (r1 - r2) ^ 2 + (g1 - g2) ^ 2 + (b1 - b2) ^ 2 ≤ (0 : ℤ) := by exact_mod_cast h
      have hr : (r1 - r2) ^ 2 = 0 := by nlinarith [sq_nonneg (r1 - r2), sq_nonneg (g1 - g2), sq_nonneg (b1 - b2)]
      have hg : (g1 - g2) ^ 2 = 0 := by nlinarith [sq_nonneg (r1 - r2), sq_nonneg (g1 - g2), sq_nonneg (b1 - b2)]
      have hb : (b1 - b2) ^ 2 = 0 := by nlinarith [sq_nonneg (r1 - r2), sq_nonneg (g1 - g2), sq_nonneg (b1 - b2)]
      refine ⟨?_, ?_, ?_⟩
      · have := pow_eq_zero_iff (two_ne_zero) |>.mp hr; omega
      · have := pow_eq_zero_iff (two_ne_zero) |>.mp hg; omega
      · have := pow_eq_zero_iff (two_ne_zero) |>.mp hb; omega
    · rintro ⟨rfl, rfl, rfl⟩
      simp

/-- C7 at a concrete colour: (12, 200, 255) matches itself at tolerance 0, and does not
match (12, 200, 254) at tolerance 0. -/
theorem colorMatch_self_and_zero_tolerance_witness :
    colorMatch 12 200 255 12 200 255 0 = true ∧
    ¬ (colorMatch 12 200 255 12 200 254 0 = true) :=
  ⟨colorMatch_self_and_zero_tolerance.1 12 200 255 0 (le_refl 0),
   fun h => absurd ((colorMatch_self_and_zero_tolerance.2 12 200 255 12 200 254).mp h).2.2
     (by decide)⟩

/-- C8, evaluated at the failing input: at tolerance 100 black (0,0,0) and white
(255,255,255) do not match, although their Euclidean distance sqrt(255^2 * 3) is within
`(100/100) * sqrt(255^2 * 3)`. -/
theorem colorMatch_black_white_tolerance_100 :
    colorMatch 0 0 0 255 255 255 100 = false ∧
    Real.sqrt ((((0 - 255) ^ 2 + (0 - 255) ^ 2 + (0 - 255) ^ 2 : ℤ)) : ℝ)
      ≤ ((100 : ℝ) / 100) * Real.sqrt (255 ^ 2 * 3) := by
  constructor
  · simp only [colorMatch, maxDistance, decide_eq_false_iff_not]
    norm_num
  · apply le_of_eq
    norm_num

/-! ## Flood fill: the visited array and the scans -/

theorem isVisited_set (v : List Bool) (i j : ℕ) (hi : i < v.length) :
    isVisited (v.set i true) j = (decide (j = i) || isVisited v j) := by
  unfold isVisited
  rw [List.getD_eq_getElem?_getD, List.getD_eq_getElem?_getD, List.getElem?_set]
  by_cases h : i = j
  · subst h; simp [hi]
  · have h2 : ¬ j = i := fun e => h e.symm
    simp [h, h2]

theorem isVisited_set_mono (v : List Bool) (i j : ℕ) (h : isVisited v j = true) :
    isVisited (v.set i true) j = true := by
  unfold isVisited at *
  rw [List.getD_eq_getElem?_getD] at *
  rw [List.getElem?_set]
  by_cases hij : i = j
  · subst hij
    by_cases hl : i < v.length
    · simp [hl]
    · have : v[i]? = none := List.getElem?_eq_none (Nat.le_of_not_lt hl)
      rw [this] at h; simp at h
  · simp [hij, h]

theorem isVisited_replicate (n i : ℕ) : isVisited (List.replicate n false) i = false := by
  unfold isVisited
  rw [List.getD_eq_getElem?_getD, List.getElem?_replicate]
  by_cases h : i < n <;> simp [h]

theorem scanLeft_spec (m : ℕ → Bool) (v : List Bool) (w y : ℕ) (x : ℕ) :
    scanLeft m v w y x ≤ x ∧
    (∀ fx, scanLeft m v w y x ≤ fx → fx < x →
      isVisited v (y * w + fx) = false ∧ m (y * w + fx) = true) ∧
    (∀ k, scanLeft m v w y x = k + 1 →
      isVisited v (y * w + k) = true ∨ m (y * w + k) = false) := by
  induction x with
  | zero =>
    refine ⟨le_refl _, fun fx _ h => absurd h (Nat.not_lt_zero _), ?_⟩
    intro k hk
    simp [scanLeft] at hk
  | succ n ih =>
    unfold scanLeft
    by_cases hv : isVisited v (y * w + n) = true
    · simp only [hv, if_true]
      refine ⟨le_refl _, fun fx h1 h2 => by omega, ?_⟩
      intro k hk
      have : k = n := by omega
      subst this
      exact Or.inl hv
    · by_cases hm : m (y * w + n) = true
      · simp only [hv, hm, Bool.not_true, if_false, Bool.false_eq_true]
        obtain ⟨h1, h2, h3⟩ := ih
        refine ⟨Nat.le_succ_of_le h1, ?_, h3⟩
        intro fx hfx hlt
        by_cases hfn : fx = n
        · subst hfn
          exact ⟨by simpa using hv, hm⟩
        · exact h2 fx hfx (by omega)
      · have hm' : m (y * w + n) = false := by simpa using hm
        simp only [hv, hm', Bool.not_false, if_true, if_false, Bool.false_eq_true]
        refine ⟨le_refl _, fun fx h1 h2 => by omega, ?_⟩
        intro k hk
        have : k = n := by omega
        subst this
        exact Or.inr hm'

theorem scanRight_spec (m : ℕ → Bool) (v : List Bool) (w y : ℕ) :
    ∀ (fuel x : ℕ), x < w → w ≤ x + 1 + fuel →
      x ≤ scanRight m v w y fuel x ∧ scanRight m v w y fuel x < w ∧
      (∀ fx, x < fx → fx ≤ scanRight m v w y fuel x →
        isVisited v (y * w + fx) = false ∧ m (y * w + fx) = true) ∧
      (scanRight m v w y fuel x + 1 < w →
        isVisited v (y * w + (scanRight m v w y fuel x + 1)) = true ∨
          m (y * w + (scanRight m v w y fuel x + 1)) = false) := by
  intro fuel
  induction fuel with
  | zero =>
    intro x hx hf
    simp only [scanRight]
    exact ⟨le_refl _, hx, fun fx h1 h2 => by omega, fun h => by omega⟩
  | succ n ih =>
    intro x hx hf
    by_cases hlt : x + 1 < w
    · by_cases hv : isVisited v (y * w + (x + 1)) = true
      · have hres : scanRight m v w y (n + 1) x = x := by
          simp only [scanRight, hlt, hv, if_true]
        rw [hres]
        exact ⟨le_refl _, hx, fun fx h1 h2 => by omega, fun _ => Or.inl hv⟩
      · by_cases hm : m (y * w + (x + 1)) = true
        · have hres : scanRight m v w y (n + 1) x = scanRight m v w y n (x + 1) := by
            simp only [scanRight, hlt, hv, hm, Bool.not_true, if_true, if_false,
              Bool.false_eq_true]
          rw [hres]
          obtain ⟨h1, h2, h3, h4⟩ := ih (x + 1) hlt (by omega)
          refine ⟨by omega, h2, ?_, h4⟩
          intro fx hfx hle
          by_cases hfn : fx = x + 1
          · subst hfn
            exact ⟨by simpa using hv, hm⟩
          · exact h3 fx (by omega) hle
        · have hm' : m (y * w + (x + 1)) = false := by simpa using hm
          have hres : scanRight m v w y (n + 1) x = x := by
            simp only [scanRight, hlt, hv, hm', Bool.not_false, if_true, if_false,
              Bool.false_eq_true]
          rw [hres]
          exact ⟨le_refl _, hx, fun fx h1 h2 => by omega, fun _ => Or.inr hm'⟩
    · have hres : scanRight m v w y (n + 1) x = x := by
        simp only [scanRight, hlt, if_false]
      rw [hres]
      exact ⟨le_refl _, hx, fun fx h1 h2 => by omega, fun h => by omega⟩

theorem markRun_spec (w y : ℕ) (fxs : List ℕ) :
    ∀ (v : List Bool) (t : List ℕ), fxs.Nodup →
      (∀ fx ∈ fxs, isVisited v (y * w + fx) = false ∧ y * w + fx < v.length) →
      (markRun w y fxs (v, t)).2 = t ++ fxs.map (fun fx => y * w + fx) ∧
      (markRun w y fxs (v, t)).1.length = v.length ∧
      (∀ j, isVisited (markRun w y fxs (v, t)).1 j = true ↔
        (isVisited v j = true ∨ ∃ fx ∈ fxs, j = y * w + fx)) := by
  induction fxs with
  | nil =>
    intro v t _ _
    simp [markRun]
  | cons a rest ih =>
    intro v t hnd hall
    have ha := hall a (List.mem_cons_self _ _)
    have hnd' : rest.Nodup := (List.nodup_cons.mp hnd).2
    have hnotin : a ∉ rest := (List.nodup_cons.mp hnd).1
    have hall' : ∀ fx ∈ rest, isVisited (v.set (y * w + a) true) (y * w + fx) = false ∧
        y * w + fx < (v.set (y * w + a) true).length := by
      intro fx hfx
      have hf := hall fx (List.mem_cons_of_mem _ hfx)
      have hne : fx ≠ a := fun e => hnotin (e ▸ hfx)
      rw [isVisited_set v _ _ ha.2, List.length_set]
      refine ⟨?_, hf.2⟩
      have : ¬ (y * w + fx = y * w + a) := by omega
      simp [this, hf.1]
    obtain ⟨h1, h2, h3⟩ := ih (v.set (y * w + a) true) (t ++ [y * w + a]) hnd' hall'
    have hstep : markRun w y (a :: rest) (v, t)
        = markRun w y rest (v.set (y * w + a) true, t ++ [y * w + a]) := by
      simp only [markRun, ha.1, Bool.not_false, if_true]
    rw [hstep]
    refine ⟨by rw [h1]; simp, by rw [h2, List.length_set], ?_⟩
    intro j
    rw [h3 j, isVisited_set v _ _ ha.2]
    constructor
    · rintro (h | ⟨fx, hfx, rfl⟩)
      · rcases Bool.or_eq_true _ _ ▸ h with h | h
        · right; exact ⟨a, List.mem_cons_self _ _, by simpa using h⟩
        · left; exact h
      · right; exact ⟨fx, List.mem_cons_of_mem _ hfx, rfl⟩
    · rintro (h | ⟨fx, hfx, rfl⟩)
      · left; simp [h]
      · rcases List.mem_cons.mp hfx with rfl | h
        · left; simp
        · right; exact ⟨fx, h, rfl⟩

theorem pushNeighbours_spec (v : List Bool) (w h y : ℕ) (fxs : List ℕ) :
    ∀ (stack : List (ℤ × ℤ)),
      (pushNeighbours v w h y fxs stack).length ≤ stack.length + 2 * fxs.length ∧
      (∀ e ∈ stack, e ∈ pushNeighbours v w h y fxs stack) ∧
      (∀ e ∈ pushNeighbours v w h y fxs stack, e ∈ stack ∨
        ∃ fx ∈ fxs, (e = ((fx : ℤ), (y : ℤ) - 1) ∧ 0 < y) ∨
          (e = ((fx : ℤ), (y : ℤ) + 1) ∧ y + 1 < h)) ∧
      (∀ fx ∈ fxs,
        (0 < y → isVisited v ((y - 1) * w + fx) = true ∨
          ((fx : ℤ), (y : ℤ) - 1) ∈ pushNeighbours v w h y fxs stack) ∧
        (y + 1 < h → isVisited v ((y + 1) * w + fx) = true ∨
          ((fx : ℤ), (y : ℤ) + 1) ∈ pushNeighbours v w h y fxs stack)) := by
  induction fxs with
  | nil =>
    intro stack
    simp [pushNeighbours]
  | cons a rest ih =>
    intro stack
    -- the two conditional pushes for `a`
    let s1 : List (ℤ × ℤ) :=
      if y > 0 ∧ (!isVisited v ((y - 1) * w + a)) = true then ((a : ℤ), (y : ℤ) - 1) :: stack
      else stack
    let s2 : List (ℤ × ℤ) :=
      if y + 1 < h ∧ (!isVisited v ((y + 1) * w + a)) = true then ((a : ℤ), (y : ℤ) + 1) :: s1
      else s1
    have hstep : pushNeighbours v w h y (a :: rest) stack = pushNeighbours v w h y rest s2 := rfl
    have hs1len : s1.length ≤ stack.length + 1 := by
      show (if _ then _ else _ : List (ℤ × ℤ)).length ≤ _
      split_ifs <;> simp
    have hs2len : s2.length ≤ s1.length + 1 := by
      show (if _ then _ else _ : List (ℤ × ℤ)).length ≤ _
      split_ifs <;> simp
    have hs1sub : ∀ e ∈ stack, e ∈ s1 := by
      intro e he
      show e ∈ (if _ then _ else _ : List (ℤ × ℤ))
      split_ifs
      · exact List.mem_cons_of_mem _ he
      · exact he
    have hs2sub : ∀ e ∈ s1, e ∈ s2 := by
      intro e he
      show e ∈ (if _ then _ else _ : List (ℤ × ℤ))
      split_ifs
      · exact List.mem_cons_of_mem _ he
      · exact he
    have hs1mem : ∀ e ∈ s1, e ∈ stack ∨ (e = ((a : ℤ), (y : ℤ) - 1) ∧ 0 < y) := by
      intro e he
      have he' : e ∈ (if y > 0 ∧ (!isVisited v ((y - 1) * w + a)) = true
          then ((a : ℤ), (y : ℤ) - 1) :: stack else stack) := he
      split_ifs at he' with hc
      · rcases List.mem_cons.mp he' with h1 | h1
        · exact Or.inr ⟨h1, hc.1⟩
        · exact Or.inl h1
      · exact Or.inl he'
    have hs2mem : ∀ e ∈ s2, e ∈ s1 ∨ (e = ((a : ℤ), (y : ℤ) + 1) ∧ y + 1 < h) := by
      intro e he
      have he' : e ∈ (if y + 1 < h ∧ (!isVisited v ((y + 1) * w + a)) = true
          then ((a : ℤ), (y : ℤ) + 1) :: s1 else s1) := he
      split_ifs at he' with hc
      · rcases List.mem_cons.mp he' with h1 | h1
        · exact Or.inr ⟨h1, hc.1⟩
        · exact Or.inl h1
      · exact Or.inl he'
    have hup : 0 < y → isVisited v ((y - 1) * w + a) = true ∨ ((a : ℤ), (y : ℤ) - 1) ∈ s1 := by
      intro hy
      by_cases hv : isVisited v ((y - 1) * w + a) = true
      · exact Or.inl hv
      · right
        show _ ∈ (if _ then _ else _ : List (ℤ × ℤ))
        rw [if_pos ⟨hy, by simpa using hv⟩]
        exact List.mem_cons_self _ _
    have hdown : y + 1 < h →
        isVisited v ((y + 1) * w + a) = true ∨ ((a : ℤ), (y : ℤ) + 1) ∈ s2 := by
      intro hy
      by_cases hv : isVisited v ((y + 1) * w + a) = true
      · exact Or.inl hv
      · right
        show _ ∈ (if _ then _ else _ : List (ℤ × ℤ))
        rw [if_pos ⟨hy, by simpa using hv⟩]
        exact List.mem_cons_self _ _
    obtain ⟨r1, r2, r3, r4⟩ := ih s2
    rw [hstep]
    refine ⟨?_, ?_, ?_, ?_⟩
    · simp only [List.length_cons]; omega
    · intro e he
      exact r2 e (hs2sub e (hs1sub e he))
    · intro e he
      rcases r3 e he with h1 | ⟨fx, hfx, h1⟩
      · rcases hs2mem e h1 with h2 | h2
        · rcases hs1mem e h2 with h3 | h3
          · exact Or.inl h3
          · exact Or.inr ⟨a, List.mem_cons_self _ _, Or.inl h3⟩
        · exact Or.inr ⟨a, List.mem_cons_self _ _, Or.inr h2⟩
      · exact Or.inr ⟨fx, List.mem_cons_of_mem _ hfx, h1⟩
    · intro fx hfx
      rcases List.mem_cons.mp hfx with rfl | hfx
      · constructor
        · intro hy
          rcases hup hy with h1 | h1
          · exact Or.inl h1
          · exact Or.inr (r2 _ (hs2sub _ h1))
        · intro hy
          rcases hdown hy with h1 | h1
          · exact Or.inl h1
          · exact Or.inr (r2 _ h1)
      · exact r4 fx hfx

/-! ## Flood fill: one iteration -/

theorem pixel_index_lt (w h x y : ℕ) (hx : x < w) (hy : y < h) : y * w + x < w * h := by
  have h1 : (y + 1) * w ≤ h * w := Nat.mul_le_mul_right _ hy
  rw [Nat.succ_mul] at h1
  rw [Nat.mul_comm w h]
  omega

theorem pixel_index_inj (w x y x2 y2 : ℕ) (hx : x < w) (hx2 : x2 < w)
    (h : y * w + x = y2 * w + x2) : x = x2 ∧ y = y2 := by
  have hw : 0 < w := by omega
  have e1 : (y * w + x) % w = x := by
    rw [Nat.add_comm, Nat.add_mul_mod_self_right, Nat.mod_eq_of_lt hx]
  have e2 : (y2 * w + x2) % w = x2 := by
    rw [Nat.add_comm, Nat.add_mul_mod_self_right, Nat.mod_eq_of_lt hx2]
  have e3 : (y * w + x) / w = y := by
    rw [Nat.add_comm, Nat.add_mul_div_right _ _ hw, Nat.div_eq_of_lt hx, Nat.zero_add]
  have e4 : (y2 * w + x2) / w = y2 := by
    rw [Nat.add_comm, Nat.add_mul_div_right _ _ hw, Nat.div_eq_of_lt hx2, Nat.zero_add]
  constructor
  · rw [← e1, ← e2, h]
  · rw [← e3, ← e4, h]

theorem isVisited_lt_length (v : List Bool) (i : ℕ) (h : isVisited v i = true) :
    i < v.length := by
  by_contra hn
  unfold isVisited at h
  rw [List.getD_eq_getElem?_getD, List.getElem?_eq_none (Nat.le_of_not_lt hn)] at h
  simp at h

/-- What one iteration of the stack loop does to a state whose top of stack is `(x, y)`:
it discards the seed (out of range or visited), or marks a non-matching pixel visited, or
processes the maximal run `l .. r` of unvisited matching pixels around the seed. -/
theorem fillStep_cases (m : ℕ → Bool) (w h : ℕ) (s : FillState) (x y : ℤ)
    (rest : List (ℤ × ℤ)) (hs : s.stack = (x, y) :: rest)
    (hlen : s.visited.length = w * h) :
    ((x < 0 ∨ x ≥ (w : ℤ) ∨ y < 0 ∨ y ≥ (h : ℤ) ∨
        isVisited s.visited (y.toNat * w + x.toNat) = true) ∧
      fillStep m w h s = { s with stack := rest }) ∨
    (0 ≤ x ∧ x < (w : ℤ) ∧ 0 ≤ y ∧ y < (h : ℤ) ∧
      isVisited s.visited (y.toNat * w + x.toNat) = false ∧
      m (y.toNat * w + x.toNat) = false ∧
      fillStep m w h s
        = { s with visited := s.visited.set (y.toNat * w + x.toNat) true, stack := rest }) ∨
    (0 ≤ x ∧ x < (w : ℤ) ∧ 0 ≤ y ∧ y < (h : ℤ) ∧
      ∃ l r : ℕ, l ≤ x.toNat ∧ x.toNat ≤ r ∧ r < w ∧
        (∀ fx, l ≤ fx → fx ≤ r →
          isVisited s.visited (y.toNat * w + fx) = false ∧ m (y.toNat * w + fx) = true) ∧
        (∀ k, l = k + 1 →
          isVisited s.visited (y.toNat * w + k) = true ∨ m (y.toNat * w + k) = false) ∧
        (r + 1 < w →
          isVisited s.visited (y.toNat * w + (r + 1)) = true ∨
            m (y.toNat * w + (r + 1)) = false) ∧
        (fillStep m w h s).toRemove
          = s.toRemove ++ (List.range' l (r + 1 - l)).map (fun fx => y.toNat * w + fx) ∧
        (fillStep m w h s).visited.length = s.visited.length ∧
        (∀ j, isVisited (fillStep m w h s).visited j = true ↔
          (isVisited s.visited j = true ∨ ∃ fx, l ≤ fx ∧ fx ≤ r ∧ j = y.toNat * w + fx)) ∧
        (fillStep m w h s).stack
          = pushNeighbours (fillStep m w h s).visited w h y.toNat
              (List.range' l (r + 1 - l)) rest) := by
  by_cases hb : x < 0 ∨ x ≥ (w : ℤ) ∨ y < 0 ∨ y ≥ (h : ℤ)
  · left
    refine ⟨?_, ?_⟩
    · rcases hb with h1 | h1 | h1 | h1
      · exact Or.inl h1
      · exact Or.inr (Or.inl h1)
      · exact Or.inr (Or.inr (Or.inl h1))
      · exact Or.inr (Or.inr (Or.inr (Or.inl h1)))
    · simp only [fillStep, hs, if_pos hb]
  · have hx0 : 0 ≤ x := by by_contra hc; exact hb (Or.inl (by omega))
    have hxw : x < (w : ℤ) := by by_contra hc; exact hb (Or.inr (Or.inl (by omega)))
    have hy0 : 0 ≤ y := by by_contra hc; exact hb (Or.inr (Or.inr (Or.inl (by omega))))
    have hyh : y < (h : ℤ) := by by_contra hc; exact hb (Or.inr (Or.inr (Or.inr (by omega))))
    have hxn : x.toNat < w := by omega
    have hyn : y.toNat < h := by omega
    by_cases hv : isVisited s.visited (y.toNat * w + x.toNat) = true
    · left
      refine ⟨Or.inr (Or.inr (Or.inr (Or.inr hv))), ?_⟩
      simp only [fillStep, hs, if_neg hb, hv, if_true]
    · have hv' : isVisited s.visited (y.toNat * w + x.toNat) = false := by simpa using hv
      by_cases hm : m (y.toNat * w + x.toNat) = true
      · right; right
        refine ⟨hx0, hxw, hy0, hyh, scanLeft m s.visited w y.toNat x.toNat,
          scanRight m s.visited w y.toNat w x.toNat, ?_⟩
        obtain ⟨l1, l2, l3⟩ := scanLeft_spec m s.visited w y.toNat x.toNat
        obtain ⟨r1, r2, r3, r4⟩ :=
          scanRight_spec m s.visited w y.toNat w x.toNat hxn (by omega)
        have hrun : ∀ fx, scanLeft m s.visited w y.toNat x.toNat ≤ fx →
            fx ≤ scanRight m s.visited w y.toNat w x.toNat →
            isVisited s.visited (y.toNat * w + fx) = false ∧ m (y.toNat * w + fx) = true := by
          intro fx h1 h2
          rcases Nat.lt_trichotomy fx x.toNat with h3 | h3 | h3
          · exact l2 fx h1 h3
          · subst h3; exact ⟨hv', hm⟩
          · exact r3 fx h3 h2
        have hmark := markRun_spec w y.toNat
          (List.range' (scanLeft m s.visited w y.toNat x.toNat)
            (scanRight m s.visited w y.toNat w x.toNat + 1
              - scanLeft m s.visited w y.toNat x.toNat))
          s.visited s.toRemove (List.nodup_range' _ _)
          (by
            intro fx hfx
            rw [List.mem_range'_1] at hfx
            refine ⟨(hrun fx hfx.1 (by omega)).1, ?_⟩
            rw [hlen]
            exact pixel_index_lt w h fx y.toNat (by omega) hyn)
        have hstep : fillStep m w h s =
            { visited := (markRun w y.toNat
                (List.range' (scanLeft m s.visited w y.toNat x.toNat)
                  (scanRight m s.visited w y.toNat w x.toNat + 1
                    - scanLeft m s.visited w y.toNat x.toNat))
                (s.visited, s.toRemove)).1
              toRemove := (markRun w y.toNat
                (List.range' (scanLeft m s.visited w y.toNat x.toNat)
                  (scanRight m s.visited w y.toNat w x.toNat + 1
                    - scanLeft m s.visited w y.toNat x.toNat))
                (s.visited, s.toRemove)).2
              stack := pushNeighbours (markRun w y.toNat
                (List.range' (scanLeft m s.visited w y.toNat x.toNat)
                  (scanRight m s.visited w y.toNat w x.toNat + 1
                    - scanLeft m s.visited w y.toNat x.toNat))
                (s.visited, s.toRemove)).1 w h y.toNat
                (List.range' (scanLeft m s.visited w y.toNat x.toNat)
                  (scanRight m s.visited w y.toNat w x.toNat + 1
                    - scanLeft m s.visited w y.toNat x.toNat)) rest } := by
          simp only [fillStep, hs, if_neg hb, hv', hm, Bool.not_true, if_false,
            Bool.false_eq_true]
        rw [hstep]
        refine ⟨l1, r1, r2, hrun, l3, r4, hmark.1, hmark.2.1, ?_, rfl⟩
        intro j
        rw [hmark.2.2 j]
        constructor
        · rintro (h1 | ⟨fx, hfx, rfl⟩)
          · exact Or.inl h1
          · rw [List.mem_range'_1] at hfx
            exact Or.inr ⟨fx, hfx.1, by omega, rfl⟩
        · rintro (h1 | ⟨fx, h1, h2, rfl⟩)
          · exact Or.inl h1
          · exact Or.inr ⟨fx, by rw [List.mem_range'_1]; omega, rfl⟩
      · have hm' : m (y.toNat * w + x.toNat) = false := by simpa using hm
        right; left
        refine ⟨hx0, hxw, hy0, hyh, hv', hm', ?_⟩
        simp only [fillStep, hs, if_neg hb, hv', hm', Bool.not_false, if_true, if_false,
          Bool.false_eq_true]

theorem nodup_bounded_length (l : List ℕ) (n : ℕ) (hnd : l.Nodup) (hb : ∀ p ∈ l, p < n) :
    l.length ≤ n := by
  have hsub : l ⊆ List.range n := fun p hp => List.mem_range.mpr (hb p hp)
  have := (List.subperm_of_subset hnd hsub).length_le
  simpa using this

theorem FillInv.toRemove_length_le {m : ℕ → Bool} {w h : ℕ} {s : FillState}
    (hinv : FillInv m w h s) : s.toRemove.length ≤ w * h := by
  apply nodup_bounded_length _ _ hinv.nodup
  intro p hp
  rw [← hinv.lenV]
  exact isVisited_lt_length _ _ (hinv.remVis p hp)

theorem run_borderConnected (m : ℕ → Bool) (w h yn xn l r : ℕ)
    (hbc : BorderConnected m w h (xn, yn)) (hr : r < w) (hyn : yn < h)
    (hm : ∀ fx, l ≤ fx → fx ≤ r → m (yn * w + fx) = true) :
    ∀ fx, l ≤ fx → fx ≤ r → l ≤ xn → xn ≤ r → BorderConnected m w h (fx, yn) := by
  have hleft : ∀ d, d ≤ xn → l ≤ xn - d → xn ≤ r → BorderConnected m w h (xn - d, yn) := by
    intro d
    induction d with
    | zero => intro _ _ _; exact hbc
    | succ n ih =>
      intro h1 h2 h3
      have hq := ih (by omega) (by omega) h3
      refine BorderConnected.step (xn - n, yn) (xn - (n + 1), yn) hq ?_ ?_ hyn ?_
      · left
        exact ⟨rfl, Or.inr (by show xn - (n + 1) + 1 = xn - n; omega)⟩
      · show xn - (n + 1) < w
        omega
      · exact hm _ h2 (by omega)
  have hright : ∀ d, xn + d ≤ r → l ≤ xn → BorderConnected m w h (xn + d, yn) := by
    intro d
    induction d with
    | zero => intro _ _; exact hbc
    | succ n ih =>
      intro h1 h2
      have hq := ih (by omega) h2
      refine BorderConnected.step (xn + n, yn) (xn + (n + 1), yn) hq ?_ ?_ hyn ?_
      · left
        exact ⟨rfl, Or.inl (by show xn + n + 1 = xn + (n + 1); omega)⟩
      · show xn + (n + 1) < w
        omega
      · exact hm _ (by omega) h1
  intro fx h1 h2 h3 h4
  rcases Nat.le_total fx xn with h5 | h5
  · have := hleft (xn - fx) (by omega) (by omega) h4
    rwa [show xn - (xn - fx) = fx by omega] at this
  · have := hright (fx - xn) (by omega) h3
    rwa [show xn + (fx - xn) = fx by omega] at this

theorem BorderConnected.bounds {m : ℕ → Bool} {w h : ℕ} {p : ℕ × ℕ}
    (hp : BorderConnected m w h p) :
    p.1 < w ∧ p.2 < h ∧ m (p.2 * w + p.1) = true := by
  cases hp with
  | border _ hx hy _ hm => exact ⟨hx, hy, hm⟩
  | step _ _ _ _ hx hy hm => exact ⟨hx, hy, hm⟩

theorem pending_step (v v2 : List Bool) (stack2 rest : List (ℤ × ℤ)) (x y : ℤ) (w h : ℕ)
    (hmono : ∀ j, isVisited v j = true → isVisited v2 j = true)
    (hrest : ∀ e ∈ rest, e ∈ stack2)
    (hpop : ∀ qx qy : ℕ, x = (qx : ℤ) → y = (qy : ℤ) → qx < w → qy < h →
      isVisited v2 (qy * w + qx) = true)
    (qx qy : ℕ) (hqx : qx < w) (hqy : qy < h)
    (hq : isVisited v (qy * w + qx) = true ∨ ((qx : ℤ), (qy : ℤ)) ∈ (x, y) :: rest) :
    isVisited v2 (qy * w + qx) = true ∨ ((qx : ℤ), (qy : ℤ)) ∈ stack2 := by
  rcases hq with h1 | h1
  · exact Or.inl (hmono _ h1)
  · rcases List.mem_cons.mp h1 with h2 | h2
    · have hx : x = (qx : ℤ) := (congrArg Prod.fst h2).symm
      have hy : y = (qy : ℤ) := (congrArg Prod.snd h2).symm
      exact Or.inl (hpop qx qy hx hy hqx hqy)
    · exact Or.inr (hrest _ h2)

/-- One iteration of the stack loop on a non-empty stack keeps the invariant and
decreases the measure. -/
theorem fillStep_inv (m : ℕ → Bool) (w h : ℕ) (s : FillState) (x y : ℤ)
    (rest : List (ℤ × ℤ)) (hs : s.stack = (x, y) :: rest) (hinv : FillInv m w h s) :
    FillInv m w h (fillStep m w h s) ∧
      fillMeasure w h (fillStep m w h s) < fillMeasure w h s := by
  rcases fillStep_cases m w h s x y rest hs hinv.lenV with
    ⟨hc, he⟩ | ⟨hx0, hxw, hy0, hyh, hv, hm, he⟩ |
    ⟨hx0, hxw, hy0, hyh, l, r, hl, hr, hrw, hrun, hlend, hrend, htr, hvlen, hvis, hstk⟩
  · -- the seed is discarded
    have hpop : ∀ qx qy : ℕ, x = (qx : ℤ) → y = (qy : ℤ) → qx < w → qy < h →
        isVisited s.visited (qy * w + qx) = true := by
      intro qx qy hx hy hqx hqy
      subst hx; subst hy
      rcases hc with h1 | h1 | h1 | h1 | h1
      · omega
      · omega
      · omega
      · omega
      · simpa using h1
    rw [he]
    refine ⟨?_, ?_⟩
    · exact
        { lenV := hinv.lenV
          remVis := hinv.remVis
          nodup := hinv.nodup
          remBC := hinv.remBC
          stackBC := fun qx qy hmem =>
            hinv.stackBC qx qy (by rw [hs]; exact List.mem_cons_of_mem _ hmem)
          visM := hinv.visM
          brd := fun qx qy hqx hqy hb =>
            pending_step s.visited s.visited rest rest x y w h (fun _ hj => hj)
              (fun _ he => he) hpop qx qy hqx hqy
              (by have := hinv.brd qx qy hqx hqy hb; rwa [hs] at this)
          nbr := fun px py qx qy hpx hpy hmem hadj hqx hqy hmq =>
            pending_step s.visited s.visited rest rest x y w h (fun _ hj => hj)
              (fun _ he => he) hpop qx qy hqx hqy
              (by have := hinv.nbr px py qx qy hpx hpy hmem hadj hqx hqy hmq
                  rwa [hs] at this) }
    · simp only [fillMeasure, hs, List.length_cons]
      omega
  · -- a non-matching pixel is marked visited
    have hxn : x.toNat < w := by omega
    have hyn : y.toNat < h := by omega
    have hidx : y.toNat * w + x.toNat < s.visited.length := by
      rw [hinv.lenV]; exact pixel_index_lt w h _ _ hxn hyn
    have hpop : ∀ qx qy : ℕ, x = (qx : ℤ) → y = (qy : ℤ) → qx < w → qy < h →
        isVisited (s.visited.set (y.toNat * w + x.toNat) true) (qy * w + qx) = true := by
      intro qx qy hx hy _ _
      subst hx; subst hy
      rw [isVisited_set _ _ _ hidx]
      simp
    rw [he]
    refine ⟨?_, ?_⟩
    · exact
        { lenV := by rw [List.length_set]; exact hinv.lenV
          remVis := fun p hp => isVisited_set_mono _ _ _ (hinv.remVis p hp)
          nodup := hinv.nodup
          remBC := hinv.remBC
          stackBC := fun qx qy hmem =>
            hinv.stackBC qx qy (by rw [hs]; exact List.mem_cons_of_mem _ hmem)
          visM := by
            intro p hvp hmp
            have hvp2 : isVisited (s.visited.set (y.toNat * w + x.toNat) true) p = true := hvp
            rw [isVisited_set _ _ _ hidx] at hvp2
            by_cases hpe : p = y.toNat * w + x.toNat
            · rw [hpe, hm] at hmp
              exact absurd hmp (by simp)
            · have : isVisited s.visited p = true := by simpa [hpe] using hvp2
              exact hinv.visM p this hmp
          brd := fun qx qy hqx hqy hb =>
            pending_step s.visited _ rest rest x y w h
              (fun j hj => isVisited_set_mono _ _ _ hj)
              (fun _ he => he) hpop qx qy hqx hqy
              (by have := hinv.brd qx qy hqx hqy hb; rwa [hs] at this)
          nbr := fun px py qx qy hpx hpy hmem hadj hqx hqy hmq =>
            pending_step s.visited _ rest rest x y w h
              (fun j hj => isVisited_set_mono _ _ _ hj)
              (fun _ he => he) hpop qx qy hqx hqy
              (by have := hinv.nbr px py qx qy hpx hpy hmem hadj hqx hqy hmq
                  rwa [hs] at this) }
    · simp only [fillMeasure, hs, List.length_cons]
      omega
  · -- a run of matching pixels is recorded and its vertical neighbours are pushed
    have hxn : x.toNat < w := by omega
    have hyn : y.toNat < h := by omega
    have hxcast : ((x.toNat : ℕ) : ℤ) = x := Int.toNat_of_nonneg hx0
    have hycast : ((y.toNat : ℕ) : ℤ) = y := Int.toNat_of_nonneg hy0
    obtain ⟨pn1, pn2, pn3, pn4⟩ := pushNeighbours_spec (fillStep m w h s).visited w h y.toNat
      (List.range' l (r + 1 - l)) rest
    rw [← hstk] at pn1 pn2 pn3 pn4
    have hpopBC : BorderConnected m w h (x.toNat, y.toNat) :=
      hinv.stackBC x.toNat y.toNat (by rw [hs, hxcast, hycast]; exact List.mem_cons_self _ _)
        hxn hyn (hrun x.toNat hl hr).2
    have hrunBC : ∀ fx, l ≤ fx → fx ≤ r → BorderConnected m w h (fx, y.toNat) :=
      fun fx h1 h2 => run_borderConnected m w h y.toNat x.toNat l r hpopBC hrw hyn
        (fun fx h1 h2 => (hrun fx h1 h2).2) fx h1 h2 hl hr
    have hmono : ∀ j, isVisited s.visited j = true →
        isVisited (fillStep m w h s).visited j = true :=
      fun j hj => (hvis j).mpr (Or.inl hj)
    have hpop : ∀ qx qy : ℕ, x = (qx : ℤ) → y = (qy : ℤ) → qx < w → qy < h →
        isVisited (fillStep m w h s).visited (qy * w + qx) = true := by
      intro qx qy hx hy _ _
      subst hx; subst hy
      exact (hvis _).mpr (Or.inr ⟨qx, by simpa using hl, by simpa using hr, by simp⟩)
    have hmemrun : ∀ p, p ∈ (List.range' l (r + 1 - l)).map (fun fx => y.toNat * w + fx) ↔
        ∃ fx, l ≤ fx ∧ fx ≤ r ∧ p = y.toNat * w + fx := by
      intro p
      rw [List.mem_map]
      constructor
      · rintro ⟨fx, hfx, rfl⟩
        rw [List.mem_range'_1] at hfx
        exact ⟨fx, hfx.1, by omega, rfl⟩
      · rintro ⟨fx, h1, h2, rfl⟩
        exact ⟨fx, by rw [List.mem_range'_1]; omega, rfl⟩
    have hinv2 : FillInv m w h (fillStep m w h s) :=
      { lenV := hvlen.trans hinv.lenV
        remVis := by
          intro p hp
          rw [htr, List.mem_append] at hp
          rcases hp with h1 | h1
          · exact hmono p (hinv.remVis p h1)
          · exact (hvis p).mpr (Or.inr ((hmemrun p).mp h1))
        nodup := by
          rw [htr, List.nodup_append]
          refine ⟨hinv.nodup, ?_, ?_⟩
          · exact (List.nodup_range' _ _).map (fun a b hab => Nat.add_left_cancel hab)
          · intro p hp1 hp2
            obtain ⟨fx, h1, h2, rfl⟩ := (hmemrun p).mp hp2
            have := hinv.remVis _ hp1
            rw [(hrun fx h1 h2).1] at this
            exact absurd this (by simp)
        remBC := by
          intro p hp
          rw [htr, List.mem_append] at hp
          rcases hp with h1 | h1
          · exact hinv.remBC p h1
          · obtain ⟨fx, hf1, hf2, rfl⟩ := (hmemrun p).mp h1
            exact ⟨fx, y.toNat, rfl, hrunBC fx hf1 hf2⟩
        stackBC := by
          intro qx qy hmem hqx hqy hmq
          rcases pn3 _ hmem with h1 | ⟨fx, hfx, h1 | h1⟩
          · exact hinv.stackBC qx qy (by rw [hs]; exact List.mem_cons_of_mem _ h1) hqx hqy hmq
          · rw [List.mem_range'_1] at hfx
            have e1 : (qx : ℤ) = (fx : ℤ) := congrArg Prod.fst h1.1
            have e2 : (qy : ℤ) = (y.toNat : ℤ) - 1 := congrArg Prod.snd h1.1
            have e3 : qx = fx := by omega
            subst e3
            refine BorderConnected.step (qx, y.toNat) (qx, qy) (hrunBC qx hfx.1 (by omega))
              ?_ hqx hqy hmq
            right
            exact ⟨rfl, Or.inr (by show qy + 1 = y.toNat; omega)⟩
          · rw [List.mem_range'_1] at hfx
            have e1 : (qx : ℤ) = (fx : ℤ) := congrArg Prod.fst h1.1
            have e2 : (qy : ℤ) = (y.toNat : ℤ) + 1 := congrArg Prod.snd h1.1
            have e3 : qx = fx := by omega
            subst e3
            refine BorderConnected.step (qx, y.toNat) (qx, qy) (hrunBC qx hfx.1 (by omega))
              ?_ hqx hqy hmq
            right
            exact ⟨rfl, Or.inl (by show y.toNat + 1 = qy; omega)⟩
        visM := by
          intro p hvp hmp
          rw [htr, List.mem_append]
          rcases (hvis p).mp hvp with h1 | h1
          · exact Or.inl (hinv.visM p h1 hmp)
          · exact Or.inr ((hmemrun p).mpr h1)
        brd := fun qx qy hqx hqy hb =>
          pending_step s.visited _ _ rest x y w h hmono pn2 hpop qx qy hqx hqy
            (by have := hinv.brd qx qy hqx hqy hb; rwa [hs] at this)
        nbr := by
          intro px py qx qy hpx hpy hmem hadj hqx hqy hmq
          rw [htr, List.mem_append] at hmem
          rcases hmem with h1 | h1
          · exact pending_step s.visited _ _ rest x y w h hmono pn2 hpop qx qy hqx hqy
              (by have := hinv.nbr px py qx qy hpx hpy h1 hadj hqx hqy hmq; rwa [hs] at this)
          · obtain ⟨fx, hf1, hf2, hfe⟩ := (hmemrun _).mp h1
            obtain ⟨e1, e2⟩ := pixel_index_inj w px py fx y.toNat hpx (by omega) hfe
            subst e1; subst e2
            rcases hadj with ⟨hrow, hcol⟩ | ⟨hcol, hrow⟩
            · -- a neighbour in the same row
              have hrow2 : y.toNat = qy := hrow
              have hcol2 : px + 1 = qx ∨ qx + 1 = px := hcol
              subst hrow2
              by_cases hin : l ≤ qx ∧ qx ≤ r
              · exact Or.inl ((hvis _).mpr (Or.inr ⟨qx, hin.1, hin.2, rfl⟩))
              · rcases hcol2 with h2 | h2
                · have hq : qx = r + 1 := by omega
                  subst hq
                  rcases hrend hqx with h3 | h3
                  · exact Or.inl (hmono _ h3)
                  · rw [h3] at hmq; exact absurd hmq (by simp)
                · have hq : l = qx + 1 := by omega
                  rcases hlend qx hq with h3 | h3
                  · exact Or.inl (hmono _ h3)
                  · rw [h3] at hmq; exact absurd hmq (by simp)
            · -- a neighbour in the same column
              have hcol2 : px = qx := hcol
              have hrow2 : y.toNat + 1 = qy ∨ qy + 1 = y.toNat := hrow
              subst hcol2
              have hfx : px ∈ List.range' l (r + 1 - l) := by
                rw [List.mem_range'_1]; omega
              rcases hrow2 with h2 | h2
              · subst h2
                rcases (pn4 px hfx).2 hqy with h3 | h3
                · exact Or.inl h3
                · right
                  have : (((y.toNat + 1 : ℕ)) : ℤ) = (y.toNat : ℤ) + 1 := by push_cast; rfl
                  rw [this]; exact h3
              · have hy1 : y.toNat - 1 = qy := by omega
                rcases (pn4 px hfx).1 (by omega) with h3 | h3
                · left; rw [← hy1]; exact h3
                · right
                  have : (qy : ℤ) = (y.toNat : ℤ) - 1 := by omega
                  rw [this]; exact h3 }
    refine ⟨hinv2, ?_⟩
    have hle := hinv2.toRemove_length_le
    have hlen2 : (fillStep m w h s).toRemove.length = s.toRemove.length + (r + 1 - l) := by
      rw [htr, List.length_append, List.length_map, List.length_range']
    have hlen3 : (List.range' l (r + 1 - l)).length = r + 1 - l := List.length_range' _ _ _
    simp only [fillMeasure, hs, List.length_cons]
    omega

/-! ## Flood fill: the whole loop -/

theorem mem_seedPushes (w h : ℕ) (e : ℤ × ℤ) :
    e ∈ seedPushes w h ↔
      (∃ x, x < w ∧ e = ((x : ℤ), (0 : ℤ))) ∨
      (∃ x, x < w ∧ e = ((x : ℤ), (h : ℤ) - 1)) ∨
      (∃ y, 1 ≤ y ∧ y < 1 + (h - 2) ∧ (e = ((0 : ℤ), (y : ℤ)) ∨ e = ((w : ℤ) - 1, (y : ℤ)))) := by
  unfold seedPushes
  rw [List.mem_append, List.mem_append, List.mem_map, List.mem_map, List.mem_flatMap]
  constructor
  · rintro ((⟨x, hx, rfl⟩ | ⟨x, hx, rfl⟩) | ⟨y, hy, he⟩)
    · exact Or.inl ⟨x, List.mem_range.mp hx, rfl⟩
    · exact Or.inr (Or.inl ⟨x, List.mem_range.mp hx, rfl⟩)
    · rw [List.mem_range'_1] at hy
      refine Or.inr (Or.inr ⟨y, hy.1, hy.2, ?_⟩)
      simpa using he
  · rintro (⟨x, hx, rfl⟩ | ⟨x, hx, rfl⟩ | ⟨y, hy1, hy2, he⟩)
    · exact Or.inl (Or.inl ⟨x, List.mem_range.mpr hx, rfl⟩)
    · exact Or.inl (Or.inr ⟨x, List.mem_range.mpr hx, rfl⟩)
    · refine Or.inr ⟨y, List.mem_range'_1.mpr ⟨hy1, hy2⟩, ?_⟩
      simpa using he

theorem initialFill_inv (m : ℕ → Bool) (w h : ℕ) : FillInv m w h (initialFill w h) :=
  { lenV := by simp [initialFill]
    remVis := by intro p hp; simp [initialFill] at hp
    nodup := by simp [initialFill]
    remBC := by intro p hp; simp [initialFill] at hp
    stackBC := by
      intro x y hmem hx hy hm
      have hmem2 : ((x : ℤ), (y : ℤ)) ∈ seedPushes w h := by
        simpa [initialFill] using hmem
      refine BorderConnected.border (x, y) hx hy ?_ hm
      rcases (mem_seedPushes w h _).mp hmem2 with
        ⟨x0, _, he⟩ | ⟨x0, _, he⟩ | ⟨y0, _, _, he | he⟩
      · have : (y : ℤ) = 0 := congrArg Prod.snd he
        exact Or.inr (Or.inl (by show y = 0; omega))
      · have : (y : ℤ) = (h : ℤ) - 1 := congrArg Prod.snd he
        exact Or.inr (Or.inr (Or.inr (by show y + 1 = h; omega)))
      · have : (x : ℤ) = 0 := congrArg Prod.fst he
        exact Or.inl (by show x = 0; omega)
      · have : (x : ℤ) = (w : ℤ) - 1 := congrArg Prod.fst he
        exact Or.inr (Or.inr (Or.inl (by show x + 1 = w; omega)))
    visM := by
      intro p hp
      simp [initialFill, isVisited_replicate] at hp
    brd := by
      intro x y hx hy hb
      right
      have hgoal : ((x : ℤ), (y : ℤ)) ∈ seedPushes w h := by
        rw [mem_seedPushes]
        by_cases hy0 : y = 0
        · subst hy0
          exact Or.inl ⟨x, hx, by simp⟩
        · by_cases hyh : y + 1 = h
          · refine Or.inr (Or.inl ⟨x, hx, ?_⟩)
            have : (y : ℤ) = (h : ℤ) - 1 := by omega
            rw [this]
          · refine Or.inr (Or.inr ⟨y, by omega, by omega, ?_⟩)
            rcases hb with h1 | h1 | h1 | h1
            · have h1 : x = 0 := h1
              subst h1
              exact Or.inl (by simp)
            · exact absurd h1 hy0
            · have h1 : x + 1 = w := h1
              have : (x : ℤ) = (w : ℤ) - 1 := by omega
              rw [this]
              exact Or.inr rfl
            · exact absurd h1 hyh
      simpa [initialFill] using hgoal
    nbr := by
      intro px py qx qy _ _ hmem
      simp [initialFill] at hmem }

theorem fillMeasure_initialFill (w h : ℕ) :
    fillMeasure w h (initialFill w h) = fillFuel w h := by
  simp [fillMeasure, initialFill, fillFuel]

/-- The stack loop terminates within its fuel: when the fuel is at least the measure, the
loop ends with an empty stack, and the invariant still holds. -/
theorem fillLoop_spec (m : ℕ → Bool) (w h : ℕ) :
    ∀ (fuel : ℕ) (s : FillState), FillInv m w h s → fillMeasure w h s ≤ fuel →
      FillInv m w h (fillLoop m w h fuel s) ∧ (fillLoop m w h fuel s).stack = [] := by
  intro fuel
  induction fuel with
  | zero =>
    intro s hinv hle
    have hstack : s.stack = [] := by
      have : s.stack.length = 0 := by
        simp only [fillMeasure] at hle; omega
      exact List.length_eq_zero.mp this
    exact ⟨hinv, hstack⟩
  | succ n ih =>
    intro s hinv hle
    cases hs : s.stack with
    | nil =>
      have : fillLoop m w h (n + 1) s = s := by simp only [fillLoop, hs]
      rw [this]
      exact ⟨hinv, hs⟩
    | cons e rest =>
      have hloop : fillLoop m w h (n + 1) s = fillLoop m w h n (fillStep m w h s) := by
        simp only [fillLoop, hs]
      rw [hloop]
      obtain ⟨h1, h2⟩ := fillStep_inv m w h s e.1 e.2 rest hs hinv
      exact ih _ h1 (by omega)

theorem floodFillFinal_spec (data : List ℕ) (w h : ℕ) (tr tg tb : ℤ) (tol : ℚ) :
    FillInv (pixelMatches data tr tg tb tol) w h (floodFillFinal data w h tr tg tb tol) ∧
      (floodFillFinal data w h tr tg tb tol).stack = [] :=
  fillLoop_spec _ w h _ _ (initialFill_inv _ w h) (le_of_eq (fillMeasure_initialFill w h))

/-! ## Writing the alpha bytes -/

theorem applyRemoval_length (rem : List ℕ) :
    ∀ data : List ℕ, (applyRemoval data rem).length = data.length := by
  induction rem with
  | nil => intro data; rfl
  | cons p rest ih =>
    intro data
    show (applyRemoval (data.set (p * 4 + 3) 0) rest).length = data.length
    rw [ih, List.length_set]

theorem applyRemoval_getElem? (rem : List ℕ) :
    ∀ (data : List ℕ) (j : ℕ),
      (applyRemoval data rem)[j]? =
        if j < data.length ∧ ∃ p ∈ rem, j = p * 4 + 3 then some 0 else data[j]? := by
  induction rem with
  | nil =>
    intro data j
    simp [applyRemoval]
  | cons p rest ih =>
    intro data j
    show (applyRemoval (data.set (p * 4 + 3) 0) rest)[j]? = _
    rw [ih, List.length_set, List.getElem?_set]
    by_cases hj : j < data.length
    · by_cases hrest : ∃ q ∈ rest, j = q * 4 + 3
      · have hall : ∃ q ∈ p :: rest, j = q * 4 + 3 := by
          obtain ⟨q, hq, e⟩ := hrest
          exact ⟨q, List.mem_cons_of_mem _ hq, e⟩
        rw [if_pos (And.intro hj hrest), if_pos (And.intro hj hall)]
      · have hneg : ¬ (j < data.length ∧ ∃ q ∈ rest, j = q * 4 + 3) := fun hc => hrest hc.2
        rw [if_neg hneg]
        by_cases hp : p * 4 + 3 = j
        · have hall : ∃ q ∈ p :: rest, j = q * 4 + 3 := ⟨p, List.mem_cons_self _ _, hp.symm⟩
          have hpl : p * 4 + 3 < data.length := by omega
          rw [if_pos hp, if_pos hpl, if_pos (And.intro hj hall)]
        · have hall : ¬ (j < data.length ∧ ∃ q ∈ p :: rest, j = q * 4 + 3) := by
            rintro ⟨_, q, hq, e⟩
            rcases List.mem_cons.mp hq with rfl | hq
            · exact hp e.symm
            · exact hrest ⟨q, hq, e⟩
          rw [if_neg hp, if_neg hall]
    · have hneg : ¬ (j < data.length ∧ ∃ q ∈ rest, j = q * 4 + 3) := fun hc => hj hc.1
      have hneg2 : ¬ (j < data.length ∧ ∃ q ∈ p :: rest, j = q * 4 + 3) := fun hc => hj hc.1
      rw [if_neg hneg, if_neg hneg2]
      have hnone : data[j]? = none := List.getElem?_eq_none (Nat.le_of_not_lt hj)
      by_cases hp : p * 4 + 3 = j
      · have hpl : ¬ (p * 4 + 3 < data.length) := by omega
        rw [if_pos hp, if_neg hpl, hnone]
      · rw [if_neg hp]

theorem pixelMatches_congr (d1 d2 : List ℕ) (tr tg tb : ℤ) (tol : ℚ) (p : ℕ)
    (h : ∀ j, j % 4 ≠ 3 → d1[j]? = d2[j]?) :
    pixelMatches d1 tr tg tb tol p = pixelMatches d2 tr tg tb tol p := by
  unfold pixelMatches
  rw [h (p * 4) (by omega), h (p * 4 + 1) (by omega), h (p * 4 + 2) (by omega)]

theorem removeAll_fold_spec (data : List ℕ) (tr tg tb : ℤ) (tol : ℚ) (n : ℕ) :
    ((List.range n).foldl (removeAllStep tr tg tb tol) data).length = data.length ∧
    (∀ j, j % 4 ≠ 3 →
      ((List.range n).foldl (removeAllStep tr tg tb tol) data)[j]? = data[j]?) ∧
    (∀ p, ((List.range n).foldl (removeAllStep tr tg tb tol) data)[p * 4 + 3]? =
      if p < n ∧ pixelMatches data tr tg tb tol p = true ∧ p * 4 + 3 < data.length
      then some 0 else data[p * 4 + 3]?) := by
  induction n with
  | zero => simp
  | succ k ih =>
    obtain ⟨h1, h2, h3⟩ := ih
    rw [List.range_succ, List.foldl_append]
    simp only [List.foldl_cons, List.foldl_nil]
    have hm : pixelMatches ((List.range k).foldl (removeAllStep tr tg tb tol) data) tr tg tb tol k
        = pixelMatches data tr tg tb tol k := pixelMatches_congr _ _ _ _ _ _ _ h2
    generalize (List.range k).foldl (removeAllStep tr tg tb tol) data = d at h1 h2 h3 hm ⊢
    show (if pixelMatches d tr tg tb tol k = true then d.set (k * 4 + 3) 0 else d).length
        = data.length ∧
      (∀ j, j % 4 ≠ 3 →
        (if pixelMatches d tr tg tb tol k = true then d.set (k * 4 + 3) 0 else d)[j]?
          = data[j]?) ∧
      (∀ p, (if pixelMatches d tr tg tb tol k = true then d.set (k * 4 + 3) 0 else d)[p * 4 + 3]?
        = if p < k + 1 ∧ pixelMatches data tr tg tb tol p = true ∧ p * 4 + 3 < data.length
          then some 0 else data[p * 4 + 3]?)
    rw [hm]
    by_cases hk : pixelMatches data tr tg tb tol k = true
    · rw [if_pos hk]
      refine ⟨by rw [List.length_set, h1], ?_, ?_⟩
      · intro j hj
        rw [List.getElem?_set_ne (by omega), h2 j hj]
      · intro p
        rw [List.getElem?_set, h1, h3 p]
        by_cases hpk : p = k
        · subst hpk
          by_cases hl : p * 4 + 3 < data.length
          · simp [hk, hl]
          · have hnone : data[p * 4 + 3]? = none :=
              List.getElem?_eq_none (Nat.le_of_not_lt hl)
            simp [hl, hnone]
        · have hne : ¬ (k * 4 + 3 = p * 4 + 3) := by omega
          rw [if_neg hne]
          by_cases hc : p < k ∧ pixelMatches data tr tg tb tol p = true ∧
              p * 4 + 3 < data.length
          · rw [if_pos hc, if_pos ⟨by omega, hc.2⟩]
          · rw [if_neg hc, if_neg]
            rintro ⟨h4, h5⟩
            exact hc ⟨by omega, h5⟩
    · rw [if_neg hk]
      refine ⟨h1, h2, ?_⟩
      intro p
      rw [h3 p]
      by_cases hc : p < k ∧ pixelMatches data tr tg tb tol p = true ∧
          p * 4 + 3 < data.length
      · rw [if_pos hc, if_pos ⟨by omega, hc.2⟩]
      · rw [if_neg hc, if_neg]
        rintro ⟨h4, h5⟩
        by_cases hpk : p = k
        · subst hpk; exact hk h5.1
        · exact hc ⟨by omega, h5⟩

theorem removeAllMatchingAsync_alpha (data : List ℕ) (w h : ℕ) (tr tg tb : ℤ) (tol : ℚ)
    (p : ℕ) :
    (removeAllMatchingAsync data w h tr tg tb tol)[p * 4 + 3]? =
      if p < w * h ∧ pixelMatches data tr tg tb tol p = true ∧ p * 4 + 3 < data.length
      then some 0 else data[p * 4 + 3]? :=
  (removeAll_fold_spec data tr tg tb tol (w * h)).2.2 p

/-! ## Contiguous removal clears exactly the border-connected region -/

theorem floodFill_toRemove_iff (data : List ℕ) (w h : ℕ) (tr tg tb : ℤ) (tol : ℚ)
    (x y : ℕ) (hx : x < w) :
    (y * w + x) ∈ (floodFillFinal data w h tr tg tb tol).toRemove ↔
      BorderConnected (pixelMatches data tr tg tb tol) w h (x, y) := by
  obtain ⟨hinv, hstack⟩ := floodFillFinal_spec data w h tr tg tb tol
  constructor
  · intro hmem
    obtain ⟨x2, y2, he, hbc⟩ := hinv.remBC _ hmem
    obtain ⟨e1, e2⟩ := pixel_index_inj w x y x2 y2 hx hbc.bounds.1 he
    rw [e1, e2]
    exact hbc
  · intro hbc
    have key : ∀ p : ℕ × ℕ, BorderConnected (pixelMatches data tr tg tb tol) w h p →
        (p.2 * w + p.1) ∈ (floodFillFinal data w h tr tg tb tol).toRemove := by
      intro p hp
      induction hp with
      | border p hpx hpy hb hm =>
        rcases hinv.brd p.1 p.2 hpx hpy hb with h1 | h1
        · exact hinv.visM _ h1 hm
        · rw [hstack] at h1
          exact absurd h1 (List.not_mem_nil _)
      | step q p hq hadj hpx hpy hm ih =>
        rcases hinv.nbr q.1 q.2 p.1 p.2 hq.bounds.1 hq.bounds.2.1 ih hadj hpx hpy hm with
          h1 | h1
        · exact hinv.visM _ h1 hm
        · rw [hstack] at h1
          exact absurd h1 (List.not_mem_nil _)
    exact key (x, y) hbc

/-- C9: the alpha bytes `floodFillRemoveAsync` writes are those of the pixels it recorded
in `toRemove`; every such pixel is a pixel of the image that matches the target
(`colorMatch`) and is joined to a border pixel by a 4-connected path of matching pixels.
Hence a matching pixel with no such path keeps its alpha, while
`removeAllMatchingAsync` on the same width x height RGBA buffer clears it. -/
theorem floodFill_clears_only_border_connected (data : List ℕ) (w h : ℕ) (tr tg tb : ℤ)
    (tol : ℚ) :
    (∀ j, (floodFillRemoveAsync data w h tr tg tb tol)[j]? =
      if j < data.length ∧
          ∃ p ∈ (floodFillFinal data w h tr tg tb tol).toRemove, j = p * 4 + 3
      then some 0 else data[j]?) ∧
    (∀ p ∈ (floodFillFinal data w h tr tg tb tol).toRemove,
      ∃ x y, p = y * w + x ∧ x < w ∧ y < h ∧
        pixelMatches data tr tg tb tol p = true ∧
        BorderConnected (pixelMatches data tr tg tb tol) w h (x, y)) ∧
    (∀ x y, x < w → y < h → pixelMatches data tr tg tb tol (y * w + x) = true →
      ¬ BorderConnected (pixelMatches data tr tg tb tol) w h (x, y) →
      (floodFillRemoveAsync data w h tr tg tb tol)[(y * w + x) * 4 + 3]?
          = data[(y * w + x) * 4 + 3]? ∧
      (data.length = 4 * (w * h) →
        (removeAllMatchingAsync data w h tr tg tb tol)[(y * w + x) * 4 + 3]? = some 0)) := by
  obtain ⟨hinv, _⟩ := floodFillFinal_spec data w h tr tg tb tol
  have hwrite : ∀ j, (floodFillRemoveAsync data w h tr tg tb tol)[j]? =
      if j < data.length ∧
          ∃ p ∈ (floodFillFinal data w h tr tg tb tol).toRemove, j = p * 4 + 3
      then some 0 else data[j]? :=
    fun j => applyRemoval_getElem? _ data j
  refine ⟨hwrite, ?_, ?_⟩
  · intro p hp
    obtain ⟨x, y, he, hbc⟩ := hinv.remBC p hp
    refine ⟨x, y, he, hbc.bounds.1, hbc.bounds.2.1, ?_, hbc⟩
    rw [he]
    exact hbc.bounds.2.2
  · intro x y hx hy hm hnot
    constructor
    · rw [hwrite, if_neg]
      rintro ⟨_, p, hp, he⟩
      have hpe : p = y * w + x := by omega
      subst hpe
      exact hnot ((floodFill_toRemove_iff data w h tr tg tb tol x y hx).mp hp)
    · intro hlen
      rw [removeAllMatchingAsync_alpha, if_pos]
      have := pixel_index_lt w h x y hx hy
      exact ⟨this, hm, by omega⟩

/-- C10: on a width x height RGBA buffer, `floodFillRemoveAsync` clears every pixel of
the border-connected matching region (every matching border pixel and every matching
pixel joined to one by a 4-connected path of matching pixels ends with alpha 0), and the
set of pixels it clears is exactly that region. -/
theorem floodFill_clears_border_connected_region (data : List ℕ) (w h : ℕ) (tr tg tb : ℤ)
    (tol : ℚ) (hlen : data.length = 4 * (w * h)) :
    (∀ x y, BorderConnected (pixelMatches data tr tg tb tol) w h (x, y) →
      (y * w + x) ∈ (floodFillFinal data w h tr tg tb tol).toRemove ∧
      (floodFillRemoveAsync data w h tr tg tb tol)[(y * w + x) * 4 + 3]? = some 0) ∧
    (∀ x y, x < w → y < h →
      ((y * w + x) ∈ (floodFillFinal data w h tr tg tb tol).toRemove ↔
        BorderConnected (pixelMatches data tr tg tb tol) w h (x, y))) := by
  constructor
  · intro x y hbc
    have hx : x < w := hbc.bounds.1
    have hy : y < h := hbc.bounds.2.1
    have hmem := (floodFill_toRemove_iff data w h tr tg tb tol x y hx).mpr hbc
    refine ⟨hmem, ?_⟩
    have hlt := pixel_index_lt w h x y hx hy
    show (applyRemoval data _)[(y * w + x) * 4 + 3]? = some 0
    rw [applyRemoval_getElem?, if_pos]
    exact ⟨by omega, _, hmem, rfl⟩
  · intro x y hx _
    exact floodFill_toRemove_iff data w h tr tg tb tol x y hx

theorem ringExample_white_only_centre (p : ℕ) (hp : p < 9)
    (hm : pixelMatches ringExample 255 255 255 10 p = true) : p = 4 := by
  interval_cases p <;> first
    | rfl
    | (exfalso
       revert hm
       simp [pixelMatches, ringExample, colorMatch, maxDistance]
       norm_num)

theorem ringExample_centre_matches :
    pixelMatches ringExample 255 255 255 10 (1 * 3 + 1) = true := by
  simp [pixelMatches, ringExample, colorMatch, maxDistance]
  positivity

theorem ringExample_centre_enclosed :
    ¬ BorderConnected (pixelMatches ringExample 255 255 255 10) 3 3 (1, 1) := by
  intro hbc
  cases hbc with
  | border _ hx hy hb hm =>
    rcases hb with h1 | h1 | h1 | h1 <;> simp at h1
  | step q _ hq hadj hx hy hm =>
    obtain ⟨qx, qy⟩ := q
    obtain ⟨b1, b2, b3⟩ := hq.bounds
    have b1 : qx < 3 := b1
    have b2 : qy < 3 := b2
    have hidx : qy * 3 + qx < 9 := by omega
    have h4 := ringExample_white_only_centre _ hidx b3
    have hadj2 : (qy = 1 ∧ (qx + 1 = 1 ∨ 1 + 1 = qx)) ∨ (qx = 1 ∧ (qy + 1 = 1 ∨ 1 + 1 = qy)) :=
      hadj
    omega

/-- C9 on the 3x3 ring image with target white: the enclosed white centre pixel keeps its
alpha 255 under `floodFillRemoveAsync`, and `removeAllMatchingAsync` clears it. -/
theorem floodFill_clears_only_border_connected_witness :
    (floodFillRemoveAsync ringExample 3 3 255 255 255 10)[(1 * 3 + 1) * 4 + 3]? = some 255 ∧
    (removeAllMatchingAsync ringExample 3 3 255 255 255 10)[(1 * 3 + 1) * 4 + 3]? = some 0 := by
  have h := (floodFill_clears_only_border_connected ringExample 3 3 255 255 255 10).2.2 1 1
    (by decide) (by decide) ringExample_centre_matches ringExample_centre_enclosed
  exact ⟨h.1.trans (by decide), h.2 (by decide)⟩

theorem ringExample_corner_black : pixelMatches ringExample 0 0 0 10 (0 * 3 + 0) = true := by
  simp [pixelMatches, ringExample, colorMatch, maxDistance]
  positivity

/-- C10 on the 3x3 ring image with target black: the corner pixel (0,0) is a matching
border pixel, so it is recorded for removal and ends with alpha 0. -/
theorem floodFill_clears_border_connected_region_witness :
    (0 * 3 + 0) ∈ (floodFillFinal ringExample 3 3 0 0 0 10).toRemove ∧
    (floodFillRemoveAsync ringExample 3 3 0 0 0 10)[(0 * 3 + 0) * 4 + 3]? = some 0 :=
  (floodFill_clears_border_connected_region ringExample 3 3 0 0 0 10 (by decide)).1 0 0
    (BorderConnected.border (0, 0) (by decide) (by decide) (Or.inl rfl)
      ringExample_corner_black)

/-! ## Global removal and the frame of both removals -/

/-- C11: on a width x height RGBA buffer, after `removeAllMatchingAsync` every pixel i in
[0, width*height) whose RGB matches the target (`colorMatch`) has alpha 0, wherever it
lies, and every pixel that does not match keeps its original alpha. -/
theorem removeAll_clears_every_match (data : List ℕ) (w h : ℕ) (tr tg tb : ℤ) (tol : ℚ)
    (hlen : data.length = 4 * (w * h)) (p : ℕ) (hp : p < w * h) :
    (pixelMatches data tr tg tb tol p = true →
      (removeAllMatchingAsync data w h tr tg tb tol)[p * 4 + 3]? = some 0) ∧
    (pixelMatches data tr tg tb tol p = false →
      (removeAllMatchingAsync data w h tr tg tb tol)[p * 4 + 3]? = data[p * 4 + 3]?) := by
  constructor
  · intro hm
    rw [removeAllMatchingAsync_alpha, if_pos]
    exact ⟨hp, hm, by omega⟩
  · intro hm
    rw [removeAllMatchingAsync_alpha, if_neg]
    rintro ⟨_, h2, _⟩
    rw [hm] at h2
    exact absurd h2 (by simp)

theorem ringExample_corner_not_white :
    pixelMatches ringExample 255 255 255 10 0 = false := by
  have h := ringExample_white_only_centre 0 (by decide)
  cases hm : pixelMatches ringExample 255 255 255 10 0 with
  | false => rfl
  | true => exact absurd (h hm) (by decide)

/-- C11 on the 3x3 ring image with target white: the white centre pixel (index 4) ends
with alpha 0 and the black corner pixel (index 0) keeps its alpha 255. -/
theorem removeAll_clears_every_match_witness :
    (removeAllMatchingAsync ringExample 3 3 255 255 255 10)[4 * 4 + 3]? = some 0 ∧
    (removeAllMatchingAsync ringExample 3 3 255 255 255 10)[0 * 4 + 3]? = some 255 :=
  ⟨(removeAll_clears_every_match ringExample 3 3 255 255 255 10 (by decide) 4 (by decide)).1
      ringExample_centre_matches,
   ((removeAll_clears_every_match ringExample 3 3 255 255 255 10 (by decide) 0 (by decide)).2
      ringExample_corner_not_white).trans (by decide)⟩

/-- C12: for every input buffer, target colour and tolerance, `removeAllMatchingAsync`
and `floodFillRemoveAsync` return a buffer of the same length in which every byte that
is not an alpha byte (index not 3 mod 4, so every R, G and B byte) is unchanged, and
every byte that differs from the input is an alpha byte and is 0. -/
theorem removal_changes_only_alpha (data : List ℕ) (w h : ℕ) (tr tg tb : ℤ) (tol : ℚ) :
    (removeAllMatchingAsync data w h tr tg tb tol).length = data.length ∧
    (floodFillRemoveAsync data w h tr tg tb tol).length = data.length ∧
    (∀ j, j % 4 ≠ 3 →
      (removeAllMatchingAsync data w h tr tg tb tol)[j]? = data[j]? ∧
      (floodFillRemoveAsync data w h tr tg tb tol)[j]? = data[j]?) ∧
    (∀ j, (removeAllMatchingAsync data w h tr tg tb tol)[j]? ≠ data[j]? →
      j % 4 = 3 ∧ (removeAllMatchingAsync data w h tr tg tb tol)[j]? = some 0) ∧
    (∀ j, (floodFillRemoveAsync data w h tr tg tb tol)[j]? ≠ data[j]? →
      j % 4 = 3 ∧ (floodFillRemoveAsync data w h tr tg tb tol)[j]? = some 0) := by
  obtain ⟨r1, r2, r3⟩ := removeAll_fold_spec data tr tg tb tol (w * h)
  have hflood : ∀ j, (floodFillRemoveAsync data w h tr tg tb tol)[j]? =
      if j < data.length ∧
          ∃ p ∈ (floodFillFinal data w h tr tg tb tol).toRemove, j = p * 4 + 3
      then some 0 else data[j]? :=
    fun j => applyRemoval_getElem? _ data j
  refine ⟨r1, applyRemoval_length _ data, ?_, ?_, ?_⟩
  · intro j hj
    refine ⟨r2 j hj, ?_⟩
    rw [hflood, if_neg]
    rintro ⟨_, p, _, hp⟩
    omega
  · intro j hne
    have hmod : j % 4 = 3 := by
      by_contra hc
      exact hne (r2 j hc)
    refine ⟨hmod, ?_⟩
    obtain ⟨p, hp⟩ : ∃ p, j = p * 4 + 3 := ⟨j / 4, by omega⟩
    subst hp
    have h3 := r3 p
    by_cases hc : p < w * h ∧ pixelMatches data tr tg tb tol p = true ∧ p * 4 + 3 < data.length
    · rw [if_pos hc] at h3
      exact h3
    · rw [if_neg hc] at h3
      exact absurd h3 hne
  · intro j hne
    have hj := hflood j
    by_cases hc : j < data.length ∧
        ∃ p ∈ (floodFillFinal data w h tr tg tb tol).toRemove, j = p * 4 + 3
    · rw [if_pos hc] at hj
      obtain ⟨_, p, _, hp⟩ := hc
      exact ⟨by omega, hj⟩
    · rw [if_neg hc] at hj
      exact absurd hj hne

/-- C12 on the 3x3 ring image: both removals return 36 bytes, and the red byte of the
centre pixel (index 16) still reads 255 after each. -/
theorem removal_changes_only_alpha_witness :
    (removeAllMatchingAsync ringExample 3 3 255 255 255 10).length = 36 ∧
    (floodFillRemoveAsync ringExample 3 3 255 255 255 10).length = 36 ∧
    (removeAllMatchingAsync ringExample 3 3 255 255 255 10)[16]? = some 255 ∧
    (floodFillRemoveAsync ringExample 3 3 255 255 255 10)[16]? = some 255 :=
  have h := removal_changes_only_alpha ringExample 3 3 255 255 255 10
  ⟨h.1, h.2.1, ((h.2.2.1 16 (by decide)).1).trans (by decide),
    ((h.2.2.1 16 (by decide)).2).trans (by decide)⟩

/-! ## History manager -/

theorem historyAt_natCast (h : List Snapshot) (k : ℕ) : historyAt h (k : ℤ) = h[k]? := by
  simp [historyAt]

theorem sliceFromStart_natCast (h : List Snapshot) (k : ℕ) :
    sliceFromStart h (k : ℤ) = h.take k := by
  simp [sliceFromStart]

/-- What `saveHistory` does when the pointer is within the array: with `k = historyIndex
+ 1`, the new history is the first `k` entries followed by the new snapshot, minus its
first entry when that makes more than `maxHistory`. -/
theorem saveHistory_eq (s : Session) (k : ℕ) (hk : s.historyIndex = (k : ℤ) - 1)
    (hle : k ≤ s.history.length) :
    saveHistory s =
      if k + 1 > maxHistory then
        { s with history := (s.history.take k ++ [captureHistoryState s]).tail }
      else
        { s with history := s.history.take k ++ [captureHistoryState s]
                 historyIndex := (k : ℤ) } := by
  have h1 : (if s.historyIndex < (s.history.length : ℤ) - 1 then
      sliceFromStart s.history (k : ℤ) else s.history) = s.history.take k := by
    rw [sliceFromStart_natCast]
    split_ifs with hlt
    · rfl
    · have : k = s.history.length := by omega
      rw [this, List.take_length]
  have hlen : (s.history.take k ++ [captureHistoryState s]).length = k + 1 := by
    rw [List.length_append, List.length_take, Nat.min_eq_left hle]
    rfl
  have e2 : s.historyIndex + 1 = (k : ℤ) := by omega
  unfold saveHistory
  simp only [e2]
  simp only [h1, hlen]

theorem saveHistory_spec (s : Session) (hinv : HistoryInv s) :
    HistoryInv (saveHistory s) ∧
    (saveHistory s).historyIndex = ((saveHistory s).history.length : ℤ) - 1 ∧
    historyAt (saveHistory s).history (saveHistory s).historyIndex
      = some (captureHistoryState s) ∧
    captureHistoryState (saveHistory s) = captureHistoryState s ∧
    1 ≤ (saveHistory s).history.length := by
  obtain ⟨hmax, hlo, hhi⟩ := hinv
  obtain ⟨k, hk⟩ : ∃ k : ℕ, s.historyIndex = (k : ℤ) - 1 :=
    ⟨(s.historyIndex + 1).toNat, by omega⟩
  have hle : k ≤ s.history.length := by omega
  have hlen : (s.history.take k ++ [captureHistoryState s]).length = k + 1 := by
    rw [List.length_append, List.length_take, Nat.min_eq_left hle]
    rfl
  have hlast : (s.history.take k ++ [captureHistoryState s])[k]?
      = some (captureHistoryState s) := by
    rw [List.getElem?_append_right (by rw [List.length_take]; omega)]
    simp [List.length_take, Nat.min_eq_left hle]
  rw [saveHistory_eq s k hk hle]
  by_cases hev : k + 1 > maxHistory
  · rw [if_pos hev]
    have hk50 : k = maxHistory := by omega
    have hkpos : 0 < k := by rw [hk50]; decide
    obtain ⟨j, hj⟩ : ∃ j, k = j + 1 := ⟨k - 1, by omega⟩
    have htl : ((s.history.take k ++ [captureHistoryState s]).tail).length = k := by
      rw [List.length_tail, hlen]; rfl
    have hidx : s.historyIndex = (j : ℤ) := by omega
    refine ⟨⟨?_, ?_, ?_⟩, ?_, ?_, rfl, ?_⟩
    · show ((s.history.take k ++ [captureHistoryState s]).tail).length ≤ maxHistory
      rw [htl]; omega
    · exact hlo
    · show s.historyIndex ≤ (((s.history.take k ++ [captureHistoryState s]).tail).length : ℤ) - 1
      rw [htl]; omega
    · show s.historyIndex = (((s.history.take k ++ [captureHistoryState s]).tail).length : ℤ) - 1
      rw [htl]; omega
    · show historyAt ((s.history.take k ++ [captureHistoryState s]).tail) s.historyIndex = _
      rw [hidx, historyAt_natCast, List.getElem?_tail, ← hj]
      exact hlast
    · show 1 ≤ ((s.history.take k ++ [captureHistoryState s]).tail).length
      rw [htl]; omega
  · rw [if_neg hev]
    refine ⟨⟨?_, ?_, ?_⟩, ?_, ?_, rfl, ?_⟩
    · show (s.history.take k ++ [captureHistoryState s]).length ≤ maxHistory
      rw [hlen]; omega
    · show (-1 : ℤ) ≤ (k : ℤ)
      omega
    · show (k : ℤ) ≤ ((s.history.take k ++ [captureHistoryState s]).length : ℤ) - 1
      rw [hlen]; push_cast; omega
    · show (k : ℤ) = ((s.history.take k ++ [captureHistoryState s]).length : ℤ) - 1
      rw [hlen]; push_cast; omega
    · show historyAt (s.history.take k ++ [captureHistoryState s]) (k : ℤ) = _
      rw [historyAt_natCast]
      exact hlast
    · show 1 ≤ (s.history.take k ++ [captureHistoryState s]).length
      rw [hlen]; omega

theorem undo_of_pos (s : Session) (k : ℕ) (hk : s.historyIndex = (k : ℤ) + 1)
    (snapshot : Snapshot) (hsnap : s.history[k]? = some snapshot) :
    undo s = some (restoreHistoryState { s with historyIndex := (k : ℤ) } snapshot) := by
  have hpos : s.historyIndex > 0 := by omega
  have e : s.historyIndex - 1 = (k : ℤ) := by omega
  simp only [undo, if_pos hpos, e, historyAt_natCast, hsnap]

theorem undo_of_nonpos (s : Session) (h : s.historyIndex ≤ 0) : undo s = some s := by
  have : ¬ s.historyIndex > 0 := by omega
  simp only [undo, if_neg this]

theorem redo_of_lt (s : Session) (k : ℕ) (hk : s.historyIndex + 1 = (k : ℤ))
    (snapshot : Snapshot) (hsnap : s.history[k]? = some snapshot) :
    redo s = some (restoreHistoryState { s with historyIndex := (k : ℤ) } snapshot) := by
  have hlt : s.historyIndex < (s.history.length : ℤ) - 1 := by
    have := (List.getElem?_eq_some.mp hsnap).1
    omega
  simp only [redo, if_pos hlt, hk, historyAt_natCast, hsnap]

theorem redo_of_ge (s : Session) (h : s.historyIndex ≥ (s.history.length : ℤ) - 1) :
    redo s = some s := by
  have : ¬ s.historyIndex < (s.history.length : ℤ) - 1 := by omega
  simp only [redo, if_neg this]

theorem undo_inv (s t : Session) (hinv : HistoryInv s) (h : undo s = some t) :
    HistoryInv t := by
  obtain ⟨hmax, hlo, hhi⟩ := hinv
  by_cases hpos : s.historyIndex > 0
  · obtain ⟨k, hk⟩ : ∃ k : ℕ, s.historyIndex = (k : ℤ) + 1 :=
      ⟨(s.historyIndex - 1).toNat, by omega⟩
    have hkl : k < s.history.length := by omega
    rw [undo_of_pos s k hk _ (List.getElem?_eq_getElem hkl)] at h
    have := Option.some.inj h
    subst this
    exact ⟨hmax, by show (-1 : ℤ) ≤ (k : ℤ); omega,
      by show (k : ℤ) ≤ (s.history.length : ℤ) - 1; omega⟩
  · rw [undo_of_nonpos s (by omega)] at h
    have := Option.some.inj h
    subst this
    exact ⟨hmax, hlo, hhi⟩

theorem redo_inv (s t : Session) (hinv : HistoryInv s) (h : redo s = some t) :
    HistoryInv t := by
  obtain ⟨hmax, hlo, hhi⟩ := hinv
  by_cases hlt : s.historyIndex < (s.history.length : ℤ) - 1
  · obtain ⟨k, hk⟩ : ∃ k : ℕ, s.historyIndex + 1 = (k : ℤ) :=
      ⟨(s.historyIndex + 1).toNat, by omega⟩
    have hkl : k < s.history.length := by omega
    rw [redo_of_lt s k hk _ (List.getElem?_eq_getElem hkl)] at h
    have := Option.some.inj h
    subst this
    exact ⟨hmax, by show (-1 : ℤ) ≤ (k : ℤ); omega,
      by show (k : ℤ) ≤ (s.history.length : ℤ) - 1; omega⟩
  · rw [redo_of_ge s (by omega)] at h
    have := Option.some.inj h
    subst this
    exact ⟨hmax, hlo, hhi⟩

theorem undo_isSome (s : Session) (hinv : HistoryInv s) : ∃ t, undo s = some t := by
  obtain ⟨_, hlo, hhi⟩ := hinv
  by_cases hpos : s.historyIndex > 0
  · obtain ⟨k, hk⟩ : ∃ k : ℕ, s.historyIndex = (k : ℤ) + 1 :=
      ⟨(s.historyIndex - 1).toNat, by omega⟩
    have hkl : k < s.history.length := by omega
    exact ⟨_, undo_of_pos s k hk _ (List.getElem?_eq_getElem hkl)⟩
  · exact ⟨s, undo_of_nonpos s (by omega)⟩

theorem redo_isSome (s : Session) (hinv : HistoryInv s) : ∃ t, redo s = some t := by
  obtain ⟨_, hlo, hhi⟩ := hinv
  by_cases hlt : s.historyIndex < (s.history.length : ℤ) - 1
  · obtain ⟨k, hk⟩ : ∃ k : ℕ, s.historyIndex + 1 = (k : ℤ) :=
      ⟨(s.historyIndex + 1).toNat, by omega⟩
    have hkl : k < s.history.length := by omega
    exact ⟨_, redo_of_lt s k hk _ (List.getElem?_eq_getElem hkl)⟩
  · exact ⟨s, redo_of_ge s (by omega)⟩

theorem historyReachable_inv (s : Session) (h : HistoryReachable s) : HistoryInv s := by
  induction h with
  | clear s => exact ⟨by show (0 : ℕ) ≤ maxHistory; decide, le_refl _, by show (-1 : ℤ) ≤ ((0 : ℕ) : ℤ) - 1; omega⟩
  | save s _ ih => exact (saveHistory_spec s ih).1
  | undo s t _ hu ih => exact undo_inv s t ih hu
  | redo s t _ hr ih => exact redo_inv s t ih hr
  | edit s f _ hf ih =>
    obtain ⟨h1, h2⟩ := hf s
    unfold HistoryInv
    rw [h1, h2]
    exact ih

theorem historyReachable_iterate_save (n : ℕ) (s : Session) (h : HistoryReachable s) :
    HistoryReachable (saveHistory^[n] s) := by
  induction n generalizing s with
  | zero => exact h
  | succ m ih => exact ih _ (HistoryReachable.save s h)

/-- C13: in every state reachable from `clearHistory` by `saveHistory`, `undo`, `redo`
(and edits that leave the history alone), history.length <= 50 and
-1 <= historyIndex <= history.length - 1, so `undo` and `redo` find their entry; and
right after a further `saveHistory`, also one that evicts the oldest snapshot,
historyIndex = history.length - 1 and history[historyIndex] is the snapshot of the
current editable state. -/
theorem history_bounds_reachable (s : Session) (h : HistoryReachable s) :
    s.history.length ≤ 50 ∧ -1 ≤ s.historyIndex ∧
    s.historyIndex ≤ (s.history.length : ℤ) - 1 ∧
    (∃ t, undo s = some t) ∧ (∃ t, redo s = some t) ∧
    (saveHistory s).historyIndex = ((saveHistory s).history.length : ℤ) - 1 ∧
    historyAt (saveHistory s).history (saveHistory s).historyIndex
      = some (captureHistoryState (saveHistory s)) ∧
    (s.history.length = 50 → s.historyIndex = 49 →
      (saveHistory s).history = s.history.tail ++ [captureHistoryState s] ∧
      (saveHistory s).historyIndex = 49) := by
  have hinv := historyReachable_inv s h
  obtain ⟨s1, s2, s3, s4, _⟩ := saveHistory_spec s hinv
  refine ⟨hinv.1, hinv.2.1, hinv.2.2, undo_isSome s hinv, redo_isSome s hinv, s2, ?_, ?_⟩
  · rw [s3, s4]
  · intro hlen hidx
    have hk : s.historyIndex = ((50 : ℕ) : ℤ) - 1 := by omega
    rw [saveHistory_eq s 50 hk (by omega), if_pos (by decide)]
    refine ⟨?_, hidx⟩
    show (s.history.take 50 ++ [captureHistoryState s]).tail = _
    have ht : s.history.take 50 = s.history := by
      rw [← hlen, List.take_length]
    rw [ht]
    cases hs : s.history with
    | nil => rw [hs] at hlen; simp at hlen
    | cons a rest => rfl

/-- C13 on a history that has been saved 60 times after `clearHistory`, so that the cap
has been reached and snapshots have been evicted. -/
theorem history_bounds_reachable_witness :
    (saveHistory^[60] (clearHistory baseSession)).history.length ≤ 50 ∧
    (saveHistory (saveHistory^[60] (clearHistory baseSession))).historyIndex
      = ((saveHistory (saveHistory^[60] (clearHistory baseSession))).history.length : ℤ) - 1 :=
  have h := history_bounds_reachable (saveHistory^[60] (clearHistory baseSession))
    (historyReachable_iterate_save 60 _ (HistoryReachable.clear baseSession))
  ⟨h.1, h.2.2.2.2.2.1⟩

theorem atEntry_eq (s : Session) (k : ℕ) (snapshot : Snapshot)
    (hk : s.history[k]? = some snapshot) :
    atEntry s k = restoreHistoryState { s with historyIndex := (k : ℤ) } snapshot := by
  simp only [atEntry, hk]

theorem atEntry_history (s : Session) (k : ℕ) : (atEntry s k).history = s.history := by
  unfold atEntry
  cases s.history[k]? <;> rfl

theorem undo_atEntry_succ (s : Session) (k : ℕ) (hk : k + 1 < s.history.length) :
    undo (atEntry s (k + 1)) = some (atEntry s k) := by
  obtain ⟨snap1, h1⟩ : ∃ x, s.history[k + 1]? = some x := ⟨_, List.getElem?_eq_getElem hk⟩
  obtain ⟨snap0, h0⟩ : ∃ x, s.history[k]? = some x :=
    ⟨_, List.getElem?_eq_getElem (show k < s.history.length by omega)⟩
  have e1 := atEntry_eq s (k + 1) _ h1
  have e0 := atEntry_eq s k _ h0
  have hidx : (atEntry s (k + 1)).historyIndex = (k : ℤ) + 1 := by
    rw [e1]; show (((k + 1 : ℕ)) : ℤ) = (k : ℤ) + 1; push_cast; rfl
  have hh : (atEntry s (k + 1)).history[k]? = some snap0 := by
    rw [atEntry_history]; exact h0
  rw [undo_of_pos (atEntry s (k + 1)) k hidx _ hh, e1, e0]
  rfl

theorem undo_atEntry_zero (s : Session) (hk : 0 < s.history.length) :
    undo (atEntry s 0) = some (atEntry s 0) := by
  obtain ⟨snap0, h0⟩ : ∃ x, s.history[0]? = some x := ⟨_, List.getElem?_eq_getElem hk⟩
  rw [atEntry_eq s 0 _ h0]
  exact undo_of_nonpos _ (by show ((0 : ℕ) : ℤ) ≤ 0; simp)

theorem redo_atEntry_lt (s : Session) (k : ℕ) (hk : k + 1 < s.history.length) :
    redo (atEntry s k) = some (atEntry s (k + 1)) := by
  obtain ⟨snap1, h1⟩ : ∃ x, s.history[k + 1]? = some x := ⟨_, List.getElem?_eq_getElem hk⟩
  obtain ⟨snap0, h0⟩ : ∃ x, s.history[k]? = some x :=
    ⟨_, List.getElem?_eq_getElem (show k < s.history.length by omega)⟩
  have e1 := atEntry_eq s (k + 1) _ h1
  have e0 := atEntry_eq s k _ h0
  have hidx : (atEntry s k).historyIndex + 1 = (((k + 1 : ℕ)) : ℤ) := by
    rw [e0]; show (k : ℤ) + 1 = (((k + 1 : ℕ)) : ℤ); push_cast; rfl
  have hh : (atEntry s k).history[k + 1]? = some snap1 := by
    rw [atEntry_history]; exact h1
  rw [redo_of_lt (atEntry s k) (k + 1) hidx _ hh, e1, e0]
  rfl

theorem redo_atEntry_last (s : Session) (k : ℕ) (hk : k + 1 = s.history.length) :
    redo (atEntry s k) = some (atEntry s k) := by
  obtain ⟨snap0, h0⟩ : ∃ x, s.history[k]? = some x :=
    ⟨_, List.getElem?_eq_getElem (show k < s.history.length by omega)⟩
  rw [atEntry_eq s k _ h0]
  exact redo_of_ge _ (by
    show (k : ℤ) ≥ (s.history.length : ℤ) - 1
    omega)

theorem undoTimes_atEntry (s : Session) (n : ℕ) :
    ∀ k, k < s.history.length → undoTimes n (atEntry s k) = some (atEntry s (k - n)) := by
  induction n with
  | zero => intro k _; rfl
  | succ m ih =>
    intro k hk
    cases k with
    | zero =>
      simp only [undoTimes, undo_atEntry_zero s hk, Option.some_bind]
      rw [ih 0 hk]
      simp
    | succ j =>
      simp only [undoTimes, undo_atEntry_succ s j hk, Option.some_bind]
      rw [ih j (by omega)]
      simp

theorem redoTimes_atEntry (s : Session) (n : ℕ) :
    ∀ k, k < s.history.length →
      redoTimes n (atEntry s k) = some (atEntry s (min (k + n) (s.history.length - 1))) := by
  induction n with
  | zero =>
    intro k hk
    have : min (k + 0) (s.history.length - 1) = k := by
      rw [Nat.add_zero]; exact Nat.min_eq_left (by omega)
    rw [this]; rfl
  | succ m ih =>
    intro k hk
    by_cases hlt : k + 1 < s.history.length
    · simp only [redoTimes, redo_atEntry_lt s k hlt, Option.some_bind]
      rw [ih (k + 1) hlt]
      congr 2
      omega
    · have hlast : k + 1 = s.history.length := by omega
      simp only [redoTimes, redo_atEntry_last s k hlast, Option.some_bind]
      rw [ih k hk]
      congr 2
      omega

theorem justSaved_eq_atEntry (s : Session) (h : JustSaved s) :
    s = atEntry s (s.history.length - 1) := by
  obtain ⟨_, hlen, hidx, hat⟩ := h
  have hidx2 : s.historyIndex = ((s.history.length - 1 : ℕ) : ℤ) := by omega
  rw [hidx2, historyAt_natCast] at hat
  rw [atEntry_eq s _ _ hat, ← hidx2]
  rfl

theorem justSaved_saveHistory (s : Session) (hinv : HistoryInv s) : JustSaved (saveHistory s) := by
  obtain ⟨s1, s2, s3, s4, s5⟩ := saveHistory_spec s hinv
  exact ⟨s1, s5, s2, by rw [s3, s4]⟩

theorem justSaved_foldl (actions : List (Session → Session)) :
    ∀ s, JustSaved s → (∀ f ∈ actions, KeepsHistory f) →
      JustSaved (actions.foldl recordAction s) := by
  induction actions with
  | nil => intro s h _; exact h
  | cons f rest ih =>
    intro s h hkeep
    rw [List.foldl_cons]
    apply ih
    · obtain ⟨h1, h2⟩ := hkeep f (List.mem_cons_self _ _) s
      apply justSaved_saveHistory
      unfold HistoryInv
      rw [h1, h2]
      exact h.1
    · intro g hg
      exact hkeep g (List.mem_cons_of_mem _ hg)

theorem historyInv_clearHistory (s : Session) : HistoryInv (clearHistory s) :=
  historyReachable_inv _ (HistoryReachable.clear s)

/-- The round trip on any just-saved session: `n` undos followed by `n` redos give the
session back. -/
theorem undo_redo_roundtrip_justSaved (s : Session) (h : JustSaved s) (n : ℕ) :
    (undoTimes n s).bind (redoTimes n) = some s := by
  have hlen : s.history.length - 1 < s.history.length := by
    have := h.2.1; omega
  have hs := justSaved_eq_atEntry s h
  have h1 : undoTimes n s = some (atEntry s (s.history.length - 1 - n)) := by
    have := undoTimes_atEntry s n (s.history.length - 1) hlen
    rw [← hs] at this
    exact this
  rw [h1, Option.some_bind, redoTimes_atEntry s n _ (by omega)]
  have : min (s.history.length - 1 - n + n) (s.history.length - 1) = s.history.length - 1 := by
    omega
  rw [this, ← hs]

/-- C14: for every N >= 0, after a fresh `clearHistory`, a baseline `saveHistory` and N
recorded actions (an edit that leaves the history alone, then `saveHistory`), N undos
followed by N redos return without throwing and give back the very state before the
first undo: disabledCells, customAreas, customNames, centerLinesX/Y, cellWidth,
cellHeight, history and historyIndex are all unchanged. -/
theorem undo_redo_roundtrip (s0 : Session) (actions : List (Session → Session))
    (hkeep : ∀ f ∈ actions, KeepsHistory f) :
    (undoTimes actions.length
        (actions.foldl recordAction (saveHistory (clearHistory s0)))).bind
      (redoTimes actions.length)
      = some (actions.foldl recordAction (saveHistory (clearHistory s0))) :=
  undo_redo_roundtrip_justSaved _
    (justSaved_foldl actions _ (justSaved_saveHistory _ (historyInv_clearHistory s0)) hkeep) _

theorem editsExample_keep : ∀ f ∈ editsExample, KeepsHistory f := by
  intro f hf
  simp only [editsExample, List.mem_cons, List.mem_singleton, List.not_mem_nil, or_false] at hf
  rcases hf with rfl | rfl <;> intro s <;> exact ⟨rfl, rfl⟩

/-- C14 with N = 2: after the baseline and the two recorded edits of `editsExample`, two
undos followed by two redos give the session back. -/
theorem undo_redo_roundtrip_witness :
    (undoTimes 2 (editsExample.foldl recordAction (saveHistory (clearHistory baseSession)))).bind
      (redoTimes 2)
      = some (editsExample.foldl recordAction (saveHistory (clearHistory baseSession))) :=
  undo_redo_roundtrip baseSession editsExample editsExample_keep

/-- C15: `undo` is a no-op when historyIndex <= 0 and `redo` is a no-op when
historyIndex >= history.length - 1 (the session is returned unchanged). Otherwise, the
pointer lying within the history (`historyIndex <= history.length - 1` for `undo`,
`-1 <= historyIndex` for `redo`, as in every reachable state), `undo` decrements and
`redo` increments historyIndex by exactly 1, the history is unchanged, and the editable
fields become those of history[historyIndex]; nothing else in the state changes. -/
theorem undo_redo_boundaries (s : Session) :
    (s.historyIndex ≤ 0 → undo s = some s) ∧
    (s.historyIndex ≥ (s.history.length : ℤ) - 1 → redo s = some s) ∧
    (0 < s.historyIndex → s.historyIndex ≤ (s.history.length : ℤ) - 1 →
      ∃ t snapshot, undo s = some t ∧ t.historyIndex = s.historyIndex - 1 ∧
        t.history = s.history ∧ historyAt t.history t.historyIndex = some snapshot ∧
        captureHistoryState t = snapshot ∧
        t.mode = s.mode ∧ t.rows = s.rows ∧ t.cols = s.cols ∧
        t.originalImage = s.originalImage) ∧
    (s.historyIndex < (s.history.length : ℤ) - 1 → -1 ≤ s.historyIndex →
      ∃ t snapshot, redo s = some t ∧ t.historyIndex = s.historyIndex + 1 ∧
        t.history = s.history ∧ historyAt t.history t.historyIndex = some snapshot ∧
        captureHistoryState t = snapshot ∧
        t.mode = s.mode ∧ t.rows = s.rows ∧ t.cols = s.cols ∧
        t.originalImage = s.originalImage) := by
  refine ⟨undo_of_nonpos s, redo_of_ge s, ?_, ?_⟩
  · intro hpos hle
    obtain ⟨k, hk⟩ : ∃ k : ℕ, s.historyIndex = (k : ℤ) + 1 :=
      ⟨(s.historyIndex - 1).toNat, by omega⟩
    obtain ⟨snap, hsnap⟩ : ∃ x, s.history[k]? = some x :=
      ⟨_, List.getElem?_eq_getElem (show k < s.history.length by omega)⟩
    refine ⟨_, snap, undo_of_pos s k hk snap hsnap, ?_, rfl, ?_, rfl, rfl, rfl, rfl, rfl⟩
    · show (k : ℤ) = s.historyIndex - 1
      omega
    · show historyAt s.history (k : ℤ) = some snap
      rw [historyAt_natCast]; exact hsnap
  · intro hlt hlo
    obtain ⟨k, hk⟩ : ∃ k : ℕ, s.historyIndex + 1 = (k : ℤ) :=
      ⟨(s.historyIndex + 1).toNat, by omega⟩
    obtain ⟨snap, hsnap⟩ : ∃ x, s.history[k]? = some x :=
      ⟨_, List.getElem?_eq_getElem (show k < s.history.length by omega)⟩
    refine ⟨_, snap, redo_of_lt s k hk snap hsnap, ?_, rfl, ?_, rfl, rfl, rfl, rfl, rfl⟩
    · show (k : ℤ) = s.historyIndex + 1
      omega
    · show historyAt s.history (k : ℤ) = some snap
      rw [historyAt_natCast]; exact hsnap

/-- C15 on the freshly loaded example session (one entry, pointer 0): both `undo` and
`redo` return it unchanged. -/
theorem undo_redo_boundaries_witness :
    undo sessionExample = some sessionExample ∧ redo sessionExample = some sessionExample :=
  ⟨(undo_redo_boundaries sessionExample).1 (by decide),
   (undo_redo_boundaries sessionExample).2.1 (by decide)⟩

/-- C16: with 0 <= historyIndex = k < history.length - 1 and no eviction (k + 2 <= 50),
`saveHistory` makes the history the old entries 0..k followed by the new snapshot, the
new snapshot is the current entry, and a following `redo` is a no-op. -/
theorem saveHistory_discards_redo_branch (s : Session) (k : ℕ)
    (hk : s.historyIndex = (k : ℤ)) (hlt : (k : ℤ) < (s.history.length : ℤ) - 1)
    (hno : k + 2 ≤ maxHistory) :
    (saveHistory s).history = s.history.take (k + 1) ++ [captureHistoryState s] ∧
    (saveHistory s).historyIndex = (k : ℤ) + 1 ∧
    historyAt (saveHistory s).history (saveHistory s).historyIndex
      = some (captureHistoryState s) ∧
    captureHistoryState (saveHistory s) = captureHistoryState s ∧
    redo (saveHistory s) = some (saveHistory s) := by
  have hk1 : s.historyIndex = (((k + 1 : ℕ)) : ℤ) - 1 := by push_cast; omega
  have hle : k + 1 ≤ s.history.length := by omega
  have hlen : (s.history.take (k + 1) ++ [captureHistoryState s]).length = k + 2 := by
    rw [List.length_append, List.length_take, Nat.min_eq_left hle]
    rfl
  have hsave := saveHistory_eq s (k + 1) hk1 hle
  rw [if_neg (by omega)] at hsave
  rw [hsave]
  refine ⟨rfl, by show (((k + 1 : ℕ)) : ℤ) = (k : ℤ) + 1; push_cast; rfl, ?_, rfl, ?_⟩
  · show historyAt (s.history.take (k + 1) ++ [captureHistoryState s]) (((k + 1 : ℕ)) : ℤ) = _
    rw [historyAt_natCast, List.getElem?_append_right (by rw [List.length_take]; omega)]
    simp [List.length_take, Nat.min_eq_left hle]
  · apply redo_of_ge
    show (((k + 1 : ℕ)) : ℤ) ≥ ((s.history.take (k + 1) ++ [captureHistoryState s]).length : ℤ) - 1
    rw [hlen]; push_cast; omega

theorem undoneExample_facts :
    undoneExample.historyIndex = ((0 : ℕ) : ℤ) ∧ undoneExample.history.length = 3 := by
  constructor
  · rfl
  · rw [undoneExample, atEntry_history]
    rfl

/-- C16 on the example with two undone edits (three entries, pointer 0): saving leaves
two entries, the first old one and the new snapshot, and `redo` then does nothing. -/
theorem saveHistory_discards_redo_branch_witness :
    (saveHistory undoneExample).history
      = undoneExample.history.take 1 ++ [captureHistoryState undoneExample] ∧
    redo (saveHistory undoneExample) = some (saveHistory undoneExample) :=
  have h := saveHistory_discards_redo_branch undoneExample 0 undoneExample_facts.1
    (by rw [undoneExample_facts.2]; decide) (by decide)
  ⟨h.1, h.2.2.2.2⟩

/-- C17, evaluated at the failing input: on the freshly loaded example session the
`delete` button of the preview list disables cell 3 without touching the history, so
the current history entry is the old snapshot and differs from the snapshot of the
resulting state; the same holds for a name edit. The crop editor path
`disableCurrentCell` does push a snapshot. -/
theorem preview_toggle_pushes_no_snapshot :
    (previewToggleCell sessionExample true 3).history = sessionExample.history ∧
    (previewToggleCell sessionExample true 3).historyIndex = sessionExample.historyIndex ∧
    historyAt (previewToggleCell sessionExample true 3).history
        (previewToggleCell sessionExample true 3).historyIndex
      = some (captureHistoryState sessionExample) ∧
    captureHistoryState (previewToggleCell sessionExample true 3)
      ≠ captureHistoryState sessionExample ∧
    historyAt (finishEdit sessionExample 0 "cat").history
        (finishEdit sessionExample 0 "cat").historyIndex
      = some (captureHistoryState sessionExample) ∧
    captureHistoryState (finishEdit sessionExample 0 "cat")
      ≠ captureHistoryState sessionExample ∧
    historyAt (disableCurrentCell sessionExample 3).history
        (disableCurrentCell sessionExample 3).historyIndex
      = some (captureHistoryState (disableCurrentCell sessionExample 3)) := by
  refine ⟨rfl, rfl, rfl, ?_, rfl, ?_, rfl⟩
  · intro h
    have h2 := congrArg Snapshot.disabledCells h
    have h3 : (3 : ℤ) ∈ (captureHistoryState (previewToggleCell sessionExample true 3)).disabledCells := by
      show (3 : ℤ) ∈ insert (3 : ℤ) sessionExample.disabledCells
      exact Finset.mem_insert_self _ _
    rw [h2] at h3
    exact absurd h3 (by show (3 : ℤ) ∉ (∅ : Finset ℤ); simp)
  · intro h
    have h2 := congrFun (congrArg Snapshot.customNames h) 0
    have h3 : (captureHistoryState (finishEdit sessionExample 0 "cat")).customNames 0
        = some "cat" := by
      simp [captureHistoryState, finishEdit]
    rw [h3] at h2
    exact absurd h2 (by show some "cat" ≠ (none : Option String); simp)

/-! ## View transform -/

theorem zoomAtPoint_zoom (img : Image) (view : View) (delta centerX centerY : ℚ) :
    (zoomAtPoint (some img) view delta centerX centerY).zoom
      = max (1 / 10) (min 10 (view.zoom + delta)) := by
  unfold zoomAtPoint
  by_cases h : max (1 / 10) (min 10 (view.zoom + delta)) = view.zoom
  · simp only [if_pos h]
    exact h.symm
  · simp only [if_neg h]

theorem zoomAtPoint_zoom_range (img : Image) (view : View) (delta centerX centerY : ℚ) :
    (1 : ℚ) / 10 ≤ (zoomAtPoint (some img) view delta centerX centerY).zoom ∧
      (zoomAtPoint (some img) view delta centerX centerY).zoom ≤ 10 := by
  rw [zoomAtPoint_zoom]
  exact ⟨le_max_left _ _, max_le (by norm_num) (min_le_left _ _)⟩

/-- C18: with an image loaded (without one `zoomAtPoint` returns at once and leaves the
view alone), for every view with zoom in [0.1, 10], every delta and every screen point p,
`zoomAtPoint` sets zoom' = clamp(zoom + delta, 0.1, 10) and
offset' = p - imagePoint * zoom', where imagePoint = canvasToImageCoords(p) before the
call, and canvasToImageCoords(p) is the same before and after. -/
theorem zoomAtPoint_keeps_point (img : Image) (view : View)
    (hlo : (1 : ℚ) / 10 ≤ view.zoom) (hhi : view.zoom ≤ 10) (delta centerX centerY : ℚ) :
    zoomAtPoint none view delta centerX centerY = view ∧
    (zoomAtPoint (some img) view delta centerX centerY).zoom
      = clamp (view.zoom + delta) (1 / 10) 10 ∧
    (zoomAtPoint (some img) view delta centerX centerY).offsetX
      = centerX - (canvasToImageCoords view centerX centerY).x
          * (zoomAtPoint (some img) view delta centerX centerY).zoom ∧
    (zoomAtPoint (some img) view delta centerX centerY).offsetY
      = centerY - (canvasToImageCoords view centerX centerY).y
          * (zoomAtPoint (some img) view delta centerX centerY).zoom ∧
    canvasToImageCoords (zoomAtPoint (some img) view delta centerX centerY) centerX centerY
      = canvasToImageCoords view centerX centerY := by
  have _ := hhi
  have hz : view.zoom ≠ 0 := by
    intro h; rw [h] at hlo; norm_num at hlo
  have hnew : (max (1 / 10) (min 10 (view.zoom + delta)) : ℚ) ≠ 0 := by
    have : (1 : ℚ) / 10 ≤ max (1 / 10) (min 10 (view.zoom + delta)) := le_max_left _ _
    intro h; rw [h] at this; norm_num at this
  refine ⟨rfl, zoomAtPoint_zoom img view delta centerX centerY, ?_, ?_, ?_⟩
  · unfold zoomAtPoint canvasToImageCoords
    by_cases h : max (1 / 10) (min 10 (view.zoom + delta)) = view.zoom
    · simp only [if_pos h]
      field_simp
    · simp only [if_neg h]
  · unfold zoomAtPoint canvasToImageCoords
    by_cases h : max (1 / 10) (min 10 (view.zoom + delta)) = view.zoom
    · simp only [if_pos h]
      field_simp
    · simp only [if_neg h]
  · unfold zoomAtPoint canvasToImageCoords
    by_cases h : max (1 / 10) (min 10 (view.zoom + delta)) = view.zoom
    · simp only [if_pos h]
    · simp only [if_neg h]
      congr 1
      · field_simp
        ring
      · field_simp
        ring

/-- C18 at the specification's example: zooming at (100,100) with delta = +0.25 from
zoom = 1, offset = (0,0) yields zoom = 1.25 and offset = (-25,-25). -/
theorem zoomAtPoint_keeps_point_example :
    zoomAtPoint (some { width := 400, height := 300 }) initialView (1 / 4) 100 100
      = { zoom := 5 / 4, offsetX := -25, offsetY := -25 } := by
  obtain ⟨_, hz, hx, hy, _⟩ := zoomAtPoint_keeps_point { width := 400, height := 300 }
    initialView (by simp only [initialView]; norm_num) (by simp only [initialView]; norm_num)
    (1 / 4) 100 100
  have hz2 : (zoomAtPoint (some { width := 400, height := 300 }) initialView (1 / 4) 100 100).zoom
      = 5 / 4 := by
    rw [hz]; simp only [initialView, clamp]; norm_num
  rw [hz2] at hx hy
  have hx2 : (zoomAtPoint (some { width := 400, height := 300 }) initialView (1 / 4) 100 100).offsetX
      = -25 := by
    rw [hx]; simp only [initialView, canvasToImageCoords]; norm_num
  have hy2 : (zoomAtPoint (some { width := 400, height := 300 }) initialView (1 / 4) 100 100).offsetY
      = -25 := by
    rw [hy]; simp only [initialView, canvasToImageCoords]; norm_num
  cases hv : zoomAtPoint (some { width := 400, height := 300 }) initialView (1 / 4) 100 100 with
  | mk z ox oy =>
    rw [hv] at hz2 hx2 hy2
    simp only at hz2 hx2 hy2
    rw [hz2, hx2, hy2]

theorem applyViewOp_zoom_le (originalImage : Option Image) (view : View) (op : ViewOp)
    (h : view.zoom ≤ 10) : (applyViewOp originalImage view op).zoom ≤ 10 := by
  cases originalImage with
  | none => cases op <;> exact h
  | some img =>
    cases op with
    | zoomAtPoint delta cx cy => exact (zoomAtPoint_zoom_range img view delta cx cy).2
    | zoomBy delta cw ch => exact (zoomAtPoint_zoom_range img view delta _ _).2
    | zoomToFit cw ch =>
      show min (min _ _) (1 : ℚ) ≤ 10
      exact le_trans (min_le_right _ _) (by norm_num)
    | zoomTo100 cw ch =>
      show (1 : ℚ) ≤ 10
      norm_num

theorem applyViewOp_zoom_ge (originalImage : Option Image) (view : View) (op : ViewOp)
    (h : (1 : ℚ) / 10 ≤ view.zoom) (hop : FitScalesInRange originalImage op) :
    (1 : ℚ) / 10 ≤ (applyViewOp originalImage view op).zoom := by
  cases originalImage with
  | none => cases op <;> exact h
  | some img =>
    cases op with
    | zoomAtPoint delta cx cy => exact (zoomAtPoint_zoom_range img view delta cx cy).1
    | zoomBy delta cw ch => exact (zoomAtPoint_zoom_range img view delta _ _).1
    | zoomToFit cw ch =>
      have hop2 : (1 : ℚ) / 10 ≤ (cw - 40) / (img.width : ℚ) ∧
          (1 : ℚ) / 10 ≤ (ch - 40) / (img.height : ℚ) := hop
      show (1 : ℚ) / 10 ≤ min (min _ _) (1 : ℚ)
      exact le_min (le_min hop2.1 hop2.2) (by norm_num)
    | zoomTo100 cw ch =>
      show (1 : ℚ) / 10 ≤ 1
      norm_num

/-- C19, refuted as stated: from the initial view, `zoomToFit` on a 10000x10000 image in
an 840x840 container sets zoom = 800/10000 = 0.08, below 0.1. -/
theorem zoomToFit_below_tenth :
    (applyViewOp (some { width := 10000, height := 10000 }) initialView
        (ViewOp.zoomToFit 840 840)).zoom = 2 / 25 ∧
    ¬ ((1 : ℚ) / 10 ≤ 2 / 25) := by
  constructor
  · show min (min (((840 : ℚ) - 40) / ((10000 : ℕ) : ℚ)) (((840 : ℚ) - 40) / ((10000 : ℕ) : ℚ))) 1
      = 2 / 25
    norm_num
  · norm_num

theorem foldl_applyViewOp_none (ops : List ViewOp) (view : View) :
    ops.foldl (applyViewOp none) view = view := by
  induction ops generalizing view with
  | nil => rfl
  | cons op rest ih =>
    rw [List.foldl_cons]
    have h : applyViewOp none view op = view := by cases op <;> rfl
    rw [h, ih]

theorem applyViewOp_zoom_ge_iff (img : Image) (view : View) (op : ViewOp) :
    (1 : ℚ) / 10 ≤ (applyViewOp (some img) view op).zoom ↔ FitScalesInRange (some img) op := by
  cases op with
  | zoomAtPoint delta cx cy =>
    exact ⟨fun _ => trivial, fun _ => (zoomAtPoint_zoom_range img view delta cx cy).1⟩
  | zoomBy delta cw ch =>
    exact ⟨fun _ => trivial, fun _ => (zoomAtPoint_zoom_range img view delta _ _).1⟩
  | zoomToFit cw ch =>
    show (1 : ℚ) / 10 ≤ min (min ((cw - 40) / (img.width : ℚ)) ((ch - 40) / (img.height : ℚ))) 1
      ↔ ((1 : ℚ) / 10 ≤ (cw - 40) / (img.width : ℚ) ∧
        (1 : ℚ) / 10 ≤ (ch - 40) / (img.height : ℚ))
    rw [le_min_iff, le_min_iff]
    constructor
    · rintro ⟨h, _⟩
      exact h
    · intro h
      exact ⟨h, by norm_num⟩
  | zoomTo100 cw ch =>
    refine ⟨fun _ => trivial, fun _ => ?_⟩
    show (1 : ℚ) / 10 ≤ 1
    norm_num

theorem foldl_applyViewOp_zoom_le (originalImage : Option Image) (ops : List ViewOp)
    (view : View) (h : view.zoom ≤ 10) :
    (ops.foldl (applyViewOp originalImage) view).zoom ≤ 10 := by
  induction ops generalizing view with
  | nil => exact h
  | cons op rest ih =>
    rw [List.foldl_cons]
    exact ih _ (applyViewOp_zoom_le originalImage view op h)

/-- C19, amended: in every state reachable from the initial view (zoom = 1) by any
sequence of `zoomAtPoint`, `zoomBy`, `zoomToFit` and `zoomTo100`, for every image and
every container size, view.zoom <= 10; and 0.1 <= view.zoom holds exactly when the last
operation of the sequence, if there is one, is not a `zoomToFit` that ran on a loaded
image with a fit scale (containerWidth - 40) / imageWidth or
(containerHeight - 40) / imageHeight below 0.1. After a last `zoomToFit` on a loaded
image the zoom is min(scaleX, scaleY, 1), whatever came before. -/
theorem zoom_range_reachable (originalImage : Option Image) (ops : List ViewOp) :
    (ops.foldl (applyViewOp originalImage) initialView).zoom ≤ 10 ∧
    ((1 : ℚ) / 10 ≤ (ops.foldl (applyViewOp originalImage) initialView).zoom ↔
      ∀ last, ops.getLast? = some last → FitScalesInRange originalImage last) ∧
    (∀ (img : Image) (cw ch : ℚ), originalImage = some img →
      ops.getLast? = some (ViewOp.zoomToFit cw ch) →
      (ops.foldl (applyViewOp originalImage) initialView).zoom =
        min (min ((cw - 40) / (img.width : ℚ)) ((ch - 40) / (img.height : ℚ))) 1) := by
  refine ⟨foldl_applyViewOp_zoom_le originalImage ops initialView
    (by show (1 : ℚ) ≤ 10; norm_num), ?_, ?_⟩
  · cases originalImage with
    | none =>
      rw [foldl_applyViewOp_none]
      constructor
      · intro _ last _
        cases last <;> trivial
      · intro _
        show (1 : ℚ) / 10 ≤ 1
        norm_num
    | some img =>
      rcases List.eq_nil_or_concat ops with h | ⟨init, last, h⟩
      · subst h
        constructor
        · intro _ last hl
          exact absurd hl (by simp)
        · intro _
          show (1 : ℚ) / 10 ≤ 1
          norm_num
      · subst h
        rw [List.concat_eq_append, List.foldl_append, List.foldl_cons, List.foldl_nil,
          applyViewOp_zoom_ge_iff, List.getLast?_append]
        simp
  · intro img cw ch himg hlast
    subst himg
    rcases List.eq_nil_or_concat ops with h | ⟨init, last, h⟩
    · subst h
      exact absurd hlast (by simp)
    · subst h
      rw [List.concat_eq_append, List.getLast?_append] at hlast
      simp at hlast
      subst hlast
      rw [List.concat_eq_append, List.foldl_append, List.foldl_cons, List.foldl_nil]
      rfl

/-- C19 (amended) on a 10000x10000 image: fitting into an 840x840 container (zoom 0.08)
and then zooming in by 0.01 at a point leaves the zoom within [0.1, 10], since the last
operation is not a `zoomToFit`. -/
theorem zoom_range_reachable_witness :
    (1 : ℚ) / 10 ≤
      ([ViewOp.zoomToFit 840 840, ViewOp.zoomAtPoint (1 / 100) 100 100].foldl
        (applyViewOp (some { width := 10000, height := 10000 })) initialView).zoom ∧
    ([ViewOp.zoomToFit 840 840, ViewOp.zoomAtPoint (1 / 100) 100 100].foldl
        (applyViewOp (some { width := 10000, height := 10000 })) initialView).zoom ≤ 10 :=
  have h := zoom_range_reachable (some { width := 10000, height := 10000 })
    [ViewOp.zoomToFit 840 840, ViewOp.zoomAtPoint (1 / 100) 100 100]
  ⟨h.2.1.2 (by
      intro last hl
      have e : last = ViewOp.zoomAtPoint (1 / 100) 100 100 := by
        simpa using hl.symm
      rw [e]
      trivial),
   h.1⟩

/-! ## Cell resize gesture -/

theorem resizeByHandle_corner_square (imgW imgH : ℚ) (area : Area) (handle : Handle)
    (p : Point) (hc : handle.IsCorner) :
    (resizeByHandle imgW imgH area handle p true).width
      = (resizeByHandle imgW imgH area handle p true).height ∧
    handle.oppositeCorner (resizeByHandle imgW imgH area handle p true)
      = handle.oppositeCorner area := by
  rcases hc with rfl | rfl | rfl | rfl
  · refine ⟨rfl, ?_⟩
    simp [resizeByHandle, Handle.oppositeCorner, Handle.includesW, Handle.includesN,
      Handle.includesE, Handle.includesS]
  · refine ⟨rfl, ?_⟩
    simp [resizeByHandle, Handle.oppositeCorner, Handle.includesW, Handle.includesN,
      Handle.includesE, Handle.includesS]
  · refine ⟨rfl, ?_⟩
    simp [resizeByHandle, Handle.oppositeCorner, Handle.includesW, Handle.includesN,
      Handle.includesE, Handle.includesS]
  · refine ⟨rfl, ?_⟩
    simp [resizeByHandle, Handle.oppositeCorner, Handle.includesW, Handle.includesN,
      Handle.includesE, Handle.includesS]

theorem resizeByHandle_edge_ignores_shift (imgW imgH : ℚ) (area : Area) (handle : Handle)
    (p : Point) (he : handle = Handle.n ∨ handle = Handle.s ∨ handle = Handle.e ∨
      handle = Handle.w) :
    resizeByHandle imgW imgH area handle p true = resizeByHandle imgW imgH area handle p false := by
  rcases he with rfl | rfl | rfl | rfl <;> simp [resizeByHandle]

theorem resizeCellArea_resize (st : State) (drag : DragState) (index : ℤ) (handle : Handle)
    (p : Point) (shiftKey : Bool) (start area : Area)
    (hstart : drag.dragStartArea = some start)
    (harea : resizeStartArea st start index = some area) (hmove : handle ≠ Handle.move) :
    resizeCellArea st drag index handle p shiftKey =
      some (setCustomArea st index
              (resizeByHandle (st.originalImage.width : ℚ) (st.originalImage.height : ℚ)
                area handle p shiftKey),
            drag) := by
  simp only [resizeCellArea, hstart, harea, if_neg hmove]

theorem setCustomArea_self (st : State) (index : ℤ) (area : Area) :
    (setCustomArea st index area).customAreas index = some area := by
  simp [setCustomArea]

/-- C20, refuted as stated: on a 200x100 image, dragging the `e` handle of the 50x50 cell
at the origin to x = 120 with shift held stores `{0, 0, 120, 50}`, whose width and height
differ. -/
theorem resize_edge_handle_not_square :
    (resizeCellArea resizeExample dragExample 0 Handle.e { x := 120, y := 25 } true).map
        (fun r => r.1.customAreas 0)
      = some (some { x := 0, y := 0, width := 120, height := 50 }) ∧
    (120 : ℚ) ≠ 50 := by
  constructor
  · have harea : resizeStartArea resizeExample { x := 0, y := 0, width := 50, height := 50 } 0
        = some { x := 0, y := 0, width := 50, height := 50 } := by
      simp [resizeStartArea, getCellArea, resizeExample, Area.toCellArea, CellArea.toArea?]
    rw [resizeCellArea_resize resizeExample dragExample 0 Handle.e _ true _ _ rfl harea
      (by decide)]
    rw [Option.map_some', setCustomArea_self]
    simp [resizeByHandle, Handle.includesW, Handle.includesN, Handle.includesE,
      Handle.includesS, resizeExample, centerExample]
    norm_num
  · norm_num

/-- C20, amended: for every cell area, every corner handle (nw, ne, sw, se) and every
pointer position, `resizeCellArea` with shift = true stores for the cell an area with
width = height whose corner opposite the dragged handle has the same image coordinates
as before; for the edge handles n, s, e, w the shift flag has no effect. -/
theorem resize_corner_square (st : State) (drag : DragState) (index : ℤ) (handle : Handle)
    (p : Point) (start area : Area) (hstart : drag.dragStartArea = some start)
    (harea : resizeStartArea st start index = some area) :
    (handle.IsCorner →
      ∃ (st2 : State) (stored : Area),
        resizeCellArea st drag index handle p true = some (st2, drag) ∧
        st2.customAreas index = some stored ∧
        stored.width = stored.height ∧
        handle.oppositeCorner stored = handle.oppositeCorner area) ∧
    (handle = Handle.n ∨ handle = Handle.s ∨ handle = Handle.e ∨ handle = Handle.w →
      resizeCellArea st drag index handle p true
        = resizeCellArea st drag index handle p false) := by
  constructor
  · intro hc
    have hmove : handle ≠ Handle.move := by
      rcases hc with rfl | rfl | rfl | rfl <;> decide
    obtain ⟨h1, h2⟩ := resizeByHandle_corner_square (st.originalImage.width : ℚ)
      (st.originalImage.height : ℚ) area handle p hc
    refine ⟨_, _, resizeCellArea_resize st drag index handle p true start area hstart harea
      hmove, setCustomArea_self _ _ _, h1, h2⟩
  · intro he
    have hmove : handle ≠ Handle.move := by
      rcases he with rfl | rfl | rfl | rfl <;> decide
    rw [resizeCellArea_resize st drag index handle p true start area hstart harea hmove,
      resizeCellArea_resize st drag index handle p false start area hstart harea hmove,
      resizeByHandle_edge_ignores_shift _ _ _ _ _ he]

/-- C20 (amended) on the 200x100 example: dragging the `se` handle of the 50x50 cell at
the origin to (120, 25) with shift held stores a square whose `nw` corner is still the
origin. -/
theorem resize_corner_square_witness :
    ∃ (st2 : State) (stored : Area),
      resizeCellArea resizeExample dragExample 0 Handle.se { x := 120, y := 25 } true
        = some (st2, dragExample) ∧
      st2.customAreas 0 = some stored ∧ stored.width = stored.height ∧
      Handle.se.oppositeCorner stored = some { x := 0, y := 0 } :=
  (resize_corner_square resizeExample dragExample 0 Handle.se { x := 120, y := 25 }
    { x := 0, y := 0, width := 50, height := 50 } { x := 0, y := 0, width := 50, height := 50 }
    rfl
    (by simp [resizeStartArea, getCellArea, resizeExample, Area.toCellArea,
          CellArea.toArea?])).1
    (Or.inr (Or.inr (Or.inr rfl)))

/-! ## Double rounding -/

theorem roundHalfEven_error (q : ℚ) : |((roundHalfEven q : ℤ) : ℚ) - q| ≤ 1 / 2 := by
  have h1 := Int.floor_le q
  have h2 := Int.lt_floor_add_one q
  unfold roundHalfEven
  simp only []
  rw [abs_le]
  split_ifs with a b c
  · constructor <;> linarith
  · push_cast; constructor <;> linarith
  · push_neg at a b
    constructor <;> linarith
  · push_neg at a b
    push_cast
    constructor <;> linarith

theorem roundHalfEven_intCast (z : ℤ) : roundHalfEven (z : ℚ) = z := by
  unfold roundHalfEven
  simp

theorem toDouble_zero : toDouble 0 = 0 := by
  unfold toDouble
  simp

theorem toDouble_error (q : ℚ) : |toDouble q - q| ≤ |q| / 2 ^ 53 := by
  by_cases h0 : q = 0
  · rw [h0, toDouble_zero]; simp
  · have habs : 0 < |q| := abs_pos.2 h0
    have hlog := Int.zpow_log_le_self (by norm_num : 1 < 2) habs
    have hu : (0 : ℚ) < (2 : ℚ) ^ (Int.log 2 |q| - 52) := zpow_pos (by norm_num) _
    have hue : (2 : ℚ) ^ (Int.log 2 |q| - 52) = (2 : ℚ) ^ (Int.log 2 |q|) / 2 ^ 52 := by
      rw [zpow_sub₀ (by norm_num : (2 : ℚ) ≠ 0)]
      norm_num
    have hr := roundHalfEven_error (q / (2 : ℚ) ^ (Int.log 2 |q| - 52))
    have heq : toDouble q - q =
        (((roundHalfEven (q / (2 : ℚ) ^ (Int.log 2 |q| - 52)) : ℤ) : ℚ)
          - q / (2 : ℚ) ^ (Int.log 2 |q| - 52)) * (2 : ℚ) ^ (Int.log 2 |q| - 52) := by
      unfold toDouble
      rw [if_neg h0]
      simp only []
      field_simp
    rw [heq, abs_mul, abs_of_pos hu]
    have h3 : |((roundHalfEven (q / (2 : ℚ) ^ (Int.log 2 |q| - 52)) : ℤ) : ℚ)
          - q / (2 : ℚ) ^ (Int.log 2 |q| - 52)| * (2 : ℚ) ^ (Int.log 2 |q| - 52)
        ≤ 1 / 2 * (2 : ℚ) ^ (Int.log 2 |q| - 52) :=
      mul_le_mul_of_nonneg_right hr (le_of_lt hu)
    refine le_trans h3 ?_
    rw [hue]
    have : (2 : ℚ) ^ (Int.log 2 |q|) / 2 ^ 52 ≤ |q| / 2 ^ 52 :=
      div_le_div_of_nonneg_right (by exact_mod_cast hlog) (by norm_num)
    have e53 : (2 : ℚ) ^ 53 = 2 * 2 ^ 52 := by norm_num
    rw [e53]
    calc 1 / 2 * ((2 : ℚ) ^ (Int.log 2 |q|) / 2 ^ 52) ≤ 1 / 2 * (|q| / 2 ^ 52) := by
          apply mul_le_mul_of_nonneg_left this (by norm_num)
      _ = |q| / (2 * 2 ^ 52) := by ring

theorem toDouble_exact (z : ℤ) (k : ℕ) (hz : |z| < 2 ^ 53) :
    toDouble ((z : ℚ) / 2 ^ k) = (z : ℚ) / 2 ^ k := by
  by_cases h0 : z = 0
  · rw [h0]; simp [toDouble_zero]
  · have hzq : (z : ℚ) ≠ 0 := by exact_mod_cast h0
    have hk : (0 : ℚ) < (2 : ℚ) ^ k := by positivity
    have hq : (z : ℚ) / 2 ^ k ≠ 0 := div_ne_zero hzq (ne_of_gt hk)
    have habs : 0 < |(z : ℚ) / 2 ^ k| := abs_pos.2 hq
    generalize he : Int.log 2 |(z : ℚ) / 2 ^ k| = e
    have hlog : ((2 : ℕ) : ℚ) ^ e ≤ |(z : ℚ) / 2 ^ k| := by
      rw [← he]; exact Int.zpow_log_le_self (by norm_num : 1 < 2) habs
    have hlt : |(z : ℚ) / 2 ^ k| < 2 ^ 53 / 2 ^ k := by
      rw [abs_div, abs_of_pos hk]
      apply div_lt_div_of_pos_right _ hk
      have : ((|z| : ℤ) : ℚ) < ((2 ^ 53 : ℤ) : ℚ) := by exact_mod_cast hz
      simpa using this
    have hek : e + (k : ℤ) < 53 := by
      have h1 : (2 : ℚ) ^ e < 2 ^ 53 / 2 ^ k := lt_of_le_of_lt (by simpa using hlog) hlt
      rw [lt_div_iff₀ hk] at h1
      have h2 : (2 : ℚ) ^ (e + (k : ℤ)) < (2 : ℚ) ^ (53 : ℤ) := by
        rw [zpow_add₀ (by norm_num : (2 : ℚ) ≠ 0), zpow_natCast]
        exact_mod_cast h1
      exact (zpow_lt_zpow_iff_right₀ (by norm_num : (1 : ℚ) < 2)).1 h2
    obtain ⟨n, hn⟩ : ∃ n : ℕ, (n : ℤ) = 52 - e - k := ⟨(52 - e - k).toNat, by omega⟩
    have hu : (2 : ℚ) ^ (e - 52) ≠ 0 := ne_of_gt (zpow_pos (by norm_num) _)
    have hquot : (z : ℚ) / 2 ^ k / (2 : ℚ) ^ (e - 52) = ((z * 2 ^ n : ℤ) : ℚ) := by
      have e1 : (2 : ℚ) ^ (e - 52) = ((2 : ℚ) ^ k * (2 : ℚ) ^ n)⁻¹ := by
        rw [← zpow_natCast (2 : ℚ) k, ← zpow_natCast (2 : ℚ) n,
          ← zpow_add₀ (by norm_num : (2 : ℚ) ≠ 0), ← zpow_neg]
        congr 1
        omega
      rw [e1]
      push_cast
      field_simp
      ring
    unfold toDouble
    rw [if_neg hq]
    simp only []
    rw [he, hquot, roundHalfEven_intCast, ← hquot]
    field_simp
    ring

theorem toDouble_natCast (n : ℕ) (h : n < 2 ^ 53) : toDouble (n : ℚ) = (n : ℚ) := by
  have h1 := toDouble_exact (n : ℤ) 0 (by
    rw [abs_of_nonneg (Int.natCast_nonneg n)]
    exact_mod_cast h)
  simpa using h1

theorem toDouble_bounds (q : ℚ) (hq : 0 ≤ q) :
    q - q / 2 ^ 53 ≤ toDouble q ∧ toDouble q ≤ q + q / 2 ^ 53 := by
  have h := toDouble_error q
  rw [abs_of_nonneg hq, abs_le] at h
  constructor <;> linarith [h.1, h.2]

theorem toDouble_dyadic (q : ℚ) : ∃ (z : ℤ) (k : ℕ), toDouble q * 2 ^ k = (z : ℚ) := by
  by_cases h0 : q = 0
  · exact ⟨0, 0, by rw [h0, toDouble_zero]; simp⟩
  · unfold toDouble
    rw [if_neg h0]
    simp only []
    generalize Int.log 2 |q| - 52 = t
    generalize roundHalfEven (q / (2 : ℚ) ^ t) = r
    rcases le_or_lt 0 t with ht | ht
    · obtain ⟨n, hn⟩ : ∃ n : ℕ, (n : ℤ) = t := ⟨t.toNat, Int.toNat_of_nonneg ht⟩
      refine ⟨r * 2 ^ n, 0, ?_⟩
      rw [← hn, zpow_natCast]
      push_cast
      ring
    · obtain ⟨n, hn⟩ : ∃ n : ℕ, (n : ℤ) = -t := ⟨(-t).toNat, Int.toNat_of_nonneg (by omega)⟩
      refine ⟨r, n, ?_⟩
      have e : (2 : ℚ) ^ t = ((2 : ℚ) ^ n)⁻¹ := by
        rw [← zpow_natCast (2 : ℚ) n, ← zpow_neg, hn, neg_neg]
      rw [e]
      field_simp

theorem dvd_of_dyadic (W n : ℕ) (hn : 0 < n) (hdiv : 20 * n ∣ 19 * W) (z : ℤ) (k : ℕ)
    (h : (W : ℚ) / (2 * (n : ℚ)) * 2 ^ k = (z : ℚ)) : n ∣ W := by
  obtain ⟨j, hj⟩ := hdiv
  have hn0 : (n : ℚ) ≠ 0 := by
    have : (0 : ℚ) < (n : ℚ) := by exact_mod_cast hn
    exact ne_of_gt this
  have hjq : (19 : ℚ) * (W : ℚ) = 20 * (n : ℚ) * (j : ℚ) := by exact_mod_cast hj
  have h1 : (W : ℚ) * 2 ^ k = 2 * (n : ℚ) * (z : ℚ) := by
    field_simp at h
    linarith
  have h2 : (10 : ℚ) * (j : ℚ) * 2 ^ k = 19 * (z : ℚ) := by
    have : (n : ℚ) * (10 * (j : ℚ) * 2 ^ k) = (n : ℚ) * (19 * (z : ℚ)) := by
      have e1 : (19 : ℚ) * ((W : ℚ) * 2 ^ k) = 19 * (2 * (n : ℚ) * (z : ℚ)) := by rw [h1]
      have e2 : (19 : ℚ) * ((W : ℚ) * 2 ^ k) = 20 * (n : ℚ) * (j : ℚ) * 2 ^ k := by
        rw [← hjq]; ring
      linarith
    exact mul_left_cancel₀ hn0 this
  have h3 : (10 : ℤ) * (j : ℤ) * 2 ^ k = 19 * z := by exact_mod_cast h2
  have hp : Prime (19 : ℤ) := by
    rw [Int.prime_iff_natAbs_prime]
    norm_num
  have hd : (19 : ℤ) ∣ 10 * (j : ℤ) * 2 ^ k := ⟨z, h3⟩
  have hj19 : (19 : ℤ) ∣ (j : ℤ) := by
    rcases hp.dvd_or_dvd hd with h4 | h4
    · rcases hp.dvd_or_dvd h4 with h5 | h5
      · exact absurd h5 (by decide)
      · exact h5
    · have := hp.dvd_of_dvd_pow h4
      exact absurd this (by decide)
  have hj19n : 19 ∣ j := by exact_mod_cast hj19
  obtain ⟨i, hi⟩ := hj19n
  refine ⟨20 * i, ?_⟩
  have : 19 * W = 19 * (n * (20 * i)) := by
    rw [hj, hi]; ring
  exact Nat.eq_of_mul_eq_mul_left (by norm_num) this

/-! ## Agreement of the two centre-line geometries -/

theorem getCellArea_of_override (st : State) (index : ℤ) (a : Area)
    (h : st.customAreas index = some a) : getCellArea st index = some a.toCellArea := by
  unfold getCellArea
  simp only [h]

theorem centerLineCell_of_override (st : State) (cy cx : ℚ) (idx : ℕ) (a : Area)
    (h : st.customAreas (idx : ℤ) = some a) : centerLineCell st cy cx idx = a := by
  unfold centerLineCell
  simp only [h]

/-- C29: in centre-line mode, when `centerLinesX.length = cols` and
`centerLinesY.length = rows`, for every index `i` in `[0, rows*cols)` the `i`-th element
of `getCropAreas()` exists and `getCellArea(i)` returns the same rectangle (same x, y,
width, height), whether or not an override is stored for `i`. -/
theorem getCropAreas_agrees_with_getCellArea (st : State) (hmode : st.mode = Mode.centerline)
    (hx : st.centerLinesX.length = st.cols) (hy : st.centerLinesY.length = st.rows)
    (i : ℕ) (hi : i < st.rows * st.cols) :
    ∃ a : Area, (getCropAreas st)[i]? = some a ∧
      getCellArea st (i : ℤ) = some a.toCellArea := by
  have hi2 : i < st.centerLinesY.length * st.centerLinesX.length := by rw [hx, hy]; exact hi
  obtain ⟨cy, cx, hcy, hcx, hget⟩ := getCropAreas_centerline_getElem? st hmode i hi2
  rw [hx] at hcy hcx
  refine ⟨centerLineCell st cy cx i, hget, ?_⟩
  cases hov : st.customAreas (i : ℤ) with
  | some o =>
    rw [centerLineCell_of_override st cy cx i o hov]
    exact getCellArea_of_override st _ o hov
  | none =>
    rw [centerLineCell_of_none st cy cx i hov, getCellArea_derived st i hov cx cy hcx hcy]
    rfl

/-- C29 on the 200x100 example with an override for cell 1: for the derived cell 0 and
for the overridden cell 1, `getCellArea` returns the entry of `getCropAreas()`. -/
theorem getCropAreas_agrees_with_getCellArea_witness :
    (∃ a : Area, (getCropAreas overrideExample)[0]? = some a ∧
      getCellArea overrideExample ((0 : ℕ) : ℤ) = some a.toCellArea) ∧
    (∃ a : Area, (getCropAreas overrideExample)[1]? = some a ∧
      getCellArea overrideExample ((1 : ℕ) : ℤ) = some a.toCellArea) :=
  ⟨getCropAreas_agrees_with_getCellArea overrideExample rfl rfl rfl 0 (by decide),
   getCropAreas_agrees_with_getCellArea overrideExample rfl rfl rfl 1 (by decide)⟩

/-! ## Bounds kept by the resize gesture -/

theorem west_edge_bounds (x w px : ℚ) (h0 : 0 ≤ x) (hw : 20 ≤ w) :
    0 ≤ max 0 (min (x + w - 20) px) ∧ 20 ≤ x + w - max 0 (min (x + w - 20) px) := by
  refine ⟨le_max_left _ _, ?_⟩
  have h1 : max 0 (min (x + w - 20) px) ≤ x + w - 20 :=
    max_le (by linarith) (min_le_left _ _)
  linarith

theorem east_edge_bounds (x w imgW px : ℚ) (hw : 20 ≤ w) (hxw : x + w ≤ imgW) :
    20 ≤ max 20 (min (imgW - x) (px - x)) ∧ x + max 20 (min (imgW - x) (px - x)) ≤ imgW := by
  refine ⟨le_max_left _ _, ?_⟩
  have h1 : max 20 (min (imgW - x) (px - x)) ≤ imgW - x :=
    max_le (by linarith) (min_le_left _ _)
  linarith

theorem west_square_bounds (x w size : ℚ) (h0 : 0 ≤ x) (hw : 20 ≤ w) (hs : 20 ≤ size) :
    20 ≤ x + w - max 0 (x + w - size) ∧ x + w - max 0 (x + w - size) ≤ x + w := by
  have h1 : max 0 (x + w - size) ≤ x + w - 20 := max_le (by linarith) (by linarith)
  have h2 : 0 ≤ max 0 (x + w - size) := le_max_left _ _
  constructor <;> linarith

theorem east_square_bounds (x w imgW size : ℚ) (hw : 20 ≤ w) (hxw : x + w ≤ imgW)
    (hs : 20 ≤ size) :
    20 ≤ min size (imgW - x) ∧ x + min size (imgW - x) ≤ imgW := by
  have h1 : min size (imgW - x) ≤ imgW - x := min_le_right _ _
  exact ⟨le_min hs (by linarith), by linarith⟩

theorem resizeByHandle_frame (imgW imgH : ℚ) (area : Area) (handle : Handle) (p : Point)
    (shiftKey : Bool) :
    (handle = Handle.n ∨ handle = Handle.s →
      (resizeByHandle imgW imgH area handle p shiftKey).x = area.x ∧
      (resizeByHandle imgW imgH area handle p shiftKey).width = area.width) ∧
    (handle = Handle.e ∨ handle = Handle.w →
      (resizeByHandle imgW imgH area handle p shiftKey).y = area.y ∧
      (resizeByHandle imgW imgH area handle p shiftKey).height = area.height) ∧
    (handle.includesN = true →
      (resizeByHandle imgW imgH area handle p shiftKey).y +
        (resizeByHandle imgW imgH area handle p shiftKey).height = area.y + area.height) ∧
    (handle.includesS = true →
      (resizeByHandle imgW imgH area handle p shiftKey).y = area.y) ∧
    (handle.includesW = true →
      (resizeByHandle imgW imgH area handle p shiftKey).x +
        (resizeByHandle imgW imgH area handle p shiftKey).width = area.x + area.width) ∧
    (handle.includesE = true →
      (resizeByHandle imgW imgH area handle p shiftKey).x = area.x) := by
  cases handle <;> cases shiftKey <;>
    simp only [resizeByHandle, Handle.includesN, Handle.includesS, Handle.includesE,
        Handle.includesW, reduceCtorEq, ne_eq, not_true_eq_false,
        not_false_eq_true, and_true, and_false, true_and, false_and, if_true, if_false,
        Bool.false_eq_true, decide_True, decide_False, or_self, or_true, or_false, true_or,
        false_or, false_implies, implies_true, true_implies, and_self, sub_add_cancel,
        add_sub_cancel]

theorem resizeByHandle_plain_bounds (imgW imgH : ℚ) (area : Area) (handle : Handle)
    (p : Point) (hin : area.Inside imgW imgH) (hw : 20 ≤ area.width)
    (hh : 20 ≤ area.height) :
    20 ≤ (resizeByHandle imgW imgH area handle p false).width ∧
    20 ≤ (resizeByHandle imgW imgH area handle p false).height ∧
    (resizeByHandle imgW imgH area handle p false).Inside imgW imgH := by
  obtain ⟨h0x, h0y, hxw, hyh⟩ := hin
  obtain ⟨wx1, wx2⟩ := west_edge_bounds area.x area.width p.x h0x hw
  obtain ⟨ex1, ex2⟩ := east_edge_bounds area.x area.width imgW p.x hw hxw
  obtain ⟨ny1, ny2⟩ := west_edge_bounds area.y area.height p.y h0y hh
  obtain ⟨sy1, sy2⟩ := east_edge_bounds area.y area.height imgH p.y hh hyh
  cases handle <;>
    simp only [resizeByHandle, Handle.includesN, Handle.includesS, Handle.includesE,
        Handle.includesW, Area.Inside, reduceCtorEq, ne_eq, not_true_eq_false,
        not_false_eq_true, and_true, and_false, true_and, false_and, if_true, if_false,
        Bool.false_eq_true, decide_True, decide_False] <;>
    refine ⟨?_, ?_, ?_, ?_, ?_, ?_⟩ <;> linarith

theorem resizeByHandle_square_bounds (imgW imgH : ℚ) (area : Area) (handle : Handle)
    (p : Point) (hin : area.Inside imgW imgH) (hw : 20 ≤ area.width)
    (hh : 20 ≤ area.height) (hc : handle.IsCorner) :
    20 ≤ (resizeByHandle imgW imgH area handle p true).width ∧
    20 ≤ (resizeByHandle imgW imgH area handle p true).height ∧
    (resizeByHandle imgW imgH area handle p true).Inside imgW imgH := by
  obtain ⟨h0x, h0y, hxw, hyh⟩ := hin
  obtain ⟨wx1, wx2⟩ := west_edge_bounds area.x area.width p.x h0x hw
  obtain ⟨ex1, ex2⟩ := east_edge_bounds area.x area.width imgW p.x hw hxw
  obtain ⟨ny1, ny2⟩ := west_edge_bounds area.y area.height p.y h0y hh
  obtain ⟨sy1, sy2⟩ := east_edge_bounds area.y area.height imgH p.y hh hyh
  rcases hc with rfl | rfl | rfl | rfl
  · -- handle nw
    simp only [resizeByHandle, Handle.includesN, Handle.includesS, Handle.includesE,
      Handle.includesW, Area.Inside, reduceCtorEq, ne_eq, not_true_eq_false,
      not_false_eq_true, and_true, and_false, true_and, false_and, if_true, if_false,
      Bool.false_eq_true, decide_True, decide_False]
    generalize max 0 (min (area.x + area.width - 20) p.x) = X at wx1 wx2 ⊢
    generalize max 0 (min (area.y + area.height - 20) p.y) = Y at ny1 ny2 ⊢
    have hs : 20 ≤ max (area.x + area.width - X) (area.y + area.height - Y) :=
      le_max_of_le_left wx2
    generalize max (area.x + area.width - X) (area.y + area.height - Y) = size at hs ⊢
    obtain ⟨a1, a2⟩ := west_square_bounds area.x area.width size h0x hw hs
    obtain ⟨b1, b2⟩ := west_square_bounds area.y area.height size h0y hh hs
    have hf : 20 ≤ min (area.x + area.width - max 0 (area.x + area.width - size))
        (area.y + area.height - max 0 (area.y + area.height - size)) := le_min a1 b1
    have hf1 := min_le_left (area.x + area.width - max 0 (area.x + area.width - size))
        (area.y + area.height - max 0 (area.y + area.height - size))
    have hf2 := min_le_right (area.x + area.width - max 0 (area.x + area.width - size))
        (area.y + area.height - max 0 (area.y + area.height - size))
    generalize min (area.x + area.width - max 0 (area.x + area.width - size))
        (area.y + area.height - max 0 (area.y + area.height - size)) = fin at hf hf1 hf2 ⊢
    refine ⟨?_, ?_, ?_, ?_, ?_, ?_⟩ <;> linarith
  · -- handle ne
    simp only [resizeByHandle, Handle.includesN, Handle.includesS, Handle.includesE,
      Handle.includesW, Area.Inside, reduceCtorEq, ne_eq, not_true_eq_false,
      not_false_eq_true, and_true, and_false, true_and, false_and, if_true, if_false,
      Bool.false_eq_true, decide_True, decide_False]
    generalize max 20 (min (imgW - area.x) (p.x - area.x)) = W at ex1 ex2 ⊢
    generalize max 0 (min (area.y + area.height - 20) p.y) = Y at ny1 ny2 ⊢
    have hs : 20 ≤ max (W) (area.y + area.height - Y) :=
      le_max_of_le_left ex1
    generalize max (W) (area.y + area.height - Y) = size at hs ⊢
    obtain ⟨a1, a2⟩ := east_square_bounds area.x area.width imgW size hw hxw hs
    obtain ⟨b1, b2⟩ := west_square_bounds area.y area.height size h0y hh hs
    have hf : 20 ≤ min (min size (imgW - area.x))
        (area.y + area.height - max 0 (area.y + area.height - size)) := le_min a1 b1
    have hf1 := min_le_left (min size (imgW - area.x))
        (area.y + area.height - max 0 (area.y + area.height - size))
    have hf2 := min_le_right (min size (imgW - area.x))
        (area.y + area.height - max 0 (area.y + area.height - size))
    generalize min (min size (imgW - area.x))
        (area.y + area.height - max 0 (area.y + area.height - size)) = fin at hf hf1 hf2 ⊢
    refine ⟨?_, ?_, ?_, ?_, ?_, ?_⟩ <;> linarith
  · -- handle sw
    simp only [resizeByHandle, Handle.includesN, Handle.includesS, Handle.includesE,
      Handle.includesW, Area.Inside, reduceCtorEq, ne_eq, not_true_eq_false,
      not_false_eq_true, and_true, and_false, true_and, false_and, if_true, if_false,
      Bool.false_eq_true, decide_True, decide_False]
    generalize max 0 (min (area.x + area.width - 20) p.x) = X at wx1 wx2 ⊢
    generalize max 20 (min (imgH - area.y) (p.y - area.y)) = H at sy1 sy2 ⊢
    have hs : 20 ≤ max (area.x + area.width - X) (H) :=
      le_max_of_le_left wx2
    generalize max (area.x + area.width - X) (H) = size at hs ⊢
    obtain ⟨a1, a2⟩ := west_square_bounds area.x area.width size h0x hw hs
    obtain ⟨b1, b2⟩ := east_square_bounds area.y area.height imgH size hh hyh hs
    have hf : 20 ≤ min (area.x + area.width - max 0 (area.x + area.width - size))
        (min size (imgH - area.y)) := le_min a1 b1
    have hf1 := min_le_left (area.x + area.width - max 0 (area.x + area.width - size))
        (min size (imgH - area.y))
    have hf2 := min_le_right (area.x + area.width - max 0 (area.x + area.width - size))
        (min size (imgH - area.y))
    generalize min (area.x + area.width - max 0 (area.x + area.width - size))
        (min size (imgH - area.y)) = fin at hf hf1 hf2 ⊢
    refine ⟨?_, ?_, ?_, ?_, ?_, ?_⟩ <;> linarith
  · -- handle se
    simp only [resizeByHandle, Handle.includesN, Handle.includesS, Handle.includesE,
      Handle.includesW, Area.Inside, reduceCtorEq, ne_eq, not_true_eq_false,
      not_false_eq_true, and_true, and_false, true_and, false_and, if_true, if_false,
      Bool.false_eq_true, decide_True, decide_False]
    generalize max 20 (min (imgW - area.x) (p.x - area.x)) = W at ex1 ex2 ⊢
    generalize max 20 (min (imgH - area.y) (p.y - area.y)) = H at sy1 sy2 ⊢
    have hs : 20 ≤ max (W) (H) :=
      le_max_of_le_left ex1
    generalize max (W) (H) = size at hs ⊢
    obtain ⟨a1, a2⟩ := east_square_bounds area.x area.width imgW size hw hxw hs
    obtain ⟨b1, b2⟩ := east_square_bounds area.y area.height imgH size hh hyh hs
    have hf : 20 ≤ min (min size (imgW - area.x))
        (min size (imgH - area.y)) := le_min a1 b1
    have hf1 := min_le_left (min size (imgW - area.x))
        (min size (imgH - area.y))
    have hf2 := min_le_right (min size (imgW - area.x))
        (min size (imgH - area.y))
    generalize min (min size (imgW - area.x))
        (min size (imgH - area.y)) = fin at hf hf1 hf2 ⊢
    refine ⟨?_, ?_, ?_, ?_, ?_, ?_⟩ <;> linarith

theorem resizeByHandle_bounds (imgW imgH : ℚ) (area : Area) (handle : Handle) (p : Point)
    (shiftKey : Bool) (hin : area.Inside imgW imgH) (hw : 20 ≤ area.width)
    (hh : 20 ≤ area.height) (hmove : handle ≠ Handle.move) :
    20 ≤ (resizeByHandle imgW imgH area handle p shiftKey).width ∧
    20 ≤ (resizeByHandle imgW imgH area handle p shiftKey).height ∧
    (resizeByHandle imgW imgH area handle p shiftKey).Inside imgW imgH := by
  cases shiftKey with
  | false => exact resizeByHandle_plain_bounds imgW imgH area handle p hin hw hh
  | true =>
    by_cases hc : handle.IsCorner
    · exact resizeByHandle_square_bounds imgW imgH area handle p hin hw hh hc
    · have he : handle = Handle.n ∨ handle = Handle.s ∨ handle = Handle.e ∨
          handle = Handle.w := by
        unfold Handle.IsCorner at hc
        cases handle <;> simp_all
      rw [resizeByHandle_edge_ignores_shift imgW imgH area handle p he]
      exact resizeByHandle_plain_bounds imgW imgH area handle p hin hw hh

theorem resizeCellArea_move (st : State) (drag : DragState) (index : ℤ) (p last : Point)
    (shiftKey : Bool) (start area : Area) (hstart : drag.dragStartArea = some start)
    (harea : resizeStartArea st start index = some area)
    (hlast : drag.lastDragPos = some last) :
    resizeCellArea st drag index Handle.move p shiftKey =
      some (setCustomArea st index
              { x := max 0 (min ((st.originalImage.width : ℚ) - area.width)
                      (area.x + (p.x - last.x)))
                y := max 0 (min ((st.originalImage.height : ℚ) - area.height)
                      (area.y + (p.y - last.y)))
                width := area.width
                height := area.height },
            { drag with lastDragPos := some p }) := by
  unfold resizeCellArea
  simp only [hstart, harea, hlast, if_true]

theorem resizeCellArea_move_start (st : State) (drag : DragState) (index : ℤ) (p : Point)
    (shiftKey : Bool) (start area : Area) (hstart : drag.dragStartArea = some start)
    (harea : resizeStartArea st start index = some area)
    (hlast : drag.lastDragPos = none) :
    resizeCellArea st drag index Handle.move p shiftKey =
      some (st, { drag with lastDragPos := some p }) := by
  unfold resizeCellArea
  simp only [hstart, harea, hlast, if_true]

/-- C21: when the rectangle `resizeCellArea` starts from lies inside the image and has
width and height at least 20, then for every handle, pointer position and shift flag the
call stores a rectangle (the one exception being the first `move` call of a gesture
without a last position, which only records the position and leaves the state as it is);
the stored rectangle has width >= 20, height >= 20 and lies inside the image, an `n` or
`s` handle leaves x and width alone, an `e` or `w` handle leaves y and height alone, the
edge opposite every dragged edge keeps its coordinate, and `move` keeps the size. -/
theorem resizeCellArea_keeps_bounds (st : State) (drag : DragState) (index : ℤ)
    (handle : Handle) (p : Point) (shiftKey : Bool) (start area : Area)
    (hstart : drag.dragStartArea = some start)
    (harea : resizeStartArea st start index = some area)
    (hin : area.Inside (st.originalImage.width : ℚ) (st.originalImage.height : ℚ))
    (hw : 20 ≤ area.width) (hh : 20 ≤ area.height) :
    (handle = Handle.move ∧ drag.lastDragPos = none →
      resizeCellArea st drag index handle p shiftKey
        = some (st, { drag with lastDragPos := some p })) ∧
    (¬ (handle = Handle.move ∧ drag.lastDragPos = none) →
      ∃ (drag2 : DragState) (stored : Area),
        resizeCellArea st drag index handle p shiftKey
          = some (setCustomArea st index stored, drag2) ∧
        (setCustomArea st index stored).customAreas index = some stored ∧
        20 ≤ stored.width ∧ 20 ≤ stored.height ∧
        stored.Inside (st.originalImage.width : ℚ) (st.originalImage.height : ℚ) ∧
        (handle = Handle.n ∨ handle = Handle.s →
          stored.x = area.x ∧ stored.width = area.width) ∧
        (handle = Handle.e ∨ handle = Handle.w →
          stored.y = area.y ∧ stored.height = area.height) ∧
        (handle.includesN = true → stored.y + stored.height = area.y + area.height) ∧
        (handle.includesS = true → stored.y = area.y) ∧
        (handle.includesW = true → stored.x + stored.width = area.x + area.width) ∧
        (handle.includesE = true → stored.x = area.x) ∧
        (handle = Handle.move →
          stored.width = area.width ∧ stored.height = area.height)) := by
  constructor
  · rintro ⟨rfl, hlast⟩
    exact resizeCellArea_move_start st drag index p shiftKey start area hstart harea hlast
  · intro hnot
    by_cases hmove : handle = Handle.move
    · subst hmove
      cases hlast : drag.lastDragPos with
      | none => exact absurd ⟨rfl, hlast⟩ hnot
      | some last =>
        obtain ⟨h0x, h0y, hxw, hyh⟩ := hin
        obtain ⟨cx1, cx2⟩ := clamped_origin_bounds (st.originalImage.width : ℚ) area.width
          (area.x + (p.x - last.x))
        obtain ⟨cy1, cy2⟩ := clamped_origin_bounds (st.originalImage.height : ℚ) area.height
          (area.y + (p.y - last.y))
        refine ⟨_, _, resizeCellArea_move st drag index p last shiftKey start area hstart
          harea hlast, setCustomArea_self _ _ _, hw, hh,
          ⟨cx1, cy1, cx2 (by linarith), cy2 (by linarith)⟩, ?_, ?_, ?_, ?_, ?_, ?_, ?_⟩
        · rintro (h | h) <;> exact absurd h (by decide)
        · rintro (h | h) <;> exact absurd h (by decide)
        · intro h; exact absurd h (by decide)
        · intro h; exact absurd h (by decide)
        · intro h; exact absurd h (by decide)
        · intro h; exact absurd h (by decide)
        · intro _; exact ⟨rfl, rfl⟩
    · obtain ⟨b1, b2, b3⟩ := resizeByHandle_bounds (st.originalImage.width : ℚ)
        (st.originalImage.height : ℚ) area handle p shiftKey hin hw hh hmove
      obtain ⟨f1, f2, f3, f4, f5, f6⟩ := resizeByHandle_frame (st.originalImage.width : ℚ)
        (st.originalImage.height : ℚ) area handle p shiftKey
      exact ⟨_, _, resizeCellArea_resize st drag index handle p shiftKey start area hstart
        harea hmove, setCustomArea_self _ _ _, b1, b2, b3, f1, f2, f3, f4, f5, f6,
        fun h => absurd h hmove⟩

/-- C21 on the 200x100 example: dragging the `se` handle of the 50x50 cell at the origin
to (120, 25) stores a rectangle of width and height at least 20 inside the image whose
x and y are still 0. -/
theorem resizeCellArea_keeps_bounds_witness :
    ∃ (drag2 : DragState) (stored : Area),
      resizeCellArea resizeExample dragExample 0 Handle.se { x := 120, y := 25 } false
        = some (setCustomArea resizeExample 0 stored, drag2) ∧
      20 ≤ stored.width ∧ 20 ≤ stored.height ∧
      stored.Inside 200 100 ∧ stored.x = 0 ∧ stored.y = 0 := by
  obtain ⟨drag2, stored, h1, _, h3, h4, h5, _, _, _, h9, _, h11, _⟩ :=
    (resizeCellArea_keeps_bounds resizeExample dragExample 0 Handle.se { x := 120, y := 25 }
      false { x := 0, y := 0, width := 50, height := 50 }
      { x := 0, y := 0, width := 50, height := 50 } rfl
      (by simp [resizeStartArea, getCellArea, resizeExample, Area.toCellArea,
            CellArea.toArea?])
      (by norm_num [Area.Inside, resizeExample, centerExample])
      (by norm_num) (by norm_num)).2 (by decide)
  exact ⟨drag2, stored, h1, h3, h4, by simpa [resizeExample, centerExample] using h5,
    h11 rfl, h9 rfl⟩

/-! ## Automatic cell size -/

theorem adjacentGapLoop_eq_foldl (lines : List ℚ) :
    ∀ minDist : Option ℚ, adjacentGapLoop lines minDist =
      (List.zipWith (fun a b => b - a) lines lines.tail).foldl minDistStep minDist := by
  induction lines with
  | nil => intro m; rfl
  | cons a rest ih =>
    intro m
    cases rest with
    | nil => rfl
    | cons b rest2 =>
      show adjacentGapLoop (b :: rest2) (minDistStep m (b - a)) = _
      rw [ih]
      rfl

theorem foldl_minDistStep_some (ds : List ℚ) :
    ∀ a : ℚ, ∃ m, ds.foldl minDistStep (some a) = some m ∧ m ≤ a ∧ (∀ d ∈ ds, m ≤ d) ∧
      (m = a ∨ m ∈ ds) := by
  induction ds with
  | nil => intro a; exact ⟨a, rfl, le_refl a, by simp, Or.inl rfl⟩
  | cons d rest ih =>
    intro a
    obtain ⟨m, h1, h2, h3, h4⟩ := ih (min a d)
    refine ⟨m, h1, le_trans h2 (min_le_left _ _), ?_, ?_⟩
    · intro e he
      rcases List.mem_cons.1 he with rfl | he
      · exact le_trans h2 (min_le_right _ _)
      · exact h3 e he
    · rcases h4 with h4 | h4
      · rcases min_choice a d with hc | hc
        · exact Or.inl (h4.trans hc)
        · exact Or.inr (by rw [h4, hc]; exact List.mem_cons_self _ _)
      · exact Or.inr (List.mem_cons_of_mem _ h4)

theorem foldl_minDistStep_none (ds : List ℚ) (hne : ds ≠ []) :
    ∃ m, ds.foldl minDistStep none = some m ∧ m ∈ ds ∧ ∀ d ∈ ds, m ≤ d := by
  cases ds with
  | nil => exact absurd rfl hne
  | cons d rest =>
    obtain ⟨m, h1, h2, h3, h4⟩ := foldl_minDistStep_some rest d
    refine ⟨m, h1, ?_, ?_⟩
    · rcases h4 with h4 | h4
      · rw [h4]; exact List.mem_cons_self _ _
      · exact List.mem_cons_of_mem _ h4
    · intro e he
      rcases List.mem_cons.1 he with rfl | he
      · exact h2
      · exact h3 e he

theorem axisMinDist_eq_foldl (lines : List ℚ) (extent : ℚ) :
    axisMinDist lines extent = (gapCandidates lines extent).foldl minDistStep none := by
  unfold axisMinDist gapCandidates
  rw [List.foldl_append, adjacentGapLoop_eq_foldl]
  cases lines.head? <;> cases lines.getLast? <;> simp [mul_comm]

theorem gapCandidates_ne_nil (lines : List ℚ) (extent : ℚ) (hne : lines ≠ []) :
    gapCandidates lines extent ≠ [] := by
  cases lines with
  | nil => exact absurd rfl hne
  | cons a rest =>
    unfold gapCandidates
    cases hl : (a :: rest).getLast? with
    | none => simp at hl
    | some last => simp

theorem axisMinDist_spec (lines : List ℚ) (extent : ℚ) (hne : lines ≠ []) :
    ∃ m, axisMinDist lines extent = some m ∧ m ∈ gapCandidates lines extent ∧
      ∀ d ∈ gapCandidates lines extent, m ≤ d := by
  rw [axisMinDist_eq_foldl]
  exact foldl_minDistStep_none _ (gapCandidates_ne_nil lines extent hne)

theorem autoCalculateCellSize_spec (st : State) (hx : st.centerLinesX ≠ [])
    (hy : st.centerLinesY ≠ []) :
    ∃ mx my : ℚ,
      (mx ∈ gapCandidates st.centerLinesX (st.originalImage.width : ℚ) ∧
        ∀ d ∈ gapCandidates st.centerLinesX (st.originalImage.width : ℚ), mx ≤ d) ∧
      (my ∈ gapCandidates st.centerLinesY (st.originalImage.height : ℚ) ∧
        ∀ d ∈ gapCandidates st.centerLinesY (st.originalImage.height : ℚ), my ≤ d) ∧
      autoCalculateCellSize st = some
        { st with
          cellWidth := ((⌊19 / 20 * mx⌋ : ℤ) : ℚ)
          cellHeight := ((⌊19 / 20 * my⌋ : ℤ) : ℚ) } := by
  obtain ⟨mx, hmx, h1, h2⟩ := axisMinDist_spec st.centerLinesX (st.originalImage.width : ℚ) hx
  obtain ⟨my, hmy, h3, h4⟩ := axisMinDist_spec st.centerLinesY (st.originalImage.height : ℚ) hy
  refine ⟨mx, my, ⟨h1, h2⟩, ⟨h3, h4⟩, ?_⟩
  unfold autoCalculateCellSize
  have hlen : ¬ st.centerLinesX.length = 0 := by
    intro h
    exact hx (List.length_eq_zero.1 h)
  rw [if_neg hlen, hmx, hmy]
  simp only [mul_comm]

theorem floor_pos_iff (m : ℚ) : (0 : ℚ) < ((⌊19 / 20 * m⌋ : ℤ) : ℚ) ↔ 20 / 19 ≤ m := by
  rw [show ((0 : ℚ) = ((0 : ℤ) : ℚ)) by norm_num, Int.cast_lt, Int.lt_iff_add_one_le,
    Int.le_floor]
  constructor
  · intro h
    have h2 : (1 : ℚ) ≤ 19 / 20 * m := by simpa using h
    linarith
  · intro h
    have h2 : (1 : ℚ) ≤ 19 / 20 * m := by linarith
    simpa using h2

theorem gapCandidates_single (a extent : ℚ) :
    gapCandidates [a] extent = [2 * a, 2 * (extent - a)] := by
  simp [gapCandidates]

/-- C22 (amended): with an image loaded and at least one centre line per axis,
`autoCalculateCellSize` sets `cellWidth = floor(0.95 * mx)` and
`cellHeight = floor(0.95 * my)` where `mx` is the least of the gaps `xs[i] - xs[i-1]`,
`2 * xs[0]` and `2 * (W - xs[last])`, and `my` the same over `ys` and `H`; with a single
line `a` on an axis the minimum is `min(2a, 2(extent - a))`; and the cell width (height)
is positive exactly when that minimum is at least 20/19. -/
theorem autoCalculateCellSize_formula (st : State) (hx : st.centerLinesX ≠ [])
    (hy : st.centerLinesY ≠ []) :
    ∃ mx my : ℚ,
      (mx ∈ gapCandidates st.centerLinesX (st.originalImage.width : ℚ) ∧
        ∀ d ∈ gapCandidates st.centerLinesX (st.originalImage.width : ℚ), mx ≤ d) ∧
      (my ∈ gapCandidates st.centerLinesY (st.originalImage.height : ℚ) ∧
        ∀ d ∈ gapCandidates st.centerLinesY (st.originalImage.height : ℚ), my ≤ d) ∧
      autoCalculateCellSize st = some
        { st with
          cellWidth := ((⌊19 / 20 * mx⌋ : ℤ) : ℚ)
          cellHeight := ((⌊19 / 20 * my⌋ : ℤ) : ℚ) } ∧
      ((0 : ℚ) < ((⌊19 / 20 * mx⌋ : ℤ) : ℚ) ↔ 20 / 19 ≤ mx) ∧
      ((0 : ℚ) < ((⌊19 / 20 * my⌋ : ℤ) : ℚ) ↔ 20 / 19 ≤ my) ∧
      (∀ a, st.centerLinesX = [a] →
        mx = min (2 * a) (2 * ((st.originalImage.width : ℚ) - a))) ∧
      (∀ b, st.centerLinesY = [b] →
        my = min (2 * b) (2 * ((st.originalImage.height : ℚ) - b))) := by
  obtain ⟨mx, my, ⟨h1, h2⟩, ⟨h3, h4⟩, h5⟩ := autoCalculateCellSize_spec st hx hy
  refine ⟨mx, my, ⟨h1, h2⟩, ⟨h3, h4⟩, h5, floor_pos_iff mx, floor_pos_iff my, ?_, ?_⟩
  · intro a ha
    rw [ha, gapCandidates_single] at h1 h2
    apply le_antisymm
    · exact le_min (h2 _ (by simp)) (h2 _ (by simp))
    · rcases List.mem_cons.1 h1 with h | h
      · rw [h]; exact min_le_left _ _
      · rw [List.mem_singleton.1 h]; exact min_le_right _ _
  · intro b hb
    rw [hb, gapCandidates_single] at h3 h4
    apply le_antisymm
    · exact le_min (h4 _ (by simp)) (h4 _ (by simp))
    · rcases List.mem_cons.1 h3 with h | h
      · rw [h]; exact min_le_left _ _
      · rw [List.mem_singleton.1 h]; exact min_le_right _ _

/-- C22 (amended) on the 200x100 example with lines x = 50, 150 and y = 50: the call
returns a state, whose cell size is `floor(0.95 * mx)` by `floor(0.95 * my)` for the
least candidates `mx`, `my` of the two axes. -/
theorem autoCalculateCellSize_formula_witness :
    ∃ mx my : ℚ,
      (mx ∈ gapCandidates [50, 150] 200 ∧ ∀ d ∈ gapCandidates [50, 150] 200, mx ≤ d) ∧
      (my ∈ gapCandidates [50] 100 ∧ ∀ d ∈ gapCandidates [50] 100, my ≤ d) ∧
      autoCalculateCellSize centerExample = some
        { centerExample with
          cellWidth := ((⌊19 / 20 * mx⌋ : ℤ) : ℚ)
          cellHeight := ((⌊19 / 20 * my⌋ : ℤ) : ℚ) } := by
  obtain ⟨mx, my, h1, h2, h3, _⟩ :=
    autoCalculateCellSize_formula centerExample (by simp [centerExample])
      (by simp [centerExample])
  exact ⟨mx, my, by simpa [centerExample] using h1, by simpa [centerExample] using h2, h3⟩

/-- C22, refuted as stated: on the 200x100 example with the x lines at 100
and 101 (both within the drag range [10, 190]) the minimum is the gap 1, and
`autoCalculateCellSize` sets `cellWidth = floor(0.95) = 0`, which is not positive. -/
theorem autoCalculateCellSize_zero_width :
    autoCalculateCellSize closeLinesExample =
      some { closeLinesExample with cellWidth := 0, cellHeight := 95 } := by
  simp [autoCalculateCellSize, closeLinesExample, centerExample, axisMinDist,
    adjacentGapLoop, minDistStep]
  norm_num

/-! ## Centre lines right after their initialisation -/

theorem initialLines_length (n : ℕ) (E : ℚ) : (initialLines n E).length = n := by
  simp [initialLines]

theorem initialLines_getElem? (n : ℕ) (E : ℚ) (i : ℕ) (h : i < n) :
    (initialLines n E)[i]? =
      some (toDouble (toDouble (toDouble ((i : ℚ) + 1 / 2) * E) / (n : ℚ))) := by
  simp [initialLines, List.getElem?_map, List.getElem?_range h]

theorem initialLines_ne_nil (n : ℕ) (E : ℚ) (hn : 1 ≤ n) : initialLines n E ≠ [] := by
  intro h
  have := initialLines_length n E
  rw [h] at this
  simp at this
  omega

theorem toDouble_half_odd (z : ℕ) (hz : z < 2 ^ 53) :
    toDouble ((z : ℚ) / 2) = (z : ℚ) / 2 := by
  have h := toDouble_exact (z : ℤ) 1 (by
    rw [abs_of_nonneg (Int.natCast_nonneg z)]
    exact_mod_cast hz)
  simpa using h

theorem initialLines_nearest (n W : ℕ) (hW : 0 < W) (hb : W * n < 2 ^ 47) (i : ℕ)
    (hi : i < n) :
    (initialLines n (W : ℚ))[i]? =
      some (toDouble (((i : ℚ) + 1 / 2) * (W : ℚ) / (n : ℚ))) := by
  have hn : n ≤ W * n := Nat.le_mul_of_pos_left n hW
  have h1 : toDouble ((i : ℚ) + 1 / 2) = (i : ℚ) + 1 / 2 := by
    have h := toDouble_half_odd (2 * i + 1) (by omega)
    have e : (((2 * i + 1 : ℕ) : ℚ)) / 2 = (i : ℚ) + 1 / 2 := by
      push_cast; ring
    rwa [e] at h
  have h2 : toDouble (((i : ℚ) + 1 / 2) * (W : ℚ)) = ((i : ℚ) + 1 / 2) * (W : ℚ) := by
    have hlt : (2 * i + 1) * W < 2 ^ 53 := by
      have : (2 * i + 1) * W ≤ 2 * n * W := Nat.mul_le_mul_right W (by omega)
      have e : 2 * n * W = 2 * (W * n) := by ring
      omega
    have h := toDouble_half_odd ((2 * i + 1) * W) hlt
    have e : ((((2 * i + 1) * W : ℕ)) : ℚ) / 2 = ((i : ℚ) + 1 / 2) * (W : ℚ) := by
      push_cast; ring
    rwa [e] at h
  rw [initialLines_getElem? n _ i hi, h1, h2]

theorem initialLines_exact (n W : ℕ) (hW : 0 < W) (hb : W * n < 2 ^ 47) (hdvd : n ∣ W)
    (i : ℕ) (hi : i < n) :
    (initialLines n (W : ℚ))[i]? = some (((i : ℚ) + 1 / 2) * (W : ℚ) / (n : ℚ)) := by
  rw [initialLines_nearest n W hW hb i hi]
  obtain ⟨k, hk⟩ := hdvd
  have hn0 : (n : ℚ) ≠ 0 := by
    have : 0 < n := by omega
    have : (0 : ℚ) < (n : ℚ) := by exact_mod_cast this
    exact ne_of_gt this
  have e : ((i : ℚ) + 1 / 2) * (W : ℚ) / (n : ℚ) = ((((2 * i + 1) * k : ℕ)) : ℚ) / 2 := by
    rw [hk]
    push_cast
    field_simp
    ring
  have hlt : (2 * i + 1) * k < 2 ^ 53 := by
    have h1 : (2 * i + 1) * k ≤ 2 * n * k := Nat.mul_le_mul_right k (by omega)
    have e2 : 2 * n * k = 2 * W := by rw [hk]; ring
    have h3 : W ≤ W * n := Nat.le_mul_of_pos_right W (by omega)
    omega
  rw [e, toDouble_half_odd _ hlt]

theorem mem_gapCandidates_range (f : ℕ → ℚ) (n : ℕ) (E : ℚ) (hn : 1 ≤ n) (d : ℚ) :
    d ∈ gapCandidates ((List.range n).map f) E ↔
      ((∃ i, i + 1 < n ∧ d = f (i + 1) - f i) ∨ d = 2 * f 0 ∨ d = 2 * (E - f (n - 1))) := by
  have hget : ∀ i, i < n → ((List.range n).map f)[i]? = some (f i) := by
    intro i hi
    simp [List.getElem?_map, List.getElem?_range hi]
  have hlen : ((List.range n).map f).length = n := by simp
  unfold gapCandidates
  rw [List.mem_append, List.head?_eq_getElem?, List.getLast?_eq_getElem?, hlen,
    hget 0 (by omega), hget (n - 1) (by omega)]
  simp only [List.mem_cons, List.mem_singleton, List.not_mem_nil, or_false]
  constructor
  · rintro (h | h)
    · left
      obtain ⟨i, hi⟩ := List.mem_iff_getElem?.1 h
      obtain ⟨a, b, ha, hb, hab⟩ := List.getElem?_zipWith_eq_some.1 hi
      rw [List.getElem?_tail] at hb
      have hi1 : i + 1 < n := by
        by_contra hc
        rw [List.getElem?_eq_none (by rw [hlen]; omega)] at hb
        exact absurd hb (by simp)
      rw [hget i (by omega)] at ha
      rw [hget (i + 1) hi1] at hb
      refine ⟨i, hi1, ?_⟩
      rw [← hab, ← Option.some.inj ha, ← Option.some.inj hb]
    · right
      exact h
  · rintro (⟨i, hi, rfl⟩ | h)
    · left
      apply List.mem_iff_getElem?.2
      refine ⟨i, ?_⟩
      apply List.getElem?_zipWith_eq_some.2
      refine ⟨f i, f (i + 1), hget i (by omega), ?_, rfl⟩
      rw [List.getElem?_tail]
      exact hget (i + 1) hi
    · right
      exact h

theorem gaps_telescope (f : ℕ → ℚ) (n : ℕ) (m : ℚ)
    (h : ∀ i, i + 1 < n → m ≤ f (i + 1) - f i) (i k : ℕ) (hk : i + k < n) :
    (k : ℚ) * m ≤ f (i + k) - f i := by
  induction k with
  | zero => simp
  | succ k ih =>
    have h1 := ih (by omega)
    have h2 := h (i + k) (by omega)
    have e : i + (k + 1) = i + k + 1 := by omega
    rw [e]
    push_cast
    linarith

theorem cell_floor_cases (W n : ℕ) (hn : 1 ≤ n) (hb : W * n < 2 ^ 47) (m : ℚ)
    (h1 : (W : ℚ) / (n : ℚ) - (W : ℚ) / 2 ^ 52 ≤ m) (h2 : m ≤ (W : ℚ) / (n : ℚ))
    (h3 : 20 * n ∣ 19 * W → ¬ n ∣ W → m < (W : ℚ) / (n : ℚ))
    (h4 : n ∣ W → m = (W : ℚ) / (n : ℚ)) :
    ⌊19 / 20 * m⌋ =
      if 20 * n ∣ 19 * W ∧ ¬ n ∣ W then ⌊19 / 20 * (W : ℚ) / (n : ℚ)⌋ - 1
      else ⌊19 / 20 * (W : ℚ) / (n : ℚ)⌋ := by
  have hB : (0 : ℚ) < (n : ℚ) := by exact_mod_cast hn
  have hA : (0 : ℚ) ≤ (W : ℚ) := Nat.cast_nonneg W
  have hAB : (W : ℚ) * (n : ℚ) ≤ 2 ^ 47 := by
    have : ((W * n : ℕ) : ℚ) ≤ ((2 ^ 47 : ℕ) : ℚ) := by exact_mod_cast le_of_lt hb
    push_cast at this
    exact this
  have hWle : (W : ℚ) ≤ 2 ^ 47 := by
    have : (W : ℚ) * 1 ≤ (W : ℚ) * (n : ℚ) :=
      mul_le_mul_of_nonneg_left (by exact_mod_cast hn) hA
    linarith
  have hy : 19 / 20 * (W : ℚ) / (n : ℚ) = 19 / 20 * ((W : ℚ) / (n : ℚ)) := by ring
  generalize hg : (W : ℚ) / (n : ℚ) = g at h1 h2 h3 h4 hy
  have hgB : g * (n : ℚ) = (W : ℚ) := by rw [← hg]; exact div_mul_cancel₀ _ (ne_of_gt hB)
  rw [hy]
  generalize hN : ⌊19 / 20 * g⌋ = N
  have hN1 : (N : ℚ) ≤ 19 / 20 * g := by rw [← hN]; exact Int.floor_le _
  have hN2 : 19 / 20 * g < (N : ℚ) + 1 := by rw [← hN]; exact Int.lt_floor_add_one _
  have hg0 : 0 ≤ g := by rw [← hg]; exact div_nonneg hA (le_of_lt hB)
  have hN0 : 0 ≤ N := by rw [← hN]; exact Int.floor_nonneg.2 (by linarith)
  split_ifs with hc
  · -- the quotient 19 W / (20 n) is an integer and the lines are rounded
    obtain ⟨hd, hnd⟩ := hc
    have hlt := h3 hd hnd
    obtain ⟨j, hj⟩ := hd
    have hjq : (19 : ℚ) * (W : ℚ) = 20 * (n : ℚ) * (j : ℚ) := by exact_mod_cast hj
    have hgj : 19 / 20 * g = ((j : ℤ) : ℚ) := by
      have : (19 / 20 * g) * (n : ℚ) = (j : ℚ) * (n : ℚ) := by
        have : (19 / 20 * g) * (n : ℚ) = 19 / 20 * (g * (n : ℚ)) := by ring
        rw [this, hgB]
        linarith
      have := mul_right_cancel₀ (ne_of_gt hB) this
      rw [this]
      simp
    have hNj : N = (j : ℤ) := by
      rw [← hN, hgj, Int.floor_intCast]
    rw [Int.floor_eq_iff]
    push_cast
    rw [hNj] at hN1
    constructor
    · have : (W : ℚ) / 2 ^ 52 ≤ 1 := by
        rw [div_le_iff₀ (by positivity)]
        linarith
      rw [hNj]
      linarith
    · rw [hNj]
      linarith
  · rw [Int.floor_eq_iff]
    by_cases hd : 20 * n ∣ 19 * W
    · have hdv : n ∣ W := by
        by_contra hnd
        exact hc ⟨hd, hnd⟩
      rw [h4 hdv]
      exact ⟨hN1, hN2⟩
    · refine ⟨?_, by linarith⟩
      -- the quotient keeps a distance of 1 / (20 n) from the integer below it
      have hlt : (20 * (n : ℤ)) * N < 19 * (W : ℤ) := by
        have hle : ((20 * (n : ℤ)) * N : ℤ) ≤ 19 * (W : ℤ) := by
          have : (20 * (n : ℚ)) * (N : ℚ) ≤ 19 * (W : ℚ) := by
            have := mul_le_mul_of_nonneg_right hN1 (le_of_lt hB)
            have e : 19 / 20 * g * (n : ℚ) = 19 / 20 * (g * (n : ℚ)) := by ring
            rw [e, hgB] at this
            linarith
          exact_mod_cast this
        rcases lt_or_eq_of_le hle with h | h
        · exact h
        · exfalso
          apply hd
          obtain ⟨k, hk⟩ := Int.eq_ofNat_of_zero_le hN0
          refine ⟨k, ?_⟩
          rw [hk] at h
          have : ((19 * W : ℕ) : ℤ) = ((20 * n * k : ℕ) : ℤ) := by
            push_cast
            linarith
          exact_mod_cast this
      have hq : (20 * (n : ℚ)) * (N : ℚ) + 1 ≤ 19 * (W : ℚ) := by
        have : (20 * (n : ℤ)) * N + 1 ≤ 19 * (W : ℤ) := hlt
        exact_mod_cast this
      have hsmall : 19 * ((W : ℚ) * (n : ℚ)) / 2 ^ 52 ≤ 1 := by
        rw [div_le_iff₀ (by positivity)]
        linarith
      have key : (N : ℚ) * (20 * (n : ℚ)) ≤ (19 / 20 * m) * (20 * (n : ℚ)) := by
        have e1 : (19 / 20 * (g - (W : ℚ) / 2 ^ 52)) * (20 * (n : ℚ)) =
            19 * (g * (n : ℚ)) - 19 * ((W : ℚ) * (n : ℚ)) / 2 ^ 52 := by ring
        have e2 : (19 / 20 * (g - (W : ℚ) / 2 ^ 52)) * (20 * (n : ℚ)) ≤
            (19 / 20 * m) * (20 * (n : ℚ)) := by
          apply mul_le_mul_of_nonneg_right _ (by positivity)
          linarith
        rw [e1, hgB] at e2
        linarith
      exact le_of_mul_le_mul_right key (by positivity)

theorem axis_after_init (n W : ℕ) (hW : 0 < W) (hn : 1 ≤ n) (hb : W * n < 2 ^ 47) (m : ℚ)
    (hmem : m ∈ gapCandidates (initialLines n (W : ℚ)) (W : ℚ))
    (hmin : ∀ d ∈ gapCandidates (initialLines n (W : ℚ)) (W : ℚ), m ≤ d) :
    0 < m ∧ m ≤ (W : ℚ) / (n : ℚ) ∧
    (⌊19 / 20 * m⌋ =
      if 20 * n ∣ 19 * W ∧ ¬ n ∣ W then ⌊19 / 20 * (W : ℚ) / (n : ℚ)⌋ - 1
      else ⌊19 / 20 * (W : ℚ) / (n : ℚ)⌋) ∧
    (∀ (i j : ℕ) (xi xj : ℚ), i < j → (initialLines n (W : ℚ))[i]? = some xi →
      (initialLines n (W : ℚ))[j]? = some xj → m ≤ xj - xi) ∧
    (∀ (i : ℕ) (x : ℚ), (initialLines n (W : ℚ))[i]? = some x →
      m / 2 ≤ x ∧ x + m / 2 ≤ (W : ℚ)) := by
  have hB : (0 : ℚ) < (n : ℚ) := by exact_mod_cast hn
  have hA : (0 : ℚ) < (W : ℚ) := by exact_mod_cast hW
  have hB52 : (n : ℚ) < 2 ^ 52 := by
    have h1 : n ≤ W * n := Nat.le_mul_of_pos_left n hW
    have h2 : n < 2 ^ 52 := by omega
    exact_mod_cast h2
  -- the lines as a function of the index
  obtain ⟨F, hF⟩ : ∃ F : ℕ → ℚ, initialLines n (W : ℚ) = (List.range n).map F :=
    ⟨_, rfl⟩
  have hget : ∀ i, i < n → (initialLines n (W : ℚ))[i]? = some (F i) := by
    intro i hi
    rw [hF]
    simp [List.getElem?_map, List.getElem?_range hi]
  have hlt_of_get : ∀ (i : ℕ) (x : ℚ), (initialLines n (W : ℚ))[i]? = some x →
      i < n ∧ x = F i := by
    intro i x hx
    have hi : i < n := by
      by_contra hc
      rw [List.getElem?_eq_none (by rw [initialLines_length]; omega)] at hx
      exact absurd hx (by simp)
    rw [hget i hi] at hx
    exact ⟨hi, (Option.some.inj hx).symm⟩
  have hnear : ∀ i, i < n → F i = toDouble (((i : ℚ) + 1 / 2) * (W : ℚ) / (n : ℚ)) := by
    intro i hi
    have h1 := hget i hi
    rw [initialLines_nearest n W hW hb i hi] at h1
    exact (Option.some.inj h1).symm
  rw [hF] at hmem hmin
  generalize hg : (W : ℚ) / (n : ℚ) = g
  have hgB : g * (n : ℚ) = (W : ℚ) := by rw [← hg]; exact div_mul_cancel₀ _ (ne_of_gt hB)
  have hg0 : 0 < g := by rw [← hg]; exact div_pos hA hB
  have he : ∀ i : ℕ, ((i : ℚ) + 1 / 2) * (W : ℚ) / (n : ℚ) = ((i : ℚ) + 1 / 2) * g := by
    intro i
    rw [← hg]; ring
  -- every line is within W / 2^53 of its exact position
  have herr : ∀ i, i < n → |F i - ((i : ℚ) + 1 / 2) * g| ≤ (W : ℚ) / 2 ^ 53 := by
    intro i hi
    rw [hnear i hi, he i]
    refine le_trans (toDouble_error _) ?_
    have h0 : 0 ≤ ((i : ℚ) + 1 / 2) * g := by positivity
    rw [abs_of_nonneg h0]
    apply div_le_div_of_nonneg_right _ (by positivity)
    have hi2 : (i : ℚ) + 1 ≤ (n : ℚ) := by exact_mod_cast hi
    have : ((i : ℚ) + 1 / 2) * g ≤ (n : ℚ) * g :=
      mul_le_mul_of_nonneg_right (by linarith) (le_of_lt hg0)
    linarith
  have hlast : (((n - 1 : ℕ) : ℚ)) = (n : ℚ) - 1 := by
    rw [Nat.cast_sub hn]; norm_num
  -- every candidate is at least g - W / 2^52
  have hlow : ∀ d ∈ gapCandidates ((List.range n).map F) (W : ℚ),
      g - (W : ℚ) / 2 ^ 52 ≤ d := by
    intro d hd
    have h52 : (W : ℚ) / 2 ^ 52 = 2 * ((W : ℚ) / 2 ^ 53) := by ring
    rcases (mem_gapCandidates_range F n (W : ℚ) hn d).1 hd with ⟨i, hi, rfl⟩ | rfl | rfl
    · have a1 := abs_le.1 (herr i (by omega))
      have a2 := abs_le.1 (herr (i + 1) hi)
      push_cast at a2
      linarith [a1.1, a1.2, a2.1, a2.2]
    · have a1 := abs_le.1 (herr 0 (by omega))
      push_cast at a1
      linarith [a1.1, a1.2]
    · have a1 := abs_le.1 (herr (n - 1) (by omega))
      rw [hlast] at a1
      linarith [a1.1, a1.2]
  have hm1 : g - (W : ℚ) / 2 ^ 52 ≤ m := hlow m hmem
  have hWg : (W : ℚ) / 2 ^ 52 < g := by
    rw [div_lt_iff₀ (by positivity)]
    have : g * (n : ℚ) < g * 2 ^ 52 := mul_lt_mul_of_pos_left hB52 hg0
    linarith
  have hm0 : 0 < m := by linarith
  -- the three kinds of candidates bound m
  have hadj : ∀ i, i + 1 < n → m ≤ F (i + 1) - F i := fun i hi =>
    hmin _ ((mem_gapCandidates_range F n (W : ℚ) hn _).2 (Or.inl ⟨i, hi, rfl⟩))
  have hfirst : m ≤ 2 * F 0 :=
    hmin _ ((mem_gapCandidates_range F n (W : ℚ) hn _).2 (Or.inr (Or.inl rfl)))
  have hend : m ≤ 2 * ((W : ℚ) - F (n - 1)) :=
    hmin _ ((mem_gapCandidates_range F n (W : ℚ) hn _).2 (Or.inr (Or.inr rfl)))
  have htel := gaps_telescope F n m hadj
  have hspan : ((n : ℚ) - 1) * m ≤ F (n - 1) - F 0 := by
    have h := htel 0 (n - 1) (by omega)
    rw [Nat.zero_add, hlast] at h
    exact h
  have hmg : m ≤ g := by
    have h1 : (n : ℚ) * m ≤ (W : ℚ) := by linarith
    have h2 : m * (n : ℚ) ≤ g * (n : ℚ) := by linarith
    exact le_of_mul_le_mul_right h2 hB
  refine ⟨hm0, hmg, ?_, ?_, ?_⟩
  · apply cell_floor_cases W n hn hb m (by rw [hg]; exact hm1) (by rw [hg]; exact hmg)
    · -- rounded lines: the minimum is below the exact gap
      intro hd hnd
      rw [hg]
      by_contra hcon
      have hmeq : m = g := le_antisymm hmg (not_lt.1 hcon)
      have hF0 : F 0 = g / 2 := by
        have h1 : F 0 ≤ g / 2 := by
          have : (n : ℚ) * g = (W : ℚ) := by linarith
          rw [hmeq] at hspan hend
          nlinarith
        have h2 : g / 2 ≤ F 0 := by rw [hmeq] at hfirst; linarith
        exact le_antisymm h1 h2
      obtain ⟨z, k, hz⟩ := toDouble_dyadic ((((0 : ℕ) : ℚ) + 1 / 2) * (W : ℚ) / (n : ℚ))
      rw [← hnear 0 (by omega), hF0, ← hg] at hz
      apply hnd
      apply dvd_of_dyadic W n (by omega) hd z k
      rw [← hz]
      ring
    · -- exact lines: every candidate is the exact gap
      intro hdv
      rw [hg]
      have hex : ∀ i, i < n → F i = ((i : ℚ) + 1 / 2) * g := by
        intro i hi
        have h1 := hget i hi
        rw [initialLines_exact n W hW hb hdv i hi, he i] at h1
        exact (Option.some.inj h1).symm
      rcases (mem_gapCandidates_range F n (W : ℚ) hn m).1 hmem with ⟨i, hi, h⟩ | h | h
      · rw [h, hex i (by omega), hex (i + 1) hi]
        push_cast
        ring
      · rw [h, hex 0 (by omega)]
        push_cast
        ring
      · rw [h, hex (n - 1) (by omega), hlast]
        linarith
  · intro i j xi xj hij hxi hxj
    obtain ⟨_, rfl⟩ := hlt_of_get i xi hxi
    obtain ⟨hj, rfl⟩ := hlt_of_get j xj hxj
    obtain ⟨k, rfl⟩ : ∃ k, j = i + (k + 1) := ⟨j - i - 1, by omega⟩
    have h := htel i (k + 1) hj
    push_cast at h
    have hk : (0 : ℚ) ≤ (k : ℚ) := Nat.cast_nonneg k
    nlinarith
  · intro i x hx
    obtain ⟨hi, rfl⟩ := hlt_of_get i x hx
    have h1 := htel 0 i (by omega)
    rw [Nat.zero_add] at h1
    obtain ⟨k, hk⟩ : ∃ k, n - 1 = i + k := ⟨n - 1 - i, by omega⟩
    have h2 := htel i k (by omega)
    rw [← hk] at h2
    have hi0 : (0 : ℚ) ≤ (i : ℚ) * m := mul_nonneg (Nat.cast_nonneg i) (le_of_lt hm0)
    have hk0 : (0 : ℚ) ≤ (k : ℚ) * m := mul_nonneg (Nat.cast_nonneg k) (le_of_lt hm0)
    constructor <;> linarith

theorem initializeCenterLines_spec (st : State) (hW : 0 < st.originalImage.width)
    (hH : 0 < st.originalImage.height) (hr : 1 ≤ st.rows) (hc : 1 ≤ st.cols)
    (hbx : st.originalImage.width * st.cols < 2 ^ 47)
    (hby : st.originalImage.height * st.rows < 2 ^ 47) :
    ∃ mx my : ℚ,
      initializeCenterLines st = some
        { st with
          centerLinesX := initialLines st.cols (st.originalImage.width : ℚ)
          centerLinesY := initialLines st.rows (st.originalImage.height : ℚ)
          cellWidth := ((⌊19 / 20 * mx⌋ : ℤ) : ℚ)
          cellHeight := ((⌊19 / 20 * my⌋ : ℤ) : ℚ) } ∧
      (0 < mx ∧
        (⌊19 / 20 * mx⌋ =
          if 20 * st.cols ∣ 19 * st.originalImage.width ∧ ¬ st.cols ∣ st.originalImage.width
          then ⌊19 / 20 * (st.originalImage.width : ℚ) / (st.cols : ℚ)⌋ - 1
          else ⌊19 / 20 * (st.originalImage.width : ℚ) / (st.cols : ℚ)⌋) ∧
        (∀ (i j : ℕ) (xi xj : ℚ), i < j →
          (initialLines st.cols (st.originalImage.width : ℚ))[i]? = some xi →
          (initialLines st.cols (st.originalImage.width : ℚ))[j]? = some xj →
          mx ≤ xj - xi) ∧
        (∀ (i : ℕ) (x : ℚ), (initialLines st.cols (st.originalImage.width : ℚ))[i]? = some x →
          mx / 2 ≤ x ∧ x + mx / 2 ≤ (st.originalImage.width : ℚ))) ∧
      (0 < my ∧
        (⌊19 / 20 * my⌋ =
          if 20 * st.rows ∣ 19 * st.originalImage.height ∧
            ¬ st.rows ∣ st.originalImage.height
          then ⌊19 / 20 * (st.originalImage.height : ℚ) / (st.rows : ℚ)⌋ - 1
          else ⌊19 / 20 * (st.originalImage.height : ℚ) / (st.rows : ℚ)⌋) ∧
        (∀ (i j : ℕ) (yi yj : ℚ), i < j →
          (initialLines st.rows (st.originalImage.height : ℚ))[i]? = some yi →
          (initialLines st.rows (st.originalImage.height : ℚ))[j]? = some yj →
          my ≤ yj - yi) ∧
        (∀ (i : ℕ) (y : ℚ),
          (initialLines st.rows (st.originalImage.height : ℚ))[i]? = some y →
          my / 2 ≤ y ∧ y + my / 2 ≤ (st.originalImage.height : ℚ))) := by
  obtain ⟨mx, my, ⟨h1, h2⟩, ⟨h3, h4⟩, h5⟩ := autoCalculateCellSize_spec
    { st with
      centerLinesX := initialLines st.cols (st.originalImage.width : ℚ)
      centerLinesY := initialLines st.rows (st.originalImage.height : ℚ) }
    (initialLines_ne_nil _ _ hc) (initialLines_ne_nil _ _ hr)
  obtain ⟨a1, _, a3, a4, a5⟩ :=
    axis_after_init st.cols st.originalImage.width hW hc hbx mx h1 h2
  obtain ⟨b1, _, b3, b4, b5⟩ :=
    axis_after_init st.rows st.originalImage.height hH hr hby my h3 h4
  refine ⟨mx, my, ?_, ⟨a1, a3, a4, a5⟩, ⟨b1, b3, b4, b5⟩⟩
  unfold initializeCenterLines
  exact h5

theorem floor_le_of_pos (m : ℚ) (hm : 0 < m) :
    (0 : ℚ) ≤ ((⌊19 / 20 * m⌋ : ℤ) : ℚ) ∧ ((⌊19 / 20 * m⌋ : ℤ) : ℚ) ≤ m := by
  constructor
  · have h0 : (0 : ℤ) ≤ ⌊19 / 20 * m⌋ := Int.floor_nonneg.2 (by positivity)
    exact_mod_cast h0
  · have h1 := Int.floor_le (19 / 20 * m)
    linarith

theorem centredCell_eq (t : State) (i : ℕ) (cx cy : ℚ)
    (hx : t.centerLinesX[i % t.cols]? = some cx)
    (hy : t.centerLinesY[i / t.cols]? = some cy) :
    centredCell t i = lineCell t cy cx := by
  unfold centredCell
  rw [List.getD_eq_getElem?_getD, List.getD_eq_getElem?_getD, hx, hy]
  rfl

theorem getCellArea_centred (t : State) (i : ℕ) (hno : t.customAreas (i : ℤ) = none)
    (cx cy : ℚ) (hx : t.centerLinesX[i % t.cols]? = some cx)
    (hy : t.centerLinesY[i / t.cols]? = some cy) (hcl : NoClamping t) :
    getCellArea t (i : ℤ) = some (centredCell t i).toCellArea := by
  rw [getCellArea_derived t i hno cx cy hx hy, centredCell_eq t i cx cy hx hy]
  obtain ⟨x1, x2⟩ := hcl.1 cx (List.mem_iff_getElem?.2 ⟨_, hx⟩)
  obtain ⟨y1, y2⟩ := hcl.2 cy (List.mem_iff_getElem?.2 ⟨_, hy⟩)
  rw [min_eq_right (by linarith), max_eq_right x1, min_eq_right (by linarith),
    max_eq_right y1]
  rfl

theorem centredCell_inside (t : State) (i : ℕ) (cx cy : ℚ)
    (hx : t.centerLinesX[i % t.cols]? = some cx)
    (hy : t.centerLinesY[i / t.cols]? = some cy) (hcl : NoClamping t) :
    (centredCell t i).Inside (t.originalImage.width : ℚ) (t.originalImage.height : ℚ) := by
  rw [centredCell_eq t i cx cy hx hy]
  obtain ⟨x1, x2⟩ := hcl.1 cx (List.mem_iff_getElem?.2 ⟨_, hx⟩)
  obtain ⟨y1, y2⟩ := hcl.2 cy (List.mem_iff_getElem?.2 ⟨_, hy⟩)
  refine ⟨x1, y1, ?_, ?_⟩
  · show cx - t.cellWidth / 2 + t.cellWidth ≤ _
    linarith
  · show cy - t.cellHeight / 2 + t.cellHeight ≤ _
    linarith

theorem centredCell_disjoint (t : State) (i j : ℕ) (hne : i ≠ j)
    (hli : ∃ cx cy, t.centerLinesX[i % t.cols]? = some cx ∧
      t.centerLinesY[i / t.cols]? = some cy)
    (hlj : ∃ cx cy, t.centerLinesX[j % t.cols]? = some cx ∧
      t.centerLinesY[j / t.cols]? = some cy)
    (hgx : ∀ (a b : ℕ) (xa xb : ℚ), a < b → t.centerLinesX[a]? = some xa →
      t.centerLinesX[b]? = some xb → t.cellWidth ≤ xb - xa)
    (hgy : ∀ (a b : ℕ) (ya yb : ℚ), a < b → t.centerLinesY[a]? = some ya →
      t.centerLinesY[b]? = some yb → t.cellHeight ≤ yb - ya) (px py : ℝ) :
    ¬ ((centredCell t i).InInterior px py ∧ (centredCell t j).InInterior px py) := by
  obtain ⟨xi, yi, hxi, hyi⟩ := hli
  obtain ⟨xj, yj, hxj, hyj⟩ := hlj
  rw [centredCell_eq t i xi yi hxi hyi, centredCell_eq t j xj yj hxj hyj]
  rintro ⟨⟨a1, a2, a3, a4⟩, ⟨b1, b2, b3, b4⟩⟩
  have key : i % t.cols ≠ j % t.cols ∨ i / t.cols ≠ j / t.cols := by
    by_contra hcon
    push_neg at hcon
    apply hne
    rw [← Nat.div_add_mod i t.cols, ← Nat.div_add_mod j t.cols, hcon.1, hcon.2]
  simp only [lineCell] at a1 a2 a3 a4 b1 b2 b3 b4
  rcases key with hk | hk
  · rcases Nat.lt_or_gt_of_ne hk with hlt | hlt
    · have h := hgx _ _ xi xj hlt hxi hxj
      have hR : ((_ : ℚ) : ℝ) ≤ ((_ : ℚ) : ℝ) := Rat.cast_le.2 h
      push_cast at a2 b1 hR
      linarith
    · have h := hgx _ _ xj xi hlt hxj hxi
      have hR : ((_ : ℚ) : ℝ) ≤ ((_ : ℚ) : ℝ) := Rat.cast_le.2 h
      push_cast at a1 b2 hR
      linarith
  · rcases Nat.lt_or_gt_of_ne hk with hlt | hlt
    · have h := hgy _ _ yi yj hlt hyi hyj
      have hR : ((_ : ℚ) : ℝ) ≤ ((_ : ℚ) : ℝ) := Rat.cast_le.2 h
      push_cast at a4 b3 hR
      linarith
    · have h := hgy _ _ yj yi hlt hyj hyi
      have hR : ((_ : ℚ) : ℝ) ≤ ((_ : ℚ) : ℝ) := Rat.cast_le.2 h
      push_cast at a3 b4 hR
      linarith

/-- C30 (amended): for an image of width and height > 0 and rows, cols >= 1 with
`width * cols < 2^47` and `height * rows < 2^47`, `initializeCenterLines` returns a state
(same rows, cols, image and overrides) with `cols` x lines and `rows` y lines, where
`xs[i]` is the double nearest to `(i + 0.5) * W / cols` (within `W / 2^53` of it, and equal
to it when `cols` divides `W`) and `ys[j]` the double nearest to `(j + 0.5) * H / rows`.
The cell width is `floor(0.95 * W / cols)`, except that it is one less when
`0.95 * W / cols` is an integer and `cols` does not divide `W` (the rounded lines are
then less than `W / cols` apart somewhere); the same holds of the cell height. In that
state `getCellArea` gives for every cell index without an override the rectangle centred
on its lines with no clamping, every such rectangle lies inside the image, and the
rectangles of two distinct indices have no interior point in common. -/
theorem initializeCenterLines_cells (st : State) (hW : 0 < st.originalImage.width)
    (hH : 0 < st.originalImage.height) (hr : 1 ≤ st.rows) (hc : 1 ≤ st.cols)
    (hbx : st.originalImage.width * st.cols < 2 ^ 47)
    (hby : st.originalImage.height * st.rows < 2 ^ 47) :
    ∃ t : State, initializeCenterLines st = some t ∧
      t.rows = st.rows ∧ t.cols = st.cols ∧ t.originalImage = st.originalImage ∧
      t.customAreas = st.customAreas ∧
      t.centerLinesX.length = st.cols ∧ t.centerLinesY.length = st.rows ∧
      (∀ i, i < st.cols → ∃ x : ℚ, t.centerLinesX[i]? = some x ∧
        x = toDouble (((i : ℚ) + 1 / 2) * (st.originalImage.width : ℚ) / (st.cols : ℚ)) ∧
        |x - ((i : ℚ) + 1 / 2) * (st.originalImage.width : ℚ) / (st.cols : ℚ)| ≤
          (st.originalImage.width : ℚ) / 2 ^ 53 ∧
        (st.cols ∣ st.originalImage.width →
          x = ((i : ℚ) + 1 / 2) * (st.originalImage.width : ℚ) / (st.cols : ℚ))) ∧
      (∀ j, j < st.rows → ∃ y : ℚ, t.centerLinesY[j]? = some y ∧
        y = toDouble (((j : ℚ) + 1 / 2) * (st.originalImage.height : ℚ) / (st.rows : ℚ)) ∧
        |y - ((j : ℚ) + 1 / 2) * (st.originalImage.height : ℚ) / (st.rows : ℚ)| ≤
          (st.originalImage.height : ℚ) / 2 ^ 53 ∧
        (st.rows ∣ st.originalImage.height →
          y = ((j : ℚ) + 1 / 2) * (st.originalImage.height : ℚ) / (st.rows : ℚ))) ∧
      t.cellWidth = (((if 20 * st.cols ∣ 19 * st.originalImage.width ∧
            ¬ st.cols ∣ st.originalImage.width
          then ⌊19 / 20 * (st.originalImage.width : ℚ) / (st.cols : ℚ)⌋ - 1
          else ⌊19 / 20 * (st.originalImage.width : ℚ) / (st.cols : ℚ)⌋) : ℤ) : ℚ) ∧
      t.cellHeight = (((if 20 * st.rows ∣ 19 * st.originalImage.height ∧
            ¬ st.rows ∣ st.originalImage.height
          then ⌊19 / 20 * (st.originalImage.height : ℚ) / (st.rows : ℚ)⌋ - 1
          else ⌊19 / 20 * (st.originalImage.height : ℚ) / (st.rows : ℚ)⌋) : ℤ) : ℚ) ∧
      (∀ i, i < st.rows * st.cols → st.customAreas (i : ℤ) = none →
        getCellArea t (i : ℤ) = some (centredCell t i).toCellArea) ∧
      (∀ i, i < st.rows * st.cols →
        (centredCell t i).Inside (st.originalImage.width : ℚ) (st.originalImage.height : ℚ)) ∧
      (∀ i j, i < st.rows * st.cols → j < st.rows * st.cols → i ≠ j → ∀ px py : ℝ,
        ¬ ((centredCell t i).InInterior px py ∧ (centredCell t j).InInterior px py)) := by
  obtain ⟨mx, my, hinit, ⟨a1, a3, a4, a5⟩, ⟨b1, b3, b4, b5⟩⟩ :=
    initializeCenterLines_spec st hW hH hr hc hbx hby
  obtain ⟨fx0, fx1⟩ := floor_le_of_pos mx a1
  obtain ⟨fy0, fy1⟩ := floor_le_of_pos my b1
  have hW0 : (0 : ℚ) < (st.originalImage.width : ℚ) := by exact_mod_cast hW
  have hH0 : (0 : ℚ) < (st.originalImage.height : ℚ) := by exact_mod_cast hH
  have hc0 : (0 : ℚ) < (st.cols : ℚ) := by exact_mod_cast hc
  have hr0 : (0 : ℚ) < (st.rows : ℚ) := by exact_mod_cast hr
  -- the lines of an axis: nearest double, error bound, exactness
  have hline : ∀ (n W : ℕ), 0 < W → 1 ≤ n → W * n < 2 ^ 47 → ∀ i, i < n →
      ∃ x : ℚ, (initialLines n (W : ℚ))[i]? = some x ∧
        x = toDouble (((i : ℚ) + 1 / 2) * (W : ℚ) / (n : ℚ)) ∧
        |x - ((i : ℚ) + 1 / 2) * (W : ℚ) / (n : ℚ)| ≤ (W : ℚ) / 2 ^ 53 ∧
        (n ∣ W → x = ((i : ℚ) + 1 / 2) * (W : ℚ) / (n : ℚ)) := by
    intro n W hWp hn hb i hi
    have hn0 : (0 : ℚ) < (n : ℚ) := by exact_mod_cast hn
    have hWq : (0 : ℚ) < (W : ℚ) := by exact_mod_cast hWp
    refine ⟨_, initialLines_nearest n W hWp hb i hi, rfl, ?_, ?_⟩
    · refine le_trans (toDouble_error _) ?_
      have h0 : 0 ≤ ((i : ℚ) + 1 / 2) * (W : ℚ) / (n : ℚ) := by positivity
      rw [abs_of_nonneg h0]
      apply div_le_div_of_nonneg_right _ (by positivity)
      rw [div_le_iff₀ hn0]
      have hi2 : (i : ℚ) + 1 ≤ (n : ℚ) := by exact_mod_cast hi
      nlinarith
    · intro hdv
      have h1 := initialLines_nearest n W hWp hb i hi
      rw [initialLines_exact n W hWp hb hdv i hi] at h1
      exact (Option.some.inj h1).symm
  -- the state after the initialisation
  generalize ht : ({ st with
      centerLinesX := initialLines st.cols (st.originalImage.width : ℚ)
      centerLinesY := initialLines st.rows (st.originalImage.height : ℚ)
      cellWidth := ((⌊19 / 20 * mx⌋ : ℤ) : ℚ)
      cellHeight := ((⌊19 / 20 * my⌋ : ℤ) : ℚ) } : State) = t at hinit
  have tx : t.centerLinesX = initialLines st.cols (st.originalImage.width : ℚ) := by
    rw [← ht]
  have ty : t.centerLinesY = initialLines st.rows (st.originalImage.height : ℚ) := by
    rw [← ht]
  have tw : t.cellWidth = ((⌊19 / 20 * mx⌋ : ℤ) : ℚ) := by rw [← ht]
  have th : t.cellHeight = ((⌊19 / 20 * my⌋ : ℤ) : ℚ) := by rw [← ht]
  have tc : t.cols = st.cols := by rw [← ht]
  have tr : t.rows = st.rows := by rw [← ht]
  have ti : t.originalImage = st.originalImage := by rw [← ht]
  have ta : t.customAreas = st.customAreas := by rw [← ht]
  have hcl : NoClamping t := by
    constructor
    · intro cx hcx
      rw [tx] at hcx
      obtain ⟨i, hi⟩ := List.mem_iff_getElem?.1 hcx
      obtain ⟨h1, h2⟩ := a5 i cx hi
      rw [tw, ti]
      constructor <;> linarith
    · intro cy hcy
      rw [ty] at hcy
      obtain ⟨i, hi⟩ := List.mem_iff_getElem?.1 hcy
      obtain ⟨h1, h2⟩ := b5 i cy hi
      rw [th, ti]
      constructor <;> linarith
  have hlines : ∀ i, i < st.rows * st.cols →
      ∃ cx cy, t.centerLinesX[i % t.cols]? = some cx ∧
        t.centerLinesY[i / t.cols]? = some cy := by
    intro i hi
    have hcol : i % st.cols < st.cols := Nat.mod_lt _ hc
    have hrow : i / st.cols < st.rows :=
      Nat.div_lt_of_lt_mul (by rw [Nat.mul_comm]; exact hi)
    obtain ⟨x, hx, _⟩ := hline st.cols st.originalImage.width hW hc hbx _ hcol
    obtain ⟨y, hy, _⟩ := hline st.rows st.originalImage.height hH hr hby _ hrow
    exact ⟨x, y, by rw [tx, tc]; exact hx, by rw [ty, tc]; exact hy⟩
  refine ⟨t, hinit, tr, tc, ti, ta, by rw [tx]; exact initialLines_length _ _,
    by rw [ty]; exact initialLines_length _ _, ?_, ?_, ?_, ?_, ?_, ?_, ?_⟩
  · intro i hi
    rw [tx]
    exact hline st.cols st.originalImage.width hW hc hbx i hi
  · intro j hj
    rw [ty]
    exact hline st.rows st.originalImage.height hH hr hby j hj
  · rw [tw, a3]
  · rw [th, b3]
  · intro i hi hno
    obtain ⟨cx, cy, hx, hy⟩ := hlines i hi
    exact getCellArea_centred t i (by rw [ta]; exact hno) cx cy hx hy hcl
  · intro i hi
    obtain ⟨cx, cy, hx, hy⟩ := hlines i hi
    have h := centredCell_inside t i cx cy hx hy hcl
    rw [ti] at h
    exact h
  · intro i j hi hj hne px py
    refine centredCell_disjoint t i j hne (hlines i hi) (hlines j hj) ?_ ?_ px py
    · intro a b xa xb hab hxa hxb
      rw [tx] at hxa hxb
      rw [tw]
      exact le_trans fx1 (a4 a b xa xb hab hxa hxb)
    · intro a b ya yb hab hya hyb
      rw [ty] at hya hyb
      rw [th]
      exact le_trans fy1 (b4 a b ya yb hab hya hyb)

/-- C30 (amended) on a 200x100 image with 1 row and 2 columns: the lines are x = 50, 150
and y = 50 (2 divides 200 and 1 divides 100, so they are exact), the cell size is 95x95,
cell 0 is the rectangle centred on its lines, and the cells 0 and 1 share no interior
point. -/
theorem initializeCenterLines_cells_witness :
    ∃ t : State, initializeCenterLines centerExample = some t ∧
      t.centerLinesX[0]? = some 50 ∧ t.centerLinesX[1]? = some 150 ∧
      t.centerLinesY[0]? = some 50 ∧ t.cellWidth = 95 ∧ t.cellHeight = 95 ∧
      getCellArea t ((0 : ℕ) : ℤ) = some (centredCell t 0).toCellArea ∧
      (∀ px py : ℝ,
        ¬ ((centredCell t 0).InInterior px py ∧ (centredCell t 1).InInterior px py)) := by
  obtain ⟨t, h1, _, _, _, _, _, _, h4, h5, h6, h7, h8, _, h10⟩ :=
    initializeCenterLines_cells centerExample (by decide) (by decide) (by decide) (by decide)
      (by decide) (by decide)
  obtain ⟨x0, hx0, _, _, ex0⟩ := h4 0 (by decide)
  obtain ⟨x1, hx1, _, _, ex1⟩ := h4 1 (by decide)
  obtain ⟨y0, hy0, _, _, ey0⟩ := h5 0 (by decide)
  refine ⟨t, h1, ?_, ?_, ?_, ?_, ?_, h8 0 (by decide) rfl,
    h10 0 1 (by decide) (by decide) (by decide)⟩
  · rw [hx0, ex0 (by decide)]; norm_num [centerExample]
  · rw [hx1, ex1 (by decide)]; norm_num [centerExample]
  · rw [hy0, ey0 (by decide)]; norm_num [centerExample]
  · rw [h6, if_neg (by decide)]
    have e : (19 / 20 * ((centerExample.originalImage.width : ℕ) : ℚ) /
        ((centerExample.cols : ℕ) : ℚ)) = ((95 : ℤ) : ℚ) := by norm_num [centerExample]
    rw [e, Int.floor_intCast]; norm_num
  · rw [h7, if_neg (by decide)]
    have e : (19 / 20 * ((centerExample.originalImage.height : ℕ) : ℚ) /
        ((centerExample.rows : ℕ) : ℚ)) = ((95 : ℤ) : ℚ) := by norm_num [centerExample]
    rw [e, Int.floor_intCast]; norm_num

/-- C30, refuted as stated: on a 200x100 image with 1 row and 19 columns,
`initializeCenterLines` stores the cell width 9, while `floor(0.95 * 200 / 19)` is 10.
The rounded lines are less than `200 / 19` apart somewhere, so that 0.95 times the
smallest gap is below 10. -/
theorem initializeCenterLines_rounded_width :
    ∃ t : State, initializeCenterLines nineteenExample = some t ∧ t.cellWidth = 9 ∧
      ⌊(19 / 20 : ℚ) * ((nineteenExample.originalImage.width : ℕ) : ℚ) /
        ((nineteenExample.cols : ℕ) : ℚ)⌋ = 10 := by
  obtain ⟨mx, my, hinit, ⟨_, a3, _, _⟩, _⟩ :=
    initializeCenterLines_spec nineteenExample (by decide) (by decide) (by decide)
      (by decide) (by decide) (by decide)
  have e : ((19 / 20 : ℚ) * ((nineteenExample.originalImage.width : ℕ) : ℚ) /
      ((nineteenExample.cols : ℕ) : ℚ)) = ((10 : ℤ) : ℚ) := by norm_num [nineteenExample]
  rw [if_pos (by decide), e, Int.floor_intCast] at a3
  refine ⟨_, hinit, ?_, by rw [e, Int.floor_intCast]⟩
  show ((⌊19 / 20 * mx⌋ : ℤ) : ℚ) = 9
  rw [a3]
  norm_num

/-! ## The export list -/

/-- The entry `generatePreviews` pushes for cell `idx`, if any. -/
theorem previewStep_some (s : Session) (areas : List Area) (stem : String)
    (images : List CroppedImage) (idx : ℕ) :
    previewStep s areas stem (some images) idx =
      if (idx : ℤ) ∈ s.disabledCells then some images
      else (areas[idx]?).map fun area =>
        images ++ [{ area := area, index := idx + 1, name := customName s stem idx }] := by
  unfold previewStep
  by_cases h : (idx : ℤ) ∈ s.disabledCells
  · simp only [h, if_true]
  · simp only [h, if_false]
    cases areas[idx]? <;> rfl

theorem previews_fold (s : Session) (areas : List Area) (stem : String) (n : ℕ) :
    (List.range n).foldl (previewStep s areas stem) (some []) =
      if ∀ idx, idx < n → (idx : ℤ) ∉ s.disabledCells → idx < areas.length then
        some ((List.range n).filterMap fun (idx : ℕ) =>
          if (idx : ℤ) ∈ s.disabledCells then none
          else (areas[idx]?).map fun area =>
            ({ area := area, index := idx + 1, name := customName s stem idx } : CroppedImage))
      else none := by
  induction n with
  | zero => simp
  | succ n ih =>
    rw [List.range_succ, List.foldl_append, ih]
    by_cases hall : ∀ idx, idx < n → (idx : ℤ) ∉ s.disabledCells → idx < areas.length
    · rw [if_pos hall]
      simp only [List.foldl_cons, List.foldl_nil, previewStep_some, List.filterMap_append,
        List.filterMap_cons, List.filterMap_nil]
      by_cases hd : (n : ℤ) ∈ s.disabledCells
      · have hall2 : ∀ idx, idx < n + 1 → (idx : ℤ) ∉ s.disabledCells →
            idx < areas.length := by
          intro idx hi hnd
          rcases Nat.lt_succ_iff_lt_or_eq.1 hi with h | h
          · exact hall idx h hnd
          · rw [h] at hnd; exact absurd hd hnd
        rw [if_pos hall2]
        simp only [hd, if_true, List.append_nil]
      · simp only [hd, if_false]
        by_cases hlen : n < areas.length
        · have hall2 : ∀ idx, idx < n + 1 → (idx : ℤ) ∉ s.disabledCells →
              idx < areas.length := by
            intro idx hi hnd
            rcases Nat.lt_succ_iff_lt_or_eq.1 hi with h | h
            · exact hall idx h hnd
            · rw [h]; exact hlen
          rw [if_pos hall2, List.getElem?_eq_getElem hlen]
          rfl
        · have hall2 : ¬ ∀ idx, idx < n + 1 → (idx : ℤ) ∉ s.disabledCells →
              idx < areas.length := fun h => hlen (h n (Nat.lt_succ_self n) hd)
          rw [if_neg hall2, List.getElem?_eq_none (by omega)]
          rfl
    · rw [if_neg hall]
      have hall2 : ¬ ∀ idx, idx < n + 1 → (idx : ℤ) ∉ s.disabledCells →
          idx < areas.length :=
        fun h => hall (fun idx hi hnd => h idx (Nat.lt_succ_of_lt hi) hnd)
      rw [if_neg hall2]
      rfl

theorem previews_index_list (s : Session) (areas : List Area) (stem : String) (l : List ℕ)
    (hl : ∀ idx ∈ l, idx < areas.length) :
    (l.filterMap fun (idx : ℕ) =>
        if (idx : ℤ) ∈ s.disabledCells then none
        else (areas[idx]?).map fun area =>
          ({ area := area, index := idx + 1, name := customName s stem idx } : CroppedImage)).map
      (fun e => e.index) =
    (l.filter fun (idx : ℕ) => decide ((idx : ℤ) ∉ s.disabledCells)).map (fun idx => idx + 1) := by
  induction l with
  | nil => rfl
  | cons a rest ih =>
    have hrest : ∀ idx ∈ rest, idx < areas.length :=
      fun idx h => hl idx (List.mem_cons_of_mem _ h)
    have ha : a < areas.length := hl a (List.mem_cons_self _ _)
    by_cases hd : (a : ℤ) ∈ s.disabledCells
    · simp only [List.filterMap_cons, hd, if_true, List.filter_cons, not_true_eq_false,
        decide_False, Bool.false_eq_true, if_false]
      exact ih hrest
    · simp only [List.filterMap_cons, hd, if_false, List.filter_cons, not_false_eq_true,
        decide_True, if_true, List.getElem?_eq_getElem ha, Option.map_some', List.map_cons]
      rw [ih hrest]

theorem default_name_ne_empty (stem : String) (k : ℕ) : stem ++ "_" ++ toString k ≠ "" := by
  intro h
  have h2 := congrArg String.data h
  simp only [String.data_append] at h2
  have h3 := congrArg List.length h2
  simp at h3

theorem customName_of_names (s : Session) (stem : String) (idx : ℕ)
    (hnames : ∀ k n, s.customNames k = some n → n ≠ "") :
    customName s stem idx =
      (match s.customNames (idx : ℤ) with
        | some n => n
        | none => stem ++ "_" ++ toString (idx + 1)) ∧
    customName s stem idx ≠ "" := by
  unfold customName
  cases hc : s.customNames (idx : ℤ) with
  | none => exact ⟨rfl, default_name_ne_empty stem (idx + 1)⟩
  | some n =>
    have hn := hnames _ n hc
    simp only [hn, if_false]
    exact ⟨trivial, hn⟩

/-- C25: for a session whose cell list has `rows*cols` entries and whose custom names are
non-empty (the only names `finishEdit` stores), `generatePreviews` builds a list
`croppedImages` whose entries are, in ascending order, exactly the indices of
`[0, rows*cols)` not in `disabledCells` (each entry carries `index = idx + 1`); the entry
of cell `idx` holds the rectangle `getCropAreas()[idx]` and the name `customNames[idx]`
when there is one and `stem_(idx+1)` otherwise, and that name is the file name the export
loops give it. -/
theorem export_list_enabled_cells (s : Session) (value : String)
    (hgrid : (getCropAreas s.toState).length = s.rows * s.cols)
    (hnames : ∀ k n, s.customNames k = some n → n ≠ "") :
    ∃ images : List CroppedImage, generatePreviews s value = some images ∧
      images.map (fun e => e.index) =
        ((List.range (s.rows * s.cols)).filter fun (idx : ℕ) =>
          decide ((idx : ℤ) ∉ s.disabledCells)).map (fun idx => idx + 1) ∧
      (∀ e ∈ images, ∃ idx : ℕ, e.index = idx + 1 ∧ idx < s.rows * s.cols ∧
        (idx : ℤ) ∉ s.disabledCells ∧
        (getCropAreas s.toState)[idx]? = some e.area ∧
        e.name = (match s.customNames (idx : ℤ) with
          | some n => n
          | none => fileStem value ++ "_" ++ toString (idx + 1)) ∧
        exportFileName (fileStem value) e = e.name) := by
  have hall : ∀ idx, idx < s.rows * s.cols → (idx : ℤ) ∉ s.disabledCells →
      idx < (getCropAreas s.toState).length := by
    intro idx hi _
    rw [hgrid]; exact hi
  have hgen := previews_fold s (getCropAreas s.toState) (fileStem value) (s.rows * s.cols)
  rw [if_pos hall] at hgen
  refine ⟨_, hgen, ?_, ?_⟩
  · apply previews_index_list
    intro idx hidx
    rw [hgrid]
    exact List.mem_range.1 hidx
  · intro e he
    obtain ⟨idx, hidx, hf⟩ := List.mem_filterMap.1 he
    have hlt : idx < s.rows * s.cols := List.mem_range.1 hidx
    by_cases hd : (idx : ℤ) ∈ s.disabledCells
    · rw [if_pos hd] at hf
      exact absurd hf (by simp)
    · rw [if_neg hd] at hf
      have hlen : idx < (getCropAreas s.toState).length := by rw [hgrid]; exact hlt
      rw [List.getElem?_eq_getElem hlen] at hf
      have he2 := (Option.some.inj hf).symm
      obtain ⟨hn1, hn2⟩ := customName_of_names s (fileStem value) idx hnames
      refine ⟨idx, ?_, hlt, hd, ?_, ?_, ?_⟩
      · rw [he2]
      · rw [he2, List.getElem?_eq_getElem hlen]
      · rw [he2]; exact hn1
      · rw [he2]
        unfold exportFileName
        simp only [hn2, if_false]

/-- C25 on the 6-cell uniform example with cell 3 disabled: the list has 5 entries, for
the cells 0, 1, 2, 4 and 5 (entry field `index` 1, 2, 3, 5, 6), none for cell 3. -/
theorem export_list_enabled_cells_witness :
    ∃ images : List CroppedImage, generatePreviews exportExample "" = some images ∧
      images.map (fun e => e.index) = [1, 2, 3, 5, 6] ∧ images.length = 5 := by
  obtain ⟨images, h1, h2, _⟩ := export_list_enabled_cells exportExample ""
    (getCropAreas_uniform_length uniformExample rfl)
    (by
      intro k n h
      simp only [exportExample] at h
      by_cases hk : k = 1
      · rw [if_pos hk] at h
        rw [← Option.some.inj h]
        decide
      · rw [if_neg hk] at h
        exact absurd h (by simp))
  have h3 : images.map (fun e => e.index) = [1, 2, 3, 5, 6] := by
    rw [h2]
    decide
  refine ⟨images, h1, h3, ?_⟩
  have h4 := congrArg List.length h3
  simpa using h4

/-! ## Grid controls, undo and the centre lines -/

theorem initializeCenterLines_some (st : State) (hr : 1 ≤ st.rows) :
    ∃ t : State, initializeCenterLines st = some t ∧ t.customAreas = st.customAreas ∧
      t.mode = st.mode ∧ t.rows = st.rows ∧ t.cols = st.cols := by
  rcases Nat.eq_zero_or_pos st.cols with hc | hc
  · refine ⟨{ st with
        centerLinesX := initialLines st.cols (st.originalImage.width : ℚ)
        centerLinesY := initialLines st.rows (st.originalImage.height : ℚ) }, ?_,
      rfl, rfl, rfl, rfl⟩
    unfold initializeCenterLines autoCalculateCellSize
    rw [if_pos]
    show (initialLines st.cols (st.originalImage.width : ℚ)).length = 0
    rw [initialLines_length, hc]
  · obtain ⟨mx, my, _, _, h5⟩ := autoCalculateCellSize_spec
      { st with
        centerLinesX := initialLines st.cols (st.originalImage.width : ℚ)
        centerLinesY := initialLines st.rows (st.originalImage.height : ℚ) }
      (initialLines_ne_nil _ _ hc) (initialLines_ne_nil _ _ hr)
    have h6 : initializeCenterLines st = _ := h5
    exact ⟨_, h6, rfl, rfl, rfl, rfl⟩

theorem saveHistory_clearHistory (s : Session) :
    saveHistory (clearHistory s) =
      { s with history := [captureHistoryState s], historyIndex := 0 } := by
  simp [saveHistory, clearHistory, maxHistory, captureHistoryState]

theorem imageLoad_spec (s : Session) (img : Image) (cache : Option ℕ) (hr : 1 ≤ s.rows)
    (hc : 1 ≤ s.cols) :
    ∃ (t : Session) (snap : Snapshot), imageLoad s img cache = some t ∧
      t.rows = s.rows ∧ t.cols = s.cols ∧ t.mode = s.mode ∧
      t.history = [snap] ∧ t.historyIndex = 0 ∧ snap.disabledCells = ∅ ∧
      snap.centerLinesX = initialLines s.cols (img.width : ℚ) ∧
      snap.centerLinesY = initialLines s.rows (img.height : ℚ) := by
  obtain ⟨mx, my, _, _, h5⟩ := autoCalculateCellSize_spec
    { ({ s with
          originalImage := img
          processedImage := none
          disabledCells := ∅
          customAreas := fun _ => none
          customNames := fun _ => none
          imageCache := cache } : Session).toState with
      centerLinesX := initialLines s.cols (img.width : ℚ)
      centerLinesY := initialLines s.rows (img.height : ℚ) }
    (initialLines_ne_nil _ _ hc) (initialLines_ne_nil _ _ hr)
  have h6 : initializeCenterLines ({ s with
          originalImage := img
          processedImage := none
          disabledCells := ∅
          customAreas := fun _ => none
          customNames := fun _ => none
          imageCache := cache } : Session).toState = _ := h5
  unfold imageLoad
  simp only [h6]
  rw [saveHistory_clearHistory]
  exact ⟨_, _, rfl, rfl, rfl, rfl, rfl, rfl, rfl, rfl, rfl⟩

theorem undo_after_grid_change (s : Session) (hr : 1 ≤ s.rows) (snap : Snapshot)
    (hh : s.history = [snap]) (hi : s.historyIndex = 0) :
    ∃ t : Session, (onGridSettingsChange s).bind undo = some t ∧ t.rows = s.rows ∧
      t.cols = s.cols ∧ t.mode = s.mode ∧ t.disabledCells = snap.disabledCells ∧
      t.centerLinesX = snap.centerLinesX ∧ t.centerLinesY = snap.centerLinesY := by
  obtain ⟨st, h1, _, h3, h4, h5⟩ := initializeCenterLines_some
    ({ s with disabledCells := ∅, customAreas := fun _ => none } : Session).toState hr
  unfold onGridSettingsChange
  simp only [h1]
  simp [saveHistory, undo, historyAt, restoreHistoryState, maxHistory, hh, hi]
  exact ⟨h4, h5, h3⟩

theorem initialLines_two_200 : initialLines 2 ((200 : ℕ) : ℚ) = [50, 150] := by
  apply List.ext_getElem?
  intro i
  rcases i with _ | _ | i
  · rw [initialLines_exact 2 200 (by decide) (by decide) (by decide) 0 (by decide)]
    norm_num
  · rw [initialLines_exact 2 200 (by decide) (by decide) (by decide) 1 (by decide)]
    norm_num
  · rw [List.getElem?_eq_none (by rw [initialLines_length]; omega)]
    simp

theorem initialLines_one_100 : initialLines 1 ((100 : ℕ) : ℚ) = [50] := by
  apply List.ext_getElem?
  intro i
  rcases i with _ | i
  · rw [initialLines_exact 1 100 (by decide) (by decide) (by decide) 0 (by decide)]
    norm_num
  · rw [List.getElem?_eq_none (by rw [initialLines_length]; omega)]
    simp

theorem gridUndoExample_eval :
    ∃ t : Session, gridUndoExample = some t ∧ t.rows = 1 ∧ t.cols = 3 ∧
      t.mode = Mode.centerline ∧ t.disabledCells = ∅ ∧
      t.centerLinesX = [50, 150] ∧ t.centerLinesY = [50] := by
  obtain ⟨L, snap, hL, l1, _, l3, l4, l5, l6, l7, l8⟩ :=
    imageLoad_spec freshSession { width := 200, height := 100 } none (by decide) (by decide)
  obtain ⟨t, ht, t1, t2, t3, t4, t5, t6⟩ := undo_after_grid_change
    { L with cols := gridInputValue (some 3) } (by rw [l1]; decide) snap l4 l5
  refine ⟨t, ?_, t1.trans l1, t2, t3.trans l3, t4.trans l6, ?_, ?_⟩
  · unfold gridUndoExample
    rw [hL]
    exact ht
  · rw [t5, l7]
    exact initialLines_two_200
  · rw [t6, l8]
    exact initialLines_one_100

/-- C23, evaluated at the failing input: an image of 200x100 is loaded with 1 row and 2 columns in
centre-line mode, the column count is changed to 3 in the `colsInput` field, and `undo()`
is called. The snapshot restored holds the two x lines of the old grid while `cols` stays
3: `centerLinesX.length = 2` is not `cols`, `getCropAreas()` has 2 entries and not
`rows*cols = 3`, and `generatePreviews` stops with a `TypeError` at cell 2. -/
theorem undo_after_cols_change_line_count :
    ∃ t : Session, gridUndoExample = some t ∧ t.rows = 1 ∧ t.cols = 3 ∧
      t.centerLinesX.length = 2 ∧ t.centerLinesY.length = 1 ∧
      (getCropAreas t.toState).length = 2 ∧ generatePreviews t "" = none := by
  obtain ⟨t, h1, h2, h3, h4, h5, h6, h7⟩ := gridUndoExample_eval
  have hlen : (getCropAreas t.toState).length = 2 := by
    rw [getCropAreas_centerline_length t.toState h4, h6, h7]
    rfl
  refine ⟨t, h1, h2, h3, by rw [h6]; rfl, by rw [h7]; rfl, hlen, ?_⟩
  unfold generatePreviews
  simp only []
  rw [previews_fold, if_neg]
  intro hall
  have := hall 2 (by rw [h2, h3]; decide) (by rw [h5]; simp)
  rw [hlen] at this
  exact absurd this (by decide)

/-! ## What a grid change and a mode change reset -/

theorem gridInputValue_pos (parsed : Option ℤ) : 1 ≤ gridInputValue parsed := by
  unfold gridInputValue
  simp only []
  omega

theorem saveHistory_fields (s : Session) :
    (saveHistory s).customAreas = s.customAreas ∧
      (saveHistory s).disabledCells = s.disabledCells ∧
      (saveHistory s).rows = s.rows ∧ (saveHistory s).cols = s.cols ∧
      (saveHistory s).mode = s.mode := by
  unfold saveHistory
  simp only []
  split_ifs <;> exact ⟨rfl, rfl, rfl, rfl, rfl⟩

theorem onGridSettingsChange_spec (s : Session) (hr : 1 ≤ s.rows) :
    ∃ t : Session, onGridSettingsChange s = some t ∧ t.customAreas = (fun _ => none) ∧
      t.disabledCells = ∅ ∧ t.rows = s.rows ∧ t.cols = s.cols := by
  obtain ⟨st, h1, h2, _, h4, h5⟩ := initializeCenterLines_some
    ({ s with disabledCells := ∅, customAreas := fun _ => none } : Session).toState hr
  obtain ⟨f1, f2, f3, f4, _⟩ := saveHistory_fields
    { ({ s with disabledCells := ∅, customAreas := fun _ => none } : Session) with toState := st }
  refine ⟨_, ?_, f1.trans h2, f2, f3.trans h4, f4.trans h5⟩
  unfold onGridSettingsChange
  simp only [h1]

theorem modeButtonClick_spec (s : Session) (mode : Mode) (hr : 1 ≤ s.rows) :
    ∃ t : Session, modeButtonClick s mode = some t ∧ t.mode = mode ∧
      t.customAreas = s.customAreas ∧ t.disabledCells = s.disabledCells := by
  obtain ⟨st, h1, h2, h3, _, _⟩ := initializeCenterLines_some
    ({ s with mode := mode } : Session).toState hr
  refine ⟨{ ({ s with mode := mode } : Session) with toState := st }, ?_, h3, h2, rfl⟩
  unfold modeButtonClick
  simp only [h1]

/-- C24 (amended): for every prior state with an image loaded and at least one row, a
change of rows or cols through the grid controls (`onGridSettingsChange`, here also
behind the number inputs, the sliders and the quick-grid buttons, for a new row count
of at least 1) leaves `customAreas` empty and `disabledCells` empty, while a click on a
mode button sets the mode and leaves `customAreas` and `disabledCells` as they were. -/
theorem grid_change_resets_mode_change_keeps (s : Session) (hr : 1 ≤ s.rows) :
    (∃ t : Session, onGridSettingsChange s = some t ∧
      t.customAreas = (fun _ => none) ∧ t.disabledCells = ∅) ∧
    (∀ parsed, ∃ t : Session, rowsInputChange s parsed = some t ∧
      t.rows = gridInputValue parsed ∧
      t.customAreas = (fun _ => none) ∧ t.disabledCells = ∅) ∧
    (∀ parsed, ∃ t : Session, colsInputChange s parsed = some t ∧
      t.cols = gridInputValue parsed ∧
      t.customAreas = (fun _ => none) ∧ t.disabledCells = ∅) ∧
    (∀ value, 1 ≤ value → ∃ t : Session, rowsRangeInput s value = some t ∧
      t.customAreas = (fun _ => none) ∧ t.disabledCells = ∅) ∧
    (∀ value, ∃ t : Session, colsRangeInput s value = some t ∧
      t.customAreas = (fun _ => none) ∧ t.disabledCells = ∅) ∧
    (∀ rows cols, 1 ≤ rows → ∃ t : Session, quickGridClick s rows cols = some t ∧
      t.customAreas = (fun _ => none) ∧ t.disabledCells = ∅) ∧
    (∀ mode, ∃ t : Session, modeButtonClick s mode = some t ∧ t.mode = mode ∧
      t.customAreas = s.customAreas ∧ t.disabledCells = s.disabledCells) := by
  refine ⟨?_, ?_, ?_, ?_, ?_, ?_, fun mode => modeButtonClick_spec s mode hr⟩
  · obtain ⟨t, h1, h2, h3, _, _⟩ := onGridSettingsChange_spec s hr
    exact ⟨t, h1, h2, h3⟩
  · intro parsed
    obtain ⟨t, h1, h2, h3, h4, _⟩ := onGridSettingsChange_spec
      { s with rows := gridInputValue parsed } (gridInputValue_pos parsed)
    exact ⟨t, h1, h4, h2, h3⟩
  · intro parsed
    obtain ⟨t, h1, h2, h3, _, h5⟩ := onGridSettingsChange_spec
      { s with cols := gridInputValue parsed } hr
    exact ⟨t, h1, h5, h2, h3⟩
  · intro value hv
    obtain ⟨t, h1, h2, h3, _, _⟩ := onGridSettingsChange_spec { s with rows := value } hv
    exact ⟨t, h1, h2, h3⟩
  · intro value
    obtain ⟨t, h1, h2, h3, _, _⟩ := onGridSettingsChange_spec { s with cols := value } hr
    exact ⟨t, h1, h2, h3⟩
  · intro rows cols hv
    obtain ⟨t, h1, h2, h3, _, _⟩ := onGridSettingsChange_spec
      { s with rows := rows, cols := cols } hv
    exact ⟨t, h1, h2, h3⟩

/-- C24 (amended) on the edited 200x100 example (an override for cell 0, cell 1
disabled): setting the column count to 3 empties both, a click on the uniform mode
button keeps both. -/
theorem grid_change_resets_mode_change_keeps_witness :
    (∃ t : Session, colsInputChange editedExample (some 3) = some t ∧
      t.cols = 3 ∧ t.customAreas = (fun _ => none) ∧ t.disabledCells = ∅) ∧
    (∃ t : Session, modeButtonClick editedExample Mode.uniform = some t ∧
      t.mode = Mode.uniform ∧
      t.customAreas = editedExample.customAreas ∧
      t.disabledCells = editedExample.disabledCells) :=
  have h := grid_change_resets_mode_change_keeps editedExample (by decide)
  ⟨h.2.2.1 (some 3), h.2.2.2.2.2.2 Mode.uniform⟩

/-- C24, refuted as stated: on the edited 200x100 example a click on the
uniform mode button returns a state in which the override of cell 0 is still stored and
cell 1 is still disabled. -/
theorem mode_change_keeps_overrides :
    ∃ t : Session, modeButtonClick editedExample Mode.uniform = some t ∧
      t.mode = Mode.uniform ∧
      t.customAreas 0 = some { x := 0, y := 0, width := 50, height := 50 } ∧
      (1 : ℤ) ∈ t.disabledCells := by
  obtain ⟨t, h1, h2, h3, h4⟩ := modeButtonClick_spec editedExample Mode.uniform (by decide)
  refine ⟨t, h1, h2, ?_, ?_⟩
  · rw [h3]; rfl
  · rw [h4]; decide

theorem toDouble_pos (q : ℚ) (hq : 0 < q) : 0 < toDouble q := by
  have h := (toDouble_bounds q (le_of_lt hq)).1
  have h2 : q / 2 ^ 53 < q := by
    rw [div_lt_iff₀ (by positivity)]
    nlinarith
  linarith

theorem floor_toDouble_div (x W : ℚ) (c : ℕ) (hW : 0 < W) (hc : 1 ≤ c) (hx0 : 0 ≤ x)
    (hxW : x ≤ W) (hm : ∀ n : ℤ, W / 2 ^ 50 ≤ |x - (n : ℚ) * (W / (c : ℚ))|) :
    ⌊toDouble (x / toDouble (W / (c : ℚ)))⌋ = ⌊x / (W / (c : ℚ))⌋ := by
  have hc0 : (0 : ℚ) < (c : ℚ) := by exact_mod_cast hc
  have hc1 : (1 : ℚ) ≤ (c : ℚ) := by exact_mod_cast hc
  generalize hs : W / (c : ℚ) = s at hm ⊢
  have hs0 : 0 < s := by rw [← hs]; exact div_pos hW hc0
  have hsW : s ≤ W := by
    rw [← hs, div_le_iff₀ hc0]
    nlinarith
  obtain ⟨b1, b2⟩ := toDouble_bounds s (le_of_lt hs0)
  have hs' := toDouble_pos s hs0
  generalize toDouble s = s' at b1 b2 hs'
  have hq0 : 0 ≤ x / s' := div_nonneg hx0 (le_of_lt hs')
  obtain ⟨d1, d2⟩ := toDouble_bounds (x / s') hq0
  have hqs : x / s' * s' = x := div_mul_cancel₀ x (ne_of_gt hs')
  generalize x / s' = q at hq0 d1 d2 hqs
  generalize toDouble q = q' at d1 d2
  generalize hn : ⌊x / s⌋ = n
  have hn1 : (n : ℚ) * s ≤ x := by
    have := Int.floor_le (x / s)
    rw [hn, le_div_iff₀ hs0] at this
    exact this
  have hn2 : x < ((n : ℚ) + 1) * s := by
    have := Int.lt_floor_add_one (x / s)
    rw [hn, div_lt_iff₀ hs0] at this
    exact this
  have hn0 : (0 : ℚ) ≤ (n : ℚ) := by
    have : (0 : ℤ) ≤ n := by
      rw [← hn]
      exact Int.floor_nonneg.2 (div_nonneg hx0 (le_of_lt hs0))
    exact_mod_cast this
  have m1 : W / 2 ^ 50 ≤ x - (n : ℚ) * s := by
    have := hm n
    rwa [abs_of_nonneg (by linarith)] at this
  have m2 : W / 2 ^ 50 ≤ ((n : ℚ) + 1) * s - x := by
    have := hm (n + 1)
    push_cast at this
    rwa [abs_of_nonpos (by linarith), neg_sub] at this
  have e1 : (n : ℚ) * s' ≤ (n : ℚ) * (s + s / 2 ^ 53) := mul_le_mul_of_nonneg_left b2 hn0
  have e2 : ((n : ℚ) + 1) * (s - s / 2 ^ 53) ≤ ((n : ℚ) + 1) * s' :=
    mul_le_mul_of_nonneg_left b1 (by linarith)
  have hA : (0 : ℚ) ≤ (n : ℚ) * s := mul_nonneg hn0 (le_of_lt hs0)
  rw [Int.floor_eq_iff]
  constructor
  · -- n ≤ q'
    have h1 : (n : ℚ) * s' ≤ (q - q / 2 ^ 53) * s' := by
      have : (q - q / 2 ^ 53) * s' = x - x / 2 ^ 53 := by
        rw [sub_mul, div_mul_eq_mul_div, hqs]
      rw [this]
      have : (n : ℚ) * (s + s / 2 ^ 53) = (n : ℚ) * s + (n : ℚ) * s / 2 ^ 53 := by ring
      linarith
    have h2 : (n : ℚ) ≤ q - q / 2 ^ 53 := le_of_mul_le_mul_right h1 hs'
    linarith
  · -- q' < n + 1
    have h1 : (q + q / 2 ^ 53) * s' < ((n : ℚ) + 1) * s' := by
      have : (q + q / 2 ^ 53) * s' = x + x / 2 ^ 53 := by
        rw [add_mul, div_mul_eq_mul_div, hqs]
      rw [this]
      have : ((n : ℚ) + 1) * (s - s / 2 ^ 53) =
          ((n : ℚ) + 1) * s - ((n : ℚ) + 1) * s / 2 ^ 53 := by ring
      have h3 : ((n : ℚ) + 1) * s ≤ 2 * W := by linarith
      linarith
    have h2 : q + q / 2 ^ 53 < (n : ℚ) + 1 := lt_of_mul_lt_mul_right h1 (le_of_lt hs')
    linarith

/-! ## Hit test of the cells -/

theorem findCellInner_step (st : State) (x y cy cx : ℚ) (rest : List ℚ) (index : ℕ) :
    ((lineCell st cy cx).ContainsPoint { x := x, y := y } →
      findCellInner st x y cy (cx :: rest) index = Sum.inl index) ∧
    (¬ (lineCell st cy cx).ContainsPoint { x := x, y := y } →
      findCellInner st x y cy (cx :: rest) index
        = findCellInner st x y cy rest (index + 1)) := by
  have hiff : (x ≥ cx - st.cellWidth / 2 ∧
      x ≤ cx - st.cellWidth / 2 + st.cellWidth / 2 * 2 ∧
      y ≥ cy - st.cellHeight / 2 ∧ y ≤ cy - st.cellHeight / 2 + st.cellHeight / 2 * 2) ↔
      (lineCell st cy cx).ContainsPoint { x := x, y := y } := by
    unfold Area.ContainsPoint lineCell
    simp only [ge_iff_le, div_mul_cancel_of_invertible]
  constructor
  · intro h
    show (if _ then _ else _) = _
    rw [if_pos (hiff.2 h)]
  · intro h
    show (if _ then _ else _) = _
    rw [if_neg (fun hc => h (hiff.1 hc))]

theorem findCellInner_spec (st : State) (x y cy : ℚ) (xs : List ℚ) :
    ∀ index : ℕ,
      (∃ k cx, findCellInner st x y cy xs index = Sum.inl (index + k) ∧ xs[k]? = some cx ∧
        (lineCell st cy cx).ContainsPoint { x := x, y := y } ∧
        ∀ (j : ℕ) (cx2 : ℚ), j < k → xs[j]? = some cx2 →
          ¬ (lineCell st cy cx2).ContainsPoint { x := x, y := y }) ∨
      (findCellInner st x y cy xs index = Sum.inr (index + xs.length) ∧
        ∀ (j : ℕ) (cx2 : ℚ), xs[j]? = some cx2 →
          ¬ (lineCell st cy cx2).ContainsPoint { x := x, y := y }) := by
  induction xs with
  | nil =>
    intro index
    right
    exact ⟨rfl, fun j cx2 h => by simp at h⟩
  | cons cx rest ih =>
    intro index
    by_cases h : (lineCell st cy cx).ContainsPoint { x := x, y := y }
    · left
      rw [(findCellInner_step st x y cy cx rest index).1 h]
      exact ⟨0, cx, rfl, List.getElem?_cons_zero, h,
        fun j _ hj => absurd hj (Nat.not_lt_zero j)⟩
    · rw [(findCellInner_step st x y cy cx rest index).2 h]
      rcases ih (index + 1) with ⟨k, cx1, h1, h2, h3, h4⟩ | ⟨h1, h2⟩
      · left
        refine ⟨k + 1, cx1, ?_, List.getElem?_cons_succ.trans h2, h3, ?_⟩
        · rw [h1]; congr 1; omega
        · intro j cx2 hj hget
          cases j with
          | zero =>
            simp only [List.getElem?_cons_zero, Option.some.injEq] at hget
            rw [← hget]; exact h
          | succ j => exact h4 j cx2 (by omega) (List.getElem?_cons_succ.symm.trans hget)
      · right
        refine ⟨?_, ?_⟩
        · rw [h1]; congr 1; simp only [List.length_cons]; omega
        · intro j cx2 hget
          cases j with
          | zero =>
            simp only [List.getElem?_cons_zero, Option.some.injEq] at hget
            rw [← hget]; exact h
          | succ j => exact h2 j cx2 (List.getElem?_cons_succ.symm.trans hget)

theorem findCellOuter_spec (st : State) (x y : ℚ) (ys : List ℚ) :
    ∀ index : ℕ,
      (∃ i k cy cx, findCellOuter st x y ys index
            = Sum.inl (index + i * st.centerLinesX.length + k) ∧
        ys[i]? = some cy ∧ st.centerLinesX[k]? = some cx ∧
        (lineCell st cy cx).ContainsPoint { x := x, y := y } ∧
        ∀ (i2 k2 : ℕ) (cy2 cx2 : ℚ), ys[i2]? = some cy2 → st.centerLinesX[k2]? = some cx2 →
          i2 * st.centerLinesX.length + k2 < i * st.centerLinesX.length + k →
          ¬ (lineCell st cy2 cx2).ContainsPoint { x := x, y := y }) ∨
      (findCellOuter st x y ys index
            = Sum.inr (index + ys.length * st.centerLinesX.length) ∧
        ∀ (i2 k2 : ℕ) (cy2 cx2 : ℚ), ys[i2]? = some cy2 → st.centerLinesX[k2]? = some cx2 →
          ¬ (lineCell st cy2 cx2).ContainsPoint { x := x, y := y }) := by
  induction ys with
  | nil =>
    intro index
    right
    exact ⟨by simp [findCellOuter], fun i2 k2 cy2 cx2 h => by simp at h⟩
  | cons cy rest ih =>
    intro index
    rcases findCellInner_spec st x y cy st.centerLinesX index with
      ⟨k, cx, h1, h2, h3, h4⟩ | ⟨h1, h2⟩
    · left
      refine ⟨0, k, cy, cx, ?_, List.getElem?_cons_zero, h2, h3, ?_⟩
      · show (match findCellInner st x y cy st.centerLinesX index with
          | Sum.inl found => Sum.inl found
          | Sum.inr next => findCellOuter st x y rest next) = _
        rw [h1]
        simp only [Nat.zero_mul, Nat.add_zero]
      · intro i2 k2 cy2 cx2 hy hx hlt
        have hk2 : k2 < st.centerLinesX.length := by
          by_contra hc
          rw [List.getElem?_eq_none (by omega)] at hx
          exact absurd hx (by simp)
        cases i2 with
        | zero =>
          simp only [List.getElem?_cons_zero, Option.some.injEq] at hy
          rw [← hy]
          exact h4 k2 cx2 (by omega) hx
        | succ i2 =>
          exfalso
          have hk : k < st.centerLinesX.length := by
            by_contra hc
            rw [List.getElem?_eq_none (by omega)] at h2
            exact absurd h2 (by simp)
          have : (i2 + 1) * st.centerLinesX.length
              = i2 * st.centerLinesX.length + st.centerLinesX.length := Nat.succ_mul _ _
          omega
    · have hstep : findCellOuter st x y (cy :: rest) index
          = findCellOuter st x y rest (index + st.centerLinesX.length) := by
        show (match findCellInner st x y cy st.centerLinesX index with
          | Sum.inl found => Sum.inl found
          | Sum.inr next => findCellOuter st x y rest next) = _
        rw [h1]
      rw [hstep]
      rcases ih (index + st.centerLinesX.length) with ⟨i, k, cy1, cx1, g1, g2, g3, g4, g5⟩ |
        ⟨g1, g2⟩
      · left
        refine ⟨i + 1, k, cy1, cx1, ?_, List.getElem?_cons_succ.trans g2, g3, g4, ?_⟩
        · rw [g1]; congr 1
          rw [Nat.succ_mul]; omega
        · intro i2 k2 cy2 cx2 hy hx hlt
          cases i2 with
          | zero =>
            simp only [List.getElem?_cons_zero, Option.some.injEq] at hy
            rw [← hy]
            exact h2 k2 cx2 hx
          | succ i2 =>
            refine g5 i2 k2 cy2 cx2 (List.getElem?_cons_succ.symm.trans hy) hx ?_
            rw [Nat.succ_mul, Nat.succ_mul] at hlt
            omega
      · right
        refine ⟨?_, ?_⟩
        · rw [g1]; congr 1
          simp only [List.length_cons]
          rw [Nat.succ_mul]; omega
        · intro i2 k2 cy2 cx2 hy hx
          cases i2 with
          | zero =>
            simp only [List.getElem?_cons_zero, Option.some.injEq] at hy
            rw [← hy]
            exact h2 k2 cx2 hx
          | succ i2 => exact g2 i2 k2 cy2 cx2 (List.getElem?_cons_succ.symm.trans hy) hx

theorem lineCell_of_noClamping (st : State) (hno : ∀ k, st.customAreas k = none)
    (hcl : NoClamping st) (cy cx : ℚ) (hy : cy ∈ st.centerLinesY) (hx : cx ∈ st.centerLinesX)
    (idx : ℕ) :
    centerLineCell st cy cx idx = lineCell st cy cx ∧
    0 ≤ (lineCell st cy cx).x ∧
    (lineCell st cy cx).x + (lineCell st cy cx).width ≤ (st.originalImage.width : ℚ) ∧
    0 ≤ (lineCell st cy cx).y ∧
    (lineCell st cy cx).y + (lineCell st cy cx).height ≤ (st.originalImage.height : ℚ) := by
  obtain ⟨x1, x2⟩ := hcl.1 cx hx
  obtain ⟨y1, y2⟩ := hcl.2 cy hy
  refine ⟨?_, ?_, ?_, ?_, ?_⟩
  · rw [centerLineCell_of_none st cy cx idx (hno _)]
    unfold lineCell
    rw [min_eq_right (by linarith), max_eq_right x1, min_eq_right (by linarith),
      max_eq_right y1]
  · exact x1
  · show cx - st.cellWidth / 2 + st.cellWidth ≤ _
    linarith
  · exact y1
  · show cy - st.cellHeight / 2 + st.cellHeight ≤ _
    linarith

theorem getCropAreas_lineCell (st : State) (hmode : st.mode = Mode.centerline)
    (hno : ∀ k, st.customAreas k = none) (hcl : NoClamping st) (j : ℕ) (a : Area)
    (ha : (getCropAreas st)[j]? = some a) :
    ∃ cy cx, st.centerLinesY[j / st.centerLinesX.length]? = some cy ∧
      st.centerLinesX[j % st.centerLinesX.length]? = some cx ∧ a = lineCell st cy cx := by
  have hj : j < st.centerLinesY.length * st.centerLinesX.length := by
    rw [← getCropAreas_centerline_length st hmode]
    by_contra hc
    rw [List.getElem?_eq_none (by omega)] at ha
    exact absurd ha (by simp)
  obtain ⟨cy, cx, hy, hx, hget⟩ := getCropAreas_centerline_getElem? st hmode j hj
  refine ⟨cy, cx, hy, hx, ?_⟩
  rw [hget] at ha
  rw [← Option.some.inj ha]
  exact (lineCell_of_noClamping st hno hcl cy cx (List.mem_iff_getElem?.2 ⟨_, hy⟩)
    (List.mem_iff_getElem?.2 ⟨_, hx⟩) j).1

theorem getCropAreas_at_lines (st : State) (hmode : st.mode = Mode.centerline)
    (hno : ∀ k, st.customAreas k = none) (hcl : NoClamping st) (i k : ℕ) (cy cx : ℚ)
    (hy : st.centerLinesY[i]? = some cy) (hx : st.centerLinesX[k]? = some cx) :
    (getCropAreas st)[i * st.centerLinesX.length + k]? = some (lineCell st cy cx) := by
  obtain ⟨_, _, h3⟩ := centerLineOuter_spec st st.centerLinesY 0 [] rfl
  have h := h3 i k cy cx hy hx
  rw [Nat.zero_add] at h
  have hg : getCropAreas st = (centerLineOuter st st.centerLinesY 0 []).2 := by
    unfold getCropAreas
    rw [hmode]
  rw [hg, h]
  exact congrArg some (lineCell_of_noClamping st hno hcl cy cx
    (List.mem_iff_getElem?.2 ⟨_, hy⟩) (List.mem_iff_getElem?.2 ⟨_, hx⟩) _).1

theorem findCellAtPosition_centerline (st : State) (view : View) (canvasX canvasY : ℚ)
    (hz : view.zoom ≠ 0) (hmode : st.mode = Mode.centerline)
    (hno : ∀ k, st.customAreas k = none) (hcl : NoClamping st) :
    (findCellAtPosition st view canvasX canvasY = -1 ∧
      ∀ (j : ℕ) (a : Area), (getCropAreas st)[j]? = some a →
        ¬ a.ContainsPoint (canvasToImageCoords view canvasX canvasY)) ∨
    (∃ (j : ℕ) (a : Area), findCellAtPosition st view canvasX canvasY = (j : ℤ) ∧
      (getCropAreas st)[j]? = some a ∧
      a.ContainsPoint (canvasToImageCoords view canvasX canvasY) ∧
      ∀ (j2 : ℕ) (b : Area), j2 < j → (getCropAreas st)[j2]? = some b →
        ¬ b.ContainsPoint (canvasToImageCoords view canvasX canvasY)) := by
  generalize hp : canvasToImageCoords view canvasX canvasY = p
  unfold findCellAtPosition
  rw [if_neg hz]
  simp only [hp, hmode]
  by_cases hout : p.x < 0 ∨ p.x > (st.originalImage.width : ℚ) ∨ p.y < 0 ∨
      p.y > (st.originalImage.height : ℚ)
  · left
    rw [if_pos hout]
    refine ⟨rfl, ?_⟩
    intro j a ha hcon
    obtain ⟨cy, cx, hy, hx, rfl⟩ := getCropAreas_lineCell st hmode hno hcl j a ha
    obtain ⟨_, b1, b2, b3, b4⟩ := lineCell_of_noClamping st hno hcl cy cx
      (List.mem_iff_getElem?.2 ⟨_, hy⟩) (List.mem_iff_getElem?.2 ⟨_, hx⟩) j
    obtain ⟨c1, c2, c3, c4⟩ := hcon
    rcases hout with h | h | h | h <;> linarith
  · rw [if_neg hout]
    rcases findCellOuter_spec st p.x p.y st.centerLinesY 0 with
      ⟨i, k, cy, cx, h1, h2, h3, h4, h5⟩ | ⟨h1, h2⟩
    · right
      simp only [h1, Nat.zero_add]
      refine ⟨i * st.centerLinesX.length + k, lineCell st cy cx, rfl,
        getCropAreas_at_lines st hmode hno hcl i k cy cx h2 h3, h4, ?_⟩
      intro j2 b hlt hb
      obtain ⟨cy2, cx2, hy2, hx2, rfl⟩ := getCropAreas_lineCell st hmode hno hcl j2 b hb
      refine h5 _ _ cy2 cx2 hy2 hx2 ?_
      rw [Nat.div_add_mod' j2 st.centerLinesX.length]
      exact hlt
    · left
      simp only [h1]
      refine ⟨trivial, ?_⟩
      intro j a ha
      obtain ⟨cy, cx, hy, hx, rfl⟩ := getCropAreas_lineCell st hmode hno hcl j a ha
      exact h2 _ _ cy cx hy hx

theorem floor_div_eq_iff (x s : ℚ) (hs : 0 < s) (z : ℕ) :
    ⌊x / s⌋ = (z : ℤ) ↔ (z : ℚ) * s ≤ x ∧ x < (z : ℚ) * s + s := by
  rw [Int.floor_eq_iff, le_div_iff₀ hs, div_lt_iff₀ hs]
  constructor
  · rintro ⟨h1, h2⟩
    push_cast at h1 h2
    exact ⟨h1, by linarith⟩
  · rintro ⟨h1, h2⟩
    push_cast
    exact ⟨h1, by linarith⟩

theorem uniform_covers_iff (st : State) (hmode : st.mode = Mode.uniform)
    (hno : ∀ k, st.customAreas k = none) (hW : 0 < st.originalImage.width)
    (hH : 0 < st.originalImage.height) (hr : 1 ≤ st.rows) (hc : 1 ≤ st.cols) (j : ℕ)
    (hj : j < st.rows * st.cols) (p : Point) :
    (∃ a, (getCropAreas st)[j]? = some a ∧ a.CoversPoint p) ↔
      (⌊p.x / ((st.originalImage.width : ℚ) / (st.cols : ℚ))⌋ = ((j % st.cols : ℕ) : ℤ) ∧
       ⌊p.y / ((st.originalImage.height : ℚ) / (st.rows : ℚ))⌋ = ((j / st.cols : ℕ) : ℤ)) := by
  have hc0 : (0 : ℚ) < (st.cols : ℚ) := by exact_mod_cast hc
  have hr0 : (0 : ℚ) < (st.rows : ℚ) := by exact_mod_cast hr
  have hW0 : (0 : ℚ) < (st.originalImage.width : ℚ) := by exact_mod_cast hW
  have hH0 : (0 : ℚ) < (st.originalImage.height : ℚ) := by exact_mod_cast hH
  rw [floor_div_eq_iff _ _ (div_pos hW0 hc0), floor_div_eq_iff _ _ (div_pos hH0 hr0),
    getCropAreas_uniform_getElem? st hmode j hj,
    uniformCell_of_none st (j / st.cols) (j % st.cols) (hno _)]
  constructor
  · rintro ⟨a, ha, h1, h2, h3, h4⟩
    rw [← Option.some.inj ha] at h1 h2 h3 h4
    exact ⟨⟨h1, h2⟩, ⟨h3, h4⟩⟩
  · rintro ⟨⟨h1, h2⟩, ⟨h3, h4⟩⟩
    exact ⟨_, rfl, h1, h2, h3, h4⟩

theorem getCropAreas_uniform_index_lt (st : State) (hmode : st.mode = Mode.uniform) (j : ℕ)
    (a : Area) (ha : (getCropAreas st)[j]? = some a) : j < st.rows * st.cols := by
  rw [← getCropAreas_uniform_length st hmode]
  by_contra hc
  rw [List.getElem?_eq_none (by omega)] at ha
  exact absurd ha (by simp)

theorem findCellAtPosition_uniform (st : State) (view : View) (canvasX canvasY : ℚ)
    (hz : view.zoom ≠ 0) (hmode : st.mode = Mode.uniform)
    (hno : ∀ k, st.customAreas k = none)
    (hW : 0 < st.originalImage.width) (hH : 0 < st.originalImage.height)
    (hr : 1 ≤ st.rows) (hc : 1 ≤ st.cols)
    (hmx : ∀ n : ℤ, (st.originalImage.width : ℚ) / 2 ^ 50 ≤
      |(canvasToImageCoords view canvasX canvasY).x -
        (n : ℚ) * ((st.originalImage.width : ℚ) / (st.cols : ℚ))|)
    (hmy : ∀ n : ℤ, (st.originalImage.height : ℚ) / 2 ^ 50 ≤
      |(canvasToImageCoords view canvasX canvasY).y -
        (n : ℚ) * ((st.originalImage.height : ℚ) / (st.rows : ℚ))|) :
    (findCellAtPosition st view canvasX canvasY = -1 ∧
      ∀ (j : ℕ) (a : Area), (getCropAreas st)[j]? = some a →
        ¬ a.CoversPoint (canvasToImageCoords view canvasX canvasY)) ∨
    (∃ (j : ℕ) (a : Area), findCellAtPosition st view canvasX canvasY = (j : ℤ) ∧
      (getCropAreas st)[j]? = some a ∧
      a.CoversPoint (canvasToImageCoords view canvasX canvasY) ∧
      ∀ (j2 : ℕ) (b : Area), (getCropAreas st)[j2]? = some b →
        b.CoversPoint (canvasToImageCoords view canvasX canvasY) → j2 = j) := by
  generalize hp : canvasToImageCoords view canvasX canvasY = p at hmx hmy ⊢
  have hc0 : (0 : ℚ) < (st.cols : ℚ) := by exact_mod_cast hc
  have hr0 : (0 : ℚ) < (st.rows : ℚ) := by exact_mod_cast hr
  have hW0 : (0 : ℚ) < (st.originalImage.width : ℚ) := by exact_mod_cast hW
  have hH0 : (0 : ℚ) < (st.originalImage.height : ℚ) := by exact_mod_cast hH
  have hsx := div_pos hW0 hc0
  have hsy := div_pos hH0 hr0
  -- what a covering cell says about the point
  have hcov : ∀ (j : ℕ) (a : Area), (getCropAreas st)[j]? = some a → a.CoversPoint p →
      j < st.rows * st.cols ∧
      ⌊p.x / ((st.originalImage.width : ℚ) / (st.cols : ℚ))⌋ = ((j % st.cols : ℕ) : ℤ) ∧
      ⌊p.y / ((st.originalImage.height : ℚ) / (st.rows : ℚ))⌋ = ((j / st.cols : ℕ) : ℤ) := by
    intro j a ha hcp
    have hj := getCropAreas_uniform_index_lt st hmode j a ha
    exact ⟨hj, (uniform_covers_iff st hmode hno hW hH hr hc j hj p).1 ⟨a, ha, hcp⟩⟩
  unfold findCellAtPosition
  rw [if_neg hz]
  simp only [hp, hmode]
  by_cases hout : p.x < 0 ∨ p.x > (st.originalImage.width : ℚ) ∨ p.y < 0 ∨
      p.y > (st.originalImage.height : ℚ)
  · left
    rw [if_pos hout]
    refine ⟨rfl, ?_⟩
    intro j a ha hcp
    obtain ⟨hj, e1, e2⟩ := hcov j a ha hcp
    obtain ⟨x1, x2⟩ := (floor_div_eq_iff _ _ hsx _).1 e1
    obtain ⟨y1, y2⟩ := (floor_div_eq_iff _ _ hsy _).1 e2
    have hcol : ((j % st.cols : ℕ) : ℚ) + 1 ≤ (st.cols : ℚ) := by
      exact_mod_cast Nat.mod_lt j hc
    have hrow : ((j / st.cols : ℕ) : ℚ) + 1 ≤ (st.rows : ℚ) := by
      have : j / st.cols < st.rows := Nat.div_lt_of_lt_mul (by rw [Nat.mul_comm]; exact hj)
      exact_mod_cast this
    have hx3 := mul_le_mul_of_nonneg_right hcol (le_of_lt hsx)
    have hy3 := mul_le_mul_of_nonneg_right hrow (le_of_lt hsy)
    rw [mul_div_cancel₀ _ (ne_of_gt hc0)] at hx3
    rw [mul_div_cancel₀ _ (ne_of_gt hr0)] at hy3
    have hx4 : (0 : ℚ) ≤ ((j % st.cols : ℕ) : ℚ) *
        ((st.originalImage.width : ℚ) / (st.cols : ℚ)) :=
      mul_nonneg (Nat.cast_nonneg _) (le_of_lt hsx)
    have hy4 : (0 : ℚ) ≤ ((j / st.cols : ℕ) : ℚ) *
        ((st.originalImage.height : ℚ) / (st.rows : ℚ)) :=
      mul_nonneg (Nat.cast_nonneg _) (le_of_lt hsy)
    rcases hout with h | h | h | h <;> nlinarith
  · rw [if_neg hout, if_neg (by omega)]
    push_neg at hout
    rw [floor_toDouble_div p.x _ st.cols hW0 hc hout.1 hout.2.1 hmx,
      floor_toDouble_div p.y _ st.rows hH0 hr hout.2.2.1 hout.2.2.2 hmy]
    generalize hcol : ⌊p.x / ((st.originalImage.width : ℚ) / (st.cols : ℚ))⌋ = col at hcov ⊢
    generalize hrow : ⌊p.y / ((st.originalImage.height : ℚ) / (st.rows : ℚ))⌋ = row at hcov ⊢
    by_cases hin : col ≥ 0 ∧ col < (st.cols : ℤ) ∧ row ≥ 0 ∧ row < (st.rows : ℤ)
    · right
      rw [if_pos hin]
      obtain ⟨c1, c2, r1, r2⟩ := hin
      obtain ⟨c, rfl⟩ := Int.eq_ofNat_of_zero_le c1
      obtain ⟨r, rfl⟩ := Int.eq_ofNat_of_zero_le r1
      have hc2 : c < st.cols := by exact_mod_cast c2
      have hr2 : r < st.rows := by exact_mod_cast r2
      have hj : r * st.cols + c < st.rows * st.cols := by
        have : (r + 1) * st.cols ≤ st.rows * st.cols := Nat.mul_le_mul_right _ hr2
        rw [Nat.succ_mul] at this
        omega
      have hmod : (r * st.cols + c) % st.cols = c := by
        rw [Nat.add_comm, Nat.add_mul_mod_self_right, Nat.mod_eq_of_lt hc2]
      have hdiv : (r * st.cols + c) / st.cols = r := by
        rw [Nat.add_comm, Nat.add_mul_div_right _ _ (by omega), Nat.div_eq_of_lt hc2,
          Nat.zero_add]
      obtain ⟨a, ha, hcp⟩ := (uniform_covers_iff st hmode hno hW hH hr hc _ hj p).2
        ⟨by rw [hcol, hmod], by rw [hrow, hdiv]⟩
      refine ⟨r * st.cols + c, a, by push_cast; ring, ha, hcp, ?_⟩
      intro j2 b hb hcb
      obtain ⟨_, e1, e2⟩ := hcov j2 b hb hcb
      have e3 : j2 % st.cols = c := by exact_mod_cast e1.symm
      have e4 : j2 / st.cols = r := by exact_mod_cast e2.symm
      rw [← Nat.div_add_mod' j2 st.cols, e3, e4]
    · left
      rw [if_neg hin]
      refine ⟨rfl, ?_⟩
      intro j a ha hcp
      obtain ⟨hj, e1, e2⟩ := hcov j a ha hcp
      apply hin
      rw [e1, e2]
      have h1 : j % st.cols < st.cols := Nat.mod_lt j hc
      have h2 : j / st.cols < st.rows :=
        Nat.div_lt_of_lt_mul (by rw [Nat.mul_comm]; exact hj)
      refine ⟨by positivity, by exact_mod_cast h1, by positivity, by exact_mod_cast h2⟩

theorem roundHalfEven_eq_of_near (q : ℚ) (r : ℤ) (h : |q - (r : ℚ)| < 1 / 2) :
    roundHalfEven q = r := by
  obtain ⟨h1, h2⟩ := abs_lt.1 h
  unfold roundHalfEven
  simp only []
  rcases le_or_lt (r : ℚ) q with hrq | hrq
  · have hf : ⌊q⌋ = r := by
      rw [Int.floor_eq_iff]
      constructor <;> linarith
    rw [hf, if_pos (by linarith)]
  · have hf : ⌊q⌋ = r - 1 := by
      rw [Int.floor_eq_iff]
      push_cast
      constructor <;> linarith
    rw [hf]
    push_cast
    rw [if_neg (by linarith), if_pos (by linarith)]
    ring

theorem toDouble_of_binade (q : ℚ) (e r : ℤ) (hq : 0 < q) (h1 : (2 : ℚ) ^ e ≤ q)
    (h2 : q < (2 : ℚ) ^ (e + 1)) (h3 : |q / (2 : ℚ) ^ (e - 52) - (r : ℚ)| < 1 / 2) :
    toDouble q = (r : ℚ) * (2 : ℚ) ^ (e - 52) := by
  have hlog : Int.log 2 |q| = e := by
    rw [abs_of_pos hq]
    apply le_antisymm
    · have : Int.log 2 q < e + 1 := by
        rw [← Int.lt_zpow_iff_log_lt (by norm_num) hq]
        exact_mod_cast h2
      omega
    · rw [← Int.zpow_le_iff_le_log (by norm_num) hq]
      exact_mod_cast h1
  unfold toDouble
  rw [if_neg (ne_of_gt hq)]
  simp only []
  rw [hlog, roundHalfEven_eq_of_near _ r h3]

theorem toDouble_cell_width_18_14 :
    toDouble ((18 : ℚ) / 14) = 5790342378047781 / 2 ^ 52 := by
  have h := toDouble_of_binade ((18 : ℚ) / 14) 0 5790342378047781 (by norm_num)
    (by norm_num) (by norm_num) (by rw [abs_lt]; constructor <;> norm_num)
  rw [h]
  norm_num

theorem toDouble_column_quotient :
    toDouble ((9 : ℚ) / (5790342378047781 / 2 ^ 52)) = 7881299347898367 / 2 ^ 50 := by
  have h := toDouble_of_binade ((9 : ℚ) / (5790342378047781 / 2 ^ 52)) 2 7881299347898367
    (by norm_num) (by norm_num) (by norm_num) (by rw [abs_lt]; constructor <;> norm_num)
  rw [h]
  norm_num

theorem toDouble_cell_height_10_1 : toDouble ((10 : ℚ) / 1) = 10 := by
  have h := toDouble_natCast 10 (by norm_num)
  simpa using h

theorem toDouble_row_quotient : toDouble ((5 : ℚ) / 10) = 1 / 2 := by
  have h := toDouble_exact 1 1 (by norm_num)
  norm_num at h ⊢
  exact h

/-- The uniform hit test on a cell boundary: on the 18x10 image with 14 columns the
double nearest to 18/14 is above 9/7, the quotient 9 / cellW rounds to the double below
7, and `findCellAtPosition` returns cell 6 for the point (9, 5), while the half-open
rectangle of cell 7 in `getCropAreas()` is the one that contains it. -/
theorem findCellAtPosition_boundary :
    findCellAtPosition boundaryExample initialView 9 5 = 6 ∧
    ∃ a : Area, (getCropAreas boundaryExample)[7]? = some a ∧
      a.CoversPoint (canvasToImageCoords initialView 9 5) := by
  have hp : canvasToImageCoords initialView 9 5 = { x := 9, y := 5 } := by
    simp [canvasToImageCoords, initialView]
  constructor
  · unfold findCellAtPosition
    rw [if_neg (by simp [initialView])]
    simp only [hp]
    rw [if_neg (by norm_num [boundaryExample])]
    simp only [boundaryExample, Nat.cast_ofNat, Nat.cast_one]
    rw [if_neg (by decide), toDouble_cell_width_18_14, toDouble_column_quotient,
      toDouble_cell_height_10_1, toDouble_row_quotient]
    norm_num
  · rw [hp]
    apply (uniform_covers_iff boundaryExample rfl (fun _ => rfl) (by decide) (by decide)
      (by decide) (by decide) 7 (by decide) { x := 9, y := 5 }).2
    constructor
    · rw [Int.floor_eq_iff]
      norm_num [boundaryExample]
    · rw [Int.floor_eq_iff]
      norm_num [boundaryExample]

theorem findCellAtPosition_zoom_zero (st : State) (view : View) (canvasX canvasY : ℚ)
    (hz : view.zoom = 0) : findCellAtPosition st view canvasX canvasY = -1 := by
  unfold findCellAtPosition
  rw [if_pos hz]

/-- C26 (amended): with an image loaded and no override stored, `findCellAtPosition`
agrees with the geometry model in these two cases, at a zoom other than 0 (at zoom 0 it
returns -1). In centre-line mode, when no derived cell is moved by the bounds clamp, it
returns the lowest index of `getCropAreas()` whose closed rectangle contains the
image-space point, and -1 exactly when no rectangle contains it. In uniform mode (image
of positive size, rows, cols >= 1), for a point that keeps a distance of at least
`width / 2^50` from every column boundary `n * width / cols` and of at least
`height / 2^50` from every row boundary `n * height / rows`, it returns the index of the
one cell of `getCropAreas()` whose half-open rectangle `[x, x+w) × [y, y+h)` contains the
point, and -1 exactly when no cell does. -/
theorem findCellAtPosition_without_overrides (st : State) (view : View)
    (canvasX canvasY : ℚ) (hno : ∀ k, st.customAreas k = none) :
    (view.zoom = 0 → findCellAtPosition st view canvasX canvasY = -1) ∧
    (view.zoom ≠ 0 → st.mode = Mode.centerline → NoClamping st →
      ((findCellAtPosition st view canvasX canvasY = -1 ∧
        ∀ (j : ℕ) (a : Area), (getCropAreas st)[j]? = some a →
          ¬ a.ContainsPoint (canvasToImageCoords view canvasX canvasY)) ∨
      (∃ (j : ℕ) (a : Area), findCellAtPosition st view canvasX canvasY = (j : ℤ) ∧
        (getCropAreas st)[j]? = some a ∧
        a.ContainsPoint (canvasToImageCoords view canvasX canvasY) ∧
        ∀ (j2 : ℕ) (b : Area), j2 < j → (getCropAreas st)[j2]? = some b →
          ¬ b.ContainsPoint (canvasToImageCoords view canvasX canvasY)))) ∧
    (view.zoom ≠ 0 → st.mode = Mode.uniform → 0 < st.originalImage.width →
      0 < st.originalImage.height → 1 ≤ st.rows → 1 ≤ st.cols →
      (∀ n : ℤ, (st.originalImage.width : ℚ) / 2 ^ 50 ≤
        |(canvasToImageCoords view canvasX canvasY).x -
          (n : ℚ) * ((st.originalImage.width : ℚ) / (st.cols : ℚ))|) →
      (∀ n : ℤ, (st.originalImage.height : ℚ) / 2 ^ 50 ≤
        |(canvasToImageCoords view canvasX canvasY).y -
          (n : ℚ) * ((st.originalImage.height : ℚ) / (st.rows : ℚ))|) →
      ((findCellAtPosition st view canvasX canvasY = -1 ∧
        ∀ (j : ℕ) (a : Area), (getCropAreas st)[j]? = some a →
          ¬ a.CoversPoint (canvasToImageCoords view canvasX canvasY)) ∨
      (∃ (j : ℕ) (a : Area), findCellAtPosition st view canvasX canvasY = (j : ℤ) ∧
        (getCropAreas st)[j]? = some a ∧
        a.CoversPoint (canvasToImageCoords view canvasX canvasY) ∧
        ∀ (j2 : ℕ) (b : Area), (getCropAreas st)[j2]? = some b →
          b.CoversPoint (canvasToImageCoords view canvasX canvasY) → j2 = j))) :=
  ⟨fun hz => findCellAtPosition_zoom_zero st view canvasX canvasY hz,
   fun hz hmode hcl => findCellAtPosition_centerline st view canvasX canvasY hz hmode hno hcl,
   fun hz hmode hW hH hr hc hmx hmy =>
    findCellAtPosition_uniform st view canvasX canvasY hz hmode hno hW hH hr hc hmx hmy⟩

theorem centerExample_noClamping : NoClamping centerExample := by
  constructor
  · intro cx hcx
    simp only [centerExample, List.mem_cons, List.mem_singleton, List.not_mem_nil,
      or_false] at hcx
    rcases hcx with rfl | rfl <;> norm_num [centerExample]
  · intro cy hcy
    simp only [centerExample, List.mem_cons, List.mem_singleton, List.not_mem_nil,
      or_false] at hcy
    rcases hcy with rfl
    norm_num [centerExample]

theorem margin_of_grid (x s m : ℚ) (k : ℤ) (h1 : (k : ℚ) * s + m ≤ x)
    (h2 : x + m ≤ ((k : ℚ) + 1) * s) (hs : 0 ≤ s) (n : ℤ) :
    m ≤ |x - (n : ℚ) * s| := by
  rcases le_or_lt n k with h | h
  · have hq : (n : ℚ) ≤ (k : ℚ) := by exact_mod_cast h
    have := mul_le_mul_of_nonneg_right hq hs
    exact le_trans (by linarith) (le_abs_self _)
  · have hq : (k : ℚ) + 1 ≤ (n : ℚ) := by exact_mod_cast h
    have := mul_le_mul_of_nonneg_right hq hs
    exact le_trans (by linarith) (neg_le_abs _)

/-- C26 (amended) on the 200x100 centre-line example (no override, no clamped cell) and
the 400x300 uniform example (2 columns of 200, 3 rows of 100), at the canvas point
(20, 20) of the initial view, which is 20 away from the nearest cell boundary: the result
is -1 with no cell containing the point, or the index of a cell of `getCropAreas()` that
contains it. -/
theorem findCellAtPosition_without_overrides_witness :
    ((findCellAtPosition centerExample initialView 20 20 = -1 ∧
        ∀ (j : ℕ) (a : Area), (getCropAreas centerExample)[j]? = some a →
          ¬ a.ContainsPoint (canvasToImageCoords initialView 20 20)) ∨
      (∃ (j : ℕ) (a : Area), findCellAtPosition centerExample initialView 20 20 = (j : ℤ) ∧
        (getCropAreas centerExample)[j]? = some a ∧
        a.ContainsPoint (canvasToImageCoords initialView 20 20) ∧
        ∀ (j2 : ℕ) (b : Area), j2 < j → (getCropAreas centerExample)[j2]? = some b →
          ¬ b.ContainsPoint (canvasToImageCoords initialView 20 20))) ∧
    ((findCellAtPosition uniformExample initialView 20 20 = -1 ∧
        ∀ (j : ℕ) (a : Area), (getCropAreas uniformExample)[j]? = some a →
          ¬ a.CoversPoint (canvasToImageCoords initialView 20 20)) ∨
      (∃ (j : ℕ) (a : Area), findCellAtPosition uniformExample initialView 20 20 = (j : ℤ) ∧
        (getCropAreas uniformExample)[j]? = some a ∧
        a.CoversPoint (canvasToImageCoords initialView 20 20) ∧
        ∀ (j2 : ℕ) (b : Area), (getCropAreas uniformExample)[j2]? = some b →
          b.CoversPoint (canvasToImageCoords initialView 20 20) → j2 = j)) :=
  ⟨(findCellAtPosition_without_overrides centerExample initialView 20 20
      (fun _ => rfl)).2.1 (by decide) rfl centerExample_noClamping,
   (findCellAtPosition_without_overrides uniformExample initialView 20 20
      (fun _ => rfl)).2.2 (by decide) rfl (by decide) (by decide) (by decide) (by decide)
      (margin_of_grid _ _ _ 0
        (by norm_num [canvasToImageCoords, initialView, uniformExample])
        (by norm_num [canvasToImageCoords, initialView, uniformExample])
        (by norm_num [uniformExample]))
      (margin_of_grid _ _ _ 0
        (by norm_num [canvasToImageCoords, initialView, uniformExample])
        (by norm_num [canvasToImageCoords, initialView, uniformExample])
        (by norm_num [uniformExample]))⟩

/-- C26, refuted as stated: on the 200x100 example with the 50x50 override of
cell 0 at the image origin, the point (5, 5) lies in the rectangle that `getCropAreas()`
gives for cell 0, yet `findCellAtPosition` returns -1: it tests the rectangles centred on
the lines and never reads `customAreas`. -/
theorem findCellAtPosition_misses_override :
    findCellAtPosition resizeExample initialView 5 5 = -1 ∧
    (getCropAreas resizeExample)[0]? = some { x := 0, y := 0, width := 50, height := 50 } ∧
    ({ x := 0, y := 0, width := 50, height := 50 } : Area).ContainsPoint
      (canvasToImageCoords initialView 5 5) := by
  refine ⟨?_, ?_, ?_⟩
  · simp [findCellAtPosition, canvasToImageCoords, initialView, resizeExample, centerExample,
      findCellOuter, findCellInner]
    norm_num
  · simp [getCropAreas, resizeExample, centerExample, centerLineOuter, centerLineInner,
      centerLineCell]
  · norm_num [Area.ContainsPoint, canvasToImageCoords, initialView]

/-! ## Pointer-down in colour-pick mode -/

theorem pickColorFromImage_spec (st : State) (ui : Interaction) (canvasX canvasY : ℚ) :
    (pickColorFromImage st ui canvasX canvasY).dragging = ui.dragging ∧
    (pickColorFromImage st ui canvasX canvasY).resizeHandle = ui.resizeHandle ∧
    (pickColorFromImage st ui canvasX canvasY).editingCell = ui.editingCell ∧
    (pickColorFromImage st ui canvasX canvasY).isPanning = ui.isPanning ∧
    (pickColorFromImage st ui canvasX canvasY).view = ui.view ∧
    (pickColorFromImage st ui canvasX canvasY).individualMode = ui.individualMode ∧
    ((pickColorFromImage st ui canvasX canvasY).isPickingColor = false ↔
      (ui.isPickingColor = false ∨
        (ui.view.zoom ≠ 0 ∧
         0 ≤ ⌊(canvasToImageCoords ui.view canvasX canvasY).x⌋ ∧
         ⌊(canvasToImageCoords ui.view canvasX canvasY).x⌋ < (st.originalImage.width : ℤ) ∧
         0 ≤ ⌊(canvasToImageCoords ui.view canvasX canvasY).y⌋ ∧
         ⌊(canvasToImageCoords ui.view canvasX canvasY).y⌋ <
          (st.originalImage.height : ℤ)))) := by
  unfold pickColorFromImage
  simp only []
  split_ifs with hz h
  · refine ⟨rfl, rfl, rfl, rfl, rfl, rfl, ?_⟩
    constructor
    · intro h2; exact Or.inl h2
    · rintro (h2 | ⟨h2, _⟩)
      · exact h2
      · exact absurd hz h2
  · refine ⟨rfl, rfl, rfl, rfl, rfl, rfl, ?_⟩
    constructor
    · intro h2; exact Or.inl h2
    · rintro (h2 | ⟨_, h2, h3, h4, h5⟩)
      · exact h2
      · rcases h with h | h | h | h <;> omega
  · refine ⟨rfl, rfl, rfl, rfl, rfl, rfl, ?_⟩
    constructor
    · intro _
      right
      push_neg at h
      exact ⟨hz, h.1, h.2.1, h.2.2.1, h.2.2.2⟩
    · intro _; rfl

theorem handlePanStart_frame (st : State) (ui : Interaction) (e : PointerEvent) :
    (handlePanStart st ui e).dragging = ui.dragging ∧
    (handlePanStart st ui e).resizeHandle = ui.resizeHandle ∧
    (handlePanStart st ui e).editingCell = ui.editingCell ∧
    (handlePanStart st ui e).isPickingColor = ui.isPickingColor := by
  unfold handlePanStart
  simp only []
  split_ifs <;> exact ⟨rfl, rfl, rfl, rfl⟩

theorem handlePanStart_uniform (st : State) (ui : Interaction) (e : PointerEvent)
    (hmouse : e.touches = none) (hbutton : e.button = 0) (hmode : st.mode = Mode.uniform)
    (hedit : ui.editingCell = none) (hres : ui.resizeHandle = none)
    (hdrag : ui.dragging = none) :
    (handlePanStart st ui e).isPanning = true := by
  unfold handlePanStart
  simp [hmouse, hbutton, hmode, hedit, hres, hdrag]

/-- C27 (amended): with colour-pick mode active and an image loaded, a pointer-down
starts no line drag and no cell resize: `handlePointerDown`, and the two listeners of
the event taken together, leave `dragging`, `resizeHandle` and `editingCell` as they
were. The mode is left exactly when the press reaches `handlePointerDown` (a touch or
the left mouse button), the zoom is not 0 and the sampled pixel position lies inside the
image; a press outside the image keeps `isPickingColor = true`. -/
theorem pointerDown_in_pick_mode (st : State) (ui : Interaction) (e : PointerEvent)
    (hpick : ui.isPickingColor = true) :
    (handlePointerDown st ui e).dragging = ui.dragging ∧
    (handlePointerDown st ui e).resizeHandle = ui.resizeHandle ∧
    (handlePointerDown st ui e).editingCell = ui.editingCell ∧
    ((handlePointerDown st ui e).isPickingColor = false ↔
      (ui.view.zoom ≠ 0 ∧
       0 ≤ ⌊(canvasToImageCoords ui.view (getEventCoords e).x (getEventCoords e).y).x⌋ ∧
       ⌊(canvasToImageCoords ui.view (getEventCoords e).x (getEventCoords e).y).x⌋ <
        (st.originalImage.width : ℤ) ∧
       0 ≤ ⌊(canvasToImageCoords ui.view (getEventCoords e).x (getEventCoords e).y).y⌋ ∧
       ⌊(canvasToImageCoords ui.view (getEventCoords e).x (getEventCoords e).y).y⌋ <
        (st.originalImage.height : ℤ))) ∧
    (pointerDown st ui e).dragging = ui.dragging ∧
    (pointerDown st ui e).resizeHandle = ui.resizeHandle ∧
    (pointerDown st ui e).editingCell = ui.editingCell ∧
    ((pointerDown st ui e).isPickingColor = false ↔
      ((e.touches = none → e.button = 0) ∧
       ui.view.zoom ≠ 0 ∧
       0 ≤ ⌊(canvasToImageCoords ui.view (getEventCoords e).x (getEventCoords e).y).x⌋ ∧
       ⌊(canvasToImageCoords ui.view (getEventCoords e).x (getEventCoords e).y).x⌋ <
        (st.originalImage.width : ℤ) ∧
       0 ≤ ⌊(canvasToImageCoords ui.view (getEventCoords e).x (getEventCoords e).y).y⌋ ∧
       ⌊(canvasToImageCoords ui.view (getEventCoords e).x (getEventCoords e).y).y⌋ <
        (st.originalImage.height : ℤ))) := by
  have hdown : handlePointerDown st ui e =
      pickColorFromImage st ui (getEventCoords e).x (getEventCoords e).y := by
    unfold handlePointerDown
    simp only [hpick, if_true]
  obtain ⟨p1, p2, p3, _, _, _, p7⟩ :=
    pickColorFromImage_spec st ui (getEventCoords e).x (getEventCoords e).y
  have hne : ¬ ui.isPickingColor = false := by
    rw [hpick]; decide
  have p8 : (handlePointerDown st ui e).isPickingColor = false ↔
      (ui.view.zoom ≠ 0 ∧
       0 ≤ ⌊(canvasToImageCoords ui.view (getEventCoords e).x (getEventCoords e).y).x⌋ ∧
       ⌊(canvasToImageCoords ui.view (getEventCoords e).x (getEventCoords e).y).x⌋ <
        (st.originalImage.width : ℤ) ∧
       0 ≤ ⌊(canvasToImageCoords ui.view (getEventCoords e).x (getEventCoords e).y).y⌋ ∧
       ⌊(canvasToImageCoords ui.view (getEventCoords e).x (getEventCoords e).y).y⌋ <
        (st.originalImage.height : ℤ)) := by
    rw [hdown, p7]
    constructor
    · rintro (h | h)
      · exact absurd h hne
      · exact h
    · intro h; exact Or.inr h
  obtain ⟨f1, f2, f3, f4⟩ := handlePanStart_frame st (pointerDownListener st ui e) e
  have hl : (e.touches = none ∧ e.button ≠ 0 ∧ pointerDownListener st ui e = ui) ∨
      ((e.touches = none → e.button = 0) ∧
        pointerDownListener st ui e = handlePointerDown st ui e) := by
    cases ht : e.touches with
    | none =>
      by_cases hb : e.button = 0
      · right
        refine ⟨fun _ => hb, ?_⟩
        unfold pointerDownListener
        rw [ht]
        exact if_neg (not_not.2 hb)
      · left
        refine ⟨rfl, hb, ?_⟩
        unfold pointerDownListener
        rw [ht]
        exact if_pos hb
    | some n =>
      right
      refine ⟨fun h => absurd h (by simp), ?_⟩
      unfold pointerDownListener
      rw [ht]
  refine ⟨by rw [hdown]; exact p1, by rw [hdown]; exact p2, by rw [hdown]; exact p3, p8,
    ?_, ?_, ?_, ?_⟩
  · rcases hl with ⟨_, _, h⟩ | ⟨_, h⟩
    · exact f1.trans (by rw [h])
    · exact f1.trans (by rw [h, hdown]; exact p1)
  · rcases hl with ⟨_, _, h⟩ | ⟨_, h⟩
    · exact f2.trans (by rw [h])
    · exact f2.trans (by rw [h, hdown]; exact p2)
  · rcases hl with ⟨_, _, h⟩ | ⟨_, h⟩
    · exact f3.trans (by rw [h])
    · exact f3.trans (by rw [h, hdown]; exact p3)
  · show (handlePanStart st (pointerDownListener st ui e) e).isPickingColor = false ↔ _
    rw [f4]
    rcases hl with ⟨ht, hb, h⟩ | ⟨hb, h⟩
    · rw [h]
      constructor
      · intro h2; exact absurd h2 hne
      · rintro ⟨h2, _⟩; exact absurd (h2 ht) hb
    · rw [h, p8]
      constructor
      · intro h2; exact ⟨hb, h2⟩
      · rintro ⟨_, h2⟩; exact h2

/-- C27 (amended) on the 400x300 uniform example in colour-pick mode with the initial
view, left press at the canvas point (10, 10): no drag and no resize start, and the
mode is left, the pixel (10, 10) being inside the image. -/
theorem pointerDown_in_pick_mode_witness :
    (pointerDown uniformExample pickingExample (leftPress 10 10)).dragging = none ∧
    (pointerDown uniformExample pickingExample (leftPress 10 10)).resizeHandle = none ∧
    (pointerDown uniformExample pickingExample (leftPress 10 10)).isPickingColor = false :=
  have h := pointerDown_in_pick_mode uniformExample pickingExample (leftPress 10 10) rfl
  ⟨h.2.2.2.2.1, h.2.2.2.2.2.1, h.2.2.2.2.2.2.2.2 (by
    simp [leftPress, pickingExample, uniformExample, getEventCoords, canvasToImageCoords,
      initialView])⟩

/-- C27, refuted as stated, on the 400x300 uniform example in colour-pick mode with the
initial view: a left press at the canvas point (500, 10), outside the image, samples no
pixel and leaves `isPickingColor = true`, after `handlePointerDown` and after both
listeners of the event. -/
theorem pick_mode_press_outside_image :
    (handlePointerDown uniformExample pickingExample (leftPress 500 10)).isPickingColor
      = true ∧
    (pointerDown uniformExample pickingExample (leftPress 500 10)).isPickingColor = true := by
  constructor
  · simp [handlePointerDown, pickColorFromImage, leftPress, pickingExample, uniformExample,
      getEventCoords, canvasToImageCoords, initialView]
  · simp [pointerDown, pointerDownListener, handlePointerDown, handlePanStart,
      pickColorFromImage, leftPress, pickingExample, uniformExample, getEventCoords,
      canvasToImageCoords, initialView]

/-! ## Termination and index bounds of the flood fill -/

theorem fillLoop_inv (m : ℕ → Bool) (w h : ℕ) :
    ∀ (fuel : ℕ) (s : FillState), FillInv m w h s → FillInv m w h (fillLoop m w h fuel s) := by
  intro fuel
  induction fuel with
  | zero => intro s hs; exact hs
  | succ n ih =>
    intro s hs
    cases hst : s.stack with
    | nil =>
      have : fillLoop m w h (n + 1) s = s := by
        show (match s.stack with
          | [] => s
          | _ :: _ => fillLoop m w h n (fillStep m w h s)) = s
        rw [hst]
      rw [this]; exact hs
    | cons e rest =>
      have : fillLoop m w h (n + 1) s = fillLoop m w h n (fillStep m w h s) := by
        show (match s.stack with
          | [] => s
          | _ :: _ => fillLoop m w h n (fillStep m w h s)) = _
        rw [hst]
      rw [this]
      exact ih _ (fillStep_inv m w h s e.1 e.2 rest hst hs).1

theorem FillInv.toRemove_lt {m : ℕ → Bool} {w h : ℕ} {s : FillState}
    (hinv : FillInv m w h s) (p : ℕ) (hp : p ∈ s.toRemove) : p < w * h := by
  have h1 := isVisited_lt_length s.visited p (hinv.remVis p hp)
  rw [hinv.lenV] at h1
  exact h1

theorem scanLeft_congr (m m2 : ℕ → Bool) (v : List Bool) (w h y : ℕ) (hy : y < h)
    (hm : ∀ p, p < w * h → m2 p = m p) :
    ∀ x, x ≤ w → scanLeft m2 v w y x = scanLeft m v w y x := by
  intro x
  induction x with
  | zero => intro _; rfl
  | succ x ih =>
    intro hx
    have hidx : y * w + x < w * h := pixel_index_lt w h x y (by omega) hy
    show (if isVisited v (y * w + x) then x + 1
      else if !m2 (y * w + x) then x + 1 else scanLeft m2 v w y x) =
      (if isVisited v (y * w + x) then x + 1
      else if !m (y * w + x) then x + 1 else scanLeft m v w y x)
    rw [hm _ hidx, ih (by omega)]

theorem scanRight_congr (m m2 : ℕ → Bool) (v : List Bool) (w h y : ℕ) (hy : y < h)
    (hm : ∀ p, p < w * h → m2 p = m p) :
    ∀ fuel x, scanRight m2 v w y fuel x = scanRight m v w y fuel x := by
  intro fuel
  induction fuel with
  | zero => intro x; rfl
  | succ n ih =>
    intro x
    show (if x + 1 < w then
        (if isVisited v (y * w + (x + 1)) then x
          else if !m2 (y * w + (x + 1)) then x else scanRight m2 v w y n (x + 1))
      else x) =
      (if x + 1 < w then
        (if isVisited v (y * w + (x + 1)) then x
          else if !m (y * w + (x + 1)) then x else scanRight m v w y n (x + 1))
      else x)
    by_cases hx : x + 1 < w
    · rw [if_pos hx, if_pos hx, hm _ (pixel_index_lt w h (x + 1) y hx hy), ih]
    · rw [if_neg hx, if_neg hx]

theorem fillStep_congr (m m2 : ℕ → Bool) (w h : ℕ) (hm : ∀ p, p < w * h → m2 p = m p)
    (s : FillState) : fillStep m2 w h s = fillStep m w h s := by
  unfold fillStep
  cases s.stack with
  | nil => rfl
  | cons e rest =>
    obtain ⟨x, y⟩ := e
    simp only []
    by_cases hout : x < 0 ∨ x ≥ (w : ℤ) ∨ y < 0 ∨ y ≥ (h : ℤ)
    · rw [if_pos hout, if_pos hout]
    · rw [if_neg hout, if_neg hout]
      push_neg at hout
      have hx : x.toNat < w := by omega
      have hy : y.toNat < h := by omega
      rw [hm _ (pixel_index_lt w h x.toNat y.toNat hx hy),
        scanLeft_congr m m2 s.visited w h y.toNat hy hm x.toNat (by omega),
        scanRight_congr m m2 s.visited w h y.toNat hy hm]

theorem fillLoop_congr (m m2 : ℕ → Bool) (w h : ℕ) (hm : ∀ p, p < w * h → m2 p = m p) :
    ∀ (fuel : ℕ) (s : FillState), fillLoop m2 w h fuel s = fillLoop m w h fuel s := by
  intro fuel
  induction fuel with
  | zero => intro s; rfl
  | succ n ih =>
    intro s
    show (match s.stack with
      | [] => s
      | _ :: _ => fillLoop m2 w h n (fillStep m2 w h s)) =
      (match s.stack with
      | [] => s
      | _ :: _ => fillLoop m w h n (fillStep m w h s))
    rw [fillStep_congr m m2 w h hm, ih]

theorem fillStep_pop (m : ℕ → Bool) (w h : ℕ) (s : FillState) (x y : ℤ)
    (rest : List (ℤ × ℤ)) (hs : s.stack = (x, y) :: rest)
    (hlen : s.visited.length = w * h) :
    ((x < 0 ∨ x ≥ (w : ℤ) ∨ y < 0 ∨ y ≥ (h : ℤ) ∨
        isVisited s.visited (y.toNat * w + x.toNat) = true) ∧
      fillStep m w h s = { s with stack := rest }) ∨
    (0 ≤ x ∧ x < (w : ℤ) ∧ 0 ≤ y ∧ y < (h : ℤ) ∧ y.toNat * w + x.toNat < w * h ∧
      isVisited s.visited (y.toNat * w + x.toNat) = false ∧
      isVisited (fillStep m w h s).visited (y.toNat * w + x.toNat) = true) := by
  rcases fillStep_cases m w h s x y rest hs hlen with h1 | h2 | h3
  · exact Or.inl h1
  · obtain ⟨a1, a2, a3, a4, a5, _, a7⟩ := h2
    have hidx : y.toNat * w + x.toNat < w * h :=
      pixel_index_lt w h x.toNat y.toNat (by omega) (by omega)
    refine Or.inr ⟨a1, a2, a3, a4, hidx, a5, ?_⟩
    rw [a7]
    show isVisited (s.visited.set (y.toNat * w + x.toNat) true) _ = true
    rw [isVisited_set _ _ _ (by rw [hlen]; exact hidx)]
    simp
  · obtain ⟨a1, a2, a3, a4, l, r, b1, b2, _, b4, _, _, _, _, b9, _⟩ := h3
    have hidx : y.toNat * w + x.toNat < w * h :=
      pixel_index_lt w h x.toNat y.toNat (by omega) (by omega)
    exact Or.inr ⟨a1, a2, a3, a4, hidx, (b4 _ b1 b2).1,
      (b9 _).2 (Or.inr ⟨x.toNat, b1, b2, rfl⟩)⟩

/-- C28: for every width, height and every RGBA buffer of `4*width*height` bytes the
stack loop of `floodFillRemoveAsync` terminates: within `fillFuel` iterations the stack
is empty, and every iteration decreases `fillMeasure`. In every state the loop reaches,
`visited` has `width*height` slots, no pixel occurs twice in `toRemove`, every pixel of
`toRemove` has index `< width*height` (so the byte `4p+3` written for it lies in the
buffer), and a pop either discards its seed (out of range or already visited: nothing is
marked and nothing is pushed) or finds the seed's index in range and not yet visited and
marks it visited. The outcome depends on the colour test only at pixel indices
`< width*height`. -/
theorem floodFill_loop_terminates (data : List ℕ) (w h : ℕ) (tr tg tb : ℤ) (tol : ℚ)
    (hlen : data.length = 4 * (w * h)) :
    (floodFillFinal data w h tr tg tb tol).stack = [] ∧
    (∀ (k : ℕ) (s : FillState),
      s = fillLoop (pixelMatches data tr tg tb tol) w h k (initialFill w h) →
      s.visited.length = w * h ∧ s.toRemove.Nodup ∧
      (∀ p ∈ s.toRemove, p < w * h ∧ p * 4 + 3 < data.length) ∧
      (∀ (x y : ℤ) (rest : List (ℤ × ℤ)), s.stack = (x, y) :: rest →
        fillMeasure w h (fillStep (pixelMatches data tr tg tb tol) w h s)
          < fillMeasure w h s ∧
        (((x < 0 ∨ x ≥ (w : ℤ) ∨ y < 0 ∨ y ≥ (h : ℤ) ∨
            isVisited s.visited (y.toNat * w + x.toNat) = true) ∧
          fillStep (pixelMatches data tr tg tb tol) w h s = { s with stack := rest }) ∨
        (0 ≤ x ∧ x < (w : ℤ) ∧ 0 ≤ y ∧ y < (h : ℤ) ∧ y.toNat * w + x.toNat < w * h ∧
          isVisited s.visited (y.toNat * w + x.toNat) = false ∧
          isVisited (fillStep (pixelMatches data tr tg tb tol) w h s).visited
            (y.toNat * w + x.toNat) = true)))) ∧
    (∀ m2 : ℕ → Bool, (∀ p, p < w * h → m2 p = pixelMatches data tr tg tb tol p) →
      fillLoop m2 w h (fillFuel w h) (initialFill w h)
        = floodFillFinal data w h tr tg tb tol) := by
  refine ⟨(floodFillFinal_spec data w h tr tg tb tol).2, ?_, ?_⟩
  · intro k s hs
    have hinv : FillInv (pixelMatches data tr tg tb tol) w h s := by
      rw [hs]
      exact fillLoop_inv _ w h k _ (initialFill_inv _ w h)
    refine ⟨hinv.lenV, hinv.nodup, ?_, ?_⟩
    · intro p hp
      have h1 := hinv.toRemove_lt p hp
      exact ⟨h1, by omega⟩
    · intro x y rest hst
      exact ⟨(fillStep_inv _ w h s x y rest hst hinv).2,
        fillStep_pop _ w h s x y rest hst hinv.lenV⟩
  · intro m2 hm
    exact fillLoop_congr _ m2 w h hm _ _

/-- C28 on the 3x3 ring image with target white: the loop ends with an empty stack, and
its first state has 9 `visited` slots and an empty, duplicate-free `toRemove`. -/
theorem floodFill_loop_terminates_witness :
    (floodFillFinal ringExample 3 3 255 255 255 10).stack = [] ∧
    (initialFill 3 3).visited.length = 3 * 3 ∧ (initialFill 3 3).toRemove.Nodup :=
  have h := floodFill_loop_terminates ringExample 3 3 255 255 255 10 (by decide)
  ⟨h.1, (h.2.1 0 (initialFill 3 3) rfl).1, (h.2.1 0 (initialFill 3 3) rfl).2.1⟩

end Webcut
